import Mathlib

/-!
# ReactorKV: skip list, KV store, buffer, codec, channel, poller, connection and server

A shallow embedding of `src/storage/skiplist.h`, `src/storage/kvstore.cpp`,
`src/net/buffer.h`, `src/net/buffer.cpp`, `src/protocol/codec.h`,
`src/net/channel.h`, `src/net/channel.cpp`, `src/net/epoll_poller.cpp`,
`src/net/tcp_connection.cpp`, `src/net/acceptor.cpp` and
`src/server/kv_server.cpp`, with the properties of the specification proved
over it.

Conventions of the embedding.

* A `std::shared_ptr<Node>` is an `Option Nat`: `none` is `nullptr`, `some a` is
  the node stored at address `a` of the heap (a list of nodes).  `make_shared`
  allocates at the end of the heap; nodes that are no longer referenced stay in
  the heap as unreachable garbage.
* Every operation returns an `Option`: `none` means that the C++ code would
  have performed an out-of-range `vector` access or dereferenced `nullptr`
  (undefined behaviour), or that the pointer chase did not end within the
  number of allocated nodes.
* `int` counters are unbounded integers (`Nat`/`Int`).
* A `std::string` is a `List Char`, and so is the `std::vector<char>` of a
  buffer; `size_t` indices are unbounded naturals.
* The file system is a map from paths to file contents, together with the set
  of paths that can be opened for writing; a file that was written can be read
  back.
* The callbacks of a channel and the calls a connection hands to its loop are
  recorded as lists, in the order of the calls.
* The epoll set of the kernel is a map from descriptors to event masks, with
  the failure conditions of `epoll_ctl(2)`; `LOG_FATAL` (which calls `abort`)
  is the result `none`.
* A connection is the record of its state, interest mask and buffers, together
  with the list of the calls it has made on its socket and the list of the
  callbacks it has called; the outcome of each `read` and `write` is an
  argument of the method that performs it.
* The calls of `insert` of several threads are serialised by the mutex of the
  list, so a concurrent run is a merge of the call sequences of the threads.
-/

namespace ReactorKV

/-! ## Skip list (`src/storage/skiplist.h`) -/

/-- A `NodePtr` of the source: `none` is `nullptr`. -/
abbrev NodePtr := Option Nat

/-- The `struct Node` of the source: key, value, tower height and the forward
array (`forward[i]` is the next node on level `i`). -/
structure Node (K V : Type) where
  key : K
  value : V
  nodeLevel : Nat
  forward : List NodePtr

instance {K V : Type} [Inhabited K] [Inhabited V] : Inhabited (Node K V) :=
  ⟨⟨default, default, 0, []⟩⟩

/-- The members of `class SkipList`, plus the heap the node pointers live in. -/
structure SkipList (K V : Type) where
  maxLevel_ : Nat
  currentLevel_ : Nat
  elementCount_ : Int
  header_ : Nat
  heap : List (Node K V)

section Ops

variable {K V : Type}

/-- The constructor `Node(const K& k, const V& v, int level)`. -/
def Node.mk3 (k : K) (v : V) (level : Nat) : Node K V :=
  ⟨k, v, level, List.replicate (level + 1) none⟩

/-- The constructor `Node(int level)` of the empty head node. -/
def Node.mkHead [Inhabited K] [Inhabited V] (level : Nat) : Node K V :=
  ⟨default, default, level, List.replicate (level + 1) none⟩

/-- The constructor `SkipList(int maxLevel)`: the head node is allocated at
address 0. -/
def SkipList.new [Inhabited K] [Inhabited V] (maxLevel : Nat) : SkipList K V :=
  ⟨maxLevel, 0, 0, 0, [Node.mkHead maxLevel]⟩

/-- Read `p->forward[i]`; `none` when `p` is not allocated or `i` is out of
range. -/
def fwd (h : List (Node K V)) (p i : Nat) : Option NodePtr :=
  match h[p]? with
  | none => none
  | some nd => nd.forward[i]?

/-- Write `p->forward[i] = q`; `none` when `p` is not allocated or `i` is out
of range. -/
def setFwd (h : List (Node K V)) (p i : Nat) (q : NodePtr) : Option (List (Node K V)) :=
  match h[p]? with
  | none => none
  | some nd =>
    if i < nd.forward.length then
      some (h.set p { nd with forward := nd.forward.set i q })
    else none

/-- Write `p->value = v`. -/
def setValue (h : List (Node K V)) (p : Nat) (v : V) : Option (List (Node K V)) :=
  match h[p]? with
  | none => none
  | some nd => some (h.set p { nd with value := v })

/-- The inner loop of `insert`, `search` and `remove`:
`while (current->forward[i] != nullptr && current->forward[i]->key < key)
   current = current->forward[i];` -/
def advance [LT K] [DecidableRel (fun (a b : K) => a < b)]
    (h : List (Node K V)) (key : K) (i : Nat) : Nat → Nat → Option Nat
  | 0, _ => none
  | fuel + 1, current =>
    match fwd h current i with
    | none => none
    | some none => some current
    | some (some nxt) =>
      match h[nxt]? with
      | none => none
      | some nd =>
        if nd.key < key then advance h key i fuel nxt else some current

/-- The descent of `search`: `for (int i = currentLevel_; i >= 0; i--)` around
the inner loop.  The first argument is `i + 1`. -/
def descendSearch [LT K] [DecidableRel (fun (a b : K) => a < b)]
    (h : List (Node K V)) (key : K) (fuel : Nat) : Nat → Nat → Option Nat
  | 0, current => some current
  | i + 1, current =>
    match advance h key i fuel current with
    | none => none
    | some c => descendSearch h key fuel i c

/-- The descent of `insert` and `remove`, which also records
`update[i] = current`.  The first argument is `i + 1`. -/
def descend [LT K] [DecidableRel (fun (a b : K) => a < b)]
    (h : List (Node K V)) (key : K) (fuel : Nat) :
    Nat → Nat → List NodePtr → Option (Nat × List NodePtr)
  | 0, current, update => some (current, update)
  | i + 1, current, update =>
    match advance h key i fuel current with
    | none => none
    | some c =>
      if i < update.length then descend h key fuel i c (update.set i (some c))
      else none

/-- The loop of `getRandomLevel`:
`while (dis(gen) < kProbability && level < maxLevel_ - 1) level++;`
where `draw n` tells whether the `n`-th sample is below `kProbability`.  The
first argument bounds the number of iterations. -/
def getRandomLevelLoop (maxLevel : Nat) (draw : Nat → Bool) : Nat → Nat → Nat
  | 0, level => level
  | fuel + 1, level =>
    if draw level && decide (level + 1 < maxLevel) then
      getRandomLevelLoop maxLevel draw fuel (level + 1)
    else level

/-- The function `getRandomLevel`, the random samples being given by `draw`. -/
def getRandomLevel (maxLevel : Nat) (draw : Nat → Bool) : Nat :=
  getRandomLevelLoop maxLevel draw maxLevel 0

/-- The loop `for (int i = currentLevel_ + 1; i <= randomLevel; i++)
update[i] = header_;` of `insert`.  The first argument is the number of
iterations left. -/
def raiseUpdate (header : Nat) : Nat → Nat → List NodePtr → Option (List NodePtr)
  | 0, _, update => some update
  | n + 1, i, update =>
    if i < update.length then raiseUpdate header n (i + 1) (update.set i (some header))
    else none

/-- The splice loop of `insert`:
`for (int i = 0; i <= randomLevel; i++) {
   newNode->forward[i] = update[i]->forward[i];
   update[i]->forward[i] = newNode; }`
The first argument is the number of iterations left. -/
def spliceLoop (update : List NodePtr) (newNode : Nat) :
    Nat → Nat → List (Node K V) → Option (List (Node K V))
  | 0, _, h => some h
  | n + 1, i, h =>
    match update[i]? with
    | some (some u) =>
      match fwd h u i with
      | none => none
      | some f =>
        match setFwd h newNode i f with
        | none => none
        | some h1 =>
          match setFwd h1 u i (some newNode) with
          | none => none
          | some h2 => spliceLoop update newNode n (i + 1) h2
    | _ => none

/-- The step `if (randomLevel > currentLevel_) { for (...) update[i] = header_;
currentLevel_ = randomLevel; }` of `insert`: the new `update` and
`currentLevel_`. -/
def raiseLevel (header currentLevel randomLevel : Nat) (update : List NodePtr) :
    Option (List NodePtr × Nat) :=
  if randomLevel > currentLevel then
    match raiseUpdate header (randomLevel - currentLevel) (currentLevel + 1) update with
    | none => none
    | some u => some (u, randomLevel)
  else some (update, currentLevel)

/-- The part of `insert` after the check for an existing key: draw the height,
raise `update` and `currentLevel_` if needed, allocate the node, splice it in
and count it. -/
def SkipList.insertNew (s : SkipList K V) (key : K) (value : V) (update : List NodePtr)
    (draw : Nat → Bool) : Option (Bool × SkipList K V) :=
  let randomLevel := getRandomLevel s.maxLevel_ draw
  match raiseLevel s.header_ s.currentLevel_ randomLevel update with
  | none => none
  | some (update1, currentLevel1) =>
    let newNode := s.heap.length
    let h0 := s.heap ++ [Node.mk3 key value randomLevel]
    match spliceLoop update1 newNode (randomLevel + 1) 0 h0 with
    | none => none
    | some h1 =>
      some (true, { s with currentLevel_ := currentLevel1,
                           elementCount_ := s.elementCount_ + 1,
                           heap := h1 })

/-- The method `insert`.  The result is the returned flag and the new state. -/
def SkipList.insert [LT K] [DecidableRel (fun (a b : K) => a < b)] [DecidableEq K]
    (s : SkipList K V) (key : K) (value : V) (draw : Nat → Bool) :
    Option (Bool × SkipList K V) :=
  match descend s.heap key s.heap.length (s.currentLevel_ + 1) s.header_
      (List.replicate (s.maxLevel_ + 1) none) with
  | none => none
  | some (pred, update) =>
    match fwd s.heap pred 0 with
    | none => none
    | some none => s.insertNew key value update draw
    | some (some c) =>
      match s.heap[c]? with
      | none => none
      | some nd =>
        if nd.key = key then
          match setValue s.heap c value with
          | none => none
          | some h1 => some (false, { s with heap := h1 })
        else s.insertNew key value update draw

/-- The method `search`: `some (some v)` when it returns true with `value = v`,
`some none` when it returns false. -/
def SkipList.search [LT K] [DecidableRel (fun (a b : K) => a < b)] [DecidableEq K]
    (s : SkipList K V) (key : K) : Option (Option V) :=
  match descendSearch s.heap key s.heap.length (s.currentLevel_ + 1) s.header_ with
  | none => none
  | some pred =>
    match fwd s.heap pred 0 with
    | none => none
    | some none => some none
    | some (some c) =>
      match s.heap[c]? with
      | none => none
      | some nd => if nd.key = key then some (some nd.value) else some none

/-- The unlink loop of `remove`:
`for (int i = 0; i <= currentLevel_; i++) {
   if (update[i]->forward[i] != current) break;
   update[i]->forward[i] = current->forward[i]; }`
The first argument is the number of iterations left. -/
def unlinkLoop (update : List NodePtr) (current : Nat) :
    Nat → Nat → List (Node K V) → Option (List (Node K V))
  | 0, _, h => some h
  | n + 1, i, h =>
    match update[i]? with
    | some (some u) =>
      match fwd h u i with
      | none => none
      | some f =>
        if f ≠ some current then some h
        else
          match fwd h current i with
          | none => none
          | some g =>
            match setFwd h u i g with
            | none => none
            | some h1 => unlinkLoop update current n (i + 1) h1
    | _ => none

/-- The loop `while (currentLevel_ > 0 && header_->forward[currentLevel_] == nullptr)
currentLevel_--;` of `remove`, by recursion on `currentLevel_`. -/
def lowerLevel (h : List (Node K V)) (header : Nat) : Nat → Option Nat
  | 0 => some 0
  | l + 1 =>
    match fwd h header (l + 1) with
    | none => none
    | some none => lowerLevel h header l
    | some (some _) => some (l + 1)

/-- The method `remove`.  The result is the returned flag and the new state. -/
def SkipList.remove [LT K] [DecidableRel (fun (a b : K) => a < b)] [DecidableEq K]
    (s : SkipList K V) (key : K) : Option (Bool × SkipList K V) :=
  match descend s.heap key s.heap.length (s.currentLevel_ + 1) s.header_
      (List.replicate (s.maxLevel_ + 1) none) with
  | none => none
  | some (pred, update) =>
    match fwd s.heap pred 0 with
    | none => none
    | some none => some (false, s)
    | some (some c) =>
      match s.heap[c]? with
      | none => none
      | some nd =>
        if nd.key ≠ key then some (false, s)
        else
          match unlinkLoop update c (s.currentLevel_ + 1) 0 s.heap with
          | none => none
          | some h1 =>
            match lowerLevel h1 s.header_ s.currentLevel_ with
            | none => none
            | some l => some (true, { s with currentLevel_ := l,
                                             elementCount_ := s.elementCount_ - 1,
                                             heap := h1 })

/-- The method `contains`: `search` with the value dropped. -/
def SkipList.contains [LT K] [DecidableRel (fun (a b : K) => a < b)] [DecidableEq K]
    (s : SkipList K V) (key : K) : Option Bool :=
  (s.search key).map Option.isSome

/-- The method `size`. -/
def SkipList.size (s : SkipList K V) : Int := s.elementCount_

/-- The loop `for (int i = 0; i <= currentLevel_; i++) header_->forward[i] = nullptr;`
of `clear`.  The first argument is the number of iterations left. -/
def clearLoop (header : Nat) : Nat → Nat → List (Node K V) → Option (List (Node K V))
  | 0, _, h => some h
  | n + 1, i, h =>
    match setFwd h header i none with
    | none => none
    | some h1 => clearLoop header n (i + 1) h1

/-- The method `clear`. -/
def SkipList.clear (s : SkipList K V) : Option (SkipList K V) :=
  match clearLoop s.header_ (s.currentLevel_ + 1) 0 s.heap with
  | none => none
  | some h1 => some { s with currentLevel_ := 0, elementCount_ := 0, heap := h1 }

end Ops


/-! ## Skip list: representation invariant and abstract map -/

section Inv

variable {K V : Type}

/-- The node stored at address `n` (a default node when `n` is not allocated). -/
def nodeAt [Inhabited K] [Inhabited V] (h : List (Node K V)) (n : Nat) : Node K V :=
  h.getD n default

/-- The key of the node at address `n`. -/
def keyOf [Inhabited K] [Inhabited V] (h : List (Node K V)) (n : Nat) : K :=
  (nodeAt h n).key

/-- The value of the node at address `n`. -/
def valOf [Inhabited K] [Inhabited V] (h : List (Node K V)) (n : Nat) : V :=
  (nodeAt h n).value

/-- The tower height of the node at address `n`. -/
def lvlOf [Inhabited K] [Inhabited V] (h : List (Node K V)) (n : Nat) : Nat :=
  (nodeAt h n).nodeLevel

/-- `Chain h i p l`: following the level-`i` forward pointers from the pointer
`p` visits exactly the nodes of `l`, in this order, and ends in `nullptr`. -/
def Chain (h : List (Node K V)) (i : Nat) : NodePtr → List Nat → Prop
  | p, [] => p = none
  | p, n :: rest => p = some n ∧ ∃ q, fwd h n i = some q ∧ Chain h i q rest

/-- The last element of `c :: l`. -/
def lastFrom (c : Nat) : List Nat → Nat
  | [] => c
  | a :: l => lastFrom a l

/-- The nodes of `l` whose tower reaches level `i`. -/
def onLevel [Inhabited K] [Inhabited V] (h : List (Node K V)) (i : Nat) (l : List Nat) :
    List Nat :=
  l.filter (fun n => decide (i ≤ lvlOf h n))

/-- The representation invariant: `l` lists the addresses of the stored nodes
in key order.  The head node is at address 0 with `maxLevel_ + 1` forward
slots; at each level the forward chain from the head visits exactly the nodes
of `l` whose tower reaches that level; keys ascend strictly along `l`; no
tower is higher than `currentLevel_`, which is 0 or the height of some stored
node; `elementCount_` is the number of stored nodes. -/
structure Rep [Inhabited K] [Inhabited V] [LT K] (s : SkipList K V) (l : List Nat) :
    Prop where
  hdr : s.header_ = 0
  hdrLen : ∃ nd, s.heap[0]? = some nd ∧ nd.forward.length = s.maxLevel_ + 1
  curLe : s.currentLevel_ ≤ s.maxLevel_
  valid : ∀ n ∈ l, 0 < n ∧ n < s.heap.length ∧ lvlOf s.heap n ≤ s.currentLevel_
  sorted : l.Pairwise (fun a b => keyOf s.heap a < keyOf s.heap b)
  chain : ∀ i, i ≤ s.maxLevel_ → Chain s.heap i (some 0) (0 :: onLevel s.heap i l)
  count : s.elementCount_ = (l.length : Int)
  room : l.length < s.heap.length
  top : s.currentLevel_ = 0 ∨ ∃ n ∈ l, lvlOf s.heap n = s.currentLevel_

/-- The hypotheses of the descent: the stored nodes `lo ++ hi` split at `key`,
and at every level up to `top` the chain from the head visits the nodes of
that level. -/
structure Descent [Inhabited K] [Inhabited V] [LT K] (h : List (Node K V)) (key : K) (lo hi : List Nat) (top : Nat) : Prop where
  lo_lt : ∀ x ∈ lo, keyOf h x < key
  hi_ge : ∀ r ∈ hi, ¬ keyOf h r < key
  valid : ∀ n ∈ lo ++ hi, n < h.length
  chain : ∀ i, i ≤ top → Chain h i (some 0) (0 :: onLevel h i lo ++ onLevel h i hi)

/-- The predecessor of `key` on level `i`: the last node of the level whose key
is below `key`, or the head. -/
def predAt [Inhabited K] [Inhabited V] (h : List (Node K V)) (lo : List Nat) (i : Nat) : Nat :=
  lastFrom 0 (onLevel h i lo)

/-- The stored nodes `l` of a state split at `key` as `lo ++ hi`: the keys of
`lo` are below `key`, those of `hi` are not, and only the first node of `hi`
can hold `key`. -/
structure SplitAt [Inhabited K] [Inhabited V] [LT K] (s : SkipList K V) (key : K)
    (l lo hi : List Nat) : Prop where
  eq : l = lo ++ hi
  lo_lt : ∀ x ∈ lo, keyOf s.heap x < key
  hi_ge : ∀ r ∈ hi, ¬ keyOf s.heap r < key
  tail_gt : ∀ t hi1, hi = t :: hi1 → ∀ r ∈ hi1, key < keyOf s.heap r
  nodup : (0 :: lo ++ hi).Nodup

/-- The invariant of the splice loop of `insert` before iteration `i`: `h0` is
the heap the loop started with, `hc` the current heap, `nw` the new node of
height `lv`; on level `j` the chain is `A j ++ B j` before the splice and
`A j ++ nw :: B j` after it. -/
structure SpliceInv [Inhabited K] [Inhabited V] (h0 hc : List (Node K V)) (nw lv top m : Nat)
    (A B : Nat → List Nat) (i : Nat) : Prop where
  len : hc.length = h0.length
  nodes : ∀ n, keyOf hc n = keyOf h0 n ∧ valOf hc n = valOf h0 n ∧ lvlOf hc n = lvlOf h0 n
  head : ∃ nd, hc[0]? = some nd ∧ nd.forward.length = m
  done : ∀ j, j < i → Chain hc j (some 0) (0 :: A j ++ nw :: B j)
  todo : ∀ j, i ≤ j → j ≤ top → Chain hc j (some 0) (0 :: A j ++ B j)
  fresh : ∀ j, i ≤ j → j ≤ lv → fwd hc nw j = some none

/-- The invariant of the unlink loop of `remove` before iteration `i`: `h0` is
the heap the loop started with, `hc` the current heap; on level `j` the chain
is `A j ++ C j` before the unlinking and `A j ++ B j` after it. -/
structure UnlinkInv [Inhabited K] [Inhabited V] (h0 hc : List (Node K V)) (top m : Nat)
    (A B C : Nat → List Nat) (i : Nat) : Prop where
  len : hc.length = h0.length
  nodes : ∀ n, keyOf hc n = keyOf h0 n ∧ valOf hc n = valOf h0 n ∧ lvlOf hc n = lvlOf h0 n
  head : ∃ nd, hc[0]? = some nd ∧ nd.forward.length = m
  done : ∀ j, j < i → j ≤ top → Chain hc j (some 0) (0 :: A j ++ B j)
  todo : ∀ j, i ≤ j → j ≤ top → Chain hc j (some 0) (0 :: A j ++ C j)

/-- The key/value pairs stored in the nodes of `l`, in the order of `l`. -/
def pairsOf [Inhabited K] [Inhabited V] (h : List (Node K V)) (l : List Nat) : List (K × V) :=
  l.map (fun n => (keyOf h n, valOf h n))

/-- `Abs s m`: the state `s` is well formed and stores exactly the pairs `m`,
in ascending key order. -/
def Abs [Inhabited K] [Inhabited V] [LT K] (s : SkipList K V) (m : List (K × V)) : Prop :=
  ∃ l, Rep s l ∧ m = pairsOf s.heap l

/-- Lookup in a list of pairs: the value of the first pair with key `k`. -/
def mLookup [DecidableEq K] (k : K) (m : List (K × V)) : Option V :=
  (m.find? (fun p => decide (p.1 = k))).map Prod.snd

/-- The value found at the first node of `hi`, provided its key is `key`. -/
def headLookup [Inhabited K] [Inhabited V] [DecidableEq K] (h : List (Node K V)) (key : K)
    (hi : List Nat) : Option V :=
  match hi with
  | [] => none
  | t :: _ => if keyOf h t = key then some (valOf h t) else none

/-- Insertion into a key-sorted list of pairs, replacing the pair with key `k`
if there is one. -/
def mInsert [LT K] [DecidableRel (fun (a b : K) => a < b)] (k : K) (v : V)
    (m : List (K × V)) : List (K × V) :=
  m.filter (fun p => decide (p.1 < k)) ++ (k, v) :: m.filter (fun p => decide (k < p.1))

/-- Removal of the pairs with key `k`. -/
def mErase [DecidableEq K] (k : K) (m : List (K × V)) : List (K × V) :=
  m.filter (fun p => decide (p.1 ≠ k))

/-- The states reachable from the list built by the constructor with
`maxLevel`, by `insert` (with any random samples), `remove` and `clear`. -/
inductive Reachable [Inhabited K] [Inhabited V] [LT K]
    [DecidableRel (fun (a b : K) => a < b)] [DecidableEq K] (maxLevel : Nat) :
    SkipList K V → Prop
  | init : Reachable maxLevel (SkipList.new maxLevel)
  | insert {s s1 : SkipList K V} (key : K) (value : V) (draw : Nat → Bool) (b : Bool) :
      Reachable maxLevel s → s.insert key value draw = some (b, s1) →
      Reachable maxLevel s1
  | remove {s s1 : SkipList K V} (key : K) (b : Bool) :
      Reachable maxLevel s → s.remove key = some (b, s1) → Reachable maxLevel s1
  | clear {s s1 : SkipList K V} :
      Reachable maxLevel s → s.clear = some s1 → Reachable maxLevel s1

end Inv

/-! ## KV store (`src/storage/kvstore.cpp`) -/

/-- A `std::string`, as the list of its characters. -/
abbrev Str := List Char

/-- The `class KVStore`: a wrapper around a `SkipList<std::string, std::string>`. -/
structure KVStore where
  skiplist_ : SkipList Str Str

/-- The constructor `KVStore(int maxLevel)`. -/
def KVStore.new (maxLevel : Nat) : KVStore :=
  ⟨SkipList.new maxLevel⟩

/-- The method `KVStore::put`: an empty key is refused, otherwise the pair goes
to `SkipList::insert`. -/
def KVStore.put (st : KVStore) (key value : Str) (draw : Nat → Bool) :
    Option (Bool × KVStore) :=
  if key.isEmpty then some (false, st)
  else
    match st.skiplist_.insert key value draw with
    | none => none
    | some (isNew, s1) => some (isNew, ⟨s1⟩)

/-- The method `KVStore::get`: `some (some v)` when it returns true with
`value = v`, `some none` when it returns false. -/
def KVStore.get (st : KVStore) (key : Str) : Option (Option Str) :=
  if key.isEmpty then some none
  else st.skiplist_.search key

/-- The method `KVStore::del`. -/
def KVStore.del (st : KVStore) (key : Str) : Option (Bool × KVStore) :=
  if key.isEmpty then some (false, st)
  else
    match st.skiplist_.remove key with
    | none => none
    | some (removed, s1) => some (removed, ⟨s1⟩)

/-- The method `KVStore::exists`. -/
def KVStore.exists (st : KVStore) (key : Str) : Option Bool :=
  if key.isEmpty then some false
  else st.skiplist_.contains key

/-- The method `KVStore::size`. -/
def KVStore.size (st : KVStore) : Int :=
  st.skiplist_.size

/-- The method `KVStore::clear`. -/
def KVStore.clear (st : KVStore) : Option KVStore :=
  match st.skiplist_.clear with
  | none => none
  | some s1 => some ⟨s1⟩

/-! ## Buffer (`src/net/buffer.h`) -/

/-- The `class Buffer`: the backing `vector<char>` and the two indices. -/
structure Buffer where
  buffer_ : List Char
  readerIndex_ : Nat
  writerIndex_ : Nat

/-- The constant `kCheapPrepend`. -/
def Buffer.kCheapPrepend : Nat := 8

/-- The constant `kInitialSize`. -/
def Buffer.kInitialSize : Nat := 1024

/-- The constructor `Buffer(size_t initialSize)`. -/
def Buffer.new (initialSize : Nat) : Buffer :=
  ⟨List.replicate (Buffer.kCheapPrepend + initialSize) (Char.ofNat 0),
    Buffer.kCheapPrepend, Buffer.kCheapPrepend⟩

/-- The method `readableBytes`. -/
def Buffer.readableBytes (b : Buffer) : Nat := b.writerIndex_ - b.readerIndex_

/-- The readable region: the `readableBytes()` characters starting at `peek()`. -/
def Buffer.readable (b : Buffer) : List Char :=
  (b.buffer_.drop b.readerIndex_).take b.readableBytes

/-- The index invariant of the buffer:
`readerIndex <= writerIndex <= buffer_.size()`. -/
def Buffer.Inv (b : Buffer) : Prop :=
  b.readerIndex_ ≤ b.writerIndex_ ∧ b.writerIndex_ ≤ b.buffer_.length

/-- The call `std::search(first, last, kCRLF, kCRLF + 2)` on a range: the offset
of the first `"\r\n"` in it, if any. -/
def searchCRLF : List Char → Option Nat
  | [] => none
  | [_] => none
  | c1 :: c2 :: rest =>
    if c1 = '\r' ∧ c2 = '\n' then some 0
    else (searchCRLF (c2 :: rest)).map (fun n => n + 1)

/-- The method `findCRLF`: the offset from `peek()` of the first `"\r\n"` of the
readable region; `none` is `nullptr`. -/
def Buffer.findCRLF (b : Buffer) : Option Nat :=
  searchCRLF b.readable

/-- The call `memchr(p, c, n)` on a range: the offset of the first `c` in it, if
any. -/
def memchr (c : Char) : List Char → Option Nat
  | [] => none
  | x :: rest => if x = c then some 0 else (memchr c rest).map (fun n => n + 1)

/-- The method `retrieveAll`. -/
def Buffer.retrieveAll (b : Buffer) : Buffer :=
  { b with readerIndex_ := Buffer.kCheapPrepend, writerIndex_ := Buffer.kCheapPrepend }

/-- The method `retrieve`. -/
def Buffer.retrieve (b : Buffer) (len : Nat) : Buffer :=
  if len < b.readableBytes then { b with readerIndex_ := b.readerIndex_ + len }
  else b.retrieveAll

/-! ## Protocol (`src/protocol/message.h`, `src/protocol/codec.h`) -/

/-- The `enum class CommandType`. -/
inductive CommandType where
  | kUnknown | kPut | kGet | kDel | kExists | kSize | kClear | kPing | kQuit
  deriving DecidableEq

/-- The `enum class StatusCode`. -/
inductive StatusCode where
  | kOk | kNotFound | kError | kPong | kBye
  deriving DecidableEq

/-- The `struct Request`. -/
structure Request where
  command : CommandType
  key : Str
  value : Str
  deriving DecidableEq

/-- The default constructor `Request()`. -/
def Request.new : Request := ⟨CommandType.kUnknown, [], []⟩

/-- The `struct Response`. -/
structure Response where
  status : StatusCode
  message : Str
  deriving DecidableEq

/-- The function `std::isspace` in the "C" locale. -/
def isspace (c : Char) : Bool :=
  c = ' ' || c = '\t' || c = '\n' || c = Char.ofNat 11 || c = Char.ofNat 12 || c = '\r'

/-- The function `::toupper` in the "C" locale. -/
def toupper (c : Char) : Char :=
  if 'a' ≤ c ∧ c ≤ 'z' then Char.ofNat (c.toNat - 32) else c

/-- The function `Codec::toUpper`. -/
def Codec.toUpper (str : Str) : Str := str.map toupper

/-- The loop `while (iss >> token) result.push_back(token);` of `Codec::split`;
`cur` is the token being read. -/
def Codec.splitAux : List Char → Str → List Str
  | [], cur => if cur.isEmpty then [] else [cur]
  | c :: rest, cur =>
    if isspace c then
      if cur.isEmpty then Codec.splitAux rest [] else cur :: Codec.splitAux rest []
    else Codec.splitAux rest (cur ++ [c])

/-- The function `Codec::split`: the whitespace-delimited tokens of `str`. -/
def Codec.split (str : Str) : List Str := Codec.splitAux str []

/-- Whether `pat` is a prefix of `s`. -/
def isPrefixOf (pat s : Str) : Bool :=
  match pat, s with
  | [], _ => true
  | _ :: _, [] => false
  | p :: ps, c :: cs => p = c && isPrefixOf ps cs

/-- The value `std::string::npos`. -/
def npos : Nat := 2 ^ 64 - 1

/-- The method `std::string::find(pat)`: the first position at which `pat`
occurs in `s`, counted from `pos`, or `npos`. -/
def strFind (pat : Str) : Str → Nat → Nat
  | [], pos => if pat.isEmpty then pos else npos
  | c :: cs, pos => if isPrefixOf pat (c :: cs) then pos else strFind pat cs (pos + 1)

/-- The loop `while (valueStart < line.size() && std::isspace(line[valueStart]))
valueStart++;` followed by `line.substr(valueStart)`, on the part of the line
that starts at `valueStart`. -/
def skipSpaces : Str → Str
  | [] => []
  | c :: cs => if isspace c then skipSpaces cs else c :: cs

/-- The value extraction of the PUT branch of `Codec::parseLine`:
`size_t valueStart = line.find(parts[1]) + parts[1].size();` then the loop over
white space and `line.substr(valueStart)`. -/
def Codec.putValue (line p1 : Str) : Str :=
  let valueStart := (strFind p1 line 0 + p1.length) % 2 ^ 64
  skipSpaces (line.drop valueStart)

/-- The function `Codec::parseLine`: the returned flag and the request after
the call. -/
def Codec.parseLine (line : Str) (request : Request) : Bool × Request :=
  if line.isEmpty then (true, { request with command := CommandType.kUnknown })
  else
    let parts := Codec.split line
    match parts with
    | [] => (true, { request with command := CommandType.kUnknown })
    | p0 :: rest =>
      let cmd := Codec.toUpper p0
      if cmd = "PUT".toList ∨ cmd = "SET".toList then
        match rest with
        | p1 :: _ :: _ =>
          (true, { command := CommandType.kPut, key := p1,
                   value := Codec.putValue line p1 })
        | _ => (true, { request with command := CommandType.kUnknown })
      else if cmd = "GET".toList then
        match rest with
        | p1 :: _ => (true, { request with command := CommandType.kGet, key := p1 })
        | [] => (true, { request with command := CommandType.kUnknown })
      else if cmd = "DEL".toList ∨ cmd = "DELETE".toList then
        match rest with
        | p1 :: _ => (true, { request with command := CommandType.kDel, key := p1 })
        | [] => (true, { request with command := CommandType.kUnknown })
      else if cmd = "EXISTS".toList then
        match rest with
        | p1 :: _ => (true, { request with command := CommandType.kExists, key := p1 })
        | [] => (true, { request with command := CommandType.kUnknown })
      else if cmd = "SIZE".toList ∨ cmd = "DBSIZE".toList then
        (true, { request with command := CommandType.kSize })
      else if cmd = "CLEAR".toList ∨ cmd = "FLUSHDB".toList then
        (true, { request with command := CommandType.kClear })
      else if cmd = "PING".toList then
        (true, { request with command := CommandType.kPing })
      else if cmd = "QUIT".toList ∨ cmd = "EXIT".toList then
        (true, { request with command := CommandType.kQuit })
      else (true, { request with command := CommandType.kUnknown })

/-- The choice of `lineEnd` in `Codec::parseRequest`: the earlier of the first
`"\r\n"` and the first `'\n'`; `none` is `nullptr`. -/
def Codec.lineEnd (crlf lf : Option Nat) : Option Nat :=
  match crlf, lf with
  | some c, some l => some (if c < l then c else l)
  | some c, none => some c
  | none, some l => some l
  | none, none => none

/-- The function `Codec::parseRequest`: the returned flag, the buffer and the
request after the call. -/
def Codec.parseRequest (buf : Buffer) (request : Request) : Bool × Buffer × Request :=
  let crlf := buf.findCRLF
  let lf := memchr '\n' buf.readable
  match Codec.lineEnd crlf lf with
  | none => (false, buf, request)
  | some e =>
    let lineLen := e
    let line0 := buf.readable.take lineLen
    let line := if !line0.isEmpty && line0.getLast? = some '\r' then line0.dropLast else line0
    let bytesToSkip :=
      if buf.readable[e]? = some '\r' then
        if e + 1 < buf.readableBytes ∧ buf.readable[e + 1]? = some '\n' then lineLen + 2
        else lineLen + 1
      else lineLen + 1
    let buf1 := buf.retrieve bytesToSkip
    let r := Codec.parseLine line request
    (r.1, buf1, r.2)

/-- The function `Codec::encodeResponse`. -/
def Codec.encodeResponse (response : Response) : Str :=
  let body :=
    match response.status with
    | StatusCode.kOk =>
      "+OK".toList ++ (if !response.message.isEmpty then " ".toList ++ response.message else [])
    | StatusCode.kNotFound => "-NOT_FOUND".toList
    | StatusCode.kError =>
      "-ERROR".toList ++
        (if !response.message.isEmpty then " ".toList ++ response.message else [])
    | StatusCode.kPong => "+PONG".toList
    | StatusCode.kBye => "+BYE".toList
  body ++ "\r\n".toList

/-- The command table of the specification: the command tag for the
upper-cased first token `cmd` of a line with `tokens` tokens. -/
def Codec.tableCommand (cmd : Str) (tokens : Nat) : CommandType :=
  if cmd = "PUT".toList ∨ cmd = "SET".toList then
    (if 3 ≤ tokens then CommandType.kPut else CommandType.kUnknown)
  else if cmd = "GET".toList then
    (if 2 ≤ tokens then CommandType.kGet else CommandType.kUnknown)
  else if cmd = "DEL".toList ∨ cmd = "DELETE".toList then
    (if 2 ≤ tokens then CommandType.kDel else CommandType.kUnknown)
  else if cmd = "EXISTS".toList then
    (if 2 ≤ tokens then CommandType.kExists else CommandType.kUnknown)
  else if cmd = "SIZE".toList ∨ cmd = "DBSIZE".toList then CommandType.kSize
  else if cmd = "CLEAR".toList ∨ cmd = "FLUSHDB".toList then CommandType.kClear
  else if cmd = "PING".toList then CommandType.kPing
  else if cmd = "QUIT".toList ∨ cmd = "EXIT".toList then CommandType.kQuit
  else CommandType.kUnknown

/-- The commands of the table that carry a key. -/
def CommandType.hasKey : CommandType → Bool
  | CommandType.kPut => true
  | CommandType.kGet => true
  | CommandType.kDel => true
  | CommandType.kExists => true
  | _ => false

/-! ## Example states -/

/-- The list obtained from `SkipList(4)` by `insert(5, 50)` with a tower of
height 1: the head node at address 0 and the node of key 5 at address 1. -/
def demoList : SkipList Nat Nat :=
  ⟨4, 1, 1, 0,
    [⟨0, 0, 4, [some 1, some 1, none, none, none]⟩, ⟨5, 50, 1, [none, none]⟩]⟩

/-- A buffer whose readable region is `ab\r\ncd`, after the 8 reserved
characters. -/
def demoBuffer : Buffer :=
  ⟨"........ab\r\ncd....".toList, 8, 14⟩

/-- A buffer whose readable region is the partial line `PING`, with no line
end yet. -/
def demoPartial : Buffer :=
  ⟨"........PING....".toList, 8, 12⟩

/-! ## Buffer: writing (`src/net/buffer.h`, `src/net/buffer.cpp`) -/

/-- The method `writableBytes`. -/
def Buffer.writableBytes (b : Buffer) : Nat := b.buffer_.length - b.writerIndex_

/-- The method `prependableBytes`. -/
def Buffer.prependableBytes (b : Buffer) : Nat := b.readerIndex_

/-- The method `retrieveAsString`: `std::string result(peek(), len);
retrieve(len); return result;`. -/
def Buffer.retrieveAsString (b : Buffer) (len : Nat) : Str × Buffer :=
  ((b.buffer_.drop b.readerIndex_).take len, b.retrieve len)

/-- The method `retrieveAllAsString`. -/
def Buffer.retrieveAllAsString (b : Buffer) : Str × Buffer :=
  b.retrieveAsString b.readableBytes

/-- The call `buffer_.resize(n)` of `std::vector<char>`: truncate, or fill up
with zero characters. -/
def vectorResize (v : List Char) (n : Nat) : List Char :=
  if n ≤ v.length then v.take n else v ++ List.replicate (n - v.length) (Char.ofNat 0)

/-- The call `std::copy(begin() + src, begin() + src + n, begin() + dst)` inside
one vector: the elements are copied one by one, in ascending order. -/
def copyFwd (v : List Char) : Nat → Nat → Nat → List Char
  | _, _, 0 => v
  | src, dst, n + 1 =>
    match v[src]? with
    | none => v
    | some c => copyFwd (v.set dst c) (src + 1) (dst + 1) n

/-- The call `std::copy(data, data + len, begin() + pos)` from a string outside
the vector. -/
def writeAt (v : List Char) : Nat → Str → List Char
  | _, [] => v
  | pos, c :: cs => writeAt (v.set pos c) (pos + 1) cs

/-- The method `makeSpace`: resize the storage, or shift the readable region
down to the reserved prefix. -/
def Buffer.makeSpace (b : Buffer) (len : Nat) : Buffer :=
  if b.writableBytes + b.prependableBytes < len + Buffer.kCheapPrepend then
    { b with buffer_ := vectorResize b.buffer_ (b.writerIndex_ + len) }
  else
    let readable := b.readableBytes
    { buffer_ := copyFwd b.buffer_ b.readerIndex_ Buffer.kCheapPrepend readable,
      readerIndex_ := Buffer.kCheapPrepend,
      writerIndex_ := Buffer.kCheapPrepend + readable }

/-- The method `ensureWritableBytes`. -/
def Buffer.ensureWritableBytes (b : Buffer) (len : Nat) : Buffer :=
  if b.writableBytes < len then b.makeSpace len else b

/-- The method `hasWritten`. -/
def Buffer.hasWritten (b : Buffer) (len : Nat) : Buffer :=
  { b with writerIndex_ := b.writerIndex_ + len }

/-- The method `append(const char* data, size_t len)`, the data being the
string `data`. -/
def Buffer.append (b : Buffer) (data : Str) : Buffer :=
  let b1 := b.ensureWritableBytes data.length
  let b2 := { b1 with buffer_ := writeAt b1.buffer_ b1.writerIndex_ data }
  b2.hasWritten data.length

/-- The method `readFd`.  The call of `readv` is given by its outcome: `none`
when it fails (`n < 0`), `some data` when it reads the characters `data`
(`n = data.length`), of which the first `writableBytes()` are stored at
`beginWrite()` and the others in `extrabuf`.  The result is the returned `n`
and the buffer after the call. -/
def Buffer.readFd (b : Buffer) (outcome : Option Str) : Int × Buffer :=
  let writable := b.writableBytes
  match outcome with
  | none => (-1, b)
  | some data =>
    let b1 := { b with buffer_ := writeAt b.buffer_ b.writerIndex_ (data.take writable) }
    let extrabuf := data.drop writable
    if data.length ≤ writable then
      ((data.length : Int), { b1 with writerIndex_ := b1.writerIndex_ + data.length })
    else
      ((data.length : Int), ({ b1 with writerIndex_ := b1.buffer_.length }).append extrabuf)

/-- The calls on a buffer that the invariant claim ranges over. -/
inductive BufferOp where
  | append (data : Str)
  | retrieve (len : Nat)
  | retrieveAll
  | retrieveAsString (len : Nat)
  | ensureWritableBytes (len : Nat)
  | readFd (outcome : Option Str)

/-- The buffer after a call. -/
def Buffer.step (b : Buffer) : BufferOp → Buffer
  | BufferOp.append data => b.append data
  | BufferOp.retrieve len => b.retrieve len
  | BufferOp.retrieveAll => b.retrieveAll
  | BufferOp.retrieveAsString len => (b.retrieveAsString len).2
  | BufferOp.ensureWritableBytes len => b.ensureWritableBytes len
  | BufferOp.readFd outcome => (b.readFd outcome).2

/-- Whether a call respects its precondition in the buffer state `b`:
`retrieveAsString(len)` needs `len <= readableBytes()`, and a successful
`readv` returns at most `writableBytes() + 65536` characters. -/
def Buffer.admits (b : Buffer) : BufferOp → Prop
  | BufferOp.retrieveAsString len => len ≤ b.readableBytes
  | BufferOp.readFd (some data) => data.length ≤ b.writableBytes + 65536
  | _ => True

/-- The buffer states reached from a freshly constructed buffer by admitted
calls. -/
inductive Buffer.Reachable (initialSize : Nat) : Buffer → Prop
  | init : Buffer.Reachable initialSize (Buffer.new initialSize)
  | step {b : Buffer} (op : BufferOp) :
      Buffer.Reachable initialSize b → b.admits op → Buffer.Reachable initialSize (b.step op)

/-- The invariant of the buffers built without `prepend`:
`kCheapPrepend <= readerIndex <= writerIndex <= buffer_.size()`. -/
def Buffer.Inv8 (b : Buffer) : Prop :=
  Buffer.kCheapPrepend ≤ b.readerIndex_ ∧ b.readerIndex_ ≤ b.writerIndex_ ∧
    b.writerIndex_ ≤ b.buffer_.length


/-- A buffer with four consumed characters before the readable region `ab` and
no room after it. -/
def demoShift : Buffer :=
  ⟨"........xxxxab".toList, 12, 14⟩

/-! ## Channel (`src/net/channel.h`, `src/net/channel.cpp`) -/

/-- The constant `EPOLLIN` of `<sys/epoll.h>` on Linux. -/
def EPOLLIN : Nat := 0x001

/-- The constant `EPOLLPRI` of `<sys/epoll.h>` on Linux. -/
def EPOLLPRI : Nat := 0x002

/-- The constant `EPOLLOUT` of `<sys/epoll.h>` on Linux. -/
def EPOLLOUT : Nat := 0x004

/-- The constant `EPOLLERR` of `<sys/epoll.h>` on Linux. -/
def EPOLLERR : Nat := 0x008

/-- The constant `EPOLLHUP` of `<sys/epoll.h>` on Linux. -/
def EPOLLHUP : Nat := 0x010

/-- The constant `EPOLLRDHUP` of `<sys/epoll.h>` on Linux. -/
def EPOLLRDHUP : Nat := 0x2000

/-- The four callbacks of a channel. -/
inductive Callback where
  | close | error | read | write
  deriving DecidableEq, Repr

/-- The fields of `class Channel` that `handleEvent` reads.  The reported mask
`revents_` is a natural number; `tieAlive` tells whether `tie_.lock()` yields a
non-null pointer; each callback field tells whether the `std::function` is
non-empty. -/
structure Channel where
  revents_ : Nat
  tied_ : Bool
  tieAlive : Bool
  readCallback_ : Bool
  writeCallback_ : Bool
  closeCallback_ : Bool
  errorCallback_ : Bool

/-- The method `handleEventWithGuard`: the callbacks it calls, in the order of
the calls.  The callbacks are taken not to change the channel. -/
def Channel.handleEventWithGuard (c : Channel) : List Callback :=
  let t0 : List Callback := []
  let t1 :=
    if c.revents_ &&& EPOLLHUP ≠ 0 ∧ ¬ (c.revents_ &&& EPOLLIN ≠ 0) then
      if c.closeCallback_ then t0 ++ [Callback.close] else t0
    else t0
  let t2 :=
    if c.revents_ &&& EPOLLERR ≠ 0 then
      if c.errorCallback_ then t1 ++ [Callback.error] else t1
    else t1
  let t3 :=
    if c.revents_ &&& (EPOLLIN ||| EPOLLPRI ||| EPOLLRDHUP) ≠ 0 then
      if c.readCallback_ then t2 ++ [Callback.read] else t2
    else t2
  let t4 :=
    if c.revents_ &&& EPOLLOUT ≠ 0 then
      if c.writeCallback_ then t3 ++ [Callback.write] else t3
    else t3
  t4

/-- The method `handleEvent`. -/
def Channel.handleEvent (c : Channel) : List Callback :=
  if c.tied_ then
    if c.tieAlive then c.handleEventWithGuard else []
  else c.handleEventWithGuard

/-- A channel tied to a live object, with all callbacks installed, reporting
hang-up, error and writability. -/
def demoChannel : Channel :=
  ⟨EPOLLHUP ||| EPOLLERR ||| EPOLLOUT, true, true, true, true, true, true⟩

/-! ## Persistence (`SkipList::dumpFile`, `SkipList::loadFile`,
`SkipList::parseString`, `KVStore::save`, `KVStore::load`) -/

/-- The part of the file system the persistence code depends on: `files p` is
the content of the file that `std::ifstream(p)` opens, `none` when it cannot be
opened; `writable p` tells whether `std::ofstream(p)` can be opened. -/
structure FileSystem where
  files : Str → Option Str
  writable : Str → Bool

/-- The file system after a `std::ofstream` opened at `path` has been written
with `content` and closed: the file takes all that is written and can be read
back. -/
def FileSystem.write (fs : FileSystem) (path content : Str) : FileSystem :=
  { files := fun p => if p = path then some content else fs.files p,
    writable := fs.writable }

/-- The constant `kDelimiter`. -/
def kDelimiter : Char := ':'

/-- The loop `while (std::getline(inFile, line))` over the characters left in
the stream: the lines it delivers, `cur` being the characters of the current
line extracted so far.  At the end of the stream a line without LF is delivered
when it has at least one character. -/
def getlinesAux : Str → List Char → List Str
  | cur, [] => if cur.isEmpty then [] else [cur]
  | cur, c :: cs => if c = '\n' then cur :: getlinesAux [] cs else getlinesAux (cur ++ [c]) cs

/-- The lines that `std::getline` delivers for a file content. -/
def getlines (content : List Char) : List Str :=
  getlinesAux [] content

/-- The method `parseString`: `some (key, value)` when it returns true. -/
def parseString (line : Str) : Option (Str × Str) :=
  if line.isEmpty then none
  else
    match memchr kDelimiter line with
    | none => none
    | some pos =>
      let key := line.take pos
      let value := line.drop (pos + 1)
      if key.isEmpty then none else some (key, value)

/-- The loop of `dumpFile`:
`while (current != nullptr) { outFile << current->key << kDelimiter <<
current->value << "\n"; current = current->forward[0]; }`: the characters
written.  The first argument bounds the number of iterations. -/
def dumpLoop (h : List (Node Str Str)) : Nat → NodePtr → Option (List Char)
  | _, none => some []
  | 0, some _ => none
  | fuel + 1, some c =>
    match h[c]? with
    | none => none
    | some nd =>
      match nd.forward[0]? with
      | none => none
      | some nxt =>
        match dumpLoop h fuel nxt with
        | none => none
        | some rest => some (nd.key ++ kDelimiter :: nd.value ++ '\n' :: rest)

/-- The method `dumpFile`: the returned flag and the file system after the
call. -/
def SkipList.dumpFile (s : SkipList Str Str) (fs : FileSystem) (filepath : Str) :
    Option (Bool × FileSystem) :=
  if fs.writable filepath then
    match fwd s.heap s.header_ 0 with
    | none => none
    | some first =>
      match dumpLoop s.heap s.heap.length first with
      | none => none
      | some content => some (true, fs.write filepath content)
  else some (false, fs)

/-- The loop `for (const auto& kv : data) insert(kv.first, kv.second);` of
`loadFile`; `draws i` gives the random samples of the `i`-th call of
`insert`. -/
def insertAll (s : SkipList Str Str) : List (Str × Str) → (Nat → Nat → Bool) →
    Option (SkipList Str Str)
  | [], _ => some s
  | kv :: rest, draws =>
    match s.insert kv.1 kv.2 (draws 0) with
    | none => none
    | some (_, s1) => insertAll s1 rest (fun i => draws (i + 1))

/-- The method `loadFile`: the returned flag and the list after the call. -/
def SkipList.loadFile (s : SkipList Str Str) (fs : FileSystem) (filepath : Str)
    (draws : Nat → Nat → Bool) : Option (Bool × SkipList Str Str) :=
  match fs.files filepath with
  | none => some (false, s)
  | some content =>
    let data := (getlines content).filterMap parseString
    match insertAll s data draws with
    | none => none
    | some s1 => some (true, s1)

/-- The method `KVStore::save`. -/
def KVStore.save (st : KVStore) (fs : FileSystem) (filepath : Str) :
    Option (Bool × FileSystem) :=
  if filepath.isEmpty then some (false, fs)
  else st.skiplist_.dumpFile fs filepath

/-- The method `KVStore::load`. -/
def KVStore.load (st : KVStore) (fs : FileSystem) (filepath : Str)
    (draws : Nat → Nat → Bool) : Option (Bool × KVStore) :=
  if filepath.isEmpty then some (false, st)
  else
    match st.clear with
    | none => none
    | some st1 =>
      match st1.skiplist_.loadFile fs filepath draws with
      | none => none
      | some (success, s2) => some (success, ⟨s2⟩)

/-- The stores reachable from the one built by the constructor with
`maxLevel`, by `put` (with any random samples), `del`, `clear` and `load` (from
any file system). -/
inductive KVStore.Reachable (maxLevel : Nat) : KVStore → Prop
  | init : KVStore.Reachable maxLevel (KVStore.new maxLevel)
  | put {st st1 : KVStore} (key value : Str) (draw : Nat → Bool) (b : Bool) :
      KVStore.Reachable maxLevel st → st.put key value draw = some (b, st1) →
      KVStore.Reachable maxLevel st1
  | del {st st1 : KVStore} (key : Str) (b : Bool) :
      KVStore.Reachable maxLevel st → st.del key = some (b, st1) →
      KVStore.Reachable maxLevel st1
  | clear {st st1 : KVStore} :
      KVStore.Reachable maxLevel st → st.clear = some st1 → KVStore.Reachable maxLevel st1
  | load {st st1 : KVStore} (fs : FileSystem) (filepath : Str) (draws : Nat → Nat → Bool)
      (b : Bool) :
      KVStore.Reachable maxLevel st → st.load fs filepath draws = some (b, st1) →
      KVStore.Reachable maxLevel st1

/-- `KVAbs maxLevel st m`: the store `st`, built with `maxLevel`, is well formed
and holds exactly the pairs `m`, in ascending key order, none with the empty
key. -/
def KVAbs (maxLevel : Nat) (st : KVStore) (m : List (Str × Str)) : Prop :=
  ∃ l, Rep st.skiplist_ l ∧ pairsOf st.skiplist_.heap l = m ∧
    (∀ p ∈ m, p.1 ≠ []) ∧ st.skiplist_.maxLevel_ = maxLevel

/-- The map after the pairs `data` have been inserted one by one into `m`. -/
def mInsertAll (m : List (Str × Str)) (data : List (Str × Str)) : List (Str × Str) :=
  data.foldl (fun acc kv => mInsert kv.1 kv.2 acc) m

/-- The characters that `dumpFile` writes for the pairs `m`: each pair as key,
delimiter, value and LF. -/
def dumpText (m : List (Str × Str)) : List Char :=
  m.foldr (fun p acc => p.1 ++ kDelimiter :: p.2 ++ '\n' :: acc) []

/-- Specification side of `loadFile`: the pair a line of the file stands for.
A line counts when it is non-empty, contains `':'` and has a non-empty text
before its first `':'`; the key is the text before the first `':'`, the value
all the text after it. -/
def specLinePair (line : Str) : Option (Str × Str) :=
  if line ≠ [] ∧ ':' ∈ line ∧ line.takeWhile (fun c => decide (c ≠ ':')) ≠ [] then
    some (line.takeWhile (fun c => decide (c ≠ ':')),
      (line.dropWhile (fun c => decide (c ≠ ':'))).tail)
  else none

/-- Specification side of `loadFile`: the lines of a file content, which are
the texts between its LF characters (the text before the first LF, between two
consecutive ones, and after the last one). -/
def specLines (content : Str) : List Str :=
  content.splitOn '\n'

/-- Specification side of `loadFile`: the value of the key `k` in the map that
the lines stand for, a later line overriding an earlier one with the same
key. -/
def specFileMap (lines : List Str) (k : Str) : Option Str :=
  (((lines.filterMap specLinePair).reverse).find? (fun p => decide (p.1 = k))).map Prod.snd

/-- A file system without any file. -/
def demoFs : FileSystem := ⟨fun _ => none, fun _ => false⟩

/-- A file system whose only file `db` holds four lines, one of them without
delimiter and two with the same key. -/
def demoFiles : FileSystem :=
  ⟨fun p => if p = "db".toList then some "a:1\nnoise\nb:x:y\na:2\n".toList else none,
    fun _ => true⟩

/-- The store built with `maxLevel = 4` that holds the single pair `k`, `v`, in
a node of height 0. -/
def demoStore : KVStore :=
  ⟨⟨4, 0, 1, 0,
    [⟨[], [], 4, [some 1, none, none, none, none]⟩, ⟨"k".toList, "v".toList, 0, [none]⟩]⟩⟩

/-- The store built with `maxLevel = 2` that holds the single pair `old`, `1`,
in a node of height 0. -/
def demoTarget : KVStore :=
  ⟨⟨2, 0, 1, 0,
    [⟨[], [], 2, [some 1, none, none]⟩, ⟨"old".toList, "1".toList, 0, [none]⟩]⟩⟩

/-! ## Server (`src/server/kv_server.cpp`, `src/net/tcp_connection.cpp`) -/

/-- The function `std::to_string(int)`: the decimal digits, after a minus sign
for a negative number. -/
def to_string (n : Int) : Str :=
  if n < 0 then '-' :: Nat.toDigits 10 n.natAbs else Nat.toDigits 10 n.toNat

/-- The factory `Response::ok`. -/
def Response.ok (msg : Str) : Response := ⟨StatusCode.kOk, msg⟩

/-- The factory `Response::notFound`. -/
def Response.notFound : Response := ⟨StatusCode.kNotFound, []⟩

/-- The factory `Response::error`. -/
def Response.error (msg : Str) : Response := ⟨StatusCode.kError, msg⟩

/-- The factory `Response::pong`. -/
def Response.pong : Response := ⟨StatusCode.kPong, []⟩

/-- The factory `Response::bye`. -/
def Response.bye : Response := ⟨StatusCode.kBye, []⟩

/-- The member of `class KVServer` that request handling works on. -/
structure KVServer where
  store_ : KVStore

/-- The method `KVServer::handleRequest`: the response and the server after the
call; `draw` gives the random samples of the `insert` a Put performs. -/
def KVServer.handleRequest (sv : KVServer) (request : Request) (draw : Nat → Bool) :
    Option (Response × KVServer) :=
  match request.command with
  | CommandType.kPut =>
    if request.key.isEmpty then some (Response.error "Key cannot be empty".toList, sv)
    else
      match sv.store_.put request.key request.value draw with
      | none => none
      | some (isNew, st1) =>
        some (Response.ok (if isNew then "CREATED".toList else "UPDATED".toList), ⟨st1⟩)
  | CommandType.kGet =>
    match sv.store_.get request.key with
    | none => none
    | some (some value) => some (Response.ok value, sv)
    | some none => some (Response.notFound, sv)
  | CommandType.kDel =>
    match sv.store_.del request.key with
    | none => none
    | some (removed, st1) =>
      some (if removed then Response.ok "DELETED".toList else Response.notFound, ⟨st1⟩)
  | CommandType.kExists =>
    match sv.store_.exists request.key with
    | none => none
    | some found => some (if found then Response.ok "1".toList else Response.ok "0".toList, sv)
  | CommandType.kSize => some (Response.ok (to_string sv.store_.size), sv)
  | CommandType.kClear =>
    match sv.store_.clear with
    | none => none
    | some st1 => some (Response.ok "CLEARED".toList, ⟨st1⟩)
  | CommandType.kPing => some (Response.pong, sv)
  | CommandType.kQuit => some (Response.bye, sv)
  | CommandType.kUnknown => some (Response.error "Unknown command".toList, sv)

/-- The `enum StateE` of `TcpConnection`. -/
inductive StateE where
  | kDisconnected | kConnecting | kConnected | kDisconnecting
  deriving DecidableEq

/-- The calls that `send` and `shutdown` make on the loop thread. -/
inductive LoopCall where
  | sendInLoop (message : Str)
  | shutdownInLoop
  deriving DecidableEq

/-- The part of `class TcpConnection` that `onMessage` works on: the state, and
the calls of `sendInLoop` and `shutdownInLoop` made so far, oldest first
(`onMessage` runs on the loop thread, where `runInLoop` calls at once). -/
structure TcpConnection where
  state_ : StateE
  loopCalls : List LoopCall

/-- The method `TcpConnection::send(const std::string&)`. -/
def TcpConnection.send (conn : TcpConnection) (message : Str) : TcpConnection :=
  if conn.state_ = StateE.kConnected then
    { conn with loopCalls := conn.loopCalls ++ [LoopCall.sendInLoop message] }
  else conn

/-- The method `TcpConnection::shutdown`. -/
def TcpConnection.shutdown (conn : TcpConnection) : TcpConnection :=
  if conn.state_ = StateE.kConnected then
    { state_ := StateE.kDisconnecting,
      loopCalls := conn.loopCalls ++ [LoopCall.shutdownInLoop] }
  else conn

/-- The function `Codec::sendResponse`. -/
def Codec.sendResponse (conn : TcpConnection) (response : Response) : TcpConnection :=
  conn.send (Codec.encodeResponse response)

/-- The loop of `KVServer::onMessage`; `draws i` gives the random samples of
the `i`-th iteration.  The first argument bounds the number of iterations. -/
def KVServer.onMessageLoop : Nat → KVServer → TcpConnection → Buffer → (Nat → Nat → Bool) →
    Option (KVServer × TcpConnection × Buffer)
  | 0, sv, conn, buf, _ => if buf.readableBytes > 0 then none else some (sv, conn, buf)
  | fuel + 1, sv, conn, buf, draws =>
    if buf.readableBytes > 0 then
      match Codec.parseRequest buf Request.new with
      | (false, buf1, _) => some (sv, conn, buf1)
      | (true, buf1, request) =>
        match sv.handleRequest request (draws 0) with
        | none => none
        | some (response, sv1) =>
          let conn1 := Codec.sendResponse conn response
          if request.command = CommandType.kQuit then some (sv1, conn1.shutdown, buf1)
          else KVServer.onMessageLoop fuel sv1 conn1 buf1 (fun i => draws (i + 1))
    else some (sv, conn, buf)

/-- The method `KVServer::onMessage`: the server, the connection and the buffer
after the call.  Every iteration that goes on consumes at least one character,
so `readableBytes()` bounds the number of iterations. -/
def KVServer.onMessage (sv : KVServer) (conn : TcpConnection) (buf : Buffer)
    (draws : Nat → Nat → Bool) : Option (KVServer × TcpConnection × Buffer) :=
  KVServer.onMessageLoop buf.readableBytes sv conn buf draws

/-- A line without its last character when that is a CR. -/
def stripCR (line : Str) : Str :=
  if !line.isEmpty && line.getLast? = some '\r' then line.dropLast else line

/-- The request that `Codec::parseRequest` delivers into a fresh `Request` for
a line whose characters before the LF are `pre`: the CR of a CR LF terminator
is left out by the choice of the line end, and a CR at the end of what remains
is popped. -/
def lineRequest (pre : Str) : Request :=
  (Codec.parseLine (stripCR (stripCR pre)) Request.new).2

/-- Specification side of `onMessage`: the encoded responses to the lines, each
answered by `handleRequest` against the store as the earlier lines left it, and
the server after the last line. -/
def KVServer.respondAll (sv : KVServer) : List Str → (Nat → Nat → Bool) →
    Option (List Str × KVServer)
  | [], _ => some ([], sv)
  | pre :: rest, draws =>
    match sv.handleRequest (lineRequest pre) (draws 0) with
    | none => none
    | some (response, sv1) =>
      match KVServer.respondAll sv1 rest (fun i => draws (i + 1)) with
      | none => none
      | some (out, sv2) => some (Codec.encodeResponse response :: out, sv2)

/-- The readable region made of the lines `lines`, each followed by an LF, and
then `tail`. -/
def framed (lines : List Str) (tail : Str) : List Char :=
  lines.foldr (fun pre acc => pre ++ '\n' :: acc) tail

/-- A buffer whose readable region is `PING\nPING\r\nSIZE\n`. -/
def demoRequests : Buffer :=
  ⟨"........PING\nPING\r\nSIZE\n..".toList, 8, 24⟩

/-! ## Poller registration (`src/net/channel.h`, `src/net/epoll_poller.cpp`) -/

/-- The constant `EPOLLET` of `<sys/epoll.h>` on Linux. -/
def EPOLLET : Nat := 0x80000000

/-- The constant `Channel::kNoneEvent`. -/
def kNoneEvent : Nat := 0

/-- The constant `Channel::kReadEvent`. -/
def kReadEvent : Nat := EPOLLIN ||| EPOLLPRI

/-- The constant `Channel::kWriteEvent`. -/
def kWriteEvent : Nat := EPOLLOUT

/-- The constant `kNew` of `epoll_poller.cpp`. -/
def kNew : Int := -1

/-- The constant `kAdded` of `epoll_poller.cpp`. -/
def kAdded : Int := 1

/-- The constant `kDeleted` of `epoll_poller.cpp`. -/
def kDeleted : Int := 2

/-- The expression `a & ~b` on the non-negative 32-bit `int` values `a` and
`b`: the bits of `b` are cleared in `a`. -/
def andNot (a b : Nat) : Nat := a &&& ((2 ^ 32 - 1) ^^^ b)

/-- The operations of `epoll_ctl`. -/
inductive EpollOp where
  | EPOLL_CTL_ADD | EPOLL_CTL_DEL | EPOLL_CTL_MOD
  deriving DecidableEq

/-- The kernel's interest list of an epoll instance: the event mask registered
for a descriptor, `none` when the descriptor is not registered. -/
abbrev EpollSet := Nat → Option Nat

/-- The system call `epoll_ctl(epfd, op, fd, &event)` as epoll_ctl(2) describes
it: `none` when it fails, which an ADD does for a registered descriptor
(`EEXIST`) and a MOD or DEL for an unregistered one (`ENOENT`). -/
def epoll_ctl (set : EpollSet) (op : EpollOp) (fd events : Nat) : Option EpollSet :=
  match op with
  | EpollOp.EPOLL_CTL_ADD =>
    if (set fd).isSome then none
    else some (fun d => if d = fd then some events else set d)
  | EpollOp.EPOLL_CTL_MOD =>
    if (set fd).isSome then some (fun d => if d = fd then some events else set d)
    else none
  | EpollOp.EPOLL_CTL_DEL =>
    if (set fd).isSome then some (fun d => if d = fd then none else set d)
    else none

/-- The fields of `class Channel` that the registration with the poller works
on: the descriptor, the interest mask `events_` and the poller state
`index_`. -/
structure PolledChannel where
  fd_ : Nat
  events_ : Nat
  index_ : Int
  addedToLoop_ : Bool

/-- The constructor `Channel(EventLoop* loop, int fd)`. -/
def PolledChannel.new (fd : Nat) : PolledChannel := ⟨fd, 0, -1, false⟩

/-- The method `isNoneEvent`. -/
def PolledChannel.isNoneEvent (ch : PolledChannel) : Bool :=
  decide (ch.events_ = kNoneEvent)

/-- The `class EpollPoller`: the key set of the map `channels_` (the entry of a
descriptor is its channel), and the interest list of the epoll instance
`epollfd_`. -/
structure EpollPoller where
  channels_ : Nat → Bool
  interest : EpollSet

/-- The method `EpollPoller::update`: a failing DEL is logged, a failing ADD or
MOD ends the process through `LOG_FATAL` (`none`). -/
def EpollPoller.update (p : EpollPoller) (operation : EpollOp) (ch : PolledChannel) :
    Option EpollPoller :=
  let events := ch.events_ ||| EPOLLET
  match epoll_ctl p.interest operation ch.fd_ events with
  | some set1 => some { p with interest := set1 }
  | none => if operation = EpollOp.EPOLL_CTL_DEL then some p else none

/-- The method `EpollPoller::updateChannel`: the poller and the channel after
the call. -/
def EpollPoller.updateChannel (p : EpollPoller) (ch : PolledChannel) :
    Option (EpollPoller × PolledChannel) :=
  let index := ch.index_
  let fd := ch.fd_
  if index = kNew ∨ index = kDeleted then
    let p1 :=
      if index = kNew then { p with channels_ := fun d => if d = fd then true else p.channels_ d }
      else p
    let ch1 := { ch with index_ := kAdded }
    match p1.update EpollOp.EPOLL_CTL_ADD ch1 with
    | none => none
    | some p2 => some (p2, ch1)
  else
    if ch.isNoneEvent then
      match p.update EpollOp.EPOLL_CTL_DEL ch with
      | none => none
      | some p1 => some (p1, { ch with index_ := kDeleted })
    else
      match p.update EpollOp.EPOLL_CTL_MOD ch with
      | none => none
      | some p1 => some (p1, ch)

/-- The method `EpollPoller::removeChannel`. -/
def EpollPoller.removeChannel (p : EpollPoller) (ch : PolledChannel) :
    Option (EpollPoller × PolledChannel) :=
  let fd := ch.fd_
  let index := ch.index_
  let p1 := { p with channels_ := fun d => if d = fd then false else p.channels_ d }
  let p2 := if index = kAdded then p1.update EpollOp.EPOLL_CTL_DEL ch else some p1
  match p2 with
  | none => none
  | some p3 => some (p3, { ch with index_ := kNew })

/-- The method `Channel::update`: `addedToLoop_ = true;
loop_->updateChannel(this);`, which `EventLoop` hands to the poller. -/
def PolledChannel.update (ch : PolledChannel) (p : EpollPoller) :
    Option (EpollPoller × PolledChannel) :=
  p.updateChannel { ch with addedToLoop_ := true }

/-- The method `Channel::remove`. -/
def PolledChannel.remove (ch : PolledChannel) (p : EpollPoller) :
    Option (EpollPoller × PolledChannel) :=
  p.removeChannel { ch with addedToLoop_ := false }

/-- The method `enableReading`. -/
def PolledChannel.enableReading (ch : PolledChannel) (p : EpollPoller) :
    Option (EpollPoller × PolledChannel) :=
  PolledChannel.update { ch with events_ := ch.events_ ||| kReadEvent } p

/-- The method `disableReading`. -/
def PolledChannel.disableReading (ch : PolledChannel) (p : EpollPoller) :
    Option (EpollPoller × PolledChannel) :=
  PolledChannel.update { ch with events_ := andNot ch.events_ kReadEvent } p

/-- The method `enableWriting`. -/
def PolledChannel.enableWriting (ch : PolledChannel) (p : EpollPoller) :
    Option (EpollPoller × PolledChannel) :=
  PolledChannel.update { ch with events_ := ch.events_ ||| kWriteEvent } p

/-- The method `disableWriting`. -/
def PolledChannel.disableWriting (ch : PolledChannel) (p : EpollPoller) :
    Option (EpollPoller × PolledChannel) :=
  PolledChannel.update { ch with events_ := andNot ch.events_ kWriteEvent } p

/-- The method `disableAll`. -/
def PolledChannel.disableAll (ch : PolledChannel) (p : EpollPoller) :
    Option (EpollPoller × PolledChannel) :=
  PolledChannel.update { ch with events_ := kNoneEvent } p

/-- The calls on a channel that change its registration. -/
inductive ChannelOp where
  | enableReading | disableReading | enableWriting | disableWriting | disableAll | remove
  deriving DecidableEq

/-- The poller and the channel after a call; `none` when the process was
ended. -/
def PolledChannel.step (ch : PolledChannel) (p : EpollPoller) :
    ChannelOp → Option (EpollPoller × PolledChannel)
  | ChannelOp.enableReading => ch.enableReading p
  | ChannelOp.disableReading => ch.disableReading p
  | ChannelOp.enableWriting => ch.enableWriting p
  | ChannelOp.disableWriting => ch.disableWriting p
  | ChannelOp.disableAll => ch.disableAll p
  | ChannelOp.remove => ch.remove p

/-- The pairs of a poller and a channel for the descriptor `fd` that are
reached by calls on the channel, from a freshly constructed channel and a poller
that does not know the descriptor. -/
inductive PollReachable (fd : Nat) : EpollPoller → PolledChannel → Prop
  | init (p : EpollPoller) : p.channels_ fd = false → p.interest fd = none →
      PollReachable fd p (PolledChannel.new fd)
  | step {p p1 : EpollPoller} {ch ch1 : PolledChannel} (op : ChannelOp) :
      PollReachable fd p ch → ch.step p op = some (p1, ch1) → PollReachable fd p1 ch1

/-- The registration invariant: the poller state is one of the three
constants; it is `kAdded` exactly when the descriptor is registered in the epoll
set, and then with the interest mask of the channel and the edge-trigger flag;
the descriptor is in the map `channels_` exactly when the state is not `kNew`. -/
def PollInv (fd : Nat) (p : EpollPoller) (ch : PolledChannel) : Prop :=
  ch.fd_ = fd ∧
  (ch.index_ = kNew ∨ ch.index_ = kAdded ∨ ch.index_ = kDeleted) ∧
  (ch.index_ = kAdded ↔ (p.interest fd).isSome = true) ∧
  (ch.index_ = kAdded → p.interest fd = some (ch.events_ ||| EPOLLET)) ∧
  (p.channels_ fd = true ↔ ch.index_ ≠ kNew)

/-- A poller that knows no descriptor. -/
def demoPoller : EpollPoller := ⟨fun _ => false, fun _ => none⟩

/-! ## Connection: the methods run on the loop thread
(`src/net/tcp_connection.cpp`, `src/net/buffer.cpp`) -/

/-- The constant `EINTR` of `<errno.h>` on Linux. -/
def EINTR : Nat := 4

/-- The constant `EWOULDBLOCK` of `<errno.h>` on Linux. -/
def EWOULDBLOCK : Nat := 11

/-- The constant `EPIPE` of `<errno.h>` on Linux. -/
def EPIPE : Nat := 32

/-- The constant `ECONNRESET` of `<errno.h>` on Linux. -/
def ECONNRESET : Nat := 104

/-- The outcome of a call of `::write`: `wrote n` when it returns `n >= 0`,
`failed errno` when it returns -1 and sets `errno`. -/
inductive WriteResult where
  | wrote (n : Nat)
  | failed (errno : Nat)
  deriving DecidableEq

/-- The calls a connection makes on its socket: a `::write` with the characters
the socket accepted, and `Socket::shutdownWrite`. -/
inductive SocketCall where
  | write (accepted : Str)
  | shutdownWrite
  deriving DecidableEq

/-- The callbacks of a connection. -/
inductive ConnCallback where
  | connection | message | writeComplete | highWaterMark (len : Nat) | close
  deriving DecidableEq

/-- The members of `class TcpConnection` that the methods run on the loop
thread work on (the structure `TcpConnection` above keeps what `onMessage`
needs): the state, the interest mask `events_` of `channel_`, the two buffers,
the high-water mark, whether each callback is installed, and the records of the
calls made on the socket and of the callbacks called or queued, oldest
first. -/
structure ConnState where
  state_ : StateE
  events_ : Nat
  inputBuffer_ : Buffer
  outputBuffer_ : Buffer
  highWaterMark_ : Nat
  connectionCallback_ : Bool
  messageCallback_ : Bool
  writeCompleteCallback_ : Bool
  highWaterMarkCallback_ : Bool
  closeCallback_ : Bool
  socketCalls : List SocketCall
  callbacks : List ConnCallback

/-- The constructor of `TcpConnection`, followed by the setters of the
callbacks that are installed. -/
def ConnState.new (connectionCb messageCb writeCompleteCb highWaterMarkCb closeCb : Bool) :
    ConnState :=
  { state_ := StateE.kConnecting, events_ := 0,
    inputBuffer_ := Buffer.new Buffer.kInitialSize,
    outputBuffer_ := Buffer.new Buffer.kInitialSize,
    highWaterMark_ := 64 * 1024 * 1024,
    connectionCallback_ := connectionCb, messageCallback_ := messageCb,
    writeCompleteCallback_ := writeCompleteCb, highWaterMarkCallback_ := highWaterMarkCb,
    closeCallback_ := closeCb, socketCalls := [], callbacks := [] }

/-- The call `channel_->isWriting()`. -/
def ConnState.isWriting (c : ConnState) : Bool :=
  decide (c.events_ &&& kWriteEvent ≠ 0)

/-- The call `channel_->enableWriting()`, as far as the interest mask goes. -/
def ConnState.enableWriting (c : ConnState) : ConnState :=
  { c with events_ := c.events_ ||| kWriteEvent }

/-- The call `channel_->disableWriting()`, as far as the interest mask goes. -/
def ConnState.disableWriting (c : ConnState) : ConnState :=
  { c with events_ := andNot c.events_ kWriteEvent }

/-- The call `channel_->enableReading()`, as far as the interest mask goes. -/
def ConnState.enableReading (c : ConnState) : ConnState :=
  { c with events_ := c.events_ ||| kReadEvent }

/-- The call `channel_->disableAll()`, as far as the interest mask goes. -/
def ConnState.disableAll (c : ConnState) : ConnState :=
  { c with events_ := kNoneEvent }

/-- The direct write of `sendInLoop`, attempted when the channel is not writing
and the output buffer is empty: `nwrote`, `remaining`, `faultError` and the
connection after it.  `w` is the outcome of `::write(fd, data, len)`. -/
def ConnState.directWrite (c : ConnState) (data : Str) (w : WriteResult) :
    Nat × Nat × Bool × ConnState :=
  let len := data.length
  if !c.isWriting && c.outputBuffer_.readableBytes == 0 then
    match w with
    | WriteResult.wrote nwrote =>
      let c1 := { c with socketCalls := c.socketCalls ++ [SocketCall.write (data.take nwrote)] }
      let remaining := len - nwrote
      if remaining = 0 ∧ c.writeCompleteCallback_ = true then
        (nwrote, remaining, false,
          { c1 with callbacks := c1.callbacks ++ [ConnCallback.writeComplete] })
      else (nwrote, remaining, false, c1)
    | WriteResult.failed errno =>
      if errno ≠ EWOULDBLOCK then
        if errno = EPIPE ∨ errno = ECONNRESET then (0, len, true, c)
        else (0, len, false, c)
      else (0, len, false, c)
  else (0, len, false, c)

/-- The second part of `sendInLoop`, run when `!faultError && remaining > 0`:
the high-water mark callback is queued when the mark is crossed, the remaining
characters `data + nwrote .. data + nwrote + remaining` are appended to the
output buffer, and writing is enabled on the channel. -/
def ConnState.bufferRest (c1 : ConnState) (data : Str) (nwrote remaining : Nat) :
    ConnState :=
  let oldLen := c1.outputBuffer_.readableBytes
  let c2 :=
    if oldLen + remaining ≥ c1.highWaterMark_ ∧ oldLen < c1.highWaterMark_ ∧
        c1.highWaterMarkCallback_ = true then
      { c1 with
        callbacks := c1.callbacks ++ [ConnCallback.highWaterMark (oldLen + remaining)] }
    else c1
  let c3 := { c2 with
    outputBuffer_ := c2.outputBuffer_.append ((data.drop nwrote).take remaining) }
  if !c3.isWriting then c3.enableWriting else c3

/-- The method `sendInLoop`; `w` is the outcome of the direct write, if one is
attempted. -/
def ConnState.sendInLoop (c : ConnState) (data : Str) (w : WriteResult) : ConnState :=
  if c.state_ = StateE.kDisconnected then c
  else
    match c.directWrite data w with
    | (nwrote, remaining, faultError, c1) =>
      if !faultError && decide (remaining > 0) then c1.bufferRest data nwrote remaining
      else c1

/-- The method `send(const std::string&)` called on the loop thread. -/
def ConnState.send (c : ConnState) (message : Str) (w : WriteResult) : ConnState :=
  if c.state_ = StateE.kConnected then c.sendInLoop message w else c

/-- The method `shutdownInLoop`. -/
def ConnState.shutdownInLoop (c : ConnState) : ConnState :=
  if !c.isWriting then { c with socketCalls := c.socketCalls ++ [SocketCall.shutdownWrite] }
  else c

/-- The method `shutdown` called on the loop thread, where `runInLoop` calls at
once. -/
def ConnState.shutdown (c : ConnState) : ConnState :=
  if c.state_ = StateE.kConnected then
    ({ c with state_ := StateE.kDisconnecting }).shutdownInLoop
  else c

/-- The method `handleWrite`; `w` is the outcome of the `::write` that
`outputBuffer_.writeFd` makes with all readable characters, if it is made. -/
def ConnState.handleWrite (c : ConnState) (w : WriteResult) : ConnState :=
  if c.isWriting then
    match w with
    | WriteResult.wrote n =>
      let c1 := { c with
        socketCalls := c.socketCalls ++ [SocketCall.write (c.outputBuffer_.readable.take n)] }
      if n > 0 then
        let c2 := { c1 with outputBuffer_ := c1.outputBuffer_.retrieve n }
        if c2.outputBuffer_.readableBytes = 0 then
          let c3 := c2.disableWriting
          let c4 :=
            if c3.writeCompleteCallback_ then
              { c3 with callbacks := c3.callbacks ++ [ConnCallback.writeComplete] }
            else c3
          if c4.state_ = StateE.kDisconnecting then c4.shutdownInLoop else c4
        else c2
      else c1
    | WriteResult.failed _ => c
  else c

/-- The method `handleClose`. -/
def ConnState.handleClose (c : ConnState) : ConnState :=
  let c1 := ({ c with state_ := StateE.kDisconnected }).disableAll
  let c2 :=
    if c1.connectionCallback_ then
      { c1 with callbacks := c1.callbacks ++ [ConnCallback.connection] }
    else c1
  if c2.closeCallback_ then { c2 with callbacks := c2.callbacks ++ [ConnCallback.close] }
  else c2

/-- The method `handleError`: it reads `SO_ERROR` and writes a log line. -/
def ConnState.handleError (c : ConnState) : ConnState := c

/-- The method `handleRead`; `outcome` is the outcome of the `readv` that
`inputBuffer_.readFd` makes.  The body of the message callback is not part of
the model. -/
def ConnState.handleRead (c : ConnState) (outcome : Option Str) : ConnState :=
  match c.inputBuffer_.readFd outcome with
  | (n, inputBuffer1) =>
    let c1 := { c with inputBuffer_ := inputBuffer1 }
    if n > 0 then
      if c1.messageCallback_ then
        { c1 with callbacks := c1.callbacks ++ [ConnCallback.message] }
      else c1
    else if n = 0 then c1.handleClose
    else c1.handleError

/-- The method `connectEstablished`. -/
def ConnState.connectEstablished (c : ConnState) : ConnState :=
  let c1 := ({ c with state_ := StateE.kConnected }).enableReading
  if c1.connectionCallback_ then
    { c1 with callbacks := c1.callbacks ++ [ConnCallback.connection] }
  else c1

/-- The method `connectDestroyed`, as far as the connection goes. -/
def ConnState.connectDestroyed (c : ConnState) : ConnState :=
  if c.state_ = StateE.kConnected then
    let c1 := ({ c with state_ := StateE.kDisconnected }).disableAll
    if c1.connectionCallback_ then
      { c1 with callbacks := c1.callbacks ++ [ConnCallback.connection] }
    else c1
  else c

/-- The method `forceCloseInLoop`. -/
def ConnState.forceCloseInLoop (c : ConnState) : ConnState :=
  if c.state_ = StateE.kConnected ∨ c.state_ = StateE.kDisconnecting then c.handleClose
  else c

/-- The events on the loop thread of a connection. -/
inductive ConnOp where
  | connectEstablished
  | send (message : Str) (w : WriteResult)
  | sendInLoop (data : Str) (w : WriteResult)
  | handleWrite (w : WriteResult)
  | shutdown
  | handleRead (outcome : Option Str)
  | handleClose
  | handleError
  | forceCloseInLoop
  | connectDestroyed

/-- The connection after an event. -/
def ConnState.step (c : ConnState) : ConnOp → ConnState
  | ConnOp.connectEstablished => c.connectEstablished
  | ConnOp.send message w => c.send message w
  | ConnOp.sendInLoop data w => c.sendInLoop data w
  | ConnOp.handleWrite w => c.handleWrite w
  | ConnOp.shutdown => c.shutdown
  | ConnOp.handleRead outcome => c.handleRead outcome
  | ConnOp.handleClose => c.handleClose
  | ConnOp.handleError => c.handleError
  | ConnOp.forceCloseInLoop => c.forceCloseInLoop
  | ConnOp.connectDestroyed => c.connectDestroyed

/-- Whether a `::write` offered the characters `offered` can have the outcome
`w`: the socket accepts a part of what is offered. -/
def writeAdmits (offered : Str) : WriteResult → Prop
  | WriteResult.wrote n => n ≤ offered.length
  | WriteResult.failed _ => True

/-- Whether an event can occur in the state `c`: `connectEstablished` is called
once, on the connection as constructed; a write accepts a part of what it is
offered; a read returns at most what `readv` has room for. -/
def ConnState.admits (c : ConnState) : ConnOp → Prop
  | ConnOp.connectEstablished => c.state_ = StateE.kConnecting
  | ConnOp.send message w => writeAdmits message w
  | ConnOp.sendInLoop data w => writeAdmits data w
  | ConnOp.handleWrite w => writeAdmits c.outputBuffer_.readable w
  | ConnOp.handleRead (some data) => data.length ≤ c.inputBuffer_.writableBytes + 65536
  | _ => True

/-- The connections reached from a freshly constructed one by events on the
loop thread. -/
inductive ConnState.Reachable : ConnState → Prop
  | init (connectionCb messageCb writeCompleteCb highWaterMarkCb closeCb : Bool) :
      ConnState.Reachable
        (ConnState.new connectionCb messageCb writeCompleteCb highWaterMarkCb closeCb)
  | step {c : ConnState} (op : ConnOp) :
      ConnState.Reachable c → c.admits op → ConnState.Reachable (c.step op)

/-- The invariant of the send path: the output buffer is well formed; on a
connection that is not disconnected the channel is interested in writing
exactly when the output buffer holds characters; a disconnected connection is
not interested in writing. -/
def ConnState.SendInv (c : ConnState) : Prop :=
  c.outputBuffer_.Inv8 ∧
  (c.state_ ≠ StateE.kDisconnected →
    (c.isWriting = true ↔ 0 < c.outputBuffer_.readableBytes)) ∧
  (c.state_ = StateE.kDisconnected → c.isWriting = false)

/-- The characters the socket has accepted, in the order of the calls. -/
def sentBytes : List SocketCall → List Char
  | [] => []
  | SocketCall.write accepted :: rest => accepted ++ sentBytes rest
  | SocketCall.shutdownWrite :: rest => sentBytes rest

/-- The characters of the messages, in the order of the messages. -/
def allBytes : List Str → List Char
  | [] => []
  | m :: rest => m ++ allBytes rest

/-- `SendTrace c0 msgs c`: the connection `c` is reached from `c0` by calls of
`sendInLoop`, with the messages `msgs` in this order, and calls of
`handleWrite`, in any interleaving, where every write accepts a part of what
it is offered or fails with `EWOULDBLOCK`. -/
inductive SendTrace (c0 : ConnState) : List Str → ConnState → Prop
  | start : SendTrace c0 [] c0
  | sendInLoop {msgs : List Str} {c : ConnState} (data : Str) (w : WriteResult) :
      SendTrace c0 msgs c → writeAdmits data w →
      (∀ errno, w = WriteResult.failed errno → errno = EWOULDBLOCK) →
      SendTrace c0 (msgs ++ [data]) (c.sendInLoop data w)
  | handleWrite {msgs : List Str} {c : ConnState} (w : WriteResult) :
      SendTrace c0 msgs c → writeAdmits c.outputBuffer_.readable w →
      (∀ errno, w = WriteResult.failed errno → errno = EWOULDBLOCK) →
      SendTrace c0 msgs (c.handleWrite w)

/-- A connected connection with small, empty buffers and all callbacks
installed, interested in reading. -/
def demoConn : ConnState :=
  { state_ := StateE.kConnected, events_ := 3,
    inputBuffer_ := Buffer.new 8, outputBuffer_ := Buffer.new 8,
    highWaterMark_ := 64, connectionCallback_ := true, messageCallback_ := true,
    writeCompleteCallback_ := true, highWaterMarkCallback_ := true, closeCallback_ := true,
    socketCalls := [], callbacks := [] }

/-! ## Acceptor (`src/net/acceptor.cpp`, `src/net/socket.cpp`) -/

/-- The calls `Acceptor::handleRead` makes with an accepted connection. -/
inductive AcceptorCall where
  | newConnection (connfd peerAddr : Nat)
  | close (connfd : Nat)
  deriving DecidableEq

/-- The `class Acceptor`: whether `newConnectionCallback_` is installed, the
accept queue of the listening socket (for each pending connection the
descriptor `accept4` will return and the peer address), and the record of the
calls made with accepted connections, oldest first. -/
structure Acceptor where
  newConnectionCallback_ : Bool
  pending : List (Nat × Nat)
  calls : List AcceptorCall
  deriving DecidableEq

/-- The method `Socket::accept` on the listening socket: the first pending
connection is taken from the queue; `none` is the result -1 of `accept4` on an
empty queue (it would block). -/
def Acceptor.accept (a : Acceptor) : Option (Nat × Nat) × Acceptor :=
  match a.pending with
  | [] => (none, a)
  | conn :: rest => (some conn, { a with pending := rest })

/-- The method `Acceptor::handleRead`. -/
def Acceptor.handleRead (a : Acceptor) : Acceptor :=
  match a.accept with
  | (some (connfd, peerAddr), a1) =>
    if a1.newConnectionCallback_ then
      { a1 with calls := a1.calls ++ [AcceptorCall.newConnection connfd peerAddr] }
    else { a1 with calls := a1.calls ++ [AcceptorCall.close connfd] }
  | (none, a1) => a1

/-- An acceptor with its callback installed and two connections pending. -/
def demoAcceptor : Acceptor := ⟨true, [(7, 1), (8, 2)], []⟩

/-! ## Concurrent inserts (`SkipList::insert` under `MutexLockGuard`) -/

/-- `Interleaving threads ops`: the list `ops` is a merge of the lists
`threads`, each of which keeps its order.  Every call of `insert` holds the
mutex of the list from its first statement to its return, so a run of the
threads executes the calls one after another, in such an order. -/
inductive Interleaving {α : Type} : List (List α) → List α → Prop
  | done (threads : List (List α)) : (∀ t ∈ threads, t = []) → Interleaving threads []
  | step (threads : List (List α)) (i : Nat) (x : α) (rest : List α) (ops : List α) :
      threads[i]? = some (x :: rest) → Interleaving (threads.set i rest) ops →
      Interleaving threads (x :: ops)

/-- All elements of the lists, list after list. -/
def mergeAll {α : Type} : List (List α) → List α
  | [] => []
  | t :: rest => t ++ mergeAll rest

/-- The calls `insert(k, v)` for the pairs of `ops`, one after another;
`draws i` gives the random samples of the `i`-th call. -/
def insertSeq {K V : Type} [LT K] [DecidableRel (fun (a b : K) => a < b)] [DecidableEq K]
    (s : SkipList K V) : List (K × V) → (Nat → Nat → Bool) → Option (SkipList K V)
  | [], _ => some s
  | kv :: rest, draws =>
    match s.insert kv.1 kv.2 (draws 0) with
    | none => none
    | some (_, s1) => insertSeq s1 rest (fun i => draws (i + 1))

/-! ## Further demonstration values -/

/-- The connection right after `connectEstablished`, with all callbacks
installed. -/
def demoEstablished : ConnState :=
  (ConnState.new true true true true true).step ConnOp.connectEstablished

/-- A buffer whose readable region is `PUT k v\r\r\n`. -/
def demoDoubleCR : Buffer :=
  ⟨"........PUT k v\r\r\n....".toList, 8, 18⟩
/-! ## Skip list: reading and writing the heap -/

section HeapLemmas

variable {K V : Type}

theorem getElem?_eq_nodeAt [Inhabited K] [Inhabited V] (h : List (Node K V)) (n : Nat)
    (hn : n < h.length) : h[n]? = some (nodeAt h n) := by
  simp [nodeAt, List.getD, List.getElem?_eq_getElem hn]

theorem nodeAt_of_getElem? [Inhabited K] [Inhabited V] {h : List (Node K V)} {n : Nat}
    {nd : Node K V} (e : h[n]? = some nd) : nodeAt h n = nd := by
  simp [nodeAt, List.getD, e]

theorem lt_of_getElem?_some {h : List (Node K V)} {n : Nat} {nd : Node K V}
    (e : h[n]? = some nd) : n < h.length := by
  by_contra hc
  rw [List.getElem?_eq_none (Nat.le_of_not_lt hc)] at e
  cases e

theorem fwd_lt {h : List (Node K V)} {p i : Nat} {q : NodePtr}
    (e : fwd h p i = some q) : p < h.length := by
  unfold fwd at e
  cases hp : h[p]? with
  | none => simp [hp] at e
  | some nd => exact lt_of_getElem?_some hp

theorem setFwd_some_of_fwd {h : List (Node K V)} {p i : Nat} {x : NodePtr}
    (e : fwd h p i = some x) (q : NodePtr) : ∃ h1, setFwd h p i q = some h1 := by
  unfold fwd at e
  unfold setFwd
  cases hp : h[p]? with
  | none => simp [hp] at e
  | some nd =>
    simp only [hp] at e
    have hi : i < nd.forward.length := by
      by_contra hc
      rw [List.getElem?_eq_none (Nat.le_of_not_lt hc)] at e
      cases e
    simp [hi]

theorem setFwd_length {h h1 : List (Node K V)} {p i : Nat} {q : NodePtr}
    (e : setFwd h p i q = some h1) : h1.length = h.length := by
  unfold setFwd at e
  cases hp : h[p]? with
  | none => simp [hp] at e
  | some nd =>
    simp only [hp] at e
    split at e
    · cases e; simp
    · cases e

theorem fwd_setFwd {h h1 : List (Node K V)} {p i : Nat} {q : NodePtr}
    (e : setFwd h p i q = some h1) (n j : Nat) :
    fwd h1 n j = if n = p ∧ j = i then some q else fwd h n j := by
  unfold setFwd at e
  cases hp : h[p]? with
  | none => simp [hp] at e
  | some nd =>
    simp only [hp] at e
    split at e
    · rename_i hi
      cases e
      have hpl := lt_of_getElem?_some hp
      unfold fwd
      by_cases hn : n = p
      · subst hn
        simp only [List.getElem?_set_self hpl, hp, true_and]
        by_cases hj : j = i
        · subst hj
          simp [List.getElem?_set_self hi]
        · simp [hj, List.getElem?_set_ne (Ne.symm hj)]
      · simp [hn, List.getElem?_set_ne (Ne.symm hn)]
    · cases e

theorem fwd_setFwd_same {h h1 : List (Node K V)} {p i : Nat} {q : NodePtr}
    (e : setFwd h p i q = some h1) : fwd h1 p i = some q := by
  rw [fwd_setFwd e]; simp

theorem fwd_setFwd_level {h h1 : List (Node K V)} {p i : Nat} {q : NodePtr}
    (e : setFwd h p i q = some h1) (n j : Nat) (hj : j ≠ i) : fwd h1 n j = fwd h n j := by
  rw [fwd_setFwd e]; simp [hj]

theorem fwd_setFwd_node {h h1 : List (Node K V)} {p i : Nat} {q : NodePtr}
    (e : setFwd h p i q = some h1) (n j : Nat) (hn : n ≠ p) : fwd h1 n j = fwd h n j := by
  rw [fwd_setFwd e]; simp [hn]

theorem nodeAt_setFwd [Inhabited K] [Inhabited V] {h h1 : List (Node K V)} {p i : Nat}
    {q : NodePtr} (e : setFwd h p i q = some h1) (n : Nat) :
    (nodeAt h1 n).key = (nodeAt h n).key ∧ (nodeAt h1 n).value = (nodeAt h n).value ∧
    (nodeAt h1 n).nodeLevel = (nodeAt h n).nodeLevel ∧
    (nodeAt h1 n).forward.length = (nodeAt h n).forward.length := by
  unfold setFwd at e
  cases hp : h[p]? with
  | none => simp [hp] at e
  | some nd =>
    simp only [hp] at e
    split at e
    · cases e
      have hpl := lt_of_getElem?_some hp
      by_cases hn : n = p
      · subst hn
        have e1 : nodeAt h n = nd := nodeAt_of_getElem? hp
        have e2 : nodeAt (h.set n { nd with forward := nd.forward.set i q }) n =
            { nd with forward := nd.forward.set i q } :=
          nodeAt_of_getElem? (List.getElem?_set_self hpl)
        rw [e1, e2]; simp
      · have e2 : nodeAt (h.set p { nd with forward := nd.forward.set i q }) n = nodeAt h n := by
          simp [nodeAt, List.getD, List.getElem?_set_ne (Ne.symm hn)]
        rw [e2]; simp
    · cases e

theorem keyOf_setFwd [Inhabited K] [Inhabited V] {h h1 : List (Node K V)} {p i : Nat}
    {q : NodePtr} (e : setFwd h p i q = some h1) (n : Nat) : keyOf h1 n = keyOf h n :=
  (nodeAt_setFwd e n).1

theorem valOf_setFwd [Inhabited K] [Inhabited V] {h h1 : List (Node K V)} {p i : Nat}
    {q : NodePtr} (e : setFwd h p i q = some h1) (n : Nat) : valOf h1 n = valOf h n :=
  (nodeAt_setFwd e n).2.1

theorem lvlOf_setFwd [Inhabited K] [Inhabited V] {h h1 : List (Node K V)} {p i : Nat}
    {q : NodePtr} (e : setFwd h p i q = some h1) (n : Nat) : lvlOf h1 n = lvlOf h n :=
  (nodeAt_setFwd e n).2.2.1

theorem head_setFwd {h h1 : List (Node K V)} {p i : Nat} {q : NodePtr} {m : Nat}
    (e : setFwd h p i q = some h1)
    (hh : ∃ nd, h[0]? = some nd ∧ nd.forward.length = m) :
    ∃ nd, h1[0]? = some nd ∧ nd.forward.length = m := by
  obtain ⟨nd, e0, el⟩ := hh
  unfold setFwd at e
  cases hp : h[p]? with
  | none => simp [hp] at e
  | some np =>
    simp only [hp] at e
    split at e
    · cases e
      have hpl := lt_of_getElem?_some hp
      by_cases h0 : p = 0
      · subst h0
        rw [e0] at hp; cases hp
        exact ⟨_, List.getElem?_set_self hpl, by simpa using el⟩
      · exact ⟨nd, by rw [List.getElem?_set_ne h0]; exact e0, el⟩
    · cases e

/-! ### `setValue` -/

theorem setValue_some {h : List (Node K V)} {p : Nat} (hp : p < h.length) (v : V) :
    ∃ h1, setValue h p v = some h1 := by
  unfold setValue
  cases e : h[p]? with
  | none => rw [List.getElem?_eq_none_iff] at e; omega
  | some nd => exact ⟨_, rfl⟩

theorem setValue_length {h h1 : List (Node K V)} {p : Nat} {v : V}
    (e : setValue h p v = some h1) : h1.length = h.length := by
  unfold setValue at e
  cases hp : h[p]? with
  | none => simp [hp] at e
  | some nd => simp only [hp] at e; cases e; simp

theorem fwd_setValue {h h1 : List (Node K V)} {p : Nat} {v : V}
    (e : setValue h p v = some h1) (n j : Nat) : fwd h1 n j = fwd h n j := by
  unfold setValue at e
  cases hp : h[p]? with
  | none => simp [hp] at e
  | some nd =>
    simp only [hp] at e; cases e
    have hpl := lt_of_getElem?_some hp
    unfold fwd
    by_cases hn : n = p
    · subst hn
      simp [List.getElem?_set_self hpl, hp]
    · simp [List.getElem?_set_ne (Ne.symm hn)]

theorem nodeAt_setValue [Inhabited K] [Inhabited V] {h h1 : List (Node K V)} {p : Nat}
    {v : V} (e : setValue h p v = some h1) (n : Nat) :
    (nodeAt h1 n).key = (nodeAt h n).key ∧
    (nodeAt h1 n).value = (if n = p then v else (nodeAt h n).value) ∧
    (nodeAt h1 n).nodeLevel = (nodeAt h n).nodeLevel := by
  unfold setValue at e
  cases hp : h[p]? with
  | none => simp [hp] at e
  | some nd =>
    simp only [hp] at e; cases e
    have hpl := lt_of_getElem?_some hp
    by_cases hn : n = p
    · subst hn
      have e1 : nodeAt h n = nd := nodeAt_of_getElem? hp
      have e2 : nodeAt (h.set n { nd with value := v }) n = { nd with value := v } :=
        nodeAt_of_getElem? (List.getElem?_set_self hpl)
      rw [e1, e2]; simp
    · have e2 : nodeAt (h.set p { nd with value := v }) n = nodeAt h n := by
        simp [nodeAt, List.getD, List.getElem?_set_ne (Ne.symm hn)]
      rw [e2]; simp [hn]

theorem head_setValue {h h1 : List (Node K V)} {p : Nat} {v : V} {m : Nat}
    (e : setValue h p v = some h1)
    (hh : ∃ nd, h[0]? = some nd ∧ nd.forward.length = m) :
    ∃ nd, h1[0]? = some nd ∧ nd.forward.length = m := by
  obtain ⟨nd, e0, el⟩ := hh
  unfold setValue at e
  cases hp : h[p]? with
  | none => simp [hp] at e
  | some np =>
    simp only [hp] at e; cases e
    have hpl := lt_of_getElem?_some hp
    by_cases h0 : p = 0
    · subst h0
      rw [e0] at hp; cases hp
      exact ⟨_, List.getElem?_set_self hpl, by simpa using el⟩
    · exact ⟨nd, by rw [List.getElem?_set_ne h0]; exact e0, el⟩

/-! ### Allocation of a node at the end of the heap -/

theorem fwd_append_old (h : List (Node K V)) (nd : Node K V) {n : Nat} (hn : n < h.length)
    (j : Nat) : fwd (h ++ [nd]) n j = fwd h n j := by
  unfold fwd
  rw [List.getElem?_append_left hn]

theorem fwd_append_new (h : List (Node K V)) (k : K) (v : V) (lv j : Nat) :
    fwd (h ++ [Node.mk3 k v lv]) h.length j = if j ≤ lv then some none else none := by
  unfold fwd
  have : (h ++ [Node.mk3 k v lv])[h.length]? = some (Node.mk3 k v lv) := by
    rw [List.getElem?_append_right (Nat.le_refl _)]; simp
  rw [this]
  simp only [Node.mk3]
  by_cases hj : j ≤ lv
  · simp [hj, List.getElem?_replicate, Nat.lt_succ_of_le hj]
  · simp [hj, List.getElem?_replicate]
    omega

theorem nodeAt_append_old [Inhabited K] [Inhabited V] (h : List (Node K V)) (nd : Node K V)
    {n : Nat} (hn : n < h.length) : nodeAt (h ++ [nd]) n = nodeAt h n := by
  simp [nodeAt, List.getD, List.getElem?_append_left hn]

theorem nodeAt_append_new [Inhabited K] [Inhabited V] (h : List (Node K V)) (nd : Node K V) :
    nodeAt (h ++ [nd]) h.length = nd := by
  simp [nodeAt, List.getD]

end HeapLemmas

/-! ## Skip list: forward chains and the descent -/

section ChainLemmas

variable {K V : Type}

theorem lastFrom_mem (c : Nat) (l : List Nat) : lastFrom c l ∈ c :: l := by
  induction l generalizing c with
  | nil => simp [lastFrom]
  | cons a l ih =>
    have := ih a
    simp only [lastFrom]
    exact List.mem_cons_of_mem _ this

theorem lastFrom_append (c : Nat) (l1 l2 : List Nat) :
    lastFrom c (l1 ++ l2) = lastFrom (lastFrom c l1) l2 := by
  induction l1 generalizing c with
  | nil => simp [lastFrom]
  | cons a l ih => simp only [List.cons_append, lastFrom]; exact ih a

theorem lastFrom_ne_of_nodup (c : Nat) (l t : List Nat)
    (hnd : (c :: l ++ t).Nodup) : ∀ x ∈ t, x ≠ lastFrom c l := by
  intro x hx hEq
  have hm := lastFrom_mem c l
  rw [← hEq] at hm
  have := List.nodup_append.mp hnd
  exact (List.disjoint_right.mp this.2.2) hx hm

theorem chain_congr {h h1 : List (Node K V)} {i : Nat} {l : List Nat}
    (hf : ∀ n ∈ l, fwd h1 n i = fwd h n i) {p : NodePtr} (hc : Chain h i p l) :
    Chain h1 i p l := by
  induction l generalizing p with
  | nil => exact hc
  | cons a l ih =>
    obtain ⟨hp, q, hq, hrest⟩ := hc
    refine ⟨hp, q, ?_, ih (fun n hn => hf n (List.mem_cons_of_mem _ hn)) hrest⟩
    rw [hf a (List.mem_cons_self _ _)]; exact hq

theorem chain_head {h : List (Node K V)} {i : Nat} {p : NodePtr} {l : List Nat}
    (hc : Chain h i p l) : p = l.head? := by
  cases l with
  | nil => exact hc
  | cons a l => exact hc.1

theorem chain_valid {h : List (Node K V)} {i : Nat} {p : NodePtr} {l : List Nat}
    (hc : Chain h i p l) : ∀ n ∈ l, ∃ q, fwd h n i = some q := by
  induction l generalizing p with
  | nil => intro n hn; cases hn
  | cons a l ih =>
    obtain ⟨_, q, hq, hrest⟩ := hc
    intro n hn
    rcases List.mem_cons.mp hn with rfl | hn
    · exact ⟨q, hq⟩
    · exact ih hrest n hn

/-- The pointer stored in the last node of the first part of a chain is the
head of the second part. -/
theorem chain_fwd_last {h : List (Node K V)} {i : Nat} {c : Nat} {l t : List Nat}
    (hc : Chain h i (some c) (c :: l ++ t)) :
    fwd h (lastFrom c l) i = some t.head? ∧ Chain h i t.head? t := by
  induction l generalizing c with
  | nil =>
    obtain ⟨_, q, hq, hrest⟩ := hc
    have := chain_head hrest
    subst this
    exact ⟨hq, hrest⟩
  | cons a l ih =>
    obtain ⟨_, q, hq, hrest⟩ := hc
    have hqa : q = some a := hrest.1
    subst hqa
    exact ih hrest

/-- Splicing a node into a chain after the last node of its first part. -/
theorem chain_insert {h h1 : List (Node K V)} {i c nw : Nat} {l t : List Nat}
    (hc : Chain h i (some c) (c :: l ++ t))
    (hnd : (c :: l ++ t).Nodup) (hnw : nw ∉ c :: l ++ t)
    (hu : fwd h1 (lastFrom c l) i = some (some nw))
    (hn : fwd h1 nw i = fwd h (lastFrom c l) i)
    (hf : ∀ n, n ≠ lastFrom c l → n ≠ nw → fwd h1 n i = fwd h n i) :
    Chain h1 i (some c) (c :: l ++ nw :: t) := by
  induction l generalizing c with
  | nil =>
    obtain ⟨_, q, hq, hrest⟩ := hc
    simp only [lastFrom] at hu hn hf
    refine ⟨rfl, some nw, hu, rfl, q, by rw [hn]; exact hq, ?_⟩
    apply chain_congr _ hrest
    intro n hnt
    apply hf
    · intro e; subst e
      simp only [List.cons_append, List.nil_append, List.nodup_cons] at hnd
      exact hnd.1 hnt
    · intro e; subst e
      have hnt1 : n ∈ t := by simpa using hnt
      exact hnw (by simp [hnt1])
  | cons a l ih =>
    obtain ⟨_, q, hq, hrest⟩ := hc
    have hqa : q = some a := hrest.1
    subst hqa
    simp only [lastFrom] at hu hn hf
    have hnd1 : (a :: l ++ t).Nodup := by
      simp only [List.cons_append, List.nodup_cons] at hnd ⊢
      exact hnd.2
    have hca : c ≠ lastFrom a l := by
      intro e
      have hm := lastFrom_mem a l
      rw [← e] at hm
      simp only [List.cons_append, List.nodup_cons] at hnd
      apply hnd.1
      rcases List.mem_cons.mp hm with e1 | e1
      · simp [e1]
      · simp [e1]
    have hcn : c ≠ nw := by
      intro e; subst e; exact hnw (by simp)
    refine ⟨rfl, some a, by rw [hf c hca hcn]; exact hq, ?_⟩
    exact ih hrest hnd1 (fun hm => hnw (List.mem_cons_of_mem _ hm)) hu hn hf

/-- Unlinking from a chain the node that follows the last node of its first
part. -/
theorem chain_remove {h h1 : List (Node K V)} {i c x : Nat} {l t : List Nat}
    (hc : Chain h i (some c) (c :: l ++ x :: t))
    (hnd : (c :: l ++ x :: t).Nodup)
    (hu : fwd h1 (lastFrom c l) i = fwd h x i)
    (hf : ∀ n, n ≠ lastFrom c l → fwd h1 n i = fwd h n i) :
    Chain h1 i (some c) (c :: l ++ t) := by
  induction l generalizing c with
  | nil =>
    obtain ⟨_, q, hq, hrest⟩ := hc
    obtain ⟨_, q2, hq2, hrest2⟩ := hrest
    simp only [lastFrom] at hu hf
    refine ⟨rfl, q2, by rw [hu]; exact hq2, ?_⟩
    apply chain_congr _ hrest2
    intro n hnt
    apply hf
    intro e; subst e
    simp only [List.cons_append, List.nil_append, List.nodup_cons, List.mem_cons] at hnd
    exact hnd.1 (Or.inr hnt)
  | cons a l ih =>
    obtain ⟨_, q, hq, hrest⟩ := hc
    have hqa : q = some a := hrest.1
    subst hqa
    simp only [lastFrom] at hu hf
    have hnd1 : (a :: l ++ x :: t).Nodup := by
      simp only [List.cons_append, List.nodup_cons] at hnd ⊢
      exact hnd.2
    have hca : c ≠ lastFrom a l := by
      intro e
      have hm := lastFrom_mem a l
      rw [← e] at hm
      simp only [List.cons_append, List.nodup_cons] at hnd
      apply hnd.1
      rcases List.mem_cons.mp hm with e1 | e1
      · simp [e1]
      · simp [e1]
    refine ⟨rfl, some a, by rw [hf c hca]; exact hq, ?_⟩
    exact ih hrest hnd1 hu hf

end ChainLemmas

/-! ## Skip list: the inner loop and the descent through the levels -/

section OnLevel

variable {K V : Type} [Inhabited K] [Inhabited V]

theorem onLevel_append (h : List (Node K V)) (i : Nat) (l1 l2 : List Nat) :
    onLevel h i (l1 ++ l2) = onLevel h i l1 ++ onLevel h i l2 := by
  simp [onLevel]

theorem onLevel_subset (h : List (Node K V)) (i : Nat) (l : List Nat) :
    ∀ n ∈ onLevel h i l, n ∈ l := by
  intro n hn
  exact (List.mem_filter.mp hn).1

theorem onLevel_mono (h : List (Node K V)) {i j : Nat} (hij : i ≤ j) (l : List Nat) :
    ∀ n ∈ onLevel h j l, n ∈ onLevel h i l := by
  intro n hn
  have := List.mem_filter.mp hn
  refine List.mem_filter.mpr ⟨this.1, ?_⟩
  have h2 : j ≤ lvlOf h n := by simpa using this.2
  simpa using Nat.le_trans hij h2

theorem onLevel_zero (h : List (Node K V)) (l : List Nat) : onLevel h 0 l = l := by
  simp [onLevel]

theorem onLevel_length_le (h : List (Node K V)) (i : Nat) (l : List Nat) :
    (onLevel h i l).length ≤ l.length := by
  simp only [onLevel]
  exact List.length_filter_le _ _

theorem predAt_mem_below (h : List (Node K V)) (lo : List Nat) {i j : Nat} (hij : i ≤ j) :
    predAt h lo j ∈ 0 :: onLevel h i lo := by
  have := lastFrom_mem 0 (onLevel h j lo)
  rcases List.mem_cons.mp this with e | e
  · unfold predAt; rw [e]; simp
  · exact List.mem_cons_of_mem _ (onLevel_mono h hij lo _ e)

end OnLevel

section Descent

variable {K V : Type} [Inhabited K] [Inhabited V] [LinearOrder K]

/-- The inner loop, started anywhere in the part of the level-`i` chain whose
keys are below `key`, stops at the last node of that part. -/
theorem advance_spec (h : List (Node K V)) (key : K) (i : Nat) :
    ∀ (X : List Nat) (a : Nat) (R : List Nat) (fuel c : Nat),
      Chain h i (some a) (a :: X ++ R) →
      (∀ x ∈ X, keyOf h x < key) → (∀ r ∈ R, ¬ keyOf h r < key) →
      (∀ n ∈ X ++ R, n < h.length) →
      X.length < fuel → c ∈ a :: X →
      advance h key i fuel c = some (lastFrom a X) := by
  intro X
  induction X with
  | nil =>
    intro a R fuel c hc _ hR hv hfuel hmem
    have hca : c = a := by simpa using hmem
    subst hca
    obtain ⟨f, rfl⟩ : ∃ f, fuel = f + 1 := ⟨fuel - 1, by simp at hfuel; omega⟩
    obtain ⟨_, q, hq, hrest⟩ := hc
    have hrest : Chain h i q R := hrest
    have hqh := chain_head hrest
    cases R with
    | nil =>
      have hqh : q = none := hqh
      subst hqh
      simp [advance, hq, lastFrom]
    | cons r R =>
      have hqh : q = some r := hqh
      subst hqh
      have hr : r < h.length := hv r (by simp)
      have hk : ¬ keyOf h r < key := hR r (by simp)
      have hk1 : ¬ (nodeAt h r).key < key := hk
      simp [advance, hq, getElem?_eq_nodeAt h r hr, hk1, lastFrom]
  | cons x X ih =>
    intro a R fuel c hc hX hR hv hfuel hmem
    obtain ⟨f, rfl⟩ : ∃ f, fuel = f + 1 := ⟨fuel - 1, by simp at hfuel; omega⟩
    obtain ⟨_, q, hq, hrest⟩ := hc
    have hqx : q = some x := hrest.1
    subst hqx
    have hX1 : ∀ y ∈ X, keyOf h y < key := fun y hy => hX y (List.mem_cons_of_mem _ hy)
    have hv1 : ∀ n ∈ X ++ R, n < h.length := fun n hn => hv n (by
      simp only [List.cons_append, List.mem_cons]; exact Or.inr hn)
    rcases List.mem_cons.mp hmem with hca | hcx
    · subst hca
      have hx : x < h.length := hv x (by simp)
      have hk : (nodeAt h x).key < key := hX x (by simp)
      have hrec := ih x R f x hrest hX1 hR hv1 (by simp at hfuel; omega) (by simp)
      simp only [advance, hq, getElem?_eq_nodeAt h x hx, hk, if_true, lastFrom]
      exact hrec
    · have hrec := ih x R (f + 1) c hrest hX1 hR hv1 (by simp at hfuel; omega) hcx
      simp only [lastFrom]
      exact hrec

theorem advance_level {h : List (Node K V)} {key : K} {lo hi : List Nat} {top : Nat}
    (d : Descent h key lo hi top) {i : Nat} (hi1 : i ≤ top) {fuel : Nat} (c : Nat)
    (hfuel : lo.length < fuel) (hc : c ∈ 0 :: onLevel h i lo) :
    advance h key i fuel c = some (predAt h lo i) := by
  apply advance_spec h key i (onLevel h i lo) 0 (onLevel h i hi) fuel c (d.chain i hi1)
  · intro x hx; exact d.lo_lt x (onLevel_subset h i lo x hx)
  · intro r hr; exact d.hi_ge r (onLevel_subset h i hi r hr)
  · intro n hn
    apply d.valid
    rcases List.mem_append.mp hn with hn | hn
    · exact List.mem_append_left _ (onLevel_subset h i lo n hn)
    · exact List.mem_append_right _ (onLevel_subset h i hi n hn)
  · exact Nat.lt_of_le_of_lt (onLevel_length_le h i lo) hfuel
  · exact hc

/-- The descent of `search` ends at the predecessor of `key` on level 0. -/
theorem descendSearch_spec {h : List (Node K V)} {key : K} {lo hi : List Nat} {top : Nat}
    (d : Descent h key lo hi top) {fuel : Nat} (hfuel : lo.length < fuel) :
    ∀ (n c : Nat), n ≤ top + 1 → c ∈ 0 :: onLevel h (n - 1) lo →
      descendSearch h key fuel n c = some (if n = 0 then c else predAt h lo 0) := by
  intro n
  induction n with
  | zero => intro c _ _; simp [descendSearch]
  | succ i ih =>
    intro c hn hc
    have hi1 : i ≤ top := by omega
    have hadv := advance_level d hi1 c hfuel (by simpa using hc)
    simp only [descendSearch, hadv]
    rw [ih (predAt h lo i) (by omega) (predAt_mem_below h lo (by omega))]
    cases i with
    | zero => simp
    | succ j => simp

/-- The descent of `insert` and `remove` ends at the predecessor of `key` on
level 0 and records in `update` the predecessor on each level it went through. -/
theorem descend_spec {h : List (Node K V)} {key : K} {lo hi : List Nat} {top : Nat}
    (d : Descent h key lo hi top) {fuel : Nat} (hfuel : lo.length < fuel) :
    ∀ (n c : Nat) (upd : List NodePtr), n ≤ top + 1 → n ≤ upd.length →
      c ∈ 0 :: onLevel h (n - 1) lo →
      ∃ upd1, descend h key fuel n c upd =
          some (if n = 0 then c else predAt h lo 0, upd1) ∧
        upd1.length = upd.length ∧
        (∀ j, j < n → upd1[j]? = some (some (predAt h lo j))) ∧
        (∀ j, n ≤ j → upd1[j]? = upd[j]?) := by
  intro n
  induction n with
  | zero =>
    intro c upd _ _ _
    exact ⟨upd, by simp [descend], rfl, fun j hj => absurd hj (Nat.not_lt_zero _),
      fun j _ => rfl⟩
  | succ i ih =>
    intro c upd hn hlen hc
    have hi1 : i ≤ top := by omega
    have hil : i < upd.length := by omega
    have hadv := advance_level d hi1 c hfuel (by simpa using hc)
    obtain ⟨upd1, he, hl, hlow, hhigh⟩ :=
      ih (predAt h lo i) (upd.set i (some (predAt h lo i))) (by omega)
        (by simp; omega) (predAt_mem_below h lo (by omega))
    refine ⟨upd1, ?_, by simpa using hl, ?_, ?_⟩
    · simp only [descend, hadv, hil, if_true, he]
      cases i with
      | zero => simp
      | succ j => simp
    · intro j hj
      by_cases hji : j < i
      · exact hlow j hji
      · have hji2 : j = i := by omega
        subst hji2
        rw [hhigh j (Nat.le_refl _)]
        simp [List.getElem?_set_self hil]
    · intro j hj
      rw [hhigh j (by omega)]
      rw [List.getElem?_set_ne (by omega)]

end Descent

/-! ## Skip list: splitting the stored nodes at a key, and `search` -/

section Split

variable {K V : Type} [Inhabited K] [Inhabited V] [LinearOrder K] [DecidableEq K]

/-- A strictly ascending list splits at any key into the nodes below the key
and the nodes not below it. -/
theorem sorted_split (h : List (Node K V)) (key : K) (l : List Nat)
    (hs : l.Pairwise (fun a b => keyOf h a < keyOf h b)) :
    l = l.filter (fun n => decide (keyOf h n < key)) ++
        l.filter (fun n => decide (¬ keyOf h n < key)) := by
  induction l with
  | nil => simp
  | cons a l ih =>
    have hs1 := List.pairwise_cons.mp hs
    by_cases ha : keyOf h a < key
    · simp only [List.filter_cons, ha, decide_True, if_true, not_true_eq_false, decide_False,
        Bool.false_eq_true, if_false, List.cons_append]
      congr 1
      exact ih hs1.2
    · have hall : ∀ b ∈ l, ¬ keyOf h b < key := by
        intro b hb hlt
        exact ha (lt_trans (hs1.1 b hb) hlt)
      have e1 : l.filter (fun n => decide (keyOf h n < key)) = [] := by
        rw [List.filter_eq_nil_iff]
        intro b hb; simpa using hall b hb
      have e2 : l.filter (fun n => decide (¬ keyOf h n < key)) = l := by
        rw [List.filter_eq_self]
        intro b hb; simpa using hall b hb
      simp only [List.filter_cons, ha, decide_False, Bool.false_eq_true, if_false,
        not_false_eq_true, decide_True, if_true, e1, e2, List.nil_append]

theorem rep_nodup {s : SkipList K V} {l : List Nat} (r : Rep s l) : (0 :: l).Nodup := by
  rw [List.nodup_cons]
  constructor
  · intro h0
    exact Nat.lt_irrefl 0 (r.valid 0 h0).1
  · exact r.sorted.imp (fun hab => by
      intro e; rw [e] at hab; exact lt_irrefl _ hab)

theorem rep_split {s : SkipList K V} {l : List Nat} (r : Rep s l) (key : K) :
    ∃ lo hi, SplitAt s key l lo hi := by
  refine ⟨l.filter (fun n => decide (keyOf s.heap n < key)),
    l.filter (fun n => decide (¬ keyOf s.heap n < key)), ?_⟩
  have heq := sorted_split s.heap key l r.sorted
  refine ⟨heq, ?_, ?_, ?_, ?_⟩
  · intro x hx; simpa using (List.mem_filter.mp hx).2
  · intro x hx; simpa using (List.mem_filter.mp hx).2
  · intro t hi1 hhi x hx
    have hs := r.sorted
    rw [heq, hhi] at hs
    have hs2 := (List.pairwise_append.mp hs).2.1
    have htx := (List.pairwise_cons.mp hs2).1 x hx
    have ht : ¬ keyOf s.heap t < key := by
      have : t ∈ l.filter (fun n => decide (¬ keyOf s.heap n < key)) := by
        rw [hhi]; simp
      simpa using (List.mem_filter.mp this).2
    exact lt_of_le_of_lt (not_lt.mp ht) htx
  · have := rep_nodup r
    rw [heq] at this
    simpa using this

theorem split_descent {s : SkipList K V} {l lo hi : List Nat} {key : K} (r : Rep s l)
    (sp : SplitAt s key l lo hi) : Descent s.heap key lo hi s.maxLevel_ := by
  refine ⟨sp.lo_lt, sp.hi_ge, ?_, ?_⟩
  · intro n hn
    rw [← sp.eq] at hn
    exact (r.valid n hn).2.1
  · intro i hi1
    have := r.chain i hi1
    rw [sp.eq, onLevel_append] at this
    simpa using this

theorem split_lo_length {s : SkipList K V} {l lo hi : List Nat} {key : K} (r : Rep s l)
    (sp : SplitAt s key l lo hi) : lo.length < s.heap.length := by
  have := r.room
  rw [sp.eq] at this
  simp at this
  omega

/-- The level-0 predecessor points to the first node that is not below `key`. -/
theorem split_fwd_pred {s : SkipList K V} {l lo hi : List Nat} {key : K} (r : Rep s l)
    (sp : SplitAt s key l lo hi) : fwd s.heap (predAt s.heap lo 0) 0 = some hi.head? := by
  have hc := (split_descent r sp).chain 0 (Nat.zero_le _)
  rw [onLevel_zero, onLevel_zero] at hc
  have := (chain_fwd_last hc).1
  simpa [predAt, onLevel_zero] using this

theorem mLookup_pairs_lo (h : List (Node K V)) (key : K) (lo rest : List Nat)
    (hlo : ∀ x ∈ lo, keyOf h x < key) :
    mLookup key (pairsOf h (lo ++ rest)) = mLookup key (pairsOf h rest) := by
  induction lo with
  | nil => rfl
  | cons a lo ih =>
    have ha : keyOf h a ≠ key := ne_of_lt (hlo a (by simp))
    have := ih (fun x hx => hlo x (List.mem_cons_of_mem _ hx))
    simp only [mLookup, pairsOf, List.cons_append, List.map_cons, List.find?_cons, ha,
      decide_False] at this ⊢
    exact this

theorem mLookup_pairs_gt (h : List (Node K V)) (key : K) (hi : List Nat)
    (hhi : ∀ x ∈ hi, key < keyOf h x) : mLookup key (pairsOf h hi) = none := by
  induction hi with
  | nil => rfl
  | cons a hi ih =>
    have ha : keyOf h a ≠ key := ne_of_gt (hhi a (by simp))
    have := ih (fun x hx => hhi x (List.mem_cons_of_mem _ hx))
    simp only [mLookup, pairsOf, List.map_cons, List.find?_cons, ha, decide_False] at this ⊢
    exact this

theorem mLookup_pairs_head (h : List (Node K V)) (t : Nat) (hi : List Nat) :
    mLookup (keyOf h t) (pairsOf h (t :: hi)) = some (valOf h t) := by
  simp [mLookup, pairsOf]

/-- The abstract lookup in terms of the split. -/
theorem split_lookup {s : SkipList K V} {l lo hi : List Nat} {key : K}
    (sp : SplitAt s key l lo hi) :
    mLookup key (pairsOf s.heap l) = headLookup s.heap key hi := by
  rw [sp.eq, mLookup_pairs_lo s.heap key lo hi sp.lo_lt]
  cases hi with
  | nil => rfl
  | cons t hi1 =>
    by_cases ht : keyOf s.heap t = key
    · simp only [headLookup, ht, if_true]
      rw [← ht]; exact mLookup_pairs_head s.heap t hi1
    · simp only [headLookup, ht, if_false]
      apply mLookup_pairs_gt
      intro x hx
      rcases List.mem_cons.mp hx with e | e
      · subst e
        exact lt_of_le_of_ne (not_lt.mp (sp.hi_ge x (by simp))) (Ne.symm ht)
      · exact sp.tail_gt t hi1 rfl x e

/-- Refinement of `search`: on a well-formed state it returns the abstract
lookup. -/
theorem search_rep {s : SkipList K V} {l : List Nat} (r : Rep s l) (key : K) :
    s.search key = some (mLookup key (pairsOf s.heap l)) := by
  obtain ⟨lo, hi, sp⟩ := rep_split r key
  have d := split_descent r sp
  have hds := descendSearch_spec d (split_lo_length r sp) (s.currentLevel_ + 1) 0
    (by have := r.curLe; omega) (by simp)
  have hf := split_fwd_pred r sp
  rw [split_lookup sp]
  unfold SkipList.search
  rw [r.hdr, hds]
  simp only [Nat.add_one_ne_zero, if_false, hf]
  cases hi with
  | nil => rfl
  | cons t hi1 =>
    have ht : t < s.heap.length := (r.valid t (by rw [sp.eq]; simp)).2.1
    simp only [List.head?_cons, getElem?_eq_nodeAt s.heap t ht, headLookup, keyOf, valOf]
    split <;> rfl

end Split

/-! ## Skip list: the loops of `insert` -/

section InsertLoops

variable {K V : Type}

theorem getRandomLevelLoop_le (maxLevel : Nat) (draw : Nat → Bool) :
    ∀ (fuel level : Nat), level ≤ maxLevel - 1 →
      getRandomLevelLoop maxLevel draw fuel level ≤ maxLevel - 1 := by
  intro fuel
  induction fuel with
  | zero => intro level hl; simpa [getRandomLevelLoop] using hl
  | succ f ih =>
    intro level hl
    simp only [getRandomLevelLoop]
    split
    · rename_i hc
      have h2 : level + 1 < maxLevel := by
        simp only [Bool.and_eq_true, decide_eq_true_eq] at hc
        exact hc.2
      exact ih (level + 1) (by omega)
    · exact hl

/-- The generated height is at most `maxLevel - 1` (and 0 when `maxLevel` is 0). -/
theorem getRandomLevel_le (maxLevel : Nat) (draw : Nat → Bool) :
    getRandomLevel maxLevel draw ≤ maxLevel - 1 :=
  getRandomLevelLoop_le maxLevel draw maxLevel 0 (Nat.zero_le _)

theorem raiseUpdate_spec (header : Nat) :
    ∀ (n i : Nat) (upd : List NodePtr), i + n ≤ upd.length →
      ∃ upd1, raiseUpdate header n i upd = some upd1 ∧ upd1.length = upd.length ∧
        (∀ j, i ≤ j → j < i + n → upd1[j]? = some (some header)) ∧
        (∀ j, j < i → upd1[j]? = upd[j]?) := by
  intro n
  induction n with
  | zero =>
    intro i upd _
    exact ⟨upd, rfl, rfl, fun j h1 h2 => by omega, fun j _ => rfl⟩
  | succ n ih =>
    intro i upd hlen
    have hi : i < upd.length := by omega
    obtain ⟨upd1, he, hl, hset, hold⟩ :=
      ih (i + 1) (upd.set i (some header)) (by simp; omega)
    refine ⟨upd1, ?_, by simpa using hl, ?_, ?_⟩
    · simp only [raiseUpdate, hi, if_true, he]
    · intro j h1 h2
      by_cases hji : j = i
      · subst hji
        rw [hold j (Nat.lt_succ_self _)]
        simp [List.getElem?_set_self hi]
      · exact hset j (by omega) (by omega)
    · intro j hj
      rw [hold j (by omega), List.getElem?_set_ne (by omega)]

end InsertLoops

section Splice

variable {K V : Type} [Inhabited K] [Inhabited V]

theorem splice_step {upd : List NodePtr} {nw lv top m : Nat} {A B : Nat → List Nat}
    {h0 hc : List (Node K V)} {i : Nat}
    (hupd : ∀ j, j ≤ lv → upd[j]? = some (some (lastFrom 0 (A j))))
    (hnd : ∀ j, (0 :: A j ++ B j).Nodup) (hnw : ∀ j, nw ∉ 0 :: A j ++ B j)
    (hlt : lv ≤ top) (hi : i ≤ lv)
    (inv : SpliceInv h0 hc nw lv top m A B i) :
    ∃ h2, (∃ u f h1, upd[i]? = some (some u) ∧ fwd hc u i = some f ∧
        setFwd hc nw i f = some h1 ∧ setFwd h1 u i (some nw) = some h2) ∧
      SpliceInv h0 h2 nw lv top m A B (i + 1) := by
  have hch := inv.todo i (Nat.le_refl _) (Nat.le_trans hi hlt)
  obtain ⟨hfu, _⟩ := chain_fwd_last hch
  obtain ⟨h1, e1⟩ := setFwd_some_of_fwd (inv.fresh i (Nat.le_refl _) hi) (B i).head?
  have hune : lastFrom 0 (A i) ≠ nw := by
    intro e
    have hm := lastFrom_mem 0 (A i)
    rw [e] at hm
    exact hnw i (by
      rcases List.mem_cons.mp hm with e1 | e1
      · simp [e1]
      · simp [e1])
  have hfu1 : fwd h1 (lastFrom 0 (A i)) i = some (B i).head? := by
    rw [fwd_setFwd_node e1 _ _ hune]; exact hfu
  obtain ⟨h2, e2⟩ := setFwd_some_of_fwd hfu1 (some nw)
  refine ⟨h2, ⟨_, _, h1, hupd i hi, hfu, e1, e2⟩, ?_⟩
  refine ⟨?_, ?_, ?_, ?_, ?_, ?_⟩
  · rw [setFwd_length e2, setFwd_length e1]; exact inv.len
  · intro n
    have a1 := nodeAt_setFwd e1 n
    have a2 := nodeAt_setFwd e2 n
    have a0 := inv.nodes n
    refine ⟨?_, ?_, ?_⟩
    · exact a2.1.trans (a1.1.trans a0.1)
    · exact a2.2.1.trans (a1.2.1.trans a0.2.1)
    · exact a2.2.2.1.trans (a1.2.2.1.trans a0.2.2)
  · exact head_setFwd e2 (head_setFwd e1 inv.head)
  · intro j hj
    by_cases hji : j = i
    · subst hji
      apply chain_insert hch (hnd j) (hnw j) (fwd_setFwd_same e2)
      · rw [fwd_setFwd_node e2 _ _ (Ne.symm hune), fwd_setFwd_same e1, hfu]
      · intro n hn1 hn2
        rw [fwd_setFwd_node e2 _ _ hn1, fwd_setFwd_node e1 _ _ hn2]
    · apply chain_congr _ (inv.done j (by omega))
      intro n _
      rw [fwd_setFwd_level e2 _ _ hji, fwd_setFwd_level e1 _ _ hji]
  · intro j hj1 hj2
    apply chain_congr _ (inv.todo j (by omega) hj2)
    intro n _
    rw [fwd_setFwd_level e2 _ _ (by omega), fwd_setFwd_level e1 _ _ (by omega)]
  · intro j hj1 hj2
    rw [fwd_setFwd_level e2 _ _ (by omega), fwd_setFwd_level e1 _ _ (by omega)]
    exact inv.fresh j (by omega) hj2

/-- The splice loop runs to its end and links the new node into the chains of
levels `0..lv`, leaving the other levels as they were. -/
theorem spliceLoop_spec (upd : List NodePtr) (nw lv top m : Nat) (A B : Nat → List Nat)
    (h0 : List (Node K V))
    (hupd : ∀ j, j ≤ lv → upd[j]? = some (some (lastFrom 0 (A j))))
    (hnd : ∀ j, (0 :: A j ++ B j).Nodup) (hnw : ∀ j, nw ∉ 0 :: A j ++ B j)
    (hlt : lv ≤ top) :
    ∀ (n i : Nat) (hc : List (Node K V)), i + n = lv + 1 →
      SpliceInv h0 hc nw lv top m A B i →
      ∃ h1, spliceLoop upd nw n i hc = some h1 ∧
        SpliceInv h0 h1 nw lv top m A B (lv + 1) := by
  intro n
  induction n with
  | zero =>
    intro i hc hin inv
    have : i = lv + 1 := by omega
    subst this
    exact ⟨hc, rfl, inv⟩
  | succ n ih =>
    intro i hc hin inv
    obtain ⟨h2, ⟨u, f, h1, eu, ef, e1, e2⟩, inv2⟩ :=
      splice_step hupd hnd hnw hlt (by omega) inv
    obtain ⟨h3, e3, inv3⟩ := ih (i + 1) h2 (by omega) inv2
    exact ⟨h3, by simp only [spliceLoop, eu, ef, e1, e2, e3], inv3⟩

end Splice

/-! ## Skip list: `insert` -/

section PairsLemmas

variable {K V : Type} [Inhabited K] [Inhabited V]

theorem onLevel_congr {h h1 : List (Node K V)} (i : Nat) {l : List Nat}
    (hl : ∀ n ∈ l, lvlOf h1 n = lvlOf h n) : onLevel h1 i l = onLevel h i l := by
  unfold onLevel
  apply List.filter_congr
  intro n hn
  rw [hl n hn]

theorem pairsOf_congr {h h1 : List (Node K V)} {l : List Nat}
    (hl : ∀ n ∈ l, keyOf h1 n = keyOf h n ∧ valOf h1 n = valOf h n) :
    pairsOf h1 l = pairsOf h l := by
  unfold pairsOf
  apply List.map_congr_left
  intro n hn
  rw [(hl n hn).1, (hl n hn).2]

theorem pairsOf_append (h : List (Node K V)) (l1 l2 : List Nat) :
    pairsOf h (l1 ++ l2) = pairsOf h l1 ++ pairsOf h l2 := by
  simp [pairsOf]

theorem onLevel_nil_above {h : List (Node K V)} {l : List Nat} {c j : Nat}
    (hl : ∀ n ∈ l, lvlOf h n ≤ c) (hj : c < j) : onLevel h j l = [] := by
  unfold onLevel
  rw [List.filter_eq_nil_iff]
  intro n hn
  have := hl n hn
  simp only [decide_eq_true_eq]
  omega

end PairsLemmas

section InsertNew

variable {K V : Type} [Inhabited K] [Inhabited V] [LinearOrder K]

theorem split_level_nodup {s : SkipList K V} {l lo hi : List Nat} {key : K}
    (sp : SplitAt s key l lo hi) (h : List (Node K V)) (j : Nat) :
    (0 :: onLevel h j lo ++ onLevel h j hi).Nodup := by
  have hsub : (0 :: onLevel h j lo ++ onLevel h j hi).Sublist (0 :: lo ++ hi) := by
    simp only [List.cons_append]
    exact List.Sublist.cons₂ 0
      (List.Sublist.append (List.filter_sublist lo) (List.filter_sublist hi))
  exact sp.nodup.sublist hsub

theorem split_mem_valid {s : SkipList K V} {l lo hi : List Nat} {key : K} (r : Rep s l)
    (sp : SplitAt s key l lo hi) (j : Nat) :
    ∀ n ∈ 0 :: onLevel s.heap j lo ++ onLevel s.heap j hi, n < s.heap.length := by
  intro n hn
  simp only [List.cons_append, List.mem_cons, List.mem_append] at hn
  rcases hn with e | e | e
  · subst e
    have := r.room; omega
  · exact (r.valid n (by rw [sp.eq]; exact List.mem_append_left _ (onLevel_subset _ _ _ n e))).2.1
  · exact (r.valid n (by rw [sp.eq]; exact List.mem_append_right _ (onLevel_subset _ _ _ n e))).2.1

/-- The state of the splice loop at its start: the new node is allocated and
not linked yet. -/
theorem splice_init {s : SkipList K V} {l lo hi : List Nat} {key : K} (r : Rep s l)
    (sp : SplitAt s key l lo hi) (value : V) (lv : Nat) :
    SpliceInv (s.heap ++ [Node.mk3 key value lv]) (s.heap ++ [Node.mk3 key value lv])
      s.heap.length lv s.maxLevel_ (s.maxLevel_ + 1)
      (fun j => onLevel s.heap j lo) (fun j => onLevel s.heap j hi) 0 := by
  refine ⟨rfl, fun n => ⟨rfl, rfl, rfl⟩, ?_, fun j hj => absurd hj (Nat.not_lt_zero _), ?_, ?_⟩
  · obtain ⟨nd, e0, el⟩ := r.hdrLen
    refine ⟨nd, ?_, el⟩
    rw [List.getElem?_append_left (lt_of_getElem?_some e0)]; exact e0
  · intro j _ hj
    apply chain_congr _ ((split_descent r sp).chain j hj)
    intro n hn
    exact fwd_append_old _ _ (split_mem_valid r sp j n hn) _
  · intro j _ hj
    rw [fwd_append_new]; simp [hj]

/-- The part of `insert` that adds a new node, on a well-formed state where
`key` is absent: it returns true and the new node sits between `lo` and `hi`. -/
theorem insertNew_rep {s : SkipList K V} {l lo hi : List Nat} {key : K} (r : Rep s l)
    (sp : SplitAt s key l lo hi) (habs : ∀ x ∈ hi, key < keyOf s.heap x)
    (value : V) (draw : Nat → Bool) (upd : List NodePtr)
    (hlen : upd.length = s.maxLevel_ + 1)
    (hlow : ∀ j, j < s.currentLevel_ + 1 → upd[j]? = some (some (predAt s.heap lo j))) :
    ∃ s1, s.insertNew key value upd draw = some (true, s1) ∧
      Rep s1 (lo ++ s.heap.length :: hi) ∧
      pairsOf s1.heap (lo ++ s.heap.length :: hi) =
        pairsOf s.heap lo ++ (key, value) :: pairsOf s.heap hi ∧
      s1.maxLevel_ = s.maxLevel_ ∧ s1.elementCount_ = s.elementCount_ + 1 := by
  have hlvle := getRandomLevel_le s.maxLevel_ draw
  generalize hlvdef : getRandomLevel s.maxLevel_ draw = lv at hlvle
  have hlvtop : lv ≤ s.maxLevel_ := by omega
  have hcur := r.curLe
  have hlolvl : ∀ n ∈ lo, lvlOf s.heap n ≤ s.currentLevel_ := fun n hn =>
    (r.valid n (by rw [sp.eq]; exact List.mem_append_left _ hn)).2.2
  -- the update array after the optional raise
  have hraised : ∃ upd2 cl1,
      raiseLevel s.header_ s.currentLevel_ lv upd = some (upd2, cl1) ∧
      cl1 = max s.currentLevel_ lv ∧
      ∀ j, j ≤ lv → upd2[j]? = some (some (lastFrom 0 (onLevel s.heap j lo))) := by
    by_cases hgt : lv > s.currentLevel_
    · obtain ⟨upd2, he, _, hset, hold⟩ :=
        raiseUpdate_spec s.header_ (lv - s.currentLevel_) (s.currentLevel_ + 1) upd
          (by omega)
      refine ⟨upd2, lv, by simp only [raiseLevel, hgt, if_true, he], by omega, ?_⟩
      intro j hj
      by_cases hjc : j < s.currentLevel_ + 1
      · rw [hold j hjc]; exact hlow j hjc
      · rw [hset j (by omega) (by omega), r.hdr,
          onLevel_nil_above hlolvl (by omega : s.currentLevel_ < j)]
        rfl
    · refine ⟨upd, s.currentLevel_, by simp only [raiseLevel, hgt, if_false], by omega, ?_⟩
      intro j hj
      exact hlow j (by omega)
  obtain ⟨upd2, cl1, heq, hcl1, hupd2⟩ := hraised
  have hheap0 : 0 < s.heap.length := by have := r.room; omega
  have hnw : ∀ j, s.heap.length ∉ 0 :: onLevel s.heap j lo ++ onLevel s.heap j hi := by
    intro j hm
    have := split_mem_valid r sp j _ hm
    omega
  obtain ⟨h1, hsp, inv⟩ := spliceLoop_spec upd2 s.heap.length lv s.maxLevel_
    (s.maxLevel_ + 1) (fun j => onLevel s.heap j lo) (fun j => onLevel s.heap j hi)
    (s.heap ++ [Node.mk3 key value lv])
    hupd2 (fun j => split_level_nodup sp s.heap j) hnw hlvtop (lv + 1) 0
    (s.heap ++ [Node.mk3 key value lv]) (by omega) (splice_init r sp value lv)
  -- the nodes after the splice
  have hold : ∀ n, n < s.heap.length →
      keyOf h1 n = keyOf s.heap n ∧ valOf h1 n = valOf s.heap n ∧
      lvlOf h1 n = lvlOf s.heap n := by
    intro n hn
    have a := inv.nodes n
    have b : nodeAt (s.heap ++ [Node.mk3 key value lv]) n = nodeAt s.heap n :=
      nodeAt_append_old _ _ hn
    simp only [keyOf, valOf, lvlOf] at a ⊢
    rw [b] at a
    exact a
  have hnew : keyOf h1 s.heap.length = key ∧ valOf h1 s.heap.length = value ∧
      lvlOf h1 s.heap.length = lv := by
    have a := inv.nodes s.heap.length
    have b : nodeAt (s.heap ++ [Node.mk3 key value lv]) s.heap.length = Node.mk3 key value lv :=
      nodeAt_append_new _ _
    simp only [keyOf, valOf, lvlOf] at a ⊢
    rw [b] at a
    exact a
  have hmemL : ∀ n, n ∈ lo ∨ n ∈ hi → n ∈ l := by
    intro n hn
    rw [sp.eq]
    exact List.mem_append.mpr hn
  have hltL : ∀ n, n ∈ lo ∨ n ∈ hi → n < s.heap.length := fun n hn =>
    (r.valid n (hmemL n hn)).2.1
  have hlen1 : h1.length = s.heap.length + 1 := by
    rw [inv.len]; simp
  refine ⟨{ s with currentLevel_ := cl1, elementCount_ := s.elementCount_ + 1, heap := h1 },
    ?_, ?_, ?_, rfl, rfl⟩
  · unfold SkipList.insertNew
    simp only [hlvdef]
    rw [heq]
    simp only [hsp]
  · refine ⟨r.hdr, inv.head, ?_, ?_, ?_, ?_, ?_, ?_, ?_⟩
    · show cl1 ≤ s.maxLevel_
      omega
    · intro n hn
      show 0 < n ∧ n < h1.length ∧ lvlOf h1 n ≤ cl1
      simp only [List.mem_append, List.mem_cons] at hn
      rcases hn with hn | hn | hn
      · have a := r.valid n (hmemL n (Or.inl hn))
        refine ⟨a.1, by omega, ?_⟩
        rw [(hold n a.2.1).2.2]; omega
      · subst hn
        refine ⟨hheap0, by omega, ?_⟩
        rw [hnew.2.2]; omega
      · have a := r.valid n (hmemL n (Or.inr hn))
        refine ⟨a.1, by omega, ?_⟩
        rw [(hold n a.2.1).2.2]; omega
    · show (lo ++ s.heap.length :: hi).Pairwise (fun a b => keyOf h1 a < keyOf h1 b)
      have hs := r.sorted
      rw [sp.eq] at hs
      obtain ⟨hslo, hshi, hcross⟩ := List.pairwise_append.mp hs
      rw [List.pairwise_append]
      refine ⟨?_, ?_, ?_⟩
      · apply hslo.imp_of_mem
        intro a b ha hb hab
        rw [(hold a (hltL a (Or.inl ha))).1, (hold b (hltL b (Or.inl hb))).1]
        exact hab
      · rw [List.pairwise_cons]
        constructor
        · intro b hb
          rw [hnew.1, (hold b (hltL b (Or.inr hb))).1]
          exact habs b hb
        · apply hshi.imp_of_mem
          intro a b ha hb hab
          rw [(hold a (hltL a (Or.inr ha))).1, (hold b (hltL b (Or.inr hb))).1]
          exact hab
      · intro a ha b hb
        rw [(hold a (hltL a (Or.inl ha))).1]
        rcases List.mem_cons.mp hb with e | e
        · rw [e, hnew.1]; exact sp.lo_lt a ha
        · rw [(hold b (hltL b (Or.inr e))).1]
          exact hcross a ha b e
    · intro i hi1
      show Chain h1 i (some 0) (0 :: onLevel h1 i (lo ++ s.heap.length :: hi))
      have elo : onLevel h1 i lo = onLevel s.heap i lo :=
        onLevel_congr i (fun n hn => (hold n (hltL n (Or.inl hn))).2.2)
      have ehi : onLevel h1 i hi = onLevel s.heap i hi :=
        onLevel_congr i (fun n hn => (hold n (hltL n (Or.inr hn))).2.2)
      by_cases hil : i ≤ lv
      · have : onLevel h1 i (lo ++ s.heap.length :: hi) =
            onLevel s.heap i lo ++ s.heap.length :: onLevel s.heap i hi := by
          rw [onLevel_append, elo, ← ehi]
          simp [onLevel, hnew.2.2, hil]
        rw [this]
        have := inv.done i (by omega)
        simpa using this
      · have : onLevel h1 i (lo ++ s.heap.length :: hi) =
            onLevel s.heap i lo ++ onLevel s.heap i hi := by
          rw [onLevel_append, elo, ← ehi]
          simp [onLevel, hnew.2.2, hil]
        rw [this]
        have := inv.todo i (by omega) hi1
        simpa using this
    · show s.elementCount_ + 1 = ((lo ++ s.heap.length :: hi).length : Int)
      have := r.count
      rw [sp.eq] at this
      simp only [List.length_append, List.length_cons] at this ⊢
      omega
    · show (lo ++ s.heap.length :: hi).length < h1.length
      have := r.room
      rw [sp.eq] at this
      simp only [List.length_append, List.length_cons] at this ⊢
      omega
    · show cl1 = 0 ∨ ∃ n ∈ lo ++ s.heap.length :: hi, lvlOf h1 n = cl1
      by_cases hgt : lv > s.currentLevel_
      · right
        exact ⟨s.heap.length, by simp, by rw [hnew.2.2]; omega⟩
      · have hc : cl1 = s.currentLevel_ := by omega
        rcases r.top with h0 | ⟨n, hn, hl⟩
        · left; omega
        · right
          rw [sp.eq] at hn
          refine ⟨n, ?_, ?_⟩
          · rcases List.mem_append.mp hn with e | e
            · exact List.mem_append_left _ e
            · exact List.mem_append_right _ (List.mem_cons_of_mem _ e)
          · rw [(hold n (hltL n (List.mem_append.mp hn))).2.2, hl, hc]
  · show pairsOf h1 (lo ++ s.heap.length :: hi) = _
    rw [pairsOf_append]
    have e1 : pairsOf h1 lo = pairsOf s.heap lo :=
      pairsOf_congr (fun n hn => ⟨(hold n (hltL n (Or.inl hn))).1,
        (hold n (hltL n (Or.inl hn))).2.1⟩)
    have e2 : pairsOf h1 hi = pairsOf s.heap hi :=
      pairsOf_congr (fun n hn => ⟨(hold n (hltL n (Or.inr hn))).1,
        (hold n (hltL n (Or.inr hn))).2.1⟩)
    rw [e1, ← e2]
    simp [pairsOf, hnew.1, hnew.2.1]

end InsertNew

/-! ## Skip list: refinement of `insert` -/

section FilterPairs

variable {K V : Type} [Inhabited K] [Inhabited V]

theorem filter_pairs_all (h : List (Node K V)) (p : K × V → Bool) (l : List Nat)
    (hp : ∀ x ∈ l, p (keyOf h x, valOf h x) = true) :
    (pairsOf h l).filter p = pairsOf h l := by
  rw [List.filter_eq_self]
  intro a ha
  obtain ⟨x, hx, rfl⟩ := List.mem_map.mp ha
  exact hp x hx

theorem filter_pairs_none (h : List (Node K V)) (p : K × V → Bool) (l : List Nat)
    (hp : ∀ x ∈ l, p (keyOf h x, valOf h x) = false) :
    (pairsOf h l).filter p = [] := by
  rw [List.filter_eq_nil_iff]
  intro a ha
  obtain ⟨x, hx, rfl⟩ := List.mem_map.mp ha
  simp [hp x hx]

end FilterPairs

section InsertFull

variable {K V : Type} [Inhabited K] [Inhabited V] [LinearOrder K] [DecidableEq K]

/-- The abstract insertion, on a list of pairs split at the key. -/
theorem mInsert_pairs (h : List (Node K V)) (key : K) (v : V) (lo mid hi : List Nat)
    (hlo : ∀ x ∈ lo, keyOf h x < key) (hmid : ∀ x ∈ mid, keyOf h x = key)
    (hhi : ∀ x ∈ hi, key < keyOf h x) :
    mInsert key v (pairsOf h (lo ++ mid ++ hi)) =
      pairsOf h lo ++ (key, v) :: pairsOf h hi := by
  unfold mInsert
  rw [pairsOf_append, pairsOf_append, List.filter_append, List.filter_append,
    List.filter_append, List.filter_append]
  rw [filter_pairs_all h _ lo (fun x hx => by simpa using hlo x hx),
    filter_pairs_none h _ mid (fun x hx => by simp [hmid x hx]),
    filter_pairs_none h (fun p => decide (p.1 < key)) hi
      (fun x hx => by simpa using le_of_lt (hhi x hx)),
    filter_pairs_none h _ lo (fun x hx => by simpa using le_of_lt (hlo x hx)),
    filter_pairs_none h (fun p => decide (key < p.1)) mid (fun x hx => by simp [hmid x hx]),
    filter_pairs_all h _ hi (fun x hx => by simpa using hhi x hx)]
  simp

/-- The abstract removal, on a list of pairs split at the key. -/
theorem mErase_pairs (h : List (Node K V)) (key : K) (lo mid hi : List Nat)
    (hlo : ∀ x ∈ lo, keyOf h x < key) (hmid : ∀ x ∈ mid, keyOf h x = key)
    (hhi : ∀ x ∈ hi, key < keyOf h x) :
    mErase key (pairsOf h (lo ++ mid ++ hi)) = pairsOf h lo ++ pairsOf h hi := by
  unfold mErase
  rw [pairsOf_append, pairsOf_append, List.filter_append, List.filter_append]
  rw [filter_pairs_all h _ lo (fun x hx => by simpa using ne_of_lt (hlo x hx)),
    filter_pairs_none h _ mid (fun x hx => by simp [hmid x hx]),
    filter_pairs_all h _ hi (fun x hx => by simpa using ne_of_gt (hhi x hx))]
  simp

/-- Writing the value of a stored node keeps the state well formed. -/
theorem setValue_rep {s : SkipList K V} {l : List Nat} (r : Rep s l) {t : Nat} {v : V}
    {h1 : List (Node K V)} (e : setValue s.heap t v = some h1) :
    Rep { s with heap := h1 } l := by
  have hk : ∀ n, keyOf h1 n = keyOf s.heap n := fun n => (nodeAt_setValue e n).1
  have hl : ∀ n, lvlOf h1 n = lvlOf s.heap n := fun n => (nodeAt_setValue e n).2.2
  refine ⟨r.hdr, head_setValue e r.hdrLen, r.curLe, ?_, ?_, ?_, r.count, ?_, ?_⟩
  · intro n hn
    have a := r.valid n hn
    show 0 < n ∧ n < h1.length ∧ lvlOf h1 n ≤ s.currentLevel_
    rw [setValue_length e, hl n]
    exact a
  · show l.Pairwise (fun a b => keyOf h1 a < keyOf h1 b)
    apply r.sorted.imp
    intro a b hab
    rw [hk a, hk b]; exact hab
  · intro i hi
    show Chain h1 i (some 0) (0 :: onLevel h1 i l)
    rw [onLevel_congr i (fun n _ => hl n)]
    exact chain_congr (fun n _ => fwd_setValue e n i) (r.chain i hi)
  · show l.length < h1.length
    rw [setValue_length e]; exact r.room
  · show s.currentLevel_ = 0 ∨ ∃ n ∈ l, lvlOf h1 n = s.currentLevel_
    rcases r.top with h0 | ⟨n, hn, hnl⟩
    · exact Or.inl h0
    · exact Or.inr ⟨n, hn, by rw [hl n]; exact hnl⟩

/-- Refinement of `insert`: on a well-formed state it returns whether the key
was absent, and the new state is well formed and stores the abstract
insertion. -/
theorem insert_rep {s : SkipList K V} {l : List Nat} (r : Rep s l) (key : K) (value : V)
    (draw : Nat → Bool) :
    ∃ s1 l1, s.insert key value draw =
        some ((mLookup key (pairsOf s.heap l)).isNone, s1) ∧
      Rep s1 l1 ∧ pairsOf s1.heap l1 = mInsert key value (pairsOf s.heap l) ∧
      s1.maxLevel_ = s.maxLevel_ ∧
      s1.elementCount_ =
        s.elementCount_ + (if (mLookup key (pairsOf s.heap l)).isNone then 1 else 0) := by
  obtain ⟨lo, hi, sp⟩ := rep_split r key
  have d := split_descent r sp
  have hcur := r.curLe
  obtain ⟨upd, he, hlen, hlow, _⟩ := descend_spec d (split_lo_length r sp)
    (s.currentLevel_ + 1) 0 (List.replicate (s.maxLevel_ + 1) none) (by omega)
    (by simp; omega) (by simp)
  have hlen : upd.length = s.maxLevel_ + 1 := by simpa using hlen
  have hf := split_fwd_pred r sp
  rw [split_lookup sp]
  unfold SkipList.insert
  rw [r.hdr, he]
  simp only [Nat.add_one_ne_zero, if_false, hf]
  cases hi with
  | nil =>
    obtain ⟨s1, e1, r1, hp, hm, hcnt⟩ := insertNew_rep r sp (fun x hx => by cases hx) value
      draw upd hlen hlow
    refine ⟨s1, _, ?_, r1, ?_, hm, ?_⟩
    · simp only [List.head?_nil, e1, headLookup, Option.isNone_none]
    rotate_left
    · rw [hcnt]; simp [headLookup]
    · rw [hp, sp.eq]
      have := mInsert_pairs s.heap key value lo [] [] sp.lo_lt (fun x hx => by cases hx)
        (fun x hx => by cases hx)
      simpa using this.symm
  | cons t hi1 =>
    have ht : t < s.heap.length := (r.valid t (by rw [sp.eq]; simp)).2.1
    simp only [List.head?_cons, getElem?_eq_nodeAt s.heap t ht]
    by_cases hk : keyOf s.heap t = key
    · have hk1 : (nodeAt s.heap t).key = key := hk
      obtain ⟨h1, e1⟩ := setValue_some ht value
      refine ⟨{ s with heap := h1 }, l, ?_, setValue_rep r e1, ?_, rfl, ?_⟩
      · simp only [hk1, if_true, e1, headLookup, hk, Option.isNone_some, r.hdr]
      rotate_left
      · simp [headLookup, hk]
      · show pairsOf h1 l = _
        have hm := mInsert_pairs s.heap key value lo [t] hi1 sp.lo_lt
          (fun x hx => by rw [List.mem_singleton.mp hx]; exact hk) (sp.tail_gt t hi1 rfl)
        have el : lo ++ [t] ++ hi1 = l := by rw [sp.eq]; simp
        rw [el] at hm
        rw [hm, sp.eq, pairsOf_append]
        have hnd := sp.nodup
        have htlo : t ∉ lo := by
          intro hm2
          have := List.nodup_cons.mp hnd
          have h3 := List.nodup_append.mp this.2
          exact (List.disjoint_left.mp h3.2.2) hm2 (by simp)
        have hthi : t ∉ hi1 := by
          intro hm2
          have := List.nodup_cons.mp hnd
          have h3 := List.nodup_append.mp this.2
          exact (List.nodup_cons.mp h3.2.1).1 hm2
        have e2 : pairsOf h1 lo = pairsOf s.heap lo := by
          apply pairsOf_congr
          intro n hn
          have a := nodeAt_setValue e1 n
          have hnt : n ≠ t := fun e => htlo (e ▸ hn)
          exact ⟨a.1, by simpa [valOf, hnt] using a.2.1⟩
        have e3 : pairsOf h1 hi1 = pairsOf s.heap hi1 := by
          apply pairsOf_congr
          intro n hn
          have a := nodeAt_setValue e1 n
          have hnt : n ≠ t := fun e => hthi (e ▸ hn)
          exact ⟨a.1, by simpa [valOf, hnt] using a.2.1⟩
        have a := nodeAt_setValue e1 t
        have e4 : pairsOf h1 (t :: hi1) = (key, value) :: pairsOf s.heap hi1 := by
          rw [← e3]
          simp only [pairsOf, List.map_cons, keyOf, valOf]
          rw [a.1, a.2.1]
          simp [hk1]
        rw [e2, e4]
    · have hk1 : ¬ (nodeAt s.heap t).key = key := hk
      have habs : ∀ x ∈ t :: hi1, key < keyOf s.heap x := by
        intro x hx
        rcases List.mem_cons.mp hx with e | e
        · subst e
          exact lt_of_le_of_ne (not_lt.mp (sp.hi_ge x (by simp))) (Ne.symm hk)
        · exact sp.tail_gt t hi1 rfl x e
      obtain ⟨s1, e1, r1, hp, hm, hcnt⟩ := insertNew_rep r sp habs value draw upd hlen hlow
      refine ⟨s1, _, ?_, r1, ?_, hm, ?_⟩
      · simp only [hk1, if_false, e1, headLookup, hk, Option.isNone_none]
      rotate_left
      · rw [hcnt]; simp [headLookup, hk]
      · rw [hp, sp.eq]
        have := mInsert_pairs s.heap key value lo [] (t :: hi1) sp.lo_lt
          (fun x hx => by cases hx) habs
        simpa using this.symm

end InsertFull

/-! ## Skip list: `remove` -/

section Unlink

variable {K V : Type} [Inhabited K] [Inhabited V]

/-- Once the loop has passed the height of the removed node, nothing is left to
unlink. -/
theorem unlink_finish {top m : Nat} {A B C : Nat → List Nat} {h0 hc : List (Node K V)}
    {i lvT : Nat} (hCB : ∀ j, lvT < j → C j = B j) (hi : lvT < i)
    (inv : UnlinkInv h0 hc top m A B C i) : UnlinkInv h0 hc top m A B C (top + 1) := by
  refine ⟨inv.len, inv.nodes, inv.head, ?_, fun j h1 h2 => by omega⟩
  intro j _ hj
  by_cases hji : j < i
  · exact inv.done j hji hj
  · have := inv.todo j (by omega) hj
    rw [hCB j (by omega)] at this
    exact this

/-- The unlink loop ends (by `break` or at the top level) with the node taken
out of the chains of all its levels. -/
theorem unlinkLoop_spec (upd : List NodePtr) (t lvT cl top m : Nat) (A B C : Nat → List Nat)
    (h0 : List (Node K V))
    (hupd : ∀ j, j < cl + 1 → upd[j]? = some (some (lastFrom 0 (A j))))
    (hCt : ∀ j, j ≤ lvT → C j = t :: B j) (hCB : ∀ j, lvT < j → C j = B j)
    (hnd : ∀ j, (0 :: A j ++ C j).Nodup) (htB : ∀ j, t ∉ B j)
    (hlv : lvT ≤ cl) (hct : cl ≤ top) :
    ∀ (n i : Nat) (hc : List (Node K V)), i + n = cl + 1 →
      UnlinkInv h0 hc top m A B C i →
      ∃ h1, unlinkLoop upd t n i hc = some h1 ∧ UnlinkInv h0 h1 top m A B C (top + 1) := by
  intro n
  induction n with
  | zero =>
    intro i hc hin inv
    exact ⟨hc, rfl, unlink_finish hCB (by omega) inv⟩
  | succ n ih =>
    intro i hc hin inv
    have hicl : i < cl + 1 := by omega
    have hch := inv.todo i (Nat.le_refl _) (by omega)
    obtain ⟨hfu, _⟩ := chain_fwd_last hch
    by_cases hil : i ≤ lvT
    · -- the node is on this level: unlink it
      have hC := hCt i hil
      rw [hC] at hch hfu
      have hvt : ∃ g, fwd hc t i = some g :=
        chain_valid hch t (by simp)
      obtain ⟨g, hg⟩ := hvt
      obtain ⟨h1, e1⟩ := setFwd_some_of_fwd hfu g
      have inv1 : UnlinkInv h0 h1 top m A B C (i + 1) := by
        refine ⟨?_, ?_, head_setFwd e1 inv.head, ?_, ?_⟩
        · rw [setFwd_length e1]; exact inv.len
        · intro x
          have a1 := nodeAt_setFwd e1 x
          have a0 := inv.nodes x
          exact ⟨a1.1.trans a0.1, a1.2.1.trans a0.2.1, a1.2.2.1.trans a0.2.2⟩
        · intro j hj hjt
          by_cases hji : j = i
          · subst hji
            have hndj := hnd j
            rw [hC] at hndj
            apply chain_remove hch hndj
            · rw [fwd_setFwd_same e1]; exact hg.symm
            · intro x hx
              exact fwd_setFwd_node e1 _ _ hx
          · apply chain_congr _ (inv.done j (by omega) hjt)
            intro x _
            exact fwd_setFwd_level e1 _ _ hji
        · intro j hj hjt
          apply chain_congr _ (inv.todo j (by omega) hjt)
          intro x _
          exact fwd_setFwd_level e1 _ _ (by omega)
      obtain ⟨h2, e2, inv2⟩ := ih (i + 1) h1 (by omega) inv1
      refine ⟨h2, ?_, inv2⟩
      simp only [unlinkLoop, hupd i hicl, hfu, List.head?_cons, ne_eq, not_true_eq_false,
        if_false, hg, e1, e2]
    · -- the node is not on this level: `break`
      have hC := hCB i (by omega)
      rw [hC] at hfu
      have hne : (B i).head? ≠ some t := by
        intro e
        exact htB i (List.mem_of_mem_head? e)
      refine ⟨hc, ?_, unlink_finish hCB (by omega) inv⟩
      simp only [unlinkLoop, hupd i hicl, hfu, ne_eq, hne, not_false_eq_true, if_true]

/-- The loop that lowers `currentLevel_` stops at the highest level that still
has a node (or at 0). -/
theorem lowerLevel_spec {h : List (Node K V)} {l : List Nat} {top : Nat}
    (hch : ∀ j, j ≤ top → Chain h j (some 0) (0 :: onLevel h j l)) :
    ∀ c, c ≤ top → (∀ n ∈ l, lvlOf h n ≤ c) →
      ∃ c1, lowerLevel h 0 c = some c1 ∧ c1 ≤ c ∧ (∀ n ∈ l, lvlOf h n ≤ c1) ∧
        (c1 = 0 ∨ ∃ n ∈ l, lvlOf h n = c1) := by
  intro c
  induction c with
  | zero =>
    intro _ hl
    exact ⟨0, rfl, Nat.le_refl _, hl, Or.inl rfl⟩
  | succ c ih =>
    intro hct hl
    obtain ⟨_, q, hq, hrest⟩ := hch (c + 1) hct
    have hqh := chain_head hrest
    cases hol : onLevel h (c + 1) l with
    | nil =>
      rw [hol] at hqh
      have hqn : q = none := hqh
      subst hqn
      have hl1 : ∀ n ∈ l, lvlOf h n ≤ c := by
        intro n hn
        by_contra hcon
        have : n ∈ onLevel h (c + 1) l := by
          unfold onLevel
          exact List.mem_filter.mpr ⟨hn, by simp; omega⟩
        rw [hol] at this
        cases this
      obtain ⟨c1, e1, hle, hall, htop⟩ := ih (by omega) hl1
      exact ⟨c1, by simp only [lowerLevel, hq, e1], by omega, hall, htop⟩
    | cons x rest =>
      rw [hol] at hqh
      have hqn : q = some x := hqh
      subst hqn
      have hx : x ∈ onLevel h (c + 1) l := by rw [hol]; simp
      have hx1 := List.mem_filter.mp hx
      have hx2 : c + 1 ≤ lvlOf h x := by simpa using hx1.2
      refine ⟨c + 1, by simp only [lowerLevel, hq], Nat.le_refl _, hl,
        Or.inr ⟨x, hx1.1, ?_⟩⟩
      have := hl x hx1.1
      omega

end Unlink

/-! ## Skip list: refinement of `remove`, `clear` and the constructor -/

section RemoveFull

variable {K V : Type} [Inhabited K] [Inhabited V] [LinearOrder K] [DecidableEq K]

/-- The part of `remove` that unlinks the node `t` holding `key`. -/
theorem removeFound_rep {s : SkipList K V} {l lo hi1 : List Nat} {t : Nat} {key : K}
    (r : Rep s l) (sp : SplitAt s key l lo (t :: hi1)) (upd : List NodePtr)
    (hlow : ∀ j, j < s.currentLevel_ + 1 → upd[j]? = some (some (predAt s.heap lo j))) :
    ∃ h1 c1, unlinkLoop upd t (s.currentLevel_ + 1) 0 s.heap = some h1 ∧
      lowerLevel h1 0 s.currentLevel_ = some c1 ∧
      Rep { s with currentLevel_ := c1, elementCount_ := s.elementCount_ - 1, heap := h1 }
        (lo ++ hi1) ∧
      pairsOf h1 (lo ++ hi1) = pairsOf s.heap lo ++ pairsOf s.heap hi1 := by
  have d := split_descent r sp
  have hcur := r.curLe
  have htl : t ∈ l := by rw [sp.eq]; simp
  have htv := r.valid t htl
  have hnd := sp.nodup
  have hthi : t ∉ hi1 := by
    intro hm2
    have := List.nodup_cons.mp hnd
    have h3 := List.nodup_append.mp this.2
    exact (List.nodup_cons.mp h3.2.1).1 hm2
  have inv0 : UnlinkInv s.heap s.heap s.maxLevel_ (s.maxLevel_ + 1)
      (fun j => onLevel s.heap j lo) (fun j => onLevel s.heap j hi1)
      (fun j => onLevel s.heap j (t :: hi1)) 0 :=
    ⟨rfl, fun n => ⟨rfl, rfl, rfl⟩, r.hdrLen, fun j hj _ => absurd hj (Nat.not_lt_zero _),
      fun j _ hj => d.chain j hj⟩
  obtain ⟨h1, e1, inv⟩ := unlinkLoop_spec upd t (lvlOf s.heap t) s.currentLevel_ s.maxLevel_
    (s.maxLevel_ + 1) (fun j => onLevel s.heap j lo) (fun j => onLevel s.heap j hi1)
    (fun j => onLevel s.heap j (t :: hi1)) s.heap
    hlow
    (fun j hj => by simp [onLevel, hj])
    (fun j hj => by simp only [onLevel, List.filter_cons]; simp; omega)
    (fun j => split_level_nodup sp s.heap j)
    (fun j hm => hthi (onLevel_subset _ _ _ t hm))
    htv.2.2 hcur (s.currentLevel_ + 1) 0 s.heap (by omega) inv0
  have hmemL : ∀ n, n ∈ lo ++ hi1 → n ∈ l := by
    intro n hn
    rw [sp.eq]
    rcases List.mem_append.mp hn with e | e
    · exact List.mem_append_left _ e
    · exact List.mem_append_right _ (List.mem_cons_of_mem _ e)
  have hk : ∀ n, keyOf h1 n = keyOf s.heap n := fun n => (inv.nodes n).1
  have hv : ∀ n, valOf h1 n = valOf s.heap n := fun n => (inv.nodes n).2.1
  have hl : ∀ n, lvlOf h1 n = lvlOf s.heap n := fun n => (inv.nodes n).2.2
  have hchain : ∀ j, j ≤ s.maxLevel_ → Chain h1 j (some 0) (0 :: onLevel h1 j (lo ++ hi1)) := by
    intro j hj
    rw [onLevel_congr j (fun n _ => hl n), onLevel_append]
    have := inv.done j (by omega) hj
    simpa using this
  obtain ⟨c1, e2, hc1le, hc1all, hc1top⟩ := lowerLevel_spec hchain s.currentLevel_ hcur
    (fun n hn => by rw [hl n]; exact (r.valid n (hmemL n hn)).2.2)
  refine ⟨h1, c1, e1, e2, ?_, ?_⟩
  · refine ⟨r.hdr, inv.head, ?_, ?_, ?_, hchain, ?_, ?_, hc1top⟩
    · show c1 ≤ s.maxLevel_
      omega
    · intro n hn
      have a := r.valid n (hmemL n hn)
      show 0 < n ∧ n < h1.length ∧ lvlOf h1 n ≤ c1
      rw [inv.len]
      exact ⟨a.1, a.2.1, hc1all n hn⟩
    · show (lo ++ hi1).Pairwise (fun a b => keyOf h1 a < keyOf h1 b)
      have hs := r.sorted
      rw [sp.eq] at hs
      have hsub : (lo ++ hi1).Sublist (lo ++ t :: hi1) :=
        List.Sublist.append (List.Sublist.refl lo) (List.sublist_cons_self t hi1)
      apply (hs.sublist hsub).imp
      intro a b hab
      rw [hk a, hk b]; exact hab
    · show s.elementCount_ - 1 = ((lo ++ hi1).length : Int)
      have := r.count
      rw [sp.eq] at this
      simp only [List.length_append, List.length_cons] at this ⊢
      omega
    · show (lo ++ hi1).length < h1.length
      have := r.room
      rw [sp.eq] at this
      rw [inv.len]
      simp only [List.length_append, List.length_cons] at this ⊢
      omega
  · rw [pairsOf_append]
    have e3 : pairsOf h1 lo = pairsOf s.heap lo := pairsOf_congr (fun n _ => ⟨hk n, hv n⟩)
    have e4 : pairsOf h1 hi1 = pairsOf s.heap hi1 := pairsOf_congr (fun n _ => ⟨hk n, hv n⟩)
    rw [e3, e4]

/-- Refinement of `remove`: on a well-formed state it returns whether the key
was present, and the new state is well formed and stores the abstract
removal. -/
theorem remove_rep {s : SkipList K V} {l : List Nat} (r : Rep s l) (key : K) :
    ∃ s1 l1, s.remove key = some ((mLookup key (pairsOf s.heap l)).isSome, s1) ∧
      Rep s1 l1 ∧ pairsOf s1.heap l1 = mErase key (pairsOf s.heap l) ∧
      s1.maxLevel_ = s.maxLevel_ ∧
      s1.elementCount_ =
        s.elementCount_ - (if (mLookup key (pairsOf s.heap l)).isSome then 1 else 0) ∧
      ((mLookup key (pairsOf s.heap l)).isSome = false → s1 = s) := by
  obtain ⟨lo, hi, sp⟩ := rep_split r key
  have d := split_descent r sp
  have hcur := r.curLe
  obtain ⟨upd, he, _, hlow, _⟩ := descend_spec d (split_lo_length r sp)
    (s.currentLevel_ + 1) 0 (List.replicate (s.maxLevel_ + 1) none) (by omega)
    (by simp; omega) (by simp)
  have hf := split_fwd_pred r sp
  rw [split_lookup sp]
  unfold SkipList.remove
  rw [r.hdr, he]
  simp only [Nat.add_one_ne_zero, if_false, hf]
  cases hi with
  | nil =>
    refine ⟨s, l, ?_, r, ?_, rfl, by simp [headLookup], fun _ => rfl⟩
    · simp only [List.head?_nil, headLookup, Option.isSome_none]
    · have := mErase_pairs s.heap key lo [] [] sp.lo_lt (fun x hx => by cases hx)
        (fun x hx => by cases hx)
      rw [sp.eq]
      simpa [pairsOf] using this.symm
  | cons t hi1 =>
    have ht : t < s.heap.length := (r.valid t (by rw [sp.eq]; simp)).2.1
    simp only [List.head?_cons, getElem?_eq_nodeAt s.heap t ht]
    by_cases hk : keyOf s.heap t = key
    · have hk1 : (nodeAt s.heap t).key = key := hk
      obtain ⟨h1, c1, e1, e2, r1, hp⟩ := removeFound_rep r sp upd hlow
      refine ⟨_, lo ++ hi1, ?_, r1, ?_, rfl, by simp [headLookup, hk],
        fun hc => by simp [headLookup, hk] at hc⟩
      · simp only [ne_eq, hk1, not_true_eq_false, if_false, e1, e2, headLookup, hk, if_true,
          Option.isSome_some, r.hdr]
      · show pairsOf h1 (lo ++ hi1) = _
        rw [hp, sp.eq]
        have := mErase_pairs s.heap key lo [t] hi1 sp.lo_lt
          (fun x hx => by rw [List.mem_singleton.mp hx]; exact hk) (sp.tail_gt t hi1 rfl)
        simpa using this.symm
    · have hk1 : ¬ (nodeAt s.heap t).key = key := hk
      have habs : ∀ x ∈ t :: hi1, key < keyOf s.heap x := by
        intro x hx
        rcases List.mem_cons.mp hx with e | e
        · subst e
          exact lt_of_le_of_ne (not_lt.mp (sp.hi_ge x (by simp))) (Ne.symm hk)
        · exact sp.tail_gt t hi1 rfl x e
      refine ⟨s, l, ?_, r, ?_, rfl, by simp [headLookup, hk], fun _ => rfl⟩
      · simp only [ne_eq, hk1, not_false_eq_true, if_true, headLookup, hk, if_false,
          Option.isSome_none]
      · have := mErase_pairs s.heap key lo [] (t :: hi1) sp.lo_lt (fun x hx => by cases hx) habs
        rw [sp.eq]
        simpa [pairsOf_append] using this.symm

end RemoveFull

/-! ## Skip list: `clear`, the constructor, and the reachable states -/

section ClearLoop

variable {K V : Type} [Inhabited K] [Inhabited V]

theorem clearLoop_spec (m : Nat) :
    ∀ (n i : Nat) (hc : List (Node K V)),
      (∀ j, i ≤ j → j < i + n → ∃ q, fwd hc 0 j = some q) →
      (∃ nd, hc[0]? = some nd ∧ nd.forward.length = m) →
      ∃ h1, clearLoop 0 n i hc = some h1 ∧ h1.length = hc.length ∧
        (∃ nd, h1[0]? = some nd ∧ nd.forward.length = m) ∧
        (∀ x j, fwd h1 x j = if x = 0 ∧ i ≤ j ∧ j < i + n then some none else fwd hc x j) ∧
        (∀ x, lvlOf h1 x = lvlOf hc x) := by
  intro n
  induction n with
  | zero =>
    intro i hc _ hh
    refine ⟨hc, rfl, rfl, hh, ?_, fun x => rfl⟩
    intro x j
    have : ¬ (x = 0 ∧ i ≤ j ∧ j < i + 0) := by omega
    rw [if_neg this]
  | succ n ih =>
    intro i hc hv hh
    obtain ⟨q, hq⟩ := hv i (Nat.le_refl _) (by omega)
    obtain ⟨h1, e1⟩ := setFwd_some_of_fwd hq none
    have hv1 : ∀ j, i + 1 ≤ j → j < i + 1 + n → ∃ q, fwd h1 0 j = some q := by
      intro j hj1 hj2
      rw [fwd_setFwd_level e1 _ _ (by omega)]
      exact hv j (by omega) (by omega)
    obtain ⟨h2, e2, hl2, hh2, hf2, hlv2⟩ := ih (i + 1) h1 hv1 (head_setFwd e1 hh)
    refine ⟨h2, by simp only [clearLoop, e1, e2], by rw [hl2, setFwd_length e1], hh2, ?_, ?_⟩
    · intro x j
      rw [hf2 x j, fwd_setFwd e1]
      by_cases hx : x = 0
      · subst hx
        split_ifs <;> first | rfl | (exfalso; omega)
      · simp [hx]
    · intro x
      rw [hlv2 x, lvlOf_setFwd e1]

end ClearLoop

section ClearRep

variable {K V : Type} [Inhabited K] [Inhabited V] [LinearOrder K] [DecidableEq K]

/-- In a well-formed state every slot of the head node is readable, and the
slots above `currentLevel_` hold `nullptr`. -/
theorem rep_head_fwd {s : SkipList K V} {l : List Nat} (r : Rep s l) {j : Nat}
    (hj : j ≤ s.maxLevel_) :
    (∃ q, fwd s.heap 0 j = some q) ∧ (s.currentLevel_ < j → fwd s.heap 0 j = some none) := by
  obtain ⟨_, q, hq, hrest⟩ := r.chain j hj
  refine ⟨⟨q, hq⟩, ?_⟩
  intro hc
  have he : onLevel s.heap j l = [] := onLevel_nil_above (fun n hn => (r.valid n hn).2.2) hc
  rw [he] at hrest
  have : q = none := hrest
  rw [this] at hq
  exact hq

/-- Refinement of `clear`: the new state is well formed and empty, and all
`maxLevel_ + 1` slots of the head node hold `nullptr`. -/
theorem clear_rep {s : SkipList K V} {l : List Nat} (r : Rep s l) :
    ∃ s1, s.clear = some s1 ∧ Rep s1 [] ∧ s1.maxLevel_ = s.maxLevel_ ∧
      s1.currentLevel_ = 0 ∧ s1.elementCount_ = 0 ∧
      ∀ j, j ≤ s.maxLevel_ → fwd s1.heap s1.header_ j = some none := by
  have hcur := r.curLe
  obtain ⟨h1, e1, hl1, hh1, hf1, _⟩ := clearLoop_spec (s.maxLevel_ + 1)
    (s.currentLevel_ + 1) 0 s.heap
    (fun j _ hj => (rep_head_fwd r (by omega : j ≤ s.maxLevel_)).1) r.hdrLen
  have hall : ∀ j, j ≤ s.maxLevel_ → fwd h1 0 j = some none := by
    intro j hj
    rw [hf1 0 j]
    by_cases hjc : j < 0 + (s.currentLevel_ + 1)
    · have : (0 : Nat) = 0 ∧ 0 ≤ j ∧ j < 0 + (s.currentLevel_ + 1) := ⟨rfl, Nat.zero_le _, hjc⟩
      rw [if_pos this]
    · have : ¬ ((0 : Nat) = 0 ∧ 0 ≤ j ∧ j < 0 + (s.currentLevel_ + 1)) := by omega
      rw [if_neg this]
      exact (rep_head_fwd r hj).2 (by omega)
  refine ⟨{ s with currentLevel_ := 0, elementCount_ := 0, heap := h1 }, ?_, ?_, rfl, rfl, rfl,
    ?_⟩
  · unfold SkipList.clear
    rw [r.hdr, e1]
  · refine ⟨r.hdr, hh1, Nat.zero_le _, (fun n hn => by cases hn), List.Pairwise.nil, ?_, rfl, ?_,
      Or.inl rfl⟩
    · intro i hi
      exact ⟨rfl, none, hall i hi, rfl⟩
    · show 0 < h1.length
      rw [hl1]
      have := r.room; omega
  · intro j hj
    show fwd h1 s.header_ j = some none
    rw [r.hdr]
    exact hall j hj

/-- The list built by the constructor is well formed and empty. -/
theorem new_rep (maxLevel : Nat) : Rep (SkipList.new maxLevel : SkipList K V) [] := by
  refine ⟨rfl, ⟨Node.mkHead maxLevel, rfl, by simp [Node.mkHead, SkipList.new]⟩, Nat.zero_le _,
    (fun n hn => by cases hn), List.Pairwise.nil, ?_, rfl, by simp [SkipList.new], Or.inl rfl⟩
  intro i hi
  have hi : i ≤ maxLevel := hi
  refine ⟨rfl, none, ?_, rfl⟩
  simp [SkipList.new, fwd, Node.mkHead, List.getElem?_replicate]
  omega

/-- Every reachable state is well formed. -/
theorem reachable_rep {maxLevel : Nat} {s : SkipList K V} (hr : Reachable maxLevel s) :
    ∃ l, Rep s l ∧ s.maxLevel_ = maxLevel := by
  induction hr with
  | init => exact ⟨[], new_rep maxLevel, rfl⟩
  | insert key value draw b _ he ih =>
    obtain ⟨l, r, hm⟩ := ih
    obtain ⟨s2, l2, e2, r2, _, hm2, _⟩ := insert_rep r key value draw
    rw [e2] at he
    cases he
    exact ⟨l2, r2, by rw [hm2, hm]⟩
  | remove key b _ he ih =>
    obtain ⟨l, r, hm⟩ := ih
    obtain ⟨s2, l2, e2, r2, _, hm2, _⟩ := remove_rep r key
    rw [e2] at he
    cases he
    exact ⟨l2, r2, by rw [hm2, hm]⟩
  | clear _ he ih =>
    obtain ⟨l, r, hm⟩ := ih
    obtain ⟨s2, e2, r2, hm2, _⟩ := clear_rep r
    rw [e2] at he
    cases he
    exact ⟨[], r2, by rw [hm2, hm]⟩

end ClearRep

/-! ## Skip list: the claims -/

section AbstractMap

variable {K V : Type} [LinearOrder K] [DecidableEq K]

theorem mLookup_mInsert_self (k : K) (v : V) (m : List (K × V)) :
    mLookup k (mInsert k v m) = some v := by
  unfold mLookup mInsert
  rw [List.find?_append]
  have h1 : (m.filter (fun p => decide (p.1 < k))).find? (fun p => decide (p.1 = k)) = none := by
    rw [List.find?_eq_none]
    intro x hx
    have := (List.mem_filter.mp hx).2
    simp only [decide_eq_true_eq] at this ⊢
    exact ne_of_lt this
  rw [h1]
  simp

theorem mLookup_mErase_self (k : K) (m : List (K × V)) : mLookup k (mErase k m) = none := by
  unfold mLookup mErase
  rw [Option.map_eq_none', List.find?_eq_none]
  intro x hx
  have := (List.mem_filter.mp hx).2
  simpa using this

theorem mLookup_mErase_other {k k1 : K} (hne : k1 ≠ k) (m : List (K × V)) :
    mLookup k1 (mErase k m) = mLookup k1 m := by
  induction m with
  | nil => rfl
  | cons a m ih =>
    unfold mLookup mErase at ih ⊢
    by_cases ha : a.1 = k
    · have ha1 : ¬ a.1 = k1 := by rw [ha]; exact Ne.symm hne
      rw [List.filter_cons_of_neg (by simpa using ha),
        List.find?_cons_of_neg _ (by simpa using ha1)]
      exact ih
    · rw [List.filter_cons_of_pos (by simpa using ha)]
      by_cases hb : a.1 = k1
      · rw [List.find?_cons_of_pos _ (by simpa using hb),
          List.find?_cons_of_pos _ (by simpa using hb)]
      · rw [List.find?_cons_of_neg _ (by simpa using hb),
          List.find?_cons_of_neg _ (by simpa using hb)]
        exact ih

theorem mLookup_isSome_iff (k : K) (m : List (K × V)) :
    (mLookup k m).isSome = true ↔ k ∈ m.map Prod.fst := by
  unfold mLookup
  rw [Option.isSome_map', List.find?_isSome]
  constructor
  · rintro ⟨x, hx, hp⟩
    have : x.1 = k := by simpa using hp
    exact List.mem_map.mpr ⟨x, hx, this⟩
  · intro h
    obtain ⟨x, hx, hk⟩ := List.mem_map.mp h
    exact ⟨x, hx, by simpa using hk⟩

/-- Every height up to `maxLevel - 1` is returned by `getRandomLevel` for some
random samples. -/
theorem getRandomLevel_attained (maxLevel h : Nat) (hh : h ≤ maxLevel - 1) :
    ∃ draw, getRandomLevel maxLevel draw = h := by
  refine ⟨fun n => decide (n < h), ?_⟩
  unfold getRandomLevel
  have key : ∀ (fuel level : Nat), level ≤ h → h - level < fuel ∨ (maxLevel = 0) →
      getRandomLevelLoop maxLevel (fun n => decide (n < h)) fuel level = h := by
    intro fuel
    induction fuel with
    | zero =>
      intro level hl hf
      rcases hf with hf | hf
      · omega
      · simp only [getRandomLevelLoop]; omega
    | succ f ih =>
      intro level hl hf
      simp only [getRandomLevelLoop]
      by_cases hlt : level < h
      · have h2 : level + 1 < maxLevel := by omega
        simp only [hlt, decide_True, h2, Bool.and_self, if_true]
        apply ih (level + 1) (by omega)
        rcases hf with hf | hf
        · left; omega
        · right; exact hf
      · have : level = h := by omega
        simp [hlt, this]
  apply key maxLevel 0 (Nat.zero_le _)
  by_cases h0 : maxLevel = 0
  · right; exact h0
  · left; omega

end AbstractMap

section SkipListClaims

variable {K V : Type} [Inhabited K] [Inhabited V] [LinearOrder K] [DecidableEq K]

/-- C1: in every state reachable from the empty list by insert/remove/clear,
for every key, value and random samples of the level generator, `insert(k, v)`
returns and a following `search(k)` returns true with the value `v`; and on a
`KVStore` over such a list, `get(k)` right after `put(k, v)` yields `v` for
every non-empty key `k`. -/
theorem C1_search_after_insert (maxLevel : Nat) :
    (∀ (s : SkipList K V), Reachable maxLevel s → ∀ (k : K) (v : V) (draw : Nat → Bool),
      ∃ b s1, s.insert k v draw = some (b, s1) ∧ s1.search k = some (some v)) ∧
    (∀ (st : KVStore), Reachable maxLevel st.skiplist_ →
      ∀ (k v : Str) (draw : Nat → Bool), k ≠ [] →
      ∃ b st1, st.put k v draw = some (b, st1) ∧ st1.get k = some (some v)) := by
  have gen : ∀ {K1 V1 : Type} [Inhabited K1] [Inhabited V1] [LinearOrder K1]
      [DecidableEq K1] (s : SkipList K1 V1), Reachable maxLevel s → ∀ (k : K1) (v : V1) (draw : Nat → Bool),
      ∃ b s1, s.insert k v draw = some (b, s1) ∧ s1.search k = some (some v) := by
    intro K1 V1 _ _ _ _ s hr k v draw
    obtain ⟨l, r, _⟩ := reachable_rep hr
    obtain ⟨s1, l1, e1, r1, hp, _⟩ := insert_rep r k v draw
    refine ⟨_, s1, e1, ?_⟩
    rw [search_rep r1 k, hp, mLookup_mInsert_self]
  refine ⟨fun s hr k v draw => gen s hr k v draw, ?_⟩
  intro st hr k v draw hk
  obtain ⟨b, s1, e1, e2⟩ := gen st.skiplist_ hr k v draw
  have hke : k.isEmpty = false := by
    cases k with
    | nil => exact absurd rfl hk
    | cons a t => rfl
  refine ⟨b, ⟨s1⟩, ?_, ?_⟩
  · simp only [KVStore.put, hke, Bool.false_eq_true, if_false, e1]
  · simp only [KVStore.get, hke, Bool.false_eq_true, if_false, e2]

/-- C2: in every reachable state and for all random samples, `insert(k, v)`
returns true exactly when `k` was absent before the call (`search(k)` returned
false), and false exactly when it was present; when it returns false the size
is unchanged; in both cases a following `search(k)` yields `v`, and a second
`insert(k, v2)` returns false, leaves the size unchanged and makes `search(k)`
yield `v2`. -/
theorem C2_insert_new_or_update (maxLevel : Nat) (s : SkipList K V)
    (hr : Reachable maxLevel s) (k : K) (v v2 : V) (draw draw2 : Nat → Bool) :
    ∃ b s1, s.insert k v draw = some (b, s1) ∧
      (b = true ↔ s.search k = some none) ∧
      (b = false ↔ ∃ old, s.search k = some (some old)) ∧
      (b = false → s1.size = s.size) ∧
      s1.search k = some (some v) ∧
      ∃ s2, s1.insert k v2 draw2 = some (false, s2) ∧ s2.size = s1.size ∧
        s2.search k = some (some v2) := by
  obtain ⟨l, r, _⟩ := reachable_rep hr
  obtain ⟨s1, l1, e1, r1, hp, _, hc⟩ := insert_rep r k v draw
  obtain ⟨s2, l2, e2, r2, hp2, _, hc2⟩ := insert_rep r1 k v2 draw2
  have hs1 : mLookup k (pairsOf s1.heap l1) = some v := by rw [hp, mLookup_mInsert_self]
  rw [hs1] at e2 hc2
  refine ⟨_, s1, e1, ?_, ?_, ?_, ?_, s2, ?_, ?_, ?_⟩
  · rw [search_rep r k]
    cases mLookup k (pairsOf s.heap l) <;> simp
  · rw [search_rep r k]
    cases mLookup k (pairsOf s.heap l) <;> simp
  · intro hb
    show s1.elementCount_ = s.elementCount_
    rw [hc]
    simp only [hb, Bool.false_eq_true, if_false, add_zero]
  · rw [search_rep r1 k, hs1]
  · simpa using e2
  · show s2.elementCount_ = s1.elementCount_
    rw [hc2]; simp
  · rw [search_rep r2 k, hp2, mLookup_mInsert_self]

/-- C3: in every reachable state, `remove(k)` returns true exactly when `k` was
present; after the call `search(k)` returns false, and for every other key
`search` returns the same result (found flag and value) as before the call. -/
theorem C3_remove (maxLevel : Nat) (s : SkipList K V) (hr : Reachable maxLevel s) (k : K) :
    ∃ b s1, s.remove k = some (b, s1) ∧
      (b = true ↔ ∃ old, s.search k = some (some old)) ∧
      s1.search k = some none ∧
      ∀ k1, k1 ≠ k → s1.search k1 = s.search k1 ∧ ∃ res, s.search k1 = some res := by
  obtain ⟨l, r, _⟩ := reachable_rep hr
  obtain ⟨s1, l1, e1, r1, hp, _, _, _⟩ := remove_rep r k
  refine ⟨_, s1, e1, ?_, ?_, ?_⟩
  · rw [search_rep r k]
    cases mLookup k (pairsOf s.heap l) <;> simp
  · rw [search_rep r1 k, hp, mLookup_mErase_self]
  · intro k1 hk1
    rw [search_rep r1 k1, hp, mLookup_mErase_other hk1, search_rep r k1]
    exact ⟨rfl, _, rfl⟩

/-- C4: in every reachable state, `size()` is the length of the level-0 chain
from the head, whose keys are pairwise distinct and are exactly the keys for
which `contains` is true; re-inserting a present key and removing an absent
key return false and leave `size()` unchanged. -/
theorem C4_size_counts_keys (maxLevel : Nat) (s : SkipList K V)
    (hr : Reachable maxLevel s) :
    (∃ l : List Nat, Chain s.heap 0 (some s.header_) (s.header_ :: l) ∧
      (l.map (keyOf s.heap)).Nodup ∧
      (∀ k, s.contains k = some (decide (k ∈ l.map (keyOf s.heap)))) ∧
      s.size = (l.length : Int)) ∧
    (∀ (k : K) (v : V) (draw : Nat → Bool), s.contains k = some true →
      ∃ s1, s.insert k v draw = some (false, s1) ∧ s1.size = s.size) ∧
    (∀ (k : K), s.contains k = some false →
      ∃ s1, s.remove k = some (false, s1) ∧ s1.size = s.size) := by
  obtain ⟨l, r, _⟩ := reachable_rep hr
  have hcont : ∀ k, s.contains k = some (mLookup k (pairsOf s.heap l)).isSome := by
    intro k
    simp only [SkipList.contains, search_rep r k, Option.map_some']
  refine ⟨⟨l, ?_, ?_, ?_, r.count⟩, ?_, ?_⟩
  · have := r.chain 0 (Nat.zero_le _)
    rw [onLevel_zero] at this
    rw [r.hdr]; exact this
  · show (l.map (keyOf s.heap)).Pairwise (fun a b => a ≠ b)
    rw [List.pairwise_map]
    exact r.sorted.imp (fun hab => ne_of_lt hab)
  · intro k
    rw [hcont k]
    congr 1
    have h := mLookup_isSome_iff k (pairsOf s.heap l)
    have hm : (pairsOf s.heap l).map Prod.fst = l.map (keyOf s.heap) := by
      simp [pairsOf, Function.comp_def]
    rw [hm] at h
    by_cases hk : k ∈ l.map (keyOf s.heap)
    · simp only [hk, decide_True]; exact h.mpr hk
    · simp only [hk, decide_False]
      cases hb : (mLookup k (pairsOf s.heap l)).isSome with
      | false => rfl
      | true => exact absurd (h.mp hb) hk
  · intro k v draw hk
    rw [hcont k] at hk
    have hk1 : (mLookup k (pairsOf s.heap l)).isSome = true := by simpa using hk
    obtain ⟨s1, l1, e1, _, _, _, hc⟩ := insert_rep r k v draw
    have hn : (mLookup k (pairsOf s.heap l)).isNone = false := by
      cases hx : mLookup k (pairsOf s.heap l) with
      | none => rw [hx] at hk1; cases hk1
      | some a => rfl
    rw [hn] at e1 hc
    exact ⟨s1, e1, by show s1.elementCount_ = s.elementCount_; rw [hc]; simp⟩
  · intro k hk
    rw [hcont k] at hk
    have hk1 : (mLookup k (pairsOf s.heap l)).isSome = false := by simpa using hk
    obtain ⟨s1, l1, e1, _, _, _, hc, _⟩ := remove_rep r k
    rw [hk1] at e1 hc
    exact ⟨s1, e1, by show s1.elementCount_ = s.elementCount_; rw [hc]; simp⟩

/-- C5: after `clear()` on any reachable state, `size()` is 0, the head node's
forward array consists of `maxLevel + 1` slots that all hold `nullptr`
(including the slots above the former `currentLevel_`), and `search` and
`contains` return false for every key. -/
theorem C5_clear (maxLevel : Nat) (s : SkipList K V) (hr : Reachable maxLevel s) :
    ∃ s1, s.clear = some s1 ∧ s1.size = 0 ∧
      (∃ nd, s1.heap[s1.header_]? = some nd ∧
        nd.forward = List.replicate (maxLevel + 1) none) ∧
      ∀ k, s1.search k = some none ∧ s1.contains k = some false := by
  obtain ⟨l, r, hm⟩ := reachable_rep hr
  obtain ⟨s1, e1, r1, hm1, _, hcnt, hall⟩ := clear_rep r
  refine ⟨s1, e1, hcnt, ?_, ?_⟩
  · obtain ⟨nd, e0, el⟩ := r1.hdrLen
    rw [r1.hdr] at hall ⊢
    refine ⟨nd, e0, ?_⟩
    rw [List.eq_replicate_iff]
    constructor
    · rw [el, hm1, hm]
    · intro b hb
      obtain ⟨i, hi, rfl⟩ := List.mem_iff_getElem.mp hb
      have hi2 : i ≤ s.maxLevel_ := by rw [el, hm1] at hi; omega
      have := hall i hi2
      simp only [fwd, e0] at this
      rw [List.getElem?_eq_getElem hi] at this
      exact Option.some.inj this
  · intro k
    have hs : s1.search k = some none := by
      rw [search_rep r1 k]; rfl
    exact ⟨hs, by simp [SkipList.contains, hs]⟩

end SkipListClaims

/-! ## Buffer and codec -/

section BufferLemmas

theorem memchr_none_iff (c : Char) (l : List Char) : memchr c l = none ↔ c ∉ l := by
  induction l with
  | nil => simp [memchr]
  | cons x rest ih =>
    by_cases hx : x = c
    · simp [memchr, hx]
    · simp only [memchr, hx, if_false, Option.map_eq_none', ih, List.mem_cons, not_or]
      constructor
      · intro h; exact ⟨fun e => hx e.symm, h⟩
      · intro h; exact h.2

/-- The offset found by `memchr` in a range whose first `c` comes after `pre`. -/
theorem memchr_split (c : Char) (pre post : List Char) (hpre : c ∉ pre) :
    memchr c (pre ++ c :: post) = some pre.length := by
  induction pre with
  | nil => simp [memchr]
  | cons x pre ih =>
    have hx : x ≠ c := fun e => hpre (by simp [e])
    have hp : c ∉ pre := fun e => hpre (List.mem_cons_of_mem _ e)
    simp [memchr, hx, ih hp]

/-- The offset found by `searchCRLF` holds CR and the next one holds LF. -/
theorem searchCRLF_some {l : List Char} {i : Nat} (h : searchCRLF l = some i) :
    l[i]? = some '\r' ∧ l[i + 1]? = some '\n' := by
  induction l generalizing i with
  | nil => simp [searchCRLF] at h
  | cons c1 l ih =>
    cases l with
    | nil => simp [searchCRLF] at h
    | cons c2 rest =>
      simp only [searchCRLF] at h
      split at h
      · rename_i hc
        cases h
        simp [hc.1, hc.2]
      · cases hs : searchCRLF (c2 :: rest) with
        | none => simp [hs] at h
        | some j =>
          simp only [hs, Option.map_some', Option.some.injEq] at h
          subst h
          have := ih hs
          simpa using this

theorem mem_of_getElem?_some {l : List Char} {i : Nat} {c : Char} (h : l[i]? = some c) :
    c ∈ l := by
  rw [List.getElem?_eq_some_iff] at h
  obtain ⟨hi, he⟩ := h
  rw [← he]
  exact List.getElem_mem hi

/-- The choice of `lineEnd` is `nullptr` exactly when the range holds no LF. -/
theorem lineEnd_none_iff (l : List Char) :
    Codec.lineEnd (searchCRLF l) (memchr '\n' l) = none ↔ '\n' ∉ l := by
  cases hc : searchCRLF l with
  | none =>
    cases hl : memchr '\n' l with
    | none => simp [Codec.lineEnd, ← memchr_none_iff, hl]
    | some j => simp [Codec.lineEnd, ← memchr_none_iff, hl]
  | some i =>
    have hm : '\n' ∈ l := mem_of_getElem?_some (searchCRLF_some hc).2
    cases hl : memchr '\n' l with
    | none => exact absurd hm ((memchr_none_iff _ _).mp hl)
    | some j => simp [Codec.lineEnd, hm]

theorem getElem?_split_lt {pre post : List Char} {c : Char} {i : Nat} (hi : i < pre.length) :
    (pre ++ c :: post)[i]? = pre[i]? := by
  rw [List.getElem?_append_left hi]

/-- With the first LF of the range at offset `pre.length`, the chosen line end
and the number of characters to skip add up to `pre.length + 1`. -/
theorem lineEnd_split (pre post : List Char) (hpre : '\n' ∉ pre) :
    ∃ e, Codec.lineEnd (searchCRLF (pre ++ '\n' :: post))
        (memchr '\n' (pre ++ '\n' :: post)) = some e ∧
      ((e = pre.length ∧ (pre ++ '\n' :: post)[e]? = some '\n') ∨
       (e + 1 = pre.length ∧ (pre ++ '\n' :: post)[e]? = some '\r' ∧
         (pre ++ '\n' :: post)[e + 1]? = some '\n')) := by
  have hlf := memchr_split '\n' pre post hpre
  have hat : (pre ++ '\n' :: post)[pre.length]? = some '\n' := by
    rw [List.getElem?_append_right (Nat.le_refl _)]; simp
  cases hc : searchCRLF (pre ++ '\n' :: post) with
  | none =>
    exact ⟨pre.length, by simp [Codec.lineEnd, hlf], Or.inl ⟨rfl, hat⟩⟩
  | some c =>
    have hcr := searchCRLF_some hc
    by_cases hlt : c < pre.length
    · refine ⟨c, by simp [Codec.lineEnd, hlf, hlt], Or.inr ⟨?_, hcr.1, hcr.2⟩⟩
      by_contra hne
      have h2 : c + 1 < pre.length := by omega
      have := hcr.2
      rw [List.getElem?_append_left h2] at this
      exact hpre (mem_of_getElem?_some this)
    · exact ⟨pre.length, by simp [Codec.lineEnd, hlf, hlt], Or.inl ⟨rfl, hat⟩⟩

theorem readable_length (b : Buffer) (hinv : b.Inv) : b.readable.length = b.readableBytes := by
  unfold Buffer.readable Buffer.readableBytes
  unfold Buffer.Inv at hinv
  rw [List.length_take, List.length_drop]
  omega

/-- The method `retrieve` drops the first `len` readable characters. -/
theorem retrieve_readable (b : Buffer) (hinv : b.Inv) (len : Nat)
    (hlen : len ≤ b.readableBytes) : (b.retrieve len).readable = b.readable.drop len := by
  have hl := readable_length b hinv
  unfold Buffer.retrieve
  by_cases h : len < b.readableBytes
  · simp only [h, if_true]
    unfold Buffer.readable Buffer.readableBytes
    simp only
    rw [List.drop_take, List.drop_drop]
    congr 1
    omega
  · simp only [h, if_false]
    have he : len = b.readableBytes := by omega
    rw [List.drop_eq_nil_of_le (by omega)]
    simp [Buffer.retrieveAll, Buffer.readable, Buffer.readableBytes]

end BufferLemmas

section CodecLemmas

/-- The function `parseLine` always returns true. -/
theorem parseLine_fst (line : Str) (req : Request) : (Codec.parseLine line req).1 = true := by
  unfold Codec.parseLine
  split
  · rfl
  · simp only
    split
    · rfl
    · split_ifs <;> (try rfl) <;> (split <;> rfl)

end CodecLemmas

/-! ## Buffer and codec: the claims -/

section CodecClaims

/-- C6: `Codec::parseRequest` returns false ("incomplete") exactly when the
readable region of the buffer contains no LF, and in that case the buffer (and
the request) are left unchanged. -/
theorem C6_parseRequest_incomplete (buf : Buffer) (req : Request) :
    ((Codec.parseRequest buf req).1 = false ↔ '\n' ∉ buf.readable) ∧
    ('\n' ∉ buf.readable → Codec.parseRequest buf req = (false, buf, req)) := by
  have hiff := lineEnd_none_iff buf.readable
  cases he : Codec.lineEnd (searchCRLF buf.readable) (memchr '\n' buf.readable) with
  | none =>
    rw [he] at hiff
    have hn : '\n' ∉ buf.readable := hiff.mp rfl
    have hres : Codec.parseRequest buf req = (false, buf, req) := by
      simp only [Codec.parseRequest, Buffer.findCRLF, he]
    rw [hres]
    exact ⟨⟨fun _ => hn, fun _ => rfl⟩, fun _ => rfl⟩
  | some e =>
    rw [he] at hiff
    have hn : ¬ ('\n' ∉ buf.readable) := fun h => by
      have := hiff.mpr h
      cases this
    have hres : (Codec.parseRequest buf req).1 = true := by
      simp only [Codec.parseRequest, Buffer.findCRLF, he, parseLine_fst]
    rw [hres]
    exact ⟨⟨fun h => Bool.noConfusion h, fun h => absurd h hn⟩, fun h => absurd h hn⟩

/-- C7: when the readable region is `pre`, an LF, and `post`, with no LF in
`pre` (so the LF is the first one, whether or not a CR precedes it),
`Codec::parseRequest` returns true and consumes exactly `pre` and the LF:
afterwards the readable region is `post`. -/
theorem C7_parseRequest_consumes_line (buf : Buffer) (hinv : buf.Inv) (req : Request)
    (pre post : List Char) (hsplit : buf.readable = pre ++ '\n' :: post)
    (hpre : '\n' ∉ pre) :
    (Codec.parseRequest buf req).1 = true ∧
    (Codec.parseRequest buf req).2.1.readable = post ∧
    (Codec.parseRequest buf req).2.1.readableBytes + (pre.length + 1) = buf.readableBytes := by
  have hl := readable_length buf hinv
  have hlen : buf.readableBytes = pre.length + 1 + post.length := by
    rw [← hl, hsplit]; simp; omega
  obtain ⟨e, he, hcase⟩ := lineEnd_split pre post hpre
  rw [← hsplit] at he hcase
  -- the number of characters skipped
  have hskip : (if buf.readable[e]? = some '\r' then
        if e + 1 < buf.readableBytes ∧ buf.readable[e + 1]? = some '\n' then e + 2
        else e + 1
      else e + 1) = pre.length + 1 := by
    rcases hcase with ⟨h1, h2⟩ | ⟨h1, h2, h3⟩
    · have : ¬ (buf.readable[e]? = some '\r') := by
        rw [h2]; decide
      rw [if_neg this, h1]
    · have h4 : e + 1 < buf.readableBytes := by omega
      rw [if_pos h2, if_pos ⟨h4, h3⟩]
      omega
  have hres : (Codec.parseRequest buf req).2.1 = buf.retrieve (pre.length + 1) := by
    simp only [Codec.parseRequest, Buffer.findCRLF, he, hskip]
  have hfst : (Codec.parseRequest buf req).1 = true := by
    simp only [Codec.parseRequest, Buffer.findCRLF, he, parseLine_fst]
  refine ⟨hfst, ?_, ?_⟩
  · rw [hres, retrieve_readable buf hinv _ (by omega), hsplit]
    have : pre.length + 1 = (pre ++ ['\n']).length := by simp
    rw [this]
    have e2 : pre ++ '\n' :: post = (pre ++ ['\n']) ++ post := by simp
    rw [e2, List.drop_left]
  · rw [hres]
    unfold Buffer.retrieve
    by_cases h : pre.length + 1 < buf.readableBytes
    · simp only [h, if_true]
      unfold Buffer.readableBytes at hlen h ⊢
      simp only
      omega
    · simp only [h, if_false]
      simp only [Buffer.retrieveAll, Buffer.readableBytes] at hlen h ⊢
      omega

/-- C8: for every request line, `Codec::parseLine` returns true; its command
tag is the one the table gives for the upper-cased first whitespace-delimited
token and the number of tokens (Unknown when the line has no token); for Put,
Get, Del and Exists the key is the second token, and otherwise the key is left
as it was. -/
theorem C8_parseLine_table (line : Str) (req : Request) :
    (Codec.parseLine line req).1 = true ∧
    (Codec.parseLine line req).2.command =
      (match Codec.split line with
       | [] => CommandType.kUnknown
       | p0 :: _ => Codec.tableCommand (Codec.toUpper p0) (Codec.split line).length) ∧
    ((Codec.parseLine line req).2.command.hasKey = true →
      (Codec.split line)[1]? = some (Codec.parseLine line req).2.key) ∧
    ((Codec.parseLine line req).2.command.hasKey = false →
      (Codec.parseLine line req).2.key = req.key) := by
  refine ⟨parseLine_fst line req, ?_⟩
  cases line with
  | nil => simp [Codec.parseLine, Codec.split, Codec.splitAux, CommandType.hasKey]
  | cons c l =>
    unfold Codec.parseLine Codec.tableCommand
    simp only [List.isEmpty_cons, Bool.false_eq_true, if_false]
    generalize Codec.split (c :: l) = parts
    generalize "PUT".toList = sPut
    generalize "SET".toList = sSet
    generalize "GET".toList = sGet
    generalize "DEL".toList = sDel
    generalize "DELETE".toList = sDelete
    generalize "EXISTS".toList = sExists
    generalize "SIZE".toList = sSize
    generalize "DBSIZE".toList = sDbsize
    generalize "CLEAR".toList = sClear
    generalize "FLUSHDB".toList = sFlushdb
    generalize "PING".toList = sPing
    generalize "QUIT".toList = sQuit
    generalize "EXIT".toList = sExit
    rcases parts with _ | ⟨p0, rest⟩
    · simp [CommandType.hasKey]
    dsimp only
    generalize Codec.toUpper p0 = cmd
    by_cases h1 : cmd = sPut ∨ cmd = sSet
    · simp only [h1, if_true]
      rcases rest with _ | ⟨p1, _ | ⟨p2, rest⟩⟩ <;> simp [CommandType.hasKey]
    simp only [h1, if_false]
    by_cases h2 : cmd = sGet
    · simp only [h2, if_true]
      rcases rest with _ | ⟨p1, rest⟩ <;> simp [CommandType.hasKey]
    simp only [h2, if_false]
    by_cases h3 : cmd = sDel ∨ cmd = sDelete
    · simp only [h3, if_true]
      rcases rest with _ | ⟨p1, rest⟩ <;> simp [CommandType.hasKey]
    simp only [h3, if_false]
    by_cases h4 : cmd = sExists
    · simp only [h4, if_true]
      rcases rest with _ | ⟨p1, rest⟩ <;> simp [CommandType.hasKey]
    simp only [h4, if_false]
    by_cases h5 : cmd = sSize ∨ cmd = sDbsize
    · simp only [h5, if_true]
      simp [CommandType.hasKey]
    simp only [h5, if_false]
    by_cases h6 : cmd = sClear ∨ cmd = sFlushdb
    · simp only [h6, if_true]
      simp [CommandType.hasKey]
    simp only [h6, if_false]
    by_cases h7 : cmd = sPing
    · simp only [h7, if_true]
      simp [CommandType.hasKey]
    simp only [h7, if_false]
    by_cases h8 : cmd = sQuit ∨ cmd = sExit
    · simp only [h8, if_true]
      simp [CommandType.hasKey]
    simp only [h8, if_false]
    simp [CommandType.hasKey]

/-- C9 (the code at the failing input): the line `PUT P x` is the command token
`PUT`, the non-empty whitespace-free key `P` and the value `x`, joined by single
spaces; `Codec::parseLine` yields a Put request with key `P` whose value is
`UT P x`, not `x`, because `line.find(parts[1])` finds the key inside the
command token. -/
theorem C9_put_value_failing_input :
    Codec.parseLine ("PUT".toList ++ " ".toList ++ "P".toList ++ " ".toList ++ "x".toList)
        Request.new =
      (true, ⟨CommandType.kPut, "P".toList, "UT P x".toList⟩) := by
  decide

/-- C10: `Codec::encodeResponse` is bit-exact: `+OK` for Ok with an empty
message, `+OK <msg>` for Ok with a non-empty message, `-NOT_FOUND` for NotFound,
`-ERROR <msg>` for Error with a non-empty message, `+PONG` for Pong and `+BYE`
for Bye, each followed by CR LF; the output always ends with CR LF and the
message of NotFound, Pong and Bye is ignored. -/
theorem C10_encodeResponse (msg : Str) :
    Codec.encodeResponse ⟨StatusCode.kOk, []⟩ = "+OK\r\n".toList ∧
    (msg ≠ [] →
      Codec.encodeResponse ⟨StatusCode.kOk, msg⟩ = "+OK ".toList ++ msg ++ "\r\n".toList) ∧
    Codec.encodeResponse ⟨StatusCode.kNotFound, msg⟩ = "-NOT_FOUND\r\n".toList ∧
    (msg ≠ [] →
      Codec.encodeResponse ⟨StatusCode.kError, msg⟩ =
        "-ERROR ".toList ++ msg ++ "\r\n".toList) ∧
    Codec.encodeResponse ⟨StatusCode.kPong, msg⟩ = "+PONG\r\n".toList ∧
    Codec.encodeResponse ⟨StatusCode.kBye, msg⟩ = "+BYE\r\n".toList ∧
    (∀ r : Response, ∃ body, Codec.encodeResponse r = body ++ "\r\n".toList) := by
  have hne : msg ≠ [] → msg.isEmpty = false := by
    intro h
    cases msg with
    | nil => exact absurd rfl h
    | cons a t => rfl
  refine ⟨by decide, ?_, by simp [Codec.encodeResponse], ?_, by simp [Codec.encodeResponse],
    by simp [Codec.encodeResponse], fun r => ⟨_, rfl⟩⟩
  · intro h
    simp [Codec.encodeResponse, hne h]
  · intro h
    simp [Codec.encodeResponse, hne h]

end CodecClaims

/-! ## The claims at concrete inputs -/

section Witnesses

/-- The example list is the state after `insert(5, 50)` on the empty list. -/
theorem demoList_reachable : Reachable 4 demoList :=
  Reachable.insert 5 50 (fun n => decide (n < 1)) true Reachable.init rfl

theorem C1_search_after_insert_witness :
    (∃ b s1, demoList.insert 7 70 (fun _ => true) = some (b, s1) ∧
      s1.search 7 = some (some 70)) ∧
    (∃ b st1, (KVStore.new 4).put "k".toList "v".toList (fun _ => false) = some (b, st1) ∧
      st1.get "k".toList = some (some "v".toList)) :=
  ⟨(C1_search_after_insert (K := Nat) (V := Nat) 4).1 demoList demoList_reachable 7 70
      (fun _ => true),
    (C1_search_after_insert (K := Nat) (V := Nat) 4).2 (KVStore.new 4) Reachable.init
      "k".toList "v".toList (fun _ => false) (by decide)⟩

theorem C2_insert_new_or_update_witness :
    ∃ b s1, demoList.insert 5 51 (fun _ => false) = some (b, s1) ∧
      (b = true ↔ demoList.search 5 = some none) ∧
      (b = false ↔ ∃ old, demoList.search 5 = some (some old)) ∧
      (b = false → s1.size = demoList.size) ∧
      s1.search 5 = some (some 51) ∧
      ∃ s2, s1.insert 5 52 (fun _ => true) = some (false, s2) ∧ s2.size = s1.size ∧
        s2.search 5 = some (some 52) :=
  C2_insert_new_or_update 4 demoList demoList_reachable 5 51 52 (fun _ => false)
    (fun _ => true)

theorem C3_remove_witness :
    ∃ b s1, demoList.remove 5 = some (b, s1) ∧
      (b = true ↔ ∃ old, demoList.search 5 = some (some old)) ∧
      s1.search 5 = some none ∧
      ∀ k1, k1 ≠ 5 → s1.search k1 = demoList.search k1 ∧
        ∃ res, demoList.search k1 = some res :=
  C3_remove 4 demoList demoList_reachable 5

theorem C4_size_counts_keys_witness :
    (∃ l : List Nat, Chain demoList.heap 0 (some demoList.header_) (demoList.header_ :: l) ∧
      (l.map (keyOf demoList.heap)).Nodup ∧
      (∀ k, demoList.contains k = some (decide (k ∈ l.map (keyOf demoList.heap)))) ∧
      demoList.size = (l.length : Int)) ∧
    (∀ (k : Nat) (v : Nat) (draw : Nat → Bool), demoList.contains k = some true →
      ∃ s1, demoList.insert k v draw = some (false, s1) ∧ s1.size = demoList.size) ∧
    (∀ (k : Nat), demoList.contains k = some false →
      ∃ s1, demoList.remove k = some (false, s1) ∧ s1.size = demoList.size) :=
  C4_size_counts_keys 4 demoList demoList_reachable

theorem C5_clear_witness :
    ∃ s1, demoList.clear = some s1 ∧ s1.size = 0 ∧
      (∃ nd, s1.heap[s1.header_]? = some nd ∧
        nd.forward = List.replicate (4 + 1) none) ∧
      ∀ k, s1.search k = some none ∧ s1.contains k = some false :=
  C5_clear 4 demoList demoList_reachable

theorem C6_parseRequest_incomplete_witness :
    Codec.parseRequest demoPartial Request.new = (false, demoPartial, Request.new) :=
  (C6_parseRequest_incomplete demoPartial Request.new).2 (by decide)

theorem C7_parseRequest_consumes_line_witness :
    (Codec.parseRequest demoBuffer Request.new).1 = true ∧
    (Codec.parseRequest demoBuffer Request.new).2.1.readable = "cd".toList ∧
    (Codec.parseRequest demoBuffer Request.new).2.1.readableBytes + ("ab\r".toList.length + 1) =
      demoBuffer.readableBytes :=
  C7_parseRequest_consumes_line demoBuffer ⟨by decide, by decide⟩ Request.new "ab\r".toList
    "cd".toList (by decide) (by decide)

theorem C8_parseLine_table_witness :
    (Codec.split "get k1".toList)[1]? =
      some (Codec.parseLine "get k1".toList Request.new).2.key :=
  (C8_parseLine_table "get k1".toList Request.new).2.2.1 (by decide)

theorem C10_encodeResponse_witness :
    Codec.encodeResponse ⟨StatusCode.kOk, "hi".toList⟩ =
      "+OK ".toList ++ "hi".toList ++ "\r\n".toList :=
  (C10_encodeResponse "hi".toList).2.1 (by decide)

end Witnesses

/-! ## Buffer: writing, and the claims on the buffer -/

section BufferWrite

theorem take_succ_set {α : Type} (c : α) : ∀ (v : List α) (pos : Nat), pos < v.length →
    (v.set pos c).take (pos + 1) = v.take pos ++ [c] := by
  intro v
  induction v with
  | nil => intro pos h; simp at h
  | cons a v ih =>
    intro pos h
    cases pos with
    | zero => simp
    | succ p =>
      simp only [List.length_cons] at h
      simp [ih p (by omega)]

theorem take_succ_drop {α : Type} (v : List α) (src n : Nat) (hs : src < v.length) :
    (v.drop src).take (n + 1) = v[src] :: (v.drop (src + 1)).take n := by
  rw [List.drop_eq_getElem_cons hs, List.take_succ_cons]

theorem writeAt_length (x : Str) : ∀ (v : List Char) (pos : Nat),
    (writeAt v pos x).length = v.length := by
  induction x with
  | nil => intro v pos; rfl
  | cons c cs ih => intro v pos; simp [writeAt, ih]

/-- Writing a string inside the vector replaces exactly the characters at its
place. -/
theorem writeAt_spec (x : Str) : ∀ (v : List Char) (pos : Nat), pos + x.length ≤ v.length →
    writeAt v pos x = v.take pos ++ x ++ v.drop (pos + x.length) := by
  induction x with
  | nil => intro v pos _; simp [writeAt]
  | cons c cs ih =>
    intro v pos h
    simp only [List.length_cons] at h
    have hp : pos < v.length := by omega
    rw [writeAt, ih (v.set pos c) (pos + 1) (by simp; omega)]
    have e1 : (v.set pos c).take (pos + 1) = v.take pos ++ [c] := take_succ_set c v pos hp
    have e2 : (v.set pos c).drop (pos + 1 + cs.length) = v.drop (pos + (cs.length + 1)) := by
      rw [List.drop_set_of_lt _ _ (by omega)]
      congr 1; omega
    rw [e1, e2]
    simp

theorem copyFwd_length : ∀ (n : Nat) (v : List Char) (src dst : Nat),
    (copyFwd v src dst n).length = v.length := by
  intro n
  induction n with
  | zero => intro v src dst; rfl
  | succ n ih =>
    intro v src dst
    simp only [copyFwd]
    cases v[src]? with
    | none => rfl
    | some c => simp [ih]

/-- Copying a range of the vector forward to a lower place gives that place
the old content of the range and changes nothing else. -/
theorem copyFwd_spec : ∀ (n : Nat) (v : List Char) (src dst : Nat), dst ≤ src →
    src + n ≤ v.length →
    copyFwd v src dst n = v.take dst ++ (v.drop src).take n ++ v.drop (dst + n) := by
  intro n
  induction n with
  | zero => intro v src dst _ _; simp [copyFwd]
  | succ n ih =>
    intro v src dst hds hlen
    have hs : src < v.length := by omega
    have hd : dst < v.length := by omega
    simp only [copyFwd, List.getElem?_eq_getElem hs]
    rw [ih (v.set dst v[src]) (src + 1) (dst + 1) (by omega) (by simp; omega)]
    have e1 : (v.set dst v[src]).take (dst + 1) = v.take dst ++ [v[src]] :=
      take_succ_set _ v dst hd
    have e2 : (v.set dst v[src]).drop (src + 1) = v.drop (src + 1) := by
      rw [List.drop_set_of_lt _ _ (by omega)]
    have e3 : (v.set dst v[src]).drop (dst + 1 + n) = v.drop (dst + (n + 1)) := by
      rw [List.drop_set_of_lt _ _ (by omega)]
      congr 1; omega
    have e4 : (v.drop src).take (n + 1) = v[src] :: (v.drop (src + 1)).take n :=
      take_succ_drop v src n hs
    rw [e1, e2, e3, e4]
    simp

theorem vectorResize_length (v : List Char) (n : Nat) : (vectorResize v n).length = n := by
  unfold vectorResize
  split
  · rename_i h; simp [Nat.min_eq_left h]
  · simp; omega

theorem vectorResize_grow (v : List Char) (n : Nat) (h : v.length ≤ n) :
    vectorResize v n = v ++ List.replicate (n - v.length) (Char.ofNat 0) := by
  unfold vectorResize
  split
  · rename_i h2
    have : n = v.length := by omega
    subst this
    simp
  · rfl

end BufferWrite

section BufferAppend

theorem readable_eq_drop_take (b : Buffer) :
    b.readable = (b.buffer_.take b.writerIndex_).drop b.readerIndex_ := by
  unfold Buffer.readable Buffer.readableBytes
  rw [List.drop_take]

theorem inv_of_inv8 {b : Buffer} (h : b.Inv8) : b.Inv := ⟨h.2.1, h.2.2⟩

theorem take_append_exact {α : Type} (l1 l2 : List α) (n : Nat) (h : n = l1.length) :
    (l1 ++ l2).take n = l1 := by
  subst h; simp

theorem drop_append_exact {α : Type} (l1 l2 : List α) (n : Nat) (h : n = l1.length) :
    (l1 ++ l2).drop n = l2 := by
  subst h; simp

/-- The method `ensureWritableBytes` keeps the readable content and the
invariant, and leaves room for `len` characters. -/
theorem ensureWritableBytes_spec (b : Buffer) (hinv : b.Inv) (len : Nat) :
    (b.ensureWritableBytes len).Inv ∧
    (b.ensureWritableBytes len).readable = b.readable ∧
    len ≤ (b.ensureWritableBytes len).writableBytes ∧
    (b.ensureWritableBytes len).readableBytes = b.readableBytes ∧
    (b.Inv8 → (b.ensureWritableBytes len).Inv8) := by
  obtain ⟨hrw, hwl⟩ := hinv
  unfold Buffer.ensureWritableBytes
  by_cases h1 : b.writableBytes < len
  · rw [if_pos h1]
    unfold Buffer.makeSpace
    have hw : b.writableBytes = b.buffer_.length - b.writerIndex_ := rfl
    have hp : b.prependableBytes = b.readerIndex_ := rfl
    have hk : Buffer.kCheapPrepend = 8 := rfl
    by_cases h2 : b.writableBytes + b.prependableBytes < len + Buffer.kCheapPrepend
    · -- the storage is resized
      rw [if_pos h2]
      have hgrow : b.buffer_.length ≤ b.writerIndex_ + len := by omega
      have hlen := vectorResize_length b.buffer_ (b.writerIndex_ + len)
      refine ⟨⟨hrw, by simp only [hlen]; omega⟩, ?_, ?_, rfl, ?_⟩
      · rw [readable_eq_drop_take, readable_eq_drop_take]
        simp only
        rw [vectorResize_grow _ _ hgrow, List.take_append_of_le_length hwl]
      · simp only [Buffer.writableBytes, hlen]; omega
      · intro h8
        exact ⟨h8.1, hrw, by simp only [hlen]; omega⟩
    · -- the readable region is shifted down
      rw [if_neg h2]
      have hr8 : 8 ≤ b.readerIndex_ := by omega
      have hn : b.readableBytes = b.writerIndex_ - b.readerIndex_ := rfl
      rw [hn]
      have hcl := copyFwd_length (b.writerIndex_ - b.readerIndex_) b.buffer_ b.readerIndex_
        Buffer.kCheapPrepend
      have hcs := copyFwd_spec (b.writerIndex_ - b.readerIndex_) b.buffer_ b.readerIndex_
        Buffer.kCheapPrepend (by omega) (by omega)
      refine ⟨⟨by simp, by simp only [hcl]; omega⟩, ?_, ?_, ?_, ?_⟩
      · simp only [Buffer.readable, Buffer.readableBytes]
        rw [hcs]
        have e1 : (b.buffer_.take Buffer.kCheapPrepend).length = Buffer.kCheapPrepend := by
          rw [List.length_take]; omega
        rw [List.append_assoc, drop_append_exact _ _ _ e1.symm]
        have e3 : Buffer.kCheapPrepend + (b.writerIndex_ - b.readerIndex_) -
            Buffer.kCheapPrepend = ((b.buffer_.drop b.readerIndex_).take
              (b.writerIndex_ - b.readerIndex_)).length := by
          rw [List.length_take, List.length_drop]; omega
        rw [take_append_exact _ _ _ e3]
      · simp only [Buffer.writableBytes, hcl]; omega
      · simp only [Buffer.readableBytes]; omega
      · intro _
        exact ⟨Nat.le_refl _, by simp, by simp only [hcl]; omega⟩
  · rw [if_neg h1]
    exact ⟨⟨hrw, hwl⟩, rfl, by omega, rfl, fun h => h⟩

/-- The method `append` puts the data right after the readable content. -/
theorem append_spec (b : Buffer) (hinv : b.Inv) (x : Str) :
    (b.append x).Inv ∧ (b.append x).readable = b.readable ++ x ∧
    (b.append x).readableBytes = b.readableBytes + x.length ∧
    (b.Inv8 → (b.append x).Inv8) := by
  obtain ⟨hinv1, hread, hroom, hrb, h8⟩ := ensureWritableBytes_spec b hinv x.length
  unfold Buffer.append
  simp only [Buffer.hasWritten]
  generalize b.ensureWritableBytes x.length = b1 at hinv1 hread hroom hrb h8 ⊢
  obtain ⟨hrw, hwl⟩ := hinv1
  have hw : b1.writableBytes = b1.buffer_.length - b1.writerIndex_ := rfl
  have hfit : b1.writerIndex_ + x.length ≤ b1.buffer_.length := by omega
  have hwl2 := writeAt_length x b1.buffer_ b1.writerIndex_
  refine ⟨⟨by simp only; omega, by simp only [hwl2]; exact hfit⟩, ?_, ?_, ?_⟩
  · rw [← hread, readable_eq_drop_take, readable_eq_drop_take]
    simp only
    rw [writeAt_spec x b1.buffer_ b1.writerIndex_ hfit]
    have e1 : b1.writerIndex_ + x.length = (b1.buffer_.take b1.writerIndex_ ++ x).length := by
      rw [List.length_append, List.length_take]; omega
    rw [take_append_exact _ _ _ e1]
    rw [List.drop_append_of_le_length (by rw [List.length_take]; omega)]
  · rw [← hrb]
    simp only [Buffer.readableBytes]
    omega
  · intro hb8
    have := h8 hb8
    exact ⟨this.1, by simp only; omega, by simp only [hwl2]; exact hfit⟩

end BufferAppend

section BufferClaims

theorem retrieve_inv8 (b : Buffer) (h : b.Inv8) (len : Nat) : (b.retrieve len).Inv8 := by
  obtain ⟨h1, h2, h3⟩ := h
  unfold Buffer.retrieve
  by_cases hl : len < b.readableBytes
  · rw [if_pos hl]
    have : b.readableBytes = b.writerIndex_ - b.readerIndex_ := rfl
    exact ⟨by simp only; omega, by simp only; omega, h3⟩
  · rw [if_neg hl]
    exact ⟨Nat.le_refl _, Nat.le_refl _, by simp only [Buffer.retrieveAll]; omega⟩

theorem readFd_inv8 (b : Buffer) (h : b.Inv8) (outcome : Option Str) :
    (b.readFd outcome).2.Inv8 := by
  obtain ⟨h1, h2, h3⟩ := h
  cases outcome with
  | none => exact ⟨h1, h2, h3⟩
  | some data =>
    have hw : b.writableBytes = b.buffer_.length - b.writerIndex_ := rfl
    have hlen := writeAt_length (data.take b.writableBytes) b.buffer_ b.writerIndex_
    simp only [Buffer.readFd]
    by_cases hd : data.length ≤ b.writableBytes
    · rw [if_pos hd]
      exact ⟨h1, by simp only; omega, by simp only [hlen]; omega⟩
    · rw [if_neg hd]
      apply (append_spec _ _ _).2.2.2
      · exact ⟨h1, by simp only [hlen]; omega, by simp only [hlen]; omega⟩
      · exact ⟨by simp only [hlen]; omega, Nat.le_refl _⟩

theorem step_inv8 (b : Buffer) (h : b.Inv8) (op : BufferOp) : (b.step op).Inv8 := by
  cases op with
  | append data => exact (append_spec b (inv_of_inv8 h) data).2.2.2 h
  | retrieve len => exact retrieve_inv8 b h len
  | retrieveAll =>
    obtain ⟨h1, h2, h3⟩ := h
    exact ⟨Nat.le_refl _, Nat.le_refl _, by simp only [Buffer.step, Buffer.retrieveAll]; omega⟩
  | retrieveAsString len => exact retrieve_inv8 b h len
  | ensureWritableBytes len =>
    exact (ensureWritableBytes_spec b (inv_of_inv8 h) len).2.2.2.2 h
  | readFd outcome => exact readFd_inv8 b h outcome

theorem new_inv8 (initialSize : Nat) : (Buffer.new initialSize).Inv8 := by
  refine ⟨Nat.le_refl _, Nat.le_refl _, ?_⟩
  simp [Buffer.new]

theorem reachable_inv8 (initialSize : Nat) (b : Buffer)
    (h : Buffer.Reachable initialSize b) : b.Inv8 := by
  induction h with
  | init => exact new_inv8 initialSize
  | step op _ _ ih => exact step_inv8 _ ih op

/-- C17: for every buffer satisfying the index invariant and every string `x`,
after `append(x)` the readable content is the previous readable content followed
by `x`, `readableBytes` has grown by exactly the length of `x`, and the index
invariant still holds; the statement covers the three ways in which
`ensureWritableBytes` finds the space (tail, shift to the reserved prefix,
resize of the storage). -/
theorem C17_append_readable (b : Buffer) (hinv : b.Inv) (x : Str) :
    (b.append x).readable = b.readable ++ x ∧
    (b.append x).readableBytes = b.readableBytes + x.length ∧
    (b.append x).Inv :=
  ⟨(append_spec b hinv x).2.1, (append_spec b hinv x).2.2.1, (append_spec b hinv x).1⟩

/-- C18: for every buffer satisfying the index invariant and every
`n <= readableBytes()`, `retrieveAsString(n)` returns the first `n` readable
characters and leaves the buffer as `retrieve(n)` does; `retrieve(n)` leaves as
readable content the previous content without its first `n` characters, so
`readableBytes` decreases by exactly `n`; when `n` equals `readableBytes` both
indices are reset to the reserved prefix of 8 characters. -/
theorem C18_retrieve (b : Buffer) (hinv : b.Inv) (n : Nat) (hn : n ≤ b.readableBytes) :
    (b.retrieveAsString n).1 = b.readable.take n ∧
    (b.retrieveAsString n).1.length = n ∧
    (b.retrieveAsString n).2 = b.retrieve n ∧
    (b.retrieve n).readable = b.readable.drop n ∧
    (b.retrieve n).readableBytes + n = b.readableBytes ∧
    (n = b.readableBytes →
      (b.retrieve n).readerIndex_ = 8 ∧ (b.retrieve n).writerIndex_ = 8 ∧
      (b.retrieve n).readable = []) := by
  have hl := readable_length b hinv
  have h1 : (b.retrieveAsString n).1 = b.readable.take n := by
    simp only [Buffer.retrieveAsString, Buffer.readable]
    rw [List.take_take, Nat.min_eq_left hn]
  refine ⟨h1, ?_, rfl, retrieve_readable b hinv n hn, ?_, ?_⟩
  · rw [h1, List.length_take, hl]
    omega
  · unfold Buffer.retrieve
    by_cases h : n < b.readableBytes
    · rw [if_pos h]
      have : b.readableBytes = b.writerIndex_ - b.readerIndex_ := rfl
      simp only [Buffer.readableBytes]
      omega
    · rw [if_neg h]
      have : b.readableBytes = b.writerIndex_ - b.readerIndex_ := rfl
      simp only [Buffer.retrieveAll, Buffer.readableBytes]
      omega
  · intro he
    have h : ¬ n < b.readableBytes := by omega
    unfold Buffer.retrieve
    rw [if_neg h]
    exact ⟨rfl, rfl, by simp [Buffer.retrieveAll, Buffer.readable, Buffer.readableBytes]⟩

/-- C19: a freshly constructed buffer has no readable characters, 8 prependable
ones and `initialSize` writable ones, and every buffer reached from it by
`append`, `retrieve`, `retrieveAll`, `retrieveAsString(n)` with
`n <= readableBytes()`, `ensureWritableBytes` and `readFd` (failing, or reading
at most `writableBytes() + 65536` characters) satisfies
`8 <= readerIndex <= writerIndex <= buffer_.size()`, so that none of the three
size queries underflows. -/
theorem C19_buffer_invariant (initialSize : Nat) :
    (Buffer.new initialSize).readableBytes = 0 ∧
    (Buffer.new initialSize).prependableBytes = 8 ∧
    (Buffer.new initialSize).writableBytes = initialSize ∧
    ∀ b, Buffer.Reachable initialSize b →
      8 ≤ b.readerIndex_ ∧ b.readerIndex_ ≤ b.writerIndex_ ∧
      b.writerIndex_ ≤ b.buffer_.length ∧
      ((b.readableBytes : Int) = (b.writerIndex_ : Int) - (b.readerIndex_ : Int)) ∧
      ((b.writableBytes : Int) = (b.buffer_.length : Int) - (b.writerIndex_ : Int)) := by
  refine ⟨rfl, rfl, by simp [Buffer.new, Buffer.writableBytes, Buffer.kCheapPrepend], ?_⟩
  intro b hb
  obtain ⟨h1, h2, h3⟩ := reachable_inv8 initialSize b hb
  refine ⟨h1, h2, h3, ?_, ?_⟩
  · simp only [Buffer.readableBytes]; omega
  · simp only [Buffer.writableBytes]; omega

theorem C17_append_readable_witness :
    (demoShift.append "cd".toList).readable = demoShift.readable ++ "cd".toList ∧
    (demoShift.append "cd".toList).readableBytes = demoShift.readableBytes + "cd".toList.length ∧
    (demoShift.append "cd".toList).Inv :=
  C17_append_readable demoShift ⟨by decide, by decide⟩ "cd".toList

theorem C18_retrieve_witness :
    (demoBuffer.retrieveAsString 2).1 = demoBuffer.readable.take 2 ∧
    (demoBuffer.retrieveAsString 2).1.length = 2 ∧
    (demoBuffer.retrieveAsString 2).2 = demoBuffer.retrieve 2 ∧
    (demoBuffer.retrieve 2).readable = demoBuffer.readable.drop 2 ∧
    (demoBuffer.retrieve 2).readableBytes + 2 = demoBuffer.readableBytes ∧
    (2 = demoBuffer.readableBytes →
      (demoBuffer.retrieve 2).readerIndex_ = 8 ∧ (demoBuffer.retrieve 2).writerIndex_ = 8 ∧
      (demoBuffer.retrieve 2).readable = []) :=
  C18_retrieve demoBuffer ⟨by decide, by decide⟩ 2 (by decide)

theorem C19_buffer_invariant_witness :
    8 ≤ (((Buffer.new 4).step (BufferOp.append "abcdef".toList)).step
      (BufferOp.retrieveAsString 2)).readerIndex_ :=
  (((C19_buffer_invariant 4).2.2.2 _
    (Buffer.Reachable.step (BufferOp.retrieveAsString 2)
      (Buffer.Reachable.step (BufferOp.append "abcdef".toList) Buffer.Reachable.init trivial)
      (by show 2 ≤ _; decide)))).1

end BufferClaims

/-! ## Channel: dispatch of the reported events -/

section ChannelLemmas

theorem and_ne_zero_iff (n m : Nat) :
    n &&& m ≠ 0 ↔ ∃ i, n.testBit i = true ∧ m.testBit i = true := by
  constructor
  · intro h
    obtain ⟨i, hi⟩ := Nat.ne_zero_implies_bit_true h
    rw [Nat.testBit_and, Bool.and_eq_true] at hi
    exact ⟨i, hi⟩
  · rintro ⟨i, h1, h2⟩ h0
    have : (n &&& m).testBit i = true := by
      rw [Nat.testBit_and, h1, h2]; rfl
    rw [h0, Nat.zero_testBit] at this
    exact Bool.noConfusion this

theorem and_two_pow_ne_zero (n i : Nat) : n &&& 2 ^ i ≠ 0 ↔ n.testBit i = true := by
  rw [and_ne_zero_iff]
  constructor
  · rintro ⟨j, h1, h2⟩
    rw [Nat.testBit_two_pow, decide_eq_true_eq] at h2
    rw [h2]; exact h1
  · intro h
    exact ⟨i, h, by rw [Nat.testBit_two_pow]; simp⟩

theorem hup_set (n : Nat) : n &&& EPOLLHUP ≠ 0 ↔ n.testBit 4 = true :=
  and_two_pow_ne_zero n 4

theorem err_set (n : Nat) : n &&& EPOLLERR ≠ 0 ↔ n.testBit 3 = true :=
  and_two_pow_ne_zero n 3

theorem out_set (n : Nat) : n &&& EPOLLOUT ≠ 0 ↔ n.testBit 2 = true :=
  and_two_pow_ne_zero n 2

theorem in_set (n : Nat) : n &&& EPOLLIN ≠ 0 ↔ n.testBit 0 = true :=
  and_two_pow_ne_zero n 0

theorem read_set (n : Nat) :
    n &&& (EPOLLIN ||| EPOLLPRI ||| EPOLLRDHUP) ≠ 0 ↔
      n.testBit 0 = true ∨ n.testBit 1 = true ∨ n.testBit 13 = true := by
  have e : EPOLLIN ||| EPOLLPRI ||| EPOLLRDHUP = 2 ^ 0 ||| 2 ^ 1 ||| 2 ^ 13 := by decide
  rw [e, and_ne_zero_iff]
  constructor
  · rintro ⟨j, h1, h2⟩
    rw [Nat.testBit_or, Nat.testBit_or, Nat.testBit_two_pow, Nat.testBit_two_pow,
      Nat.testBit_two_pow] at h2
    simp only [Bool.or_eq_true, decide_eq_true_eq] at h2
    rcases h2 with (h | h) | h
    · left; rw [h]; exact h1
    · right; left; rw [h]; exact h1
    · right; right; rw [h]; exact h1
  · intro h
    rcases h with h | h | h
    · exact ⟨0, h, by decide⟩
    · exact ⟨1, h, by decide⟩
    · exact ⟨13, h, by decide⟩

end ChannelLemmas

section ChannelClaims

/-- C20: on a channel that is untied or whose tied object is still alive,
`handleEvent` calls, in the order close, error, read, write and each at most
once, exactly those installed callbacks whose condition holds for the reported
mask: close iff bit 4 (hang-up) is set and bit 0 (readable) is not; error iff
bit 3 (error) is set; read iff bit 0 (readable), bit 1 (priority) or bit 13
(peer half-close) is set; write iff bit 2 (writable) is set.  On a tied channel
whose weak reference cannot be upgraded it calls nothing. -/
theorem C20_handleEvent (c : Channel) :
    ((c.tied_ = false ∨ c.tieAlive = true) →
      c.handleEvent =
        (if c.closeCallback_ = true ∧ c.revents_.testBit 4 = true ∧
            c.revents_.testBit 0 = false then [Callback.close] else []) ++
        (if c.errorCallback_ = true ∧ c.revents_.testBit 3 = true
          then [Callback.error] else []) ++
        (if c.readCallback_ = true ∧ (c.revents_.testBit 0 = true ∨
            c.revents_.testBit 1 = true ∨ c.revents_.testBit 13 = true)
          then [Callback.read] else []) ++
        (if c.writeCallback_ = true ∧ c.revents_.testBit 2 = true
          then [Callback.write] else [])) ∧
    (c.tied_ = true → c.tieAlive = false → c.handleEvent = []) := by
  have hg : c.handleEventWithGuard =
        (if c.closeCallback_ = true ∧ c.revents_.testBit 4 = true ∧
            c.revents_.testBit 0 = false then [Callback.close] else []) ++
        (if c.errorCallback_ = true ∧ c.revents_.testBit 3 = true
          then [Callback.error] else []) ++
        (if c.readCallback_ = true ∧ (c.revents_.testBit 0 = true ∨
            c.revents_.testBit 1 = true ∨ c.revents_.testBit 13 = true)
          then [Callback.read] else []) ++
        (if c.writeCallback_ = true ∧ c.revents_.testBit 2 = true
          then [Callback.write] else []) := by
    unfold Channel.handleEventWithGuard
    simp only [hup_set, err_set, out_set, in_set, read_set]
    cases c.closeCallback_ <;> cases c.errorCallback_ <;> cases c.readCallback_ <;>
      cases c.writeCallback_ <;> cases c.revents_.testBit 0 <;>
      cases c.revents_.testBit 1 <;> cases c.revents_.testBit 2 <;>
      cases c.revents_.testBit 3 <;> cases c.revents_.testBit 4 <;>
      cases c.revents_.testBit 13 <;> rfl
  constructor
  · intro h
    rw [← hg]
    unfold Channel.handleEvent
    rcases h with h | h
    · rw [h]; rfl
    · rw [h]; cases c.tied_ <;> rfl
  · intro h1 h2
    unfold Channel.handleEvent
    rw [h1, h2]; rfl

theorem C20_handleEvent_witness :
    demoChannel.handleEvent = [Callback.close, Callback.error, Callback.write] :=
  (C20_handleEvent demoChannel).1 (Or.inr rfl)

end ChannelClaims

/-! ## KV store: the abstract map of a store -/

section MapLemmas

variable {K V : Type} [LinearOrder K] [DecidableEq K]

theorem find_congr {α : Type} {p q : α → Bool} (l : List α) (h : ∀ x, p x = q x) :
    l.find? p = l.find? q := by
  have : p = q := funext h
  rw [this]

theorem find_none_of_false {α : Type} {p : α → Bool} (l : List α) (h : ∀ x, p x = false) :
    l.find? p = none := by
  rw [List.find?_eq_none]
  intro x _
  rw [h x]
  exact Bool.false_ne_true

theorem mLookup_mInsert_other {k k1 : K} (hne : k1 ≠ k) (v : V) (m : List (K × V)) :
    mLookup k1 (mInsert k v m) = mLookup k1 m := by
  unfold mLookup mInsert
  congr 1
  rw [List.find?_append, List.find?_cons_of_neg _ (by simpa using Ne.symm hne),
    List.find?_filter, List.find?_filter]
  rcases lt_or_gt_of_ne hne with hlt | hgt
  · have h1 : ∀ x : K × V, decide (decide (x.1 < k) = true ∧ decide (x.1 = k1) = true) =
        decide (x.1 = k1) := by
      intro x
      by_cases hx : x.1 = k1
      · simp [hx, hlt]
      · simp [hx]
    have h2 : ∀ x : K × V, decide (decide (k < x.1) = true ∧ decide (x.1 = k1) = true) =
        false := by
      intro x
      by_cases hx : x.1 = k1
      · simp [hx, not_lt_of_gt hlt]
      · simp [hx]
    rw [find_congr m h1, find_none_of_false m h2, Option.or_none]
  · have h1 : ∀ x : K × V, decide (decide (x.1 < k) = true ∧ decide (x.1 = k1) = true) =
        false := by
      intro x
      by_cases hx : x.1 = k1
      · simp [hx, not_lt_of_gt hgt]
      · simp [hx]
    have h2 : ∀ x : K × V, decide (decide (k < x.1) = true ∧ decide (x.1 = k1) = true) =
        decide (x.1 = k1) := by
      intro x
      by_cases hx : x.1 = k1
      · simp [hx]; exact hgt
      · simp [hx]
    rw [find_none_of_false m h1, find_congr m h2, Option.none_or]

omit [DecidableEq K] in
theorem mem_mInsert {k : K} {v : V} {m : List (K × V)} {p : K × V}
    (hp : p ∈ mInsert k v m) : p = (k, v) ∨ p ∈ m := by
  unfold mInsert at hp
  rcases List.mem_append.mp hp with h | h
  · exact Or.inr (List.mem_filter.mp h).1
  · rcases List.mem_cons.mp h with h | h
    · exact Or.inl h
    · exact Or.inr (List.mem_filter.mp h).1

omit [LinearOrder K] in
theorem mem_mErase {k : K} {m : List (K × V)} {p : K × V} (hp : p ∈ mErase k m) : p ∈ m :=
  (List.mem_filter.mp hp).1

omit [LinearOrder K] in
theorem mLookup_none_of_not_mem (k : K) (m : List (K × V)) (h : ∀ p ∈ m, p.1 ≠ k) :
    mLookup k m = none := by
  unfold mLookup
  rw [Option.map_eq_none', List.find?_eq_none]
  intro x hx
  simpa using h x hx

omit [LinearOrder K] in
theorem mErase_of_not_mem (k : K) (m : List (K × V)) (h : ∀ p ∈ m, p.1 ≠ k) :
    mErase k m = m := by
  unfold mErase
  rw [List.filter_eq_self]
  intro x hx
  simpa using h x hx

end MapLemmas

section KVLemmas

theorem isEmpty_false {k : Str} (h : k ≠ []) : k.isEmpty = false := by
  cases k with
  | nil => exact absurd rfl h
  | cons _ _ => rfl

theorem isEmpty_true_iff (k : Str) : k.isEmpty = true ↔ k = [] := by
  cases k <;> simp

theorem kvabs_new (maxLevel : Nat) : KVAbs maxLevel (KVStore.new maxLevel) [] :=
  ⟨[], new_rep maxLevel, rfl, (fun _ hp => by cases hp), rfl⟩

theorem kvabs_sorted {n : Nat} {st : KVStore} {m : List (Str × Str)} (h : KVAbs n st m) :
    m.Pairwise (fun a b => a.1 < b.1) := by
  obtain ⟨l, r, hm, _, _⟩ := h
  rw [← hm]
  unfold pairsOf
  rw [List.pairwise_map]
  exact r.sorted

theorem kvabs_get {n : Nat} {st : KVStore} {m : List (Str × Str)} (h : KVAbs n st m)
    (k : Str) : st.get k = some (mLookup k m) := by
  obtain ⟨l, r, hm, hne, _⟩ := h
  unfold KVStore.get
  by_cases hk : k = []
  · subst hk
    rw [mLookup_none_of_not_mem [] m hne]
    rfl
  · rw [isEmpty_false hk, ← hm]
    exact search_rep r k

theorem kvabs_exists {n : Nat} {st : KVStore} {m : List (Str × Str)} (h : KVAbs n st m)
    (k : Str) : st.exists k = some (mLookup k m).isSome := by
  obtain ⟨l, r, hm, hne, _⟩ := h
  unfold KVStore.exists
  by_cases hk : k = []
  · subst hk
    rw [mLookup_none_of_not_mem [] m hne]
    rfl
  · rw [isEmpty_false hk, ← hm]
    unfold SkipList.contains
    rw [search_rep r k]
    rfl

theorem kvabs_size {n : Nat} {st : KVStore} {m : List (Str × Str)} (h : KVAbs n st m) :
    st.size = (m.length : Int) := by
  obtain ⟨l, r, hm, _, _⟩ := h
  unfold KVStore.size SkipList.size
  rw [r.count, ← hm]
  simp [pairsOf]

theorem kvabs_put {n : Nat} {st : KVStore} {m : List (Str × Str)} (h : KVAbs n st m)
    (key value : Str) (draw : Nat → Bool) (hk : key ≠ []) :
    ∃ st1, st.put key value draw = some ((mLookup key m).isNone, st1) ∧
      KVAbs n st1 (mInsert key value m) := by
  obtain ⟨l, r, hm, hne, hl⟩ := h
  obtain ⟨s1, l1, e1, r1, hp1, hm1, _⟩ := insert_rep r key value draw
  refine ⟨⟨s1⟩, ?_, l1, r1, ?_, ?_, ?_⟩
  · unfold KVStore.put
    rw [isEmpty_false hk]
    simp only [e1, hm, Bool.false_eq_true, if_false]
  · rw [hp1, hm]
  · intro p hp
    rcases mem_mInsert hp with h1 | h1
    · rw [h1]; exact hk
    · exact hne p h1
  · show s1.maxLevel_ = n
    rw [hm1, hl]

theorem kvabs_put_empty (st : KVStore) (value : Str) (draw : Nat → Bool) :
    st.put [] value draw = some (false, st) := rfl

theorem kvabs_load_empty (st : KVStore) (fs : FileSystem) (draws : Nat → Nat → Bool) :
    st.load fs [] draws = some (false, st) := rfl

theorem kvabs_del {n : Nat} {st : KVStore} {m : List (Str × Str)} (h : KVAbs n st m)
    (key : Str) :
    ∃ st1, st.del key = some ((mLookup key m).isSome, st1) ∧ KVAbs n st1 (mErase key m) ∧
      ((mLookup key m).isSome = false → st1 = st) := by
  obtain ⟨l, r, hm, hne, hl⟩ := h
  by_cases hk : key = []
  · subst hk
    refine ⟨st, ?_, ?_, fun _ => rfl⟩
    · rw [mLookup_none_of_not_mem [] m hne]
      rfl
    · rw [mErase_of_not_mem [] m hne]
      exact ⟨l, r, hm, hne, hl⟩
  · obtain ⟨s1, l1, e1, r1, hp1, hm1, _, hsame⟩ := remove_rep r key
    refine ⟨⟨s1⟩, ?_, ⟨l1, r1, ?_, ?_, ?_⟩, ?_⟩
    · unfold KVStore.del
      rw [isEmpty_false hk]
      simp only [e1, hm, Bool.false_eq_true, if_false]
    · rw [hp1, hm]
    · intro p hp
      exact hne p (mem_mErase hp)
    · show s1.maxLevel_ = n
      rw [hm1, hl]
    · intro hf
      rw [← hm] at hf
      rw [hsame hf]

theorem kvabs_clear {n : Nat} {st : KVStore} {m : List (Str × Str)} (h : KVAbs n st m) :
    ∃ st1, st.clear = some st1 ∧ KVAbs n st1 [] := by
  obtain ⟨l, r, hm, hne, hl⟩ := h
  obtain ⟨s1, e1, r1, hm1, _⟩ := clear_rep r
  refine ⟨⟨s1⟩, ?_, [], r1, rfl, (fun _ hp => by cases hp), ?_⟩
  · unfold KVStore.clear
    simp only [e1]
  · show s1.maxLevel_ = n
    rw [hm1, hl]

theorem insertAll_abs (data : List (Str × Str)) (hd : ∀ p ∈ data, p.1 ≠ []) :
    ∀ (s : SkipList Str Str) (l : List Nat) (draws : Nat → Nat → Bool), Rep s l →
      (∀ p ∈ pairsOf s.heap l, p.1 ≠ []) →
      ∃ s1 l1, insertAll s data draws = some s1 ∧ Rep s1 l1 ∧
        pairsOf s1.heap l1 = mInsertAll (pairsOf s.heap l) data ∧
        s1.maxLevel_ = s.maxLevel_ ∧ (∀ p ∈ pairsOf s1.heap l1, p.1 ≠ []) := by
  induction data with
  | nil =>
    intro s l draws r hne
    exact ⟨s, l, rfl, r, rfl, rfl, hne⟩
  | cons kv rest ih =>
    intro s l draws r hne
    obtain ⟨s1, l1, e1, r1, hp1, hm1, _⟩ := insert_rep r kv.1 kv.2 (draws 0)
    have hne1 : ∀ p ∈ pairsOf s1.heap l1, p.1 ≠ [] := by
      intro p hp
      rw [hp1] at hp
      rcases mem_mInsert hp with h1 | h1
      · rw [h1]; exact hd kv (List.mem_cons_self _ _)
      · exact hne p h1
    obtain ⟨s2, l2, e2, r2, hp2, hm2, hne2⟩ :=
      ih (fun p hp => hd p (List.mem_cons_of_mem _ hp)) s1 l1 (fun i => draws (i + 1)) r1 hne1
    refine ⟨s2, l2, ?_, r2, ?_, by rw [hm2, hm1], hne2⟩
    · simp only [insertAll, e1, e2]
    · rw [hp2, hp1]
      rfl

theorem parseString_key {line k v : Str} (h : parseString line = some (k, v)) : k ≠ [] := by
  unfold parseString at h
  by_cases h1 : line.isEmpty = true
  · rw [if_pos h1] at h; cases h
  · rw [if_neg h1] at h
    cases hm : memchr kDelimiter line with
    | none => rw [hm] at h; cases h
    | some pos =>
      rw [hm] at h
      simp only at h
      by_cases h2 : (List.take pos line).isEmpty = true
      · rw [if_pos h2] at h; cases h
      · rw [if_neg h2] at h
        cases h
        intro he
        rw [he] at h2
        exact h2 rfl

theorem filterMap_parseString_key (lines : List Str) :
    ∀ p ∈ lines.filterMap parseString, p.1 ≠ [] := by
  intro p hp
  obtain ⟨line, _, hl⟩ := List.mem_filterMap.mp hp
  exact parseString_key hl

/-- The map a file content is loaded as. -/
theorem kvabs_load {n : Nat} {st : KVStore} {m : List (Str × Str)} (h : KVAbs n st m)
    (fs : FileSystem) (filepath : Str) (draws : Nat → Nat → Bool) (hp : filepath ≠ []) :
    ∃ st1, st.load fs filepath draws = some ((fs.files filepath).isSome, st1) ∧
      KVAbs n st1 (match fs.files filepath with
        | none => []
        | some content => mInsertAll [] ((getlines content).filterMap parseString)) := by
  obtain ⟨st0, e0, l0, r0, hp0, hne0, hl0⟩ := kvabs_clear h
  unfold KVStore.load
  rw [isEmpty_false hp]
  simp only [e0, Bool.false_eq_true, if_false]
  unfold SkipList.loadFile
  cases hf : fs.files filepath with
  | none => exact ⟨st0, rfl, l0, r0, hp0, hne0, hl0⟩
  | some content =>
    obtain ⟨s1, l1, e1, r1, hp1, hm1, hne1⟩ :=
      insertAll_abs ((getlines content).filterMap parseString)
        (filterMap_parseString_key _) st0.skiplist_ l0 draws r0 (by rw [hp0]; exact hne0)
    refine ⟨⟨s1⟩, ?_, l1, r1, ?_, ?_, ?_⟩
    · simp only [e1, Option.isSome_some]
    · rw [hp1, hp0]
    · rw [hp1, hp0] at hne1
      exact hne1
    · show s1.maxLevel_ = n
      rw [hm1, hl0]

theorem kv_reachable_abs {n : Nat} {st : KVStore} (hr : KVStore.Reachable n st) :
    ∃ m, KVAbs n st m := by
  induction hr with
  | init => exact ⟨[], kvabs_new n⟩
  | put key value draw b _ he ih =>
    obtain ⟨m, h⟩ := ih
    by_cases hk : key = []
    · subst hk
      rw [kvabs_put_empty] at he
      cases he
      exact ⟨m, h⟩
    · obtain ⟨st2, e2, h2⟩ := kvabs_put h key value draw hk
      rw [e2] at he
      cases he
      exact ⟨_, h2⟩
  | del key b _ he ih =>
    obtain ⟨m, h⟩ := ih
    obtain ⟨st2, e2, h2, _⟩ := kvabs_del h key
    rw [e2] at he
    cases he
    exact ⟨_, h2⟩
  | clear _ he ih =>
    obtain ⟨m, h⟩ := ih
    obtain ⟨st2, e2, h2⟩ := kvabs_clear h
    rw [e2] at he
    cases he
    exact ⟨_, h2⟩
  | load fs filepath draws b _ he ih =>
    obtain ⟨m, h⟩ := ih
    by_cases hk : filepath = []
    · subst hk
      rw [kvabs_load_empty] at he
      cases he
      exact ⟨m, h⟩
    · obtain ⟨st2, e2, h2⟩ := kvabs_load h fs filepath draws hk
      rw [e2] at he
      cases he
      exact ⟨_, h2⟩

end KVLemmas

section KVClaims

theorem kvabs_search {n : Nat} {st : KVStore} {m : List (Str × Str)} (h : KVAbs n st m)
    (k : Str) : st.skiplist_.search k = some (mLookup k m) := by
  obtain ⟨l, r, hm, _, _⟩ := h
  rw [← hm]
  exact search_rep r k

/-- C15: for every store and every value, `put("", v)` returns false and leaves
the store as it is, `get("")` and `exists("")` return false, and `del("")`
returns false and leaves the store as it is; and in no store reached from a
fresh one by `put`, `del`, `clear` (and `load`) does the underlying skip list
hold the empty key. -/
theorem C15_empty_key (st : KVStore) (v : Str) (draw : Nat → Bool) :
    st.put [] v draw = some (false, st) ∧
    st.get [] = some none ∧
    st.del [] = some (false, st) ∧
    st.exists [] = some false ∧
    ∀ maxLevel, KVStore.Reachable maxLevel st →
      st.skiplist_.contains [] = some false ∧ st.skiplist_.search [] = some none := by
  refine ⟨rfl, rfl, rfl, rfl, ?_⟩
  intro maxLevel hr
  obtain ⟨m, h⟩ := kv_reachable_abs hr
  have hs := kvabs_search h []
  obtain ⟨l, r, hm, hne, _⟩ := h
  rw [mLookup_none_of_not_mem [] m hne] at hs
  refine ⟨?_, hs⟩
  unfold SkipList.contains
  rw [hs]
  rfl

theorem demoStore_reachable : KVStore.Reachable 4 demoStore :=
  KVStore.Reachable.put "k".toList "v".toList (fun _ => false) true KVStore.Reachable.init rfl

theorem C15_empty_key_witness :
    demoStore.skiplist_.contains [] = some false ∧ demoStore.skiplist_.search [] = some none :=
  (C15_empty_key demoStore [] (fun _ => false)).2.2.2.2 4 demoStore_reachable

end KVClaims

/-! ## Server: request handling -/

section ServerLemmas

theorem keys_nodup {m : List (Str × Str)} (hs : m.Pairwise (fun a b => a.1 < b.1)) :
    (m.map Prod.fst).Nodup := by
  unfold List.Nodup
  rw [List.pairwise_map]
  exact hs.imp (fun h => ne_of_lt h)

theorem kvabs_keys {n : Nat} {st : KVStore} {m : List (Str × Str)} (h : KVAbs n st m) :
    (m.map Prod.fst).Nodup ∧
    (∀ k, k ∈ m.map Prod.fst ↔ ∃ v, st.get k = some (some v)) ∧
    st.size = ((m.map Prod.fst).length : Int) := by
  refine ⟨keys_nodup (kvabs_sorted h), ?_, ?_⟩
  · intro k
    rw [kvabs_get h k, ← mLookup_isSome_iff, Option.isSome_iff_exists]
    constructor
    · rintro ⟨v, hv⟩
      exact ⟨v, by rw [hv]⟩
    · rintro ⟨v, hv⟩
      exact ⟨v, Option.some.inj hv⟩
  · rw [kvabs_size h, List.length_map]

theorem to_string_nat (n : Nat) : to_string (n : Int) = Nat.toDigits 10 n := by
  unfold to_string
  have : ¬ ((n : Int) < 0) := by omega
  rw [if_neg this]
  rfl

/-- On a reachable store `handleRequest` returns, and the store it leaves is
reachable. -/
theorem handleRequest_total (maxLevel : Nat) (sv : KVServer)
    (hr : KVStore.Reachable maxLevel sv.store_) (request : Request) (draw : Nat → Bool) :
    ∃ response sv1, sv.handleRequest request draw = some (response, sv1) ∧
      KVStore.Reachable maxLevel sv1.store_ := by
  obtain ⟨m, h⟩ := kv_reachable_abs hr
  cases hc : request.command with
  | kUnknown => exact ⟨_, sv, (by simp only [KVServer.handleRequest, hc]; rfl), hr⟩
  | kPing => exact ⟨_, sv, (by simp only [KVServer.handleRequest, hc]; rfl), hr⟩
  | kQuit => exact ⟨_, sv, (by simp only [KVServer.handleRequest, hc]; rfl), hr⟩
  | kSize => exact ⟨_, sv, (by simp only [KVServer.handleRequest, hc]; rfl), hr⟩
  | kExists =>
    have he := kvabs_exists h request.key
    exact ⟨_, sv, (by simp only [KVServer.handleRequest, hc, he]; rfl), hr⟩
  | kGet =>
    have hg := kvabs_get h request.key
    cases hl : mLookup request.key m with
    | none =>
      rw [hl] at hg
      exact ⟨_, sv, (by simp only [KVServer.handleRequest, hc, hg]; rfl), hr⟩
    | some val =>
      rw [hl] at hg
      exact ⟨_, sv, (by simp only [KVServer.handleRequest, hc, hg]; rfl), hr⟩
  | kClear =>
    obtain ⟨st1, e1, _⟩ := kvabs_clear h
    exact ⟨_, ⟨st1⟩, (by simp only [KVServer.handleRequest, hc, e1]; rfl),
      KVStore.Reachable.clear hr e1⟩
  | kDel =>
    obtain ⟨st1, e1, _⟩ := kvabs_del h request.key
    exact ⟨_, ⟨st1⟩, (by simp only [KVServer.handleRequest, hc, e1]; rfl),
      KVStore.Reachable.del request.key _ hr e1⟩
  | kPut =>
    by_cases hk : request.key = []
    · exact ⟨_, sv, (by simp only [KVServer.handleRequest, hc, hk, List.isEmpty_nil, if_true]; rfl),
        hr⟩
    · obtain ⟨st1, e1, _⟩ := kvabs_put h request.key request.value draw hk
      exact ⟨_, ⟨st1⟩,
        (by simp only [KVServer.handleRequest, hc, isEmpty_false hk, e1, Bool.false_eq_true,
          if_false]; rfl),
        KVStore.Reachable.put request.key request.value draw _ hr e1⟩

end ServerLemmas

section ServerClaims

/-- C11: for every server whose store is reachable and every request,
`handleRequest` returns a response and a server whose store is reachable again,
as follows.  Put with a non-empty key answers Ok `CREATED` when the key was
absent and Ok `UPDATED` when it was present, and afterwards the key has the
given value and every other key is as before; Put with the empty key answers
Error `Key cannot be empty`; Get answers Ok with the stored value, or NotFound;
Del answers Ok `DELETED` when the key was present and NotFound otherwise, and
afterwards the key is absent and every other key is as before; Exists answers
Ok `1` or Ok `0`; Size answers Ok with the decimal number of keys; Clear
answers Ok `CLEARED` and leaves no key; Ping answers Pong, Quit answers Bye and
Unknown answers Error `Unknown command`.  Put with the empty key, Get, Exists,
Size, Ping, Quit and Unknown leave the server as it was. -/
theorem C11_handleRequest (maxLevel : Nat) (sv : KVServer)
    (hr : KVStore.Reachable maxLevel sv.store_) (request : Request) (draw : Nat → Bool) :
    ∃ response sv1, sv.handleRequest request draw = some (response, sv1) ∧
      KVStore.Reachable maxLevel sv1.store_ ∧
      (∀ k, ∃ r, sv.store_.get k = some r) ∧
      (request.command = CommandType.kPut → request.key ≠ [] →
        (sv.store_.get request.key = some none →
          response = Response.ok "CREATED".toList) ∧
        ((∃ old, sv.store_.get request.key = some (some old)) →
          response = Response.ok "UPDATED".toList) ∧
        sv1.store_.get request.key = some (some request.value) ∧
        ∀ k, k ≠ request.key → sv1.store_.get k = sv.store_.get k) ∧
      (request.command = CommandType.kPut → request.key = [] →
        response = Response.error "Key cannot be empty".toList ∧ sv1 = sv) ∧
      (request.command = CommandType.kGet →
        (∀ v, sv.store_.get request.key = some (some v) → response = Response.ok v) ∧
        (sv.store_.get request.key = some none → response = Response.notFound) ∧
        sv1 = sv) ∧
      (request.command = CommandType.kDel →
        ((∃ old, sv.store_.get request.key = some (some old)) →
          response = Response.ok "DELETED".toList) ∧
        (sv.store_.get request.key = some none →
          response = Response.notFound ∧ sv1 = sv) ∧
        sv1.store_.get request.key = some none ∧
        ∀ k, k ≠ request.key → sv1.store_.get k = sv.store_.get k) ∧
      (request.command = CommandType.kExists →
        ((∃ v, sv.store_.get request.key = some (some v)) →
          response = Response.ok "1".toList) ∧
        (sv.store_.get request.key = some none → response = Response.ok "0".toList) ∧
        sv1 = sv) ∧
      (request.command = CommandType.kSize →
        (∃ keys : List Str, keys.Nodup ∧
          (∀ k, k ∈ keys ↔ ∃ v, sv.store_.get k = some (some v)) ∧
          response = Response.ok (Nat.toDigits 10 keys.length)) ∧
        sv1 = sv) ∧
      (request.command = CommandType.kClear →
        response = Response.ok "CLEARED".toList ∧ sv1.store_.size = 0 ∧
        ∀ k, sv1.store_.get k = some none) ∧
      (request.command = CommandType.kPing → response = Response.pong ∧ sv1 = sv) ∧
      (request.command = CommandType.kQuit → response = Response.bye ∧ sv1 = sv) ∧
      (request.command = CommandType.kUnknown →
        response = Response.error "Unknown command".toList ∧ sv1 = sv) := by
  obtain ⟨m, h⟩ := kv_reachable_abs hr
  have htot : ∀ k, ∃ r, sv.store_.get k = some r := fun k => ⟨_, kvabs_get h k⟩
  cases hc : request.command with
  | kUnknown =>
    refine ⟨_, sv, (by simp only [KVServer.handleRequest, hc]; rfl), hr, htot,
      ?_, ?_, ?_, ?_, ?_, ?_, ?_, ?_, ?_, ?_⟩ <;> intro hcmd <;> cases hcmd
    exact ⟨rfl, rfl⟩
  | kPing =>
    refine ⟨_, sv, (by simp only [KVServer.handleRequest, hc]; rfl), hr, htot,
      ?_, ?_, ?_, ?_, ?_, ?_, ?_, ?_, ?_, ?_⟩ <;> intro hcmd <;> cases hcmd
    exact ⟨rfl, rfl⟩
  | kQuit =>
    refine ⟨_, sv, (by simp only [KVServer.handleRequest, hc]; rfl), hr, htot,
      ?_, ?_, ?_, ?_, ?_, ?_, ?_, ?_, ?_, ?_⟩ <;> intro hcmd <;> cases hcmd
    exact ⟨rfl, rfl⟩
  | kSize =>
    refine ⟨_, sv, (by simp only [KVServer.handleRequest, hc]; rfl), hr, htot,
      ?_, ?_, ?_, ?_, ?_, ?_, ?_, ?_, ?_, ?_⟩ <;> intro hcmd <;> cases hcmd
    obtain ⟨h1, h2, h3⟩ := kvabs_keys h
    exact ⟨⟨m.map Prod.fst, h1, h2, by rw [h3, to_string_nat]⟩, rfl⟩
  | kExists =>
    have he := kvabs_exists h request.key
    have hg := kvabs_get h request.key
    refine ⟨_, sv, (by simp only [KVServer.handleRequest, hc, he]; rfl), hr, htot,
      ?_, ?_, ?_, ?_, ?_, ?_, ?_, ?_, ?_, ?_⟩ <;> intro hcmd <;> cases hcmd
    refine ⟨?_, ?_, rfl⟩
    · rintro ⟨v, hv⟩
      rw [hg] at hv
      rw [Option.some.inj hv]
      rfl
    · intro hv
      rw [hg] at hv
      rw [Option.some.inj hv]
      rfl
  | kGet =>
    have hg := kvabs_get h request.key
    cases hl : mLookup request.key m with
    | none =>
      rw [hl] at hg
      refine ⟨_, sv, (by simp only [KVServer.handleRequest, hc, hg]; rfl), hr, htot,
        ?_, ?_, ?_, ?_, ?_, ?_, ?_, ?_, ?_, ?_⟩ <;> intro hcmd <;> cases hcmd
      refine ⟨fun v hv => ?_, fun _ => rfl, rfl⟩
      rw [hg] at hv
      cases hv
    | some val =>
      rw [hl] at hg
      refine ⟨_, sv, (by simp only [KVServer.handleRequest, hc, hg]; rfl), hr, htot,
        ?_, ?_, ?_, ?_, ?_, ?_, ?_, ?_, ?_, ?_⟩ <;> intro hcmd <;> cases hcmd
      refine ⟨fun v hv => ?_, fun hv => ?_, rfl⟩
      · rw [hg] at hv
        cases hv
        rfl
      · rw [hg] at hv
        cases hv
  | kClear =>
    obtain ⟨st1, e1, h1⟩ := kvabs_clear h
    refine ⟨_, ⟨st1⟩, (by simp only [KVServer.handleRequest, hc, e1]; rfl),
      KVStore.Reachable.clear hr e1, htot,
      ?_, ?_, ?_, ?_, ?_, ?_, ?_, ?_, ?_, ?_⟩ <;> intro hcmd <;> cases hcmd
    refine ⟨rfl, ?_, fun k => ?_⟩
    · show st1.size = 0
      rw [kvabs_size h1]
      rfl
    · show st1.get k = some none
      rw [kvabs_get h1 k]
      rfl
  | kDel =>
    obtain ⟨st1, e1, h1, hsame⟩ := kvabs_del h request.key
    have hg := kvabs_get h request.key
    refine ⟨_, ⟨st1⟩, (by simp only [KVServer.handleRequest, hc, e1]; rfl),
      KVStore.Reachable.del request.key _ hr e1, htot,
      ?_, ?_, ?_, ?_, ?_, ?_, ?_, ?_, ?_, ?_⟩ <;> intro hcmd <;> cases hcmd
    refine ⟨?_, ?_, ?_, ?_⟩
    · rintro ⟨old, ho⟩
      rw [hg] at ho
      rw [Option.some.inj ho]
      rfl
    · intro ho
      rw [hg] at ho
      have hn := Option.some.inj ho
      rw [hn]
      refine ⟨rfl, ?_⟩
      rw [hsame (by rw [hn]; rfl)]
    · show st1.get request.key = some none
      rw [kvabs_get h1, mLookup_mErase_self]
    · intro k hk
      show st1.get k = sv.store_.get k
      rw [kvabs_get h1, kvabs_get h k, mLookup_mErase_other hk]
  | kPut =>
    by_cases hk : request.key = []
    · refine ⟨Response.error "Key cannot be empty".toList, sv,
        by simp only [KVServer.handleRequest, hc, hk, List.isEmpty_nil, if_true], hr, htot,
        ?_, ?_, ?_, ?_, ?_, ?_, ?_, ?_, ?_, ?_⟩ <;> intro hcmd <;> cases hcmd
      · intro hne
        exact absurd hk hne
      · intro _
        exact ⟨rfl, rfl⟩
    · obtain ⟨st1, e1, h1⟩ := kvabs_put h request.key request.value draw hk
      have hg := kvabs_get h request.key
      refine ⟨_, ⟨st1⟩,
        (by simp only [KVServer.handleRequest, hc, isEmpty_false hk, e1, Bool.false_eq_true,
          if_false]; rfl),
        KVStore.Reachable.put request.key request.value draw _ hr e1, htot,
        ?_, ?_, ?_, ?_, ?_, ?_, ?_, ?_, ?_, ?_⟩ <;> intro hcmd <;> cases hcmd
      · intro _
        refine ⟨?_, ?_, ?_, ?_⟩
        · intro ho
          rw [hg] at ho
          rw [Option.some.inj ho]
          rfl
        · rintro ⟨old, ho⟩
          rw [hg] at ho
          rw [Option.some.inj ho]
          rfl
        · show st1.get request.key = some (some request.value)
          rw [kvabs_get h1, mLookup_mInsert_self]
        · intro k hk1
          show st1.get k = sv.store_.get k
          rw [kvabs_get h1, kvabs_get h k, mLookup_mInsert_other hk1]
      · intro he
        exact absurd he hk

theorem C11_handleRequest_witness :
    ∃ response sv1,
      (KVServer.mk demoStore).handleRequest ⟨CommandType.kPut, "k".toList, "w".toList⟩
        (fun _ => false) = some (response, sv1) ∧
      response = Response.ok "UPDATED".toList ∧
      sv1.store_.get "k".toList = some (some "w".toList) := by
  obtain ⟨response, sv1, he, _, _, hput, _⟩ :=
    C11_handleRequest 4 (KVServer.mk demoStore) demoStore_reachable
      ⟨CommandType.kPut, "k".toList, "w".toList⟩ (fun _ => false)
  obtain ⟨_, h2, h3, _⟩ := hput rfl (by decide)
  exact ⟨response, sv1, he, h2 ⟨"v".toList, by decide⟩, h3⟩

end ServerClaims

/-! ## Server: the message loop -/

section LineLemmas

theorem searchCRLF_complete : ∀ (l : List Char) (i : Nat), l[i]? = some '\r' →
    l[i + 1]? = some '\n' → ∃ c, searchCRLF l = some c ∧ c ≤ i := by
  intro l
  induction l with
  | nil => intro i h _; simp at h
  | cons c1 l ih =>
    intro i h1 h2
    cases l with
    | nil => simp at h2
    | cons c2 rest =>
      cases i with
      | zero =>
        simp only [List.getElem?_cons_zero, Option.some.injEq] at h1
        simp only [Nat.zero_add, List.getElem?_cons_succ, List.getElem?_cons_zero,
          Option.some.injEq] at h2
        exact ⟨0, by simp [searchCRLF, h1, h2], Nat.le_refl _⟩
      | succ j =>
        rw [List.getElem?_cons_succ] at h1 h2
        obtain ⟨c, hc, hle⟩ := ih j h1 h2
        by_cases h0 : c1 = '\r' ∧ c2 = '\n'
        · exact ⟨0, by simp [searchCRLF, h0], Nat.zero_le _⟩
        · exact ⟨c + 1, by simp only [searchCRLF, h0, if_false, hc, Option.map_some'], by omega⟩

theorem getLast_eq_getElem (l : List Char) : l.getLast? = l[l.length - 1]? := by
  rw [List.getLast?_eq_getElem?]

/-- The text of the line that `parseRequest` cuts off: the characters before
the first LF, without a CR right before the LF; together with the number of
characters it skips. -/
theorem lineEnd_text (pre post : List Char) (hpre : '\n' ∉ pre) :
    ∃ e, Codec.lineEnd (searchCRLF (pre ++ '\n' :: post))
        (memchr '\n' (pre ++ '\n' :: post)) = some e ∧
      (pre ++ '\n' :: post).take e = stripCR pre ∧
      ((e = pre.length ∧ (pre ++ '\n' :: post)[e]? = some '\n') ∨
       (e + 1 = pre.length ∧ (pre ++ '\n' :: post)[e]? = some '\r' ∧
         (pre ++ '\n' :: post)[e + 1]? = some '\n')) := by
  obtain ⟨e, he, hcase⟩ := lineEnd_split pre post hpre
  refine ⟨e, he, ?_, hcase⟩
  rcases hcase with ⟨h1, h2⟩ | ⟨h1, h2, h3⟩
  · -- the line ends at the LF: no CR stands before it
    subst h1
    rw [List.take_left]
    by_cases hcr : pre.getLast? = some '\r'
    · exfalso
      have hne : pre ≠ [] := by
        intro h0; rw [h0] at hcr; cases hcr
      have hlen : 0 < pre.length := List.length_pos.mpr hne
      rw [getLast_eq_getElem] at hcr
      have g1 : (pre ++ '\n' :: post)[pre.length - 1]? = some '\r' := by
        rw [List.getElem?_append_left (by omega)]; exact hcr
      have g2 : (pre ++ '\n' :: post)[pre.length - 1 + 1]? = some '\n' := by
        have : pre.length - 1 + 1 = pre.length := by omega
        rw [this]; exact h2
      obtain ⟨c, hc, hle⟩ := searchCRLF_complete _ _ g1 g2
      rw [hc, memchr_split '\n' pre post hpre] at he
      have hlt : c < pre.length := by omega
      simp only [Codec.lineEnd, hlt, if_true, Option.some.injEq] at he
      omega
    · unfold stripCR
      simp [hcr]
  · -- the line ends at the CR of a CR LF
    have hlt : e < pre.length := by omega
    rw [List.getElem?_append_left hlt] at h2
    have hne : pre ≠ [] := by
      intro h0; rw [h0] at hlt; simp at hlt
    have hlast : pre.getLast? = some '\r' := by
      rw [getLast_eq_getElem]
      have : pre.length - 1 = e := by omega
      rw [this]; exact h2
    have hemp : pre.isEmpty = false := isEmpty_false hne
    unfold stripCR
    simp only [hemp, hlast, Bool.not_false, Bool.true_and, decide_True, if_true]
    rw [List.take_append_of_le_length (by omega), List.dropLast_eq_take]
    congr 1
    omega

theorem parseRequest_none (buf : Buffer) (req : Request) (hn : '\n' ∉ buf.readable) :
    Codec.parseRequest buf req = (false, buf, req) := by
  have he := (lineEnd_none_iff buf.readable).mpr hn
  simp only [Codec.parseRequest, Buffer.findCRLF, he]

/-- The result of `parseRequest` on a buffer that starts with a complete
line. -/
theorem parseRequest_line (buf : Buffer) (hinv : buf.Inv) (req : Request)
    (pre post : List Char) (hsplit : buf.readable = pre ++ '\n' :: post)
    (hpre : '\n' ∉ pre) :
    Codec.parseRequest buf req =
      (true, buf.retrieve (pre.length + 1),
        (Codec.parseLine (stripCR (stripCR pre)) req).2) := by
  have hl := readable_length buf hinv
  have hlen : buf.readableBytes = pre.length + 1 + post.length := by
    rw [← hl, hsplit]; simp; omega
  obtain ⟨e, he, htext, hcase⟩ := lineEnd_text pre post hpre
  rw [← hsplit] at he htext hcase
  have hskip : (if buf.readable[e]? = some '\r' then
        if e + 1 < buf.readableBytes ∧ buf.readable[e + 1]? = some '\n' then e + 2
        else e + 1
      else e + 1) = pre.length + 1 := by
    rcases hcase with ⟨h1, h2⟩ | ⟨h1, h2, h3⟩
    · have : ¬ (buf.readable[e]? = some '\r') := by
        rw [h2]; decide
      rw [if_neg this, h1]
    · have h4 : e + 1 < buf.readableBytes := by omega
      rw [if_pos h2, if_pos ⟨h4, h3⟩]
      omega
  have hline : (if (!(buf.readable.take e).isEmpty && (buf.readable.take e).getLast? = some '\r')
      then (buf.readable.take e).dropLast else buf.readable.take e) = stripCR (stripCR pre) := by
    rw [htext]
    rfl
  simp only [Codec.parseRequest, Buffer.findCRLF, he, hskip, hline, parseLine_fst]

theorem retrieve_readableBytes (b : Buffer) (n : Nat) (hn : n ≤ b.readableBytes) :
    (b.retrieve n).readableBytes + n = b.readableBytes := by
  unfold Buffer.retrieve
  have : b.readableBytes = b.writerIndex_ - b.readerIndex_ := rfl
  by_cases h : n < b.readableBytes
  · rw [if_pos h]
    simp only [Buffer.readableBytes]
    omega
  · rw [if_neg h]
    simp only [Buffer.retrieveAll, Buffer.readableBytes]
    omega

end LineLemmas

section LoopLemmas

theorem send_connected (conn : TcpConnection) (hconn : conn.state_ = StateE.kConnected)
    (message : Str) :
    conn.send message =
      ⟨StateE.kConnected, conn.loopCalls ++ [LoopCall.sendInLoop message]⟩ := by
  unfold TcpConnection.send
  rw [if_pos hconn, ← hconn]

/-- The loop of `onMessage` on complete lines followed by an LF-free tail. -/
theorem onMessageLoop_lines (maxLevel : Nat) (tail : Str) (htail : '\n' ∉ tail) :
    ∀ (lines : List Str) (fuel : Nat) (sv : KVServer) (conn : TcpConnection) (buf : Buffer)
      (draws : Nat → Nat → Bool),
      KVStore.Reachable maxLevel sv.store_ → conn.state_ = StateE.kConnected → buf.Inv8 →
      buf.readable = framed lines tail →
      (∀ pre ∈ lines, '\n' ∉ pre ∧ (lineRequest pre).command ≠ CommandType.kQuit) →
      buf.readableBytes ≤ fuel →
      ∃ out sv1 buf1, sv.respondAll lines draws = some (out, sv1) ∧
        out.length = lines.length ∧
        KVServer.onMessageLoop fuel sv conn buf draws =
          some (sv1, ⟨StateE.kConnected, conn.loopCalls ++ out.map LoopCall.sendInLoop⟩,
            buf1) ∧
        buf1.readable = tail ∧ buf1.Inv8 ∧ KVStore.Reachable maxLevel sv1.store_ := by
  intro lines
  induction lines with
  | nil =>
    intro fuel sv conn buf draws hr hconn hinv hbuf _ hfuel
    have hconn1 : conn = ⟨StateE.kConnected, conn.loopCalls ++ [].map LoopCall.sendInLoop⟩ := by
      rw [List.map_nil, List.append_nil, ← hconn]
    have hread : buf.readable = tail := hbuf
    refine ⟨[], sv, buf, rfl, rfl, ?_, hread, hinv, hr⟩
    rw [← hconn1]
    cases fuel with
    | zero =>
      have h0 : ¬ buf.readableBytes > 0 := by omega
      simp only [KVServer.onMessageLoop, h0, if_false]
    | succ f =>
      by_cases h0 : buf.readableBytes > 0
      · have hp := parseRequest_none buf Request.new (by rw [hread]; exact htail)
        simp only [KVServer.onMessageLoop, h0, if_true, hp]
      · simp only [KVServer.onMessageLoop, h0, if_false]
  | cons pre rest ih =>
    intro fuel sv conn buf draws hr hconn hinv hbuf hlines hfuel
    obtain ⟨hpre, hquit⟩ := hlines pre (List.mem_cons_self _ _)
    have hsplit : buf.readable = pre ++ '\n' :: framed rest tail := hbuf
    have hl := readable_length buf (inv_of_inv8 hinv)
    have hlen : buf.readableBytes = pre.length + 1 + (framed rest tail).length := by
      rw [← hl, hsplit]; simp; omega
    have hp := parseRequest_line buf (inv_of_inv8 hinv) Request.new pre (framed rest tail)
      hsplit hpre
    obtain ⟨response, sv1, he, hr1⟩ := handleRequest_total maxLevel sv hr (lineRequest pre)
      (draws 0)
    have hread1 : (buf.retrieve (pre.length + 1)).readable = framed rest tail := by
      rw [retrieve_readable buf (inv_of_inv8 hinv) _ (by omega), hsplit]
      have : pre.length + 1 = (pre ++ ['\n']).length := by simp
      rw [this]
      have e2 : pre ++ '\n' :: framed rest tail = (pre ++ ['\n']) ++ framed rest tail := by simp
      rw [e2, List.drop_left]
    have hbytes := retrieve_readableBytes buf (pre.length + 1) (by omega)
    cases fuel with
    | zero => omega
    | succ f =>
      obtain ⟨out, sv2, buf2, e2, hlen2, hloop2, hread2, hinv2, hr2⟩ :=
        ih f sv1 (Codec.sendResponse conn response) (buf.retrieve (pre.length + 1))
          (fun i => draws (i + 1)) hr1
          (by unfold Codec.sendResponse; rw [send_connected conn hconn])
          (retrieve_inv8 buf hinv _) hread1
          (fun p hp => hlines p (List.mem_cons_of_mem _ hp)) (by omega)
      refine ⟨Codec.encodeResponse response :: out, sv2, buf2, ?_, ?_, ?_, hread2, hinv2, hr2⟩
      · simp only [KVServer.respondAll, he, e2]
      · simp only [List.length_cons, hlen2]
      · have h0 : buf.readableBytes > 0 := by omega
        have hq : ¬ ((Codec.parseLine (stripCR (stripCR pre)) Request.new).2.command =
            CommandType.kQuit) := hquit
        have he1 : sv.handleRequest (Codec.parseLine (stripCR (stripCR pre)) Request.new).2
            (draws 0) = some (response, sv1) := he
        simp only [KVServer.onMessageLoop, h0, if_true, hp, he1, hq, if_false, hloop2]
        unfold Codec.sendResponse
        rw [send_connected conn hconn]
        simp

theorem respondAll_unknown :
    ∀ (lines : List Str) (sv : KVServer) (draws : Nat → Nat → Bool) (out : List Str)
      (sv1 : KVServer), sv.respondAll lines draws = some (out, sv1) →
      ∀ (i : Nat) (pre : Str), lines[i]? = some pre →
        (lineRequest pre).command = CommandType.kUnknown →
        out[i]? = some "-ERROR Unknown command\r\n".toList := by
  intro lines
  induction lines with
  | nil => intro sv draws out sv1 _ i pre hi; simp at hi
  | cons l rest ih =>
    intro sv draws out sv1 he i pre hi hu
    simp only [KVServer.respondAll] at he
    cases h1 : sv.handleRequest (lineRequest l) (draws 0) with
    | none => rw [h1] at he; cases he
    | some r1 =>
      obtain ⟨response, sv2⟩ := r1
      rw [h1] at he
      simp only at he
      cases h2 : KVServer.respondAll sv2 rest (fun i => draws (i + 1)) with
      | none => rw [h2] at he; cases he
      | some r2 =>
        obtain ⟨out2, sv3⟩ := r2
        rw [h2] at he
        simp only [Option.some.injEq, Prod.mk.injEq] at he
        obtain ⟨ho, _⟩ := he
        subst ho
        cases i with
        | zero =>
          simp only [List.getElem?_cons_zero, Option.some.injEq] at hi
          subst hi
          simp only [KVServer.handleRequest, hu, Option.some.injEq, Prod.mk.injEq] at h1
          rw [← h1.1, List.getElem?_cons_zero]
          have henc : Codec.encodeResponse (Response.error "Unknown command".toList) =
              "-ERROR Unknown command\r\n".toList := by decide
          rw [henc]
        | succ j =>
          rw [List.getElem?_cons_succ] at hi ⊢
          exact ih sv2 _ out2 sv3 h2 j pre hi hu

end LoopLemmas

section LoopClaims

/-- C12: let the readable region of the buffer be the lines `lines`, each
followed by an LF, and then a tail without LF, no line containing an LF and
none being a QUIT or EXIT command; the request of a line is the parse of its
characters before the LF, a CR before the LF being part of the terminator (and
a further CR at the end being dropped, as `parseRequest` does).  Then one call
of `onMessage` on a connected connection, with a reachable store, returns; it
hands to `sendInLoop` exactly one encoded response per line, in line order, the
response to a line being the one `handleRequest` gives against the store as the
earlier lines left it; a line whose command is Unknown gets
`-ERROR Unknown command`; `shutdown` is not called and the connection stays
connected; and exactly the tail is left in the buffer. -/
theorem C12_onMessage (maxLevel : Nat) (sv : KVServer)
    (hr : KVStore.Reachable maxLevel sv.store_) (conn : TcpConnection)
    (hconn : conn.state_ = StateE.kConnected) (buf : Buffer) (hinv : buf.Inv8)
    (lines : List Str) (tail : Str) (hbuf : buf.readable = framed lines tail)
    (hlines : ∀ pre ∈ lines, '\n' ∉ pre ∧ (lineRequest pre).command ≠ CommandType.kQuit)
    (htail : '\n' ∉ tail) (draws : Nat → Nat → Bool) :
    ∃ out sv1 buf1, sv.respondAll lines draws = some (out, sv1) ∧
      out.length = lines.length ∧
      sv.onMessage conn buf draws =
        some (sv1, ⟨StateE.kConnected, conn.loopCalls ++ out.map LoopCall.sendInLoop⟩, buf1) ∧
      buf1.readable = tail ∧ buf1.Inv8 ∧
      (∀ (i : Nat) (pre : Str), lines[i]? = some pre →
        (lineRequest pre).command = CommandType.kUnknown →
        out[i]? = some "-ERROR Unknown command\r\n".toList) := by
  obtain ⟨out, sv1, buf1, e1, hlen, hloop, hread, hinv1, _⟩ :=
    onMessageLoop_lines maxLevel tail htail lines buf.readableBytes sv conn buf draws hr hconn
      hinv hbuf hlines (Nat.le_refl _)
  exact ⟨out, sv1, buf1, e1, hlen, hloop, hread, hinv1,
    respondAll_unknown lines sv draws out sv1 e1⟩

theorem C12_onMessage_witness :
    ∃ sv1 buf1,
      (KVServer.mk (KVStore.new 4)).onMessage ⟨StateE.kConnected, []⟩ demoRequests
          (fun _ _ => false) =
        some (sv1, ⟨StateE.kConnected,
          [LoopCall.sendInLoop "+PONG\r\n".toList, LoopCall.sendInLoop "+PONG\r\n".toList,
            LoopCall.sendInLoop "+OK 0\r\n".toList]⟩, buf1) ∧
      buf1.readable = [] := by
  obtain ⟨out, sv1, buf1, e1, _, hloop, hread, _⟩ :=
    C12_onMessage 4 (KVServer.mk (KVStore.new 4)) KVStore.Reachable.init
      ⟨StateE.kConnected, []⟩ rfl demoRequests ⟨by decide, by decide, by decide⟩
      ["PING".toList, "PING\r".toList, "SIZE".toList] [] (by decide) (by decide) (by decide)
      (fun _ _ => false)
  have e2 : (KVServer.mk (KVStore.new 4)).respondAll
      ["PING".toList, "PING\r".toList, "SIZE".toList] (fun _ _ => false) =
      some (["+PONG\r\n".toList, "+PONG\r\n".toList, "+OK 0\r\n".toList],
        KVServer.mk (KVStore.new 4)) := rfl
  rw [e2] at e1
  cases e1
  exact ⟨_, buf1, hloop, hread⟩

end LoopClaims

/-! ## Persistence: loading and saving -/

section LoadLemmas

theorem mLookup_mInsertAll (k : Str) (data : List (Str × Str)) :
    ∀ m : List (Str × Str), mLookup k (mInsertAll m data) =
      ((data.reverse.find? (fun p => decide (p.1 = k))).map Prod.snd).or (mLookup k m) := by
  induction data with
  | nil => intro m; rfl
  | cons kv rest ih =>
    intro m
    have hstep : mInsertAll m (kv :: rest) = mInsertAll (mInsert kv.1 kv.2 m) rest := rfl
    rw [hstep, ih, List.reverse_cons, List.find?_append]
    by_cases hk : kv.1 = k
    · rw [← hk, mLookup_mInsert_self]
      cases hf : List.find? (fun p => decide (p.1 = kv.1)) rest.reverse with
      | none => simp
      | some x => simp
    · rw [mLookup_mInsert_other (Ne.symm hk)]
      have : List.find? (fun p => decide (p.1 = k)) [kv] = none := by
        simp [hk]
      rw [this, Option.or_none]

theorem memchr_first (c : Char) (line : List Char) (hmem : c ∈ line) :
    ∃ pre post, line = pre ++ c :: post ∧ c ∉ pre ∧
      pre = line.takeWhile (fun x => decide (x ≠ c)) ∧
      post = (line.dropWhile (fun x => decide (x ≠ c))).tail := by
  induction line with
  | nil => cases hmem
  | cons x rest ih =>
    by_cases hx : x = c
    · subst hx
      exact ⟨[], rest, rfl, List.not_mem_nil _, by simp, by simp⟩
    · have hr : c ∈ rest := by
        rcases List.mem_cons.mp hmem with h | h
        · exact absurd h.symm hx
        · exact h
      obtain ⟨pre, post, h1, h2, h3, h4⟩ := ih hr
      refine ⟨x :: pre, post, by rw [h1]; rfl, ?_, ?_, ?_⟩
      · intro hm
        rcases List.mem_cons.mp hm with h | h
        · exact hx h.symm
        · exact h2 h
      · rw [List.takeWhile_cons_of_pos (by simpa using hx), ← h3]
      · rw [List.dropWhile_cons_of_pos (by simpa using hx), ← h4]

/-- The method `parseString` accepts exactly the lines the specification
counts, with the same key and value. -/
theorem parseString_eq_spec (line : Str) : parseString line = specLinePair line := by
  unfold parseString specLinePair kDelimiter
  by_cases hmem : ':' ∈ line
  · obtain ⟨pre, post, h1, h2, h3, h4⟩ := memchr_first ':' line hmem
    have hne : line ≠ [] := by
      intro h0; rw [h0] at hmem; cases hmem
    have hm : memchr ':' line = some pre.length := by
      rw [h1]; exact memchr_split ':' pre post h2
    have ht : line.take pre.length = pre := by
      rw [h1, List.take_left]
    have hd : line.drop (pre.length + 1) = post := by
      rw [h1]
      have e : pre ++ ':' :: post = (pre ++ [':']) ++ post := by simp
      have l : pre.length + 1 = (pre ++ [':']).length := by simp
      rw [e, l, List.drop_left]
    rw [isEmpty_false hne, hm]
    simp only [Bool.false_eq_true, if_false, ht, hd, ← h3, ← h4]
    by_cases hp : pre = []
    · subst hp
      simp
    · rw [isEmpty_false hp]
      simp [hne, hmem, hp]
  · have hm : memchr ':' line = none := (memchr_none_iff ':' line).mpr hmem
    rw [hm]
    simp [hmem]

theorem filterMap_congr_fun {α β : Type} (f g : α → Option β) (l : List α)
    (h : ∀ x, f x = g x) : l.filterMap f = l.filterMap g := by
  have : f = g := funext h
  rw [this]

/-- The loop over `std::getline` and the split of the content at its LF
characters deliver the same lines, up to empty ones. -/
theorem getlinesAux_splitOn (f : Str → Option (Str × Str)) (hf : f [] = none)
    (cs : List Char) :
    ∀ acc : List Char, (getlinesAux acc.reverse cs).filterMap f =
      (List.splitOnP.go (fun c => c == '\n') cs acc).filterMap f := by
  induction cs with
  | nil =>
    intro acc
    unfold getlinesAux List.splitOnP.go
    by_cases h : acc.reverse = []
    · rw [h]
      simp [hf]
    · have h2 : acc.reverse.isEmpty = false := by
        cases hr : acc.reverse with
        | nil => exact absurd hr h
        | cons a l => rfl
      rw [h2]
      simp
  | cons c cs ih =>
    intro acc
    unfold getlinesAux List.splitOnP.go
    by_cases hc : c = '\n'
    · subst hc
      have := ih []
      simp only [List.reverse_nil] at this
      simp only [if_true, beq_self_eq_true, List.filterMap_cons, this]
    · have h1 : (c == '\n') = false := by simpa using hc
      rw [if_neg hc, h1]
      have := ih (c :: acc)
      rw [List.reverse_cons] at this
      simpa using this

theorem getlines_specLines (f : Str → Option (Str × Str)) (hf : f [] = none)
    (content : Str) :
    (getlines content).filterMap f = (specLines content).filterMap f :=
  getlinesAux_splitOn f hf content []

theorem insertAll_reachable (maxLevel : Nat) (data : List (Str × Str)) :
    ∀ (s s1 : SkipList Str Str) (draws : Nat → Nat → Bool), Reachable maxLevel s →
      insertAll s data draws = some s1 → Reachable maxLevel s1 := by
  induction data with
  | nil =>
    intro s s1 draws hr he
    cases he
    exact hr
  | cons kv rest ih =>
    intro s s1 draws hr he
    simp only [insertAll] at he
    cases h1 : s.insert kv.1 kv.2 (draws 0) with
    | none => rw [h1] at he; cases he
    | some r =>
      obtain ⟨b, s2⟩ := r
      rw [h1] at he
      exact ih s2 s1 _ (Reachable.insert kv.1 kv.2 (draws 0) b hr h1) he

end LoadLemmas

section LoadClaims

/-- C14: for every skip list that is reachable and empty, and every file that
can be opened, `loadFile` returns true and leaves a list in which the value
found for a key is the one given by the last line of the file that stands for
this key.  The lines of the file are the texts between its LF characters; a
line stands for a pair when it is non-empty, contains `':'` and has a non-empty
text before its first `':'` (the key is that text, the value all the text after
the first `':'`); a key that no such line stands for is not found. -/
theorem C14_loadFile (maxLevel : Nat) (s : SkipList Str Str) (hr : Reachable maxLevel s)
    (hsz : s.size = 0) (fs : FileSystem) (filepath content : Str)
    (hf : fs.files filepath = some content) (draws : Nat → Nat → Bool) :
    ∃ s1, s.loadFile fs filepath draws = some (true, s1) ∧ Reachable maxLevel s1 ∧
      ∀ k, s1.search k = some (specFileMap (specLines content) k) ∧
        s1.contains k = some (specFileMap (specLines content) k).isSome := by
  obtain ⟨l, r, _⟩ := reachable_rep hr
  have hl : l = [] := by
    have hc := r.count
    have : s.elementCount_ = 0 := hsz
    rw [this] at hc
    cases l with
    | nil => rfl
    | cons a l => simp at hc; omega
  subst hl
  obtain ⟨s1, l1, e1, r1, hp1, _, _⟩ :=
    insertAll_abs ((getlines content).filterMap parseString) (filterMap_parseString_key _)
      s [] draws r (fun p hp => by cases hp)
  have hload : s.loadFile fs filepath draws = some (true, s1) := by
    simp only [SkipList.loadFile, hf, e1]
  have hsearch : ∀ k, s1.search k = some (specFileMap (specLines content) k) := by
    intro k
    rw [search_rep r1 k, hp1]
    have : pairsOf s.heap [] = [] := rfl
    rw [this, mLookup_mInsertAll, filterMap_congr_fun _ _ _ parseString_eq_spec,
      getlines_specLines specLinePair rfl]
    have : mLookup k ([] : List (Str × Str)) = none := rfl
    rw [this, Option.or_none]
    rfl
  refine ⟨s1, hload, insertAll_reachable maxLevel _ s s1 draws hr e1, fun k => ⟨hsearch k, ?_⟩⟩
  unfold SkipList.contains
  rw [hsearch k]
  rfl

theorem C14_loadFile_witness :
    ∃ s1, (SkipList.new 4).loadFile demoFiles "db".toList (fun _ _ => false) = some (true, s1) ∧
      s1.search "a".toList = some (some "2".toList) ∧
      s1.search "b".toList = some (some "x:y".toList) ∧
      s1.search "noise".toList = some none ∧
      s1.contains "a".toList = some true ∧ s1.contains "c".toList = some false := by
  obtain ⟨s1, e, _, h⟩ := C14_loadFile 4 (SkipList.new 4) Reachable.init rfl demoFiles
    "db".toList "a:1\nnoise\nb:x:y\na:2\n".toList (by decide) (fun _ _ => false)
  refine ⟨s1, e, ?_, ?_, ?_, ?_, ?_⟩
  · rw [(h "a".toList).1]; decide
  · rw [(h "b".toList).1]; decide
  · rw [(h "noise".toList).1]; decide
  · rw [(h "a".toList).2]; decide
  · rw [(h "c".toList).2]; decide

end LoadClaims

/-! ## Persistence: the round trip -/

section SaveLemmas

theorem dumpLoop_chain (h : List (Node Str Str)) :
    ∀ (l : List Nat) (fuel : Nat) (q : NodePtr), Chain h 0 q l → l.length ≤ fuel →
      dumpLoop h fuel q = some (dumpText (pairsOf h l)) := by
  intro l
  induction l with
  | nil =>
    intro fuel q hc _
    have hq : q = none := hc
    subst hq
    cases fuel <;> rfl
  | cons n rest ih =>
    intro fuel q hc hfuel
    obtain ⟨hq, q1, hf, hrest⟩ := hc
    subst hq
    cases fuel with
    | zero => simp at hfuel
    | succ f =>
      have hlen : rest.length ≤ f := by simpa using hfuel
      unfold fwd at hf
      cases hn : h[n]? with
      | none => rw [hn] at hf; cases hf
      | some nd =>
        rw [hn] at hf
        simp only at hf
        have hnode := nodeAt_of_getElem? hn
        simp only [dumpLoop, hn, hf, ih f q1 hrest hlen]
        simp only [pairsOf, dumpText, List.map_cons, List.foldr_cons, keyOf, valOf, hnode]

theorem getlinesAux_line (x : List Char) (hx : '\n' ∉ x) :
    ∀ (cur rest : List Char),
      getlinesAux cur (x ++ '\n' :: rest) = (cur ++ x) :: getlinesAux [] rest := by
  induction x with
  | nil =>
    intro cur rest
    simp [getlinesAux]
  | cons c x ih =>
    intro cur rest
    have hc : c ≠ '\n' := fun e => hx (by simp [e])
    have hx1 : '\n' ∉ x := fun e => hx (List.mem_cons_of_mem _ e)
    show getlinesAux cur (c :: (x ++ '\n' :: rest)) = (cur ++ c :: x) :: getlinesAux [] rest
    simp only [getlinesAux, hc, if_false]
    rw [ih hx1]
    simp

theorem getlines_dumpText (m : List (Str × Str))
    (hm : ∀ p ∈ m, '\n' ∉ p.1 ∧ '\n' ∉ p.2) :
    getlines (dumpText m) = m.map (fun p => p.1 ++ kDelimiter :: p.2) := by
  unfold getlines
  induction m with
  | nil => rfl
  | cons p rest ih =>
    obtain ⟨h1, h2⟩ := hm p (List.mem_cons_self _ _)
    have hline : '\n' ∉ p.1 ++ kDelimiter :: p.2 := by
      intro hmem
      rcases List.mem_append.mp hmem with h | h
      · exact h1 h
      · rcases List.mem_cons.mp h with h | h
        · revert h; unfold kDelimiter; decide
        · exact h2 h
    have e : dumpText (p :: rest) = (p.1 ++ kDelimiter :: p.2) ++ '\n' :: dumpText rest := rfl
    rw [e, getlinesAux_line _ hline, ih (fun q hq => hm q (List.mem_cons_of_mem _ hq))]
    simp

theorem parseString_pair (k v : Str) (hk : k ≠ []) (hd : kDelimiter ∉ k) :
    parseString (k ++ kDelimiter :: v) = some (k, v) := by
  unfold parseString
  have hne : k ++ kDelimiter :: v ≠ [] := by
    cases k with
    | nil => exact absurd rfl hk
    | cons _ _ => intro h; cases h
  have hd1 : (k ++ kDelimiter :: v).drop (k.length + 1) = v := by
    have e : k ++ kDelimiter :: v = (k ++ [kDelimiter]) ++ v := by simp
    have l : k.length + 1 = (k ++ [kDelimiter]).length := by simp
    rw [e, l, List.drop_left]
  rw [isEmpty_false hne, memchr_split kDelimiter k v hd]
  simp only [Bool.false_eq_true, if_false, List.take_left, hd1, isEmpty_false hk]

theorem filterMap_parse_dump (m : List (Str × Str))
    (hm : ∀ p ∈ m, p.1 ≠ [] ∧ kDelimiter ∉ p.1) :
    (m.map (fun p => p.1 ++ kDelimiter :: p.2)).filterMap parseString = m := by
  induction m with
  | nil => rfl
  | cons p rest ih =>
    obtain ⟨h1, h2⟩ := hm p (List.mem_cons_self _ _)
    rw [List.map_cons, List.filterMap_cons, parseString_pair p.1 p.2 h1 h2]
    simp only
    rw [ih (fun q hq => hm q (List.mem_cons_of_mem _ hq))]

theorem mInsert_last (k v : Str) (acc : List (Str × Str)) (h : ∀ p ∈ acc, p.1 < k) :
    mInsert k v acc = acc ++ [(k, v)] := by
  unfold mInsert
  have h1 : acc.filter (fun p => decide (p.1 < k)) = acc := by
    rw [List.filter_eq_self]
    intro p hp
    simpa using h p hp
  have h2 : acc.filter (fun p => decide (k < p.1)) = [] := by
    rw [List.filter_eq_nil_iff]
    intro p hp
    simpa using le_of_lt (h p hp)
  rw [h1, h2]

theorem mInsertAll_sorted (data : List (Str × Str)) :
    ∀ acc : List (Str × Str), (acc ++ data).Pairwise (fun a b => a.1 < b.1) →
      mInsertAll acc data = acc ++ data := by
  induction data with
  | nil => intro acc _; simp [mInsertAll]
  | cons kv rest ih =>
    intro acc hs
    have hstep : mInsertAll acc (kv :: rest) = mInsertAll (mInsert kv.1 kv.2 acc) rest := rfl
    have hlt : ∀ p ∈ acc, p.1 < kv.1 := by
      intro p hp
      exact (List.pairwise_append.mp hs).2.2 p hp kv (List.mem_cons_self _ _)
    rw [hstep, mInsert_last kv.1 kv.2 acc hlt]
    have e : acc ++ [(kv.1, kv.2)] ++ rest = acc ++ kv :: rest := by simp
    rw [ih _ (by rw [e]; exact hs), e]

theorem mLookup_of_mem_sorted (m : List (Str × Str))
    (hs : m.Pairwise (fun a b => a.1 < b.1)) (p : Str × Str) (hp : p ∈ m) :
    mLookup p.1 m = some p.2 := by
  induction m with
  | nil => cases hp
  | cons a rest ih =>
    rcases List.mem_cons.mp hp with h | h
    · subst h
      simp [mLookup]
    · have hlt : a.1 < p.1 := (List.pairwise_cons.mp hs).1 p h
      have hne : ¬ a.1 = p.1 := ne_of_lt hlt
      have := ih (List.pairwise_cons.mp hs).2 h
      unfold mLookup at this ⊢
      rw [List.find?_cons_of_neg _ (by simpa using hne)]
      exact this

/-- What `save` writes for a store that holds the pairs `m`. -/
theorem kvabs_save {n : Nat} {st : KVStore} {m : List (Str × Str)} (h : KVAbs n st m)
    (fs : FileSystem) (filepath : Str) :
    st.save fs filepath =
      some (if filepath ≠ [] ∧ fs.writable filepath = true
        then (true, fs.write filepath (dumpText m)) else (false, fs)) := by
  obtain ⟨l, r, hm, _, _⟩ := h
  unfold KVStore.save
  by_cases hp : filepath = []
  · subst hp
    simp
  · rw [isEmpty_false hp]
    simp only [Bool.false_eq_true, if_false, SkipList.dumpFile]
    by_cases hw : fs.writable filepath = true
    · obtain ⟨_, q, hq, hchain⟩ := r.chain 0 (Nat.zero_le _)
      rw [onLevel_zero] at hchain
      have hd := dumpLoop_chain st.skiplist_.heap l st.skiplist_.heap.length q hchain
        (Nat.le_of_lt r.room)
      rw [r.hdr]
      simp only [hw, if_true, hq, hd, hm, ne_eq, hp, not_false_eq_true, and_self]
    · simp [hw]

theorem demoStore_abs : KVAbs 4 demoStore [("k".toList, "v".toList)] := by
  obtain ⟨st1, e1, h1⟩ := kvabs_put (kvabs_new 4) "k".toList "v".toList (fun _ => false)
    (by decide)
  have e2 : (KVStore.new 4).put "k".toList "v".toList (fun _ => false) =
      some (true, demoStore) := rfl
  rw [e2] at e1
  simp only [Option.some.injEq, Prod.mk.injEq] at e1
  rw [← e1.2] at h1
  exact h1

theorem demoStore_keys (k v : Str) (h : demoStore.get k = some (some v)) :
    ':' ∉ k ∧ '\n' ∉ k ∧ '\n' ∉ v := by
  rw [kvabs_get demoStore_abs k] at h
  have h2 : ['k'] = k ∧ ['v'] = v := by
    simpa [mLookup] using h
  obtain ⟨hk, hv⟩ := h2
  subst hk
  subst hv
  decide

end SaveLemmas

section SaveClaims

/-- C13: let `s` and `t` be reachable stores, `s` holding no key with `':'` or
LF and no value with LF.  Then `s.save(p)` returns, and it returns true exactly
when `p` is not empty and the file can be opened for writing.  When it returns
true, `t.load(p)` on the file system it leaves returns true, and afterwards `t`
gives for every key the same result of `get` and `exists` as `s`, and has the
size of `s`: nothing of the earlier content of `t` is left. -/
theorem C13_save_load (maxLevel1 maxLevel2 : Nat) (s t : KVStore)
    (hs : KVStore.Reachable maxLevel1 s) (ht : KVStore.Reachable maxLevel2 t)
    (hkeys : ∀ k v, s.get k = some (some v) → ':' ∉ k ∧ '\n' ∉ k ∧ '\n' ∉ v)
    (fs : FileSystem) (p : Str) :
    ∃ b fs1, s.save fs p = some (b, fs1) ∧
      (b = true ↔ (p ≠ [] ∧ fs.writable p = true)) ∧
      (b = false → fs1 = fs) ∧
      (b = true → ∀ draws : Nat → Nat → Bool,
        ∃ t1, t.load fs1 p draws = some (true, t1) ∧
          (∀ k, t1.get k = s.get k) ∧ (∀ k, t1.exists k = s.exists k) ∧
          t1.size = s.size) := by
  obtain ⟨m, hm⟩ := kv_reachable_abs hs
  obtain ⟨mt, hmt⟩ := kv_reachable_abs ht
  have hsave := kvabs_save hm fs p
  by_cases hc : p ≠ [] ∧ fs.writable p = true
  · rw [if_pos hc] at hsave
    refine ⟨true, fs.write p (dumpText m), hsave, ⟨fun _ => hc, fun _ => rfl⟩,
      fun h => absurd h (by decide), fun _ draws => ?_⟩
    have hsorted := kvabs_sorted hm
    have hne : ∀ q ∈ m, q.1 ≠ [] := by
      obtain ⟨_, _, _, h, _⟩ := hm
      exact h
    have hok : ∀ q ∈ m, ':' ∉ q.1 ∧ '\n' ∉ q.1 ∧ '\n' ∉ q.2 := by
      intro q hq
      apply hkeys q.1 q.2
      rw [kvabs_get hm, mLookup_of_mem_sorted m hsorted q hq]
    have hfile : (fs.write p (dumpText m)).files p = some (dumpText m) := by
      simp [FileSystem.write]
    obtain ⟨t1, e1, h1⟩ := kvabs_load hmt (fs.write p (dumpText m)) p draws hc.1
    rw [hfile] at e1 h1
    simp only at h1
    rw [getlines_dumpText m (fun q hq => ⟨(hok q hq).2.1, (hok q hq).2.2⟩),
      filterMap_parse_dump m (fun q hq => ⟨hne q hq, (hok q hq).1⟩),
      mInsertAll_sorted m [] (by simpa using hsorted), List.nil_append] at h1
    refine ⟨t1, e1, fun k => ?_, fun k => ?_, ?_⟩
    · rw [kvabs_get h1, kvabs_get hm]
    · rw [kvabs_exists h1, kvabs_exists hm]
    · rw [kvabs_size h1, kvabs_size hm]
  · rw [if_neg hc] at hsave
    exact ⟨false, fs, hsave, ⟨fun h => absurd h (by decide), fun h => absurd h hc⟩,
      fun _ => rfl, fun h => absurd h (by decide)⟩

/-- C16, counterexample: the store holding one key keeps it when `load("")`
returns false. -/
theorem C16_load_empty_path_counterexample :
    KVStore.Reachable 4 demoStore ∧
    demoStore.load demoFs [] (fun _ _ => false) = some (false, demoStore) ∧
    demoStore.size = 1 ∧ demoStore.get "k".toList = some (some "v".toList) :=
  ⟨demoStore_reachable, rfl, rfl, by decide⟩

/-- C16, amended: for every reachable store `load` returns.  With a non-empty
path it returns false exactly when the file cannot be opened, and the store is
then empty: its size is 0 and no key is found.  With the empty path it returns
false and leaves the store as it was. -/
theorem C16_load_failure (maxLevel : Nat) (st : KVStore)
    (hr : KVStore.Reachable maxLevel st) (fs : FileSystem) (filepath : Str)
    (draws : Nat → Nat → Bool) :
    ∃ b st1, st.load fs filepath draws = some (b, st1) ∧
      (filepath ≠ [] → (b = false ↔ fs.files filepath = none)) ∧
      (filepath ≠ [] → b = false → st1.size = 0 ∧ ∀ k, st1.get k = some none) ∧
      (filepath = [] → b = false ∧ st1 = st) := by
  obtain ⟨m, hm⟩ := kv_reachable_abs hr
  by_cases hp : filepath = []
  · subst hp
    exact ⟨false, st, rfl, fun h => absurd rfl h, fun h => absurd rfl h, fun _ => ⟨rfl, rfl⟩⟩
  · obtain ⟨st1, e1, h1⟩ := kvabs_load hm fs filepath draws hp
    refine ⟨_, st1, e1, fun _ => ?_, fun _ hb => ?_, fun h => absurd h hp⟩
    · cases fs.files filepath <;> simp
    · cases hf : fs.files filepath with
      | some content => rw [hf] at hb; cases hb
      | none =>
        rw [hf] at h1
        simp only at h1
        refine ⟨?_, fun k => ?_⟩
        · rw [kvabs_size h1]; rfl
        · rw [kvabs_get h1]; rfl

theorem demoTarget_reachable : KVStore.Reachable 2 demoTarget :=
  KVStore.Reachable.put "old".toList "1".toList (fun _ => false) true KVStore.Reachable.init rfl

theorem C13_save_load_witness :
    demoTarget.get "old".toList = some (some "1".toList) ∧
    ∃ fs1 t1, demoStore.save demoFiles "x".toList = some (true, fs1) ∧
      fs1.files "x".toList = some "k:v\n".toList ∧
      demoTarget.load fs1 "x".toList (fun _ _ => false) = some (true, t1) ∧
      t1.get "k".toList = some (some "v".toList) ∧ t1.get "old".toList = some none ∧
      t1.exists "k".toList = some true ∧ t1.size = 1 := by
  obtain ⟨b, fs1, e, hiff, _, hload⟩ :=
    C13_save_load 4 2 demoStore demoTarget demoStore_reachable demoTarget_reachable
      demoStore_keys demoFiles "x".toList
  have hb : b = true := hiff.mpr ⟨by decide, rfl⟩
  subst hb
  obtain ⟨t1, e1, hget, hex, hsz⟩ := hload rfl (fun _ _ => false)
  have hval : demoStore.save demoFiles "x".toList =
      some (true, demoFiles.write "x".toList "k:v\n".toList) := rfl
  rw [hval] at e
  simp only [Option.some.injEq, Prod.mk.injEq, true_and] at e
  subst e
  refine ⟨by decide, _, t1, hval, ?_, e1, ?_, ?_, ?_, ?_⟩
  · simp [FileSystem.write]
  · rw [hget]; decide
  · rw [hget]; decide
  · rw [hex]; decide
  · rw [hsz]; rfl

theorem C16_load_failure_witness :
    ∃ b st1, demoStore.load demoFs "nofile".toList (fun _ _ => false) = some (b, st1) ∧
      ("nofile".toList ≠ [] → (b = false ↔ demoFs.files "nofile".toList = none)) ∧
      ("nofile".toList ≠ [] → b = false → st1.size = 0 ∧ ∀ k, st1.get k = some none) ∧
      ("nofile".toList = [] → b = false ∧ st1 = demoStore) :=
  C16_load_failure 4 demoStore demoStore_reachable demoFs "nofile".toList (fun _ _ => false)

end SaveClaims


/-! ## Poller registration: the invariant -/

section PollerLemmas

/-- The effect of `updateChannel` on a channel whose poller state agrees with
the epoll set. -/
theorem updateChannel_spec (fd : Nat) (p : EpollPoller) (ch : PolledChannel)
    (h1 : ch.fd_ = fd)
    (h2 : ch.index_ = kNew ∨ ch.index_ = kAdded ∨ ch.index_ = kDeleted)
    (h3 : ch.index_ = kAdded ↔ (p.interest fd).isSome = true)
    (h4 : p.channels_ fd = true ↔ ch.index_ ≠ kNew) :
    ∃ p1 ch1, p.updateChannel ch = some (p1, ch1) ∧ ch1.events_ = ch.events_ ∧
      PollInv fd p1 ch1 ∧
      (∀ d, d ≠ fd → p1.interest d = p.interest d ∧ p1.channels_ d = p.channels_ d) ∧
      (ch.index_ = kNew ∨ ch.index_ = kDeleted →
        ch1.index_ = kAdded ∧ p1.interest fd = some (ch.events_ ||| EPOLLET) ∧
        p1.channels_ fd = true) ∧
      (ch.index_ = kAdded → ch.events_ = 0 →
        ch1.index_ = kDeleted ∧ p1.interest fd = none ∧ p1.channels_ fd = true) ∧
      (ch.index_ = kAdded → ch.events_ ≠ 0 →
        ch1.index_ = kAdded ∧ p1.interest fd = some (ch.events_ ||| EPOLLET)) := by
  subst h1
  have hne1 : kNew ≠ kAdded := by decide
  have hne2 : kDeleted ≠ kAdded := by decide
  have hne3 : kNew ≠ kDeleted := by decide
  rcases h2 with h | h | h
  · -- a new channel
    have hreg : (p.interest ch.fd_).isSome = false := by
      cases hs : (p.interest ch.fd_).isSome with
      | false => rfl
      | true => exact absurd (h3.mpr hs) (by rw [h]; exact hne1)
    refine ⟨{ channels_ := fun d => if d = ch.fd_ then true else p.channels_ d,
              interest := fun d => if d = ch.fd_ then some (ch.events_ ||| EPOLLET)
                else p.interest d }, { ch with index_ := kAdded }, ?_, rfl, ?_, ?_, ?_, ?_, ?_⟩
    · simp [EpollPoller.updateChannel, EpollPoller.update, epoll_ctl, h, hreg]
    · refine ⟨rfl, Or.inr (Or.inl rfl), ?_, ?_, ?_⟩
      · simp
      · intro _; simp
      · simp [hne1.symm]
    · intro d hd
      simp [hd]
    · intro _
      simp
    · intro h0
      exact absurd (h ▸ h0) hne1
    · intro h0
      exact absurd (h ▸ h0) hne1
  · -- an added channel
    have hreg : (p.interest ch.fd_).isSome = true := h3.mp h
    have hch : p.channels_ ch.fd_ = true := h4.mpr (by rw [h]; exact hne1.symm)
    have hnn : ¬ (kAdded = kNew ∨ kAdded = kDeleted) := by decide
    by_cases he : ch.events_ = 0
    · refine ⟨{ p with interest := fun d => if d = ch.fd_ then none else p.interest d },
        { ch with index_ := kDeleted }, ?_, rfl, ?_, ?_, ?_, ?_, ?_⟩
      · simp [EpollPoller.updateChannel, EpollPoller.update, epoll_ctl, h, hreg, hnn,
          PolledChannel.isNoneEvent, kNoneEvent, he]
      · refine ⟨rfl, Or.inr (Or.inr rfl), ?_, ?_, ?_⟩
        · simp [hne2]
        · intro h0; exact absurd h0 hne2
        · simp [hch, hne3.symm]
      · intro d hd
        simp [hd]
      · rintro (h0 | h0)
        · exact absurd (h ▸ h0) hne1.symm
        · exact absurd (h ▸ h0) hne2.symm
      · intro _ _
        simp [hch]
      · intro _ h0
        exact absurd he h0
    · refine ⟨{ p with interest := fun d => if d = ch.fd_ then some (ch.events_ ||| EPOLLET)
          else p.interest d }, ch, ?_, rfl, ?_, ?_, ?_, ?_, ?_⟩
      · simp [EpollPoller.updateChannel, EpollPoller.update, epoll_ctl, h, hreg, hnn,
          PolledChannel.isNoneEvent, kNoneEvent, he]
      · refine ⟨rfl, Or.inr (Or.inl h), ?_, ?_, ?_⟩
        · simp [h]
        · intro _; simp
        · simp [hch, h, hne1.symm]
      · intro d hd
        simp [hd]
      · rintro (h0 | h0)
        · exact absurd (h ▸ h0) hne1.symm
        · exact absurd (h ▸ h0) hne2.symm
      · intro _ h0
        exact absurd h0 he
      · intro _ _
        exact ⟨h, by simp⟩
  · -- a deleted channel
    have hreg : (p.interest ch.fd_).isSome = false := by
      cases hs : (p.interest ch.fd_).isSome with
      | false => rfl
      | true => exact absurd (h3.mpr hs) (by rw [h]; exact hne2)
    have hch : p.channels_ ch.fd_ = true := h4.mpr (by rw [h]; exact hne3.symm)
    refine ⟨{ p with interest := fun d => if d = ch.fd_ then some (ch.events_ ||| EPOLLET)
        else p.interest d }, { ch with index_ := kAdded }, ?_, rfl, ?_, ?_, ?_, ?_, ?_⟩
    · simp [EpollPoller.updateChannel, EpollPoller.update, epoll_ctl, h, hreg, hne3.symm]
    · refine ⟨rfl, Or.inr (Or.inl rfl), ?_, ?_, ?_⟩
      · simp
      · intro _; simp
      · simp [hch, hne1.symm]
    · intro d hd
      simp [hd]
    · intro _
      simp [hch]
    · intro h0
      exact absurd (h ▸ h0) hne2
    · intro h0
      exact absurd (h ▸ h0) hne2

/-- The effect of `removeChannel`. -/
theorem removeChannel_spec (fd : Nat) (p : EpollPoller) (ch : PolledChannel)
    (h1 : ch.fd_ = fd)
    (h3 : ch.index_ = kAdded ↔ (p.interest fd).isSome = true) :
    ∃ p1 ch1, p.removeChannel ch = some (p1, ch1) ∧ ch1.events_ = ch.events_ ∧
      PollInv fd p1 ch1 ∧
      (∀ d, d ≠ fd → p1.interest d = p.interest d ∧ p1.channels_ d = p.channels_ d) ∧
      ch1.index_ = kNew ∧ p1.interest fd = none ∧ p1.channels_ fd = false := by
  subst h1
  have hne1 : kNew ≠ kAdded := by decide
  by_cases h : ch.index_ = kAdded
  · have hreg : (p.interest ch.fd_).isSome = true := h3.mp h
    refine ⟨{ channels_ := fun d => if d = ch.fd_ then false else p.channels_ d,
              interest := fun d => if d = ch.fd_ then none else p.interest d },
      { ch with index_ := kNew }, ?_, rfl, ?_, ?_, rfl, ?_, ?_⟩
    · simp [EpollPoller.removeChannel, EpollPoller.update, epoll_ctl, h, hreg]
    · refine ⟨rfl, Or.inl rfl, ?_, ?_, ?_⟩
      · simp [hne1]
      · intro h0; exact absurd h0 hne1
      · simp
    · intro d hd
      simp [hd]
    · simp
    · simp
  · have hreg : (p.interest ch.fd_).isSome = false := by
      cases hs : (p.interest ch.fd_).isSome with
      | false => rfl
      | true => exact absurd (h3.mpr hs) h
    have hnone : p.interest ch.fd_ = none := by
      cases hi : p.interest ch.fd_ with
      | none => rfl
      | some x => rw [hi] at hreg; cases hreg
    refine ⟨{ p with channels_ := fun d => if d = ch.fd_ then false else p.channels_ d },
      { ch with index_ := kNew }, ?_, rfl, ?_, ?_, rfl, hnone, ?_⟩
    · simp [EpollPoller.removeChannel, h]
    · refine ⟨rfl, Or.inl rfl, ?_, ?_, ?_⟩
      · simp [hne1, hreg]
      · intro h0; exact absurd h0 hne1
      · simp
    · intro d hd
      simp [hd]
    · simp

theorem pollInv_new (fd : Nat) (p : EpollPoller) (h1 : p.channels_ fd = false)
    (h2 : p.interest fd = none) : PollInv fd p (PolledChannel.new fd) := by
  have hne1 : kNew ≠ kAdded := by decide
  refine ⟨rfl, Or.inl rfl, ?_, ?_, ?_⟩
  · simp [PolledChannel.new, h2]
    decide
  · intro h0
    exact absurd (h0 : kNew = kAdded) hne1
  · simp [PolledChannel.new, h1]
    decide

/-- Every call keeps the registration invariant and ends normally. -/
theorem step_pollInv (fd : Nat) (p : EpollPoller) (ch : PolledChannel)
    (h : PollInv fd p ch) (op : ChannelOp) :
    ∃ p1 ch1, ch.step p op = some (p1, ch1) ∧ PollInv fd p1 ch1 ∧
      (∀ d, d ≠ fd → p1.interest d = p.interest d ∧ p1.channels_ d = p.channels_ d) ∧
      (op ≠ ChannelOp.remove → (ch.index_ = kNew ∨ ch.index_ = kDeleted) →
        ch1.index_ = kAdded ∧ p1.interest fd = some (ch1.events_ ||| EPOLLET) ∧
        p1.channels_ fd = true) ∧
      (op ≠ ChannelOp.remove → ch.index_ = kAdded → ch1.events_ = 0 →
        ch1.index_ = kDeleted ∧ p1.interest fd = none ∧ p1.channels_ fd = true) ∧
      (op ≠ ChannelOp.remove → ch.index_ = kAdded → ch1.events_ ≠ 0 →
        ch1.index_ = kAdded ∧ p1.interest fd = some (ch1.events_ ||| EPOLLET)) ∧
      (op = ChannelOp.remove →
        ch1.index_ = kNew ∧ p1.interest fd = none ∧ p1.channels_ fd = false) := by
  obtain ⟨h1, h2, h3, _, h5⟩ := h
  have key : ∀ e : Nat, ∃ p1 ch1,
      p.updateChannel { ch with events_ := e, addedToLoop_ := true } = some (p1, ch1) ∧
      PollInv fd p1 ch1 ∧
      (∀ d, d ≠ fd → p1.interest d = p.interest d ∧ p1.channels_ d = p.channels_ d) ∧
      ((ch.index_ = kNew ∨ ch.index_ = kDeleted) →
        ch1.index_ = kAdded ∧ p1.interest fd = some (ch1.events_ ||| EPOLLET) ∧
        p1.channels_ fd = true) ∧
      (ch.index_ = kAdded → ch1.events_ = 0 →
        ch1.index_ = kDeleted ∧ p1.interest fd = none ∧ p1.channels_ fd = true) ∧
      (ch.index_ = kAdded → ch1.events_ ≠ 0 →
        ch1.index_ = kAdded ∧ p1.interest fd = some (ch1.events_ ||| EPOLLET)) := by
    intro e
    obtain ⟨p1, ch1, e1, he, hinv, hoth, ha, hb, hc⟩ :=
      updateChannel_spec fd p { ch with events_ := e, addedToLoop_ := true } h1 h2 h3 h5
    refine ⟨p1, ch1, e1, hinv, hoth, ?_, ?_, ?_⟩
    · intro h0; rw [he]; exact ha h0
    · intro h0 h00; rw [he] at h00; exact hb h0 h00
    · intro h0 h00; rw [he] at h00 ⊢; exact hc h0 h00
  cases op with
  | remove =>
    obtain ⟨p1, ch1, e1, _, hinv, hoth, ha, hb, hc⟩ :=
      removeChannel_spec fd p { ch with addedToLoop_ := false } h1 h3
    exact ⟨p1, ch1, e1, hinv, hoth, fun h0 => absurd rfl h0, fun h0 => absurd rfl h0,
      fun h0 => absurd rfl h0, fun _ => ⟨ha, hb, hc⟩⟩
  | enableReading =>
    obtain ⟨p1, ch1, e1, hinv, hoth, ha, hb, hc⟩ := key (ch.events_ ||| kReadEvent)
    exact ⟨p1, ch1, e1, hinv, hoth, fun _ => ha, fun _ => hb, fun _ => hc,
      fun h0 => by cases h0⟩
  | disableReading =>
    obtain ⟨p1, ch1, e1, hinv, hoth, ha, hb, hc⟩ := key (andNot ch.events_ kReadEvent)
    exact ⟨p1, ch1, e1, hinv, hoth, fun _ => ha, fun _ => hb, fun _ => hc,
      fun h0 => by cases h0⟩
  | enableWriting =>
    obtain ⟨p1, ch1, e1, hinv, hoth, ha, hb, hc⟩ := key (ch.events_ ||| kWriteEvent)
    exact ⟨p1, ch1, e1, hinv, hoth, fun _ => ha, fun _ => hb, fun _ => hc,
      fun h0 => by cases h0⟩
  | disableWriting =>
    obtain ⟨p1, ch1, e1, hinv, hoth, ha, hb, hc⟩ := key (andNot ch.events_ kWriteEvent)
    exact ⟨p1, ch1, e1, hinv, hoth, fun _ => ha, fun _ => hb, fun _ => hc,
      fun h0 => by cases h0⟩
  | disableAll =>
    obtain ⟨p1, ch1, e1, hinv, hoth, ha, hb, hc⟩ := key kNoneEvent
    exact ⟨p1, ch1, e1, hinv, hoth, fun _ => ha, fun _ => hb, fun _ => hc,
      fun h0 => by cases h0⟩

theorem reachable_pollInv (fd : Nat) (p : EpollPoller) (ch : PolledChannel)
    (hr : PollReachable fd p ch) : PollInv fd p ch := by
  induction hr with
  | init p h1 h2 => exact pollInv_new fd p h1 h2
  | step op _ he ih =>
    obtain ⟨p2, ch2, e2, hinv, _⟩ := step_pollInv fd _ _ ih op
    rw [e2] at he
    cases he
    exact hinv

end PollerLemmas

section PollerClaims

/-- C21: with the epoll set of the kernel as a map from descriptors to event
masks, after every sequence of `enableReading`, `disableReading`,
`enableWriting`, `disableWriting`, `disableAll` and `remove` on a channel the
poller state of the channel is `kAdded` exactly when its descriptor is
registered, and the registered mask is then the interest mask of the channel
with the edge-trigger flag; the descriptor is in the map of the poller exactly
when the state is not `kNew`.  Every further call ends normally; a call other
than `remove` registers a channel that was `kNew` or `kDeleted` (state
`kAdded`), unregisters a `kAdded` channel whose interest has become empty (state
`kDeleted`), and modifies the mask of a `kAdded` channel otherwise; `remove`
leaves the descriptor unregistered, out of the map, and the state `kNew`.  The
other descriptors are not touched. -/
theorem C21_poller_registration (fd : Nat) (p : EpollPoller) (ch : PolledChannel)
    (hr : PollReachable fd p ch) :
    (ch.index_ = kNew ∨ ch.index_ = kAdded ∨ ch.index_ = kDeleted) ∧
    (ch.index_ = kAdded ↔ (p.interest fd).isSome = true) ∧
    (ch.index_ = kAdded → p.interest fd = some (ch.events_ ||| EPOLLET)) ∧
    (p.channels_ fd = true ↔ ch.index_ ≠ kNew) ∧
    ∀ op : ChannelOp, ∃ p1 ch1, ch.step p op = some (p1, ch1) ∧
      (∀ d, d ≠ fd → p1.interest d = p.interest d ∧ p1.channels_ d = p.channels_ d) ∧
      (op ≠ ChannelOp.remove → (ch.index_ = kNew ∨ ch.index_ = kDeleted) →
        ch1.index_ = kAdded ∧ p1.interest fd = some (ch1.events_ ||| EPOLLET) ∧
        p1.channels_ fd = true) ∧
      (op ≠ ChannelOp.remove → ch.index_ = kAdded → ch1.events_ = 0 →
        ch1.index_ = kDeleted ∧ p1.interest fd = none ∧ p1.channels_ fd = true) ∧
      (op ≠ ChannelOp.remove → ch.index_ = kAdded → ch1.events_ ≠ 0 →
        ch1.index_ = kAdded ∧ p1.interest fd = some (ch1.events_ ||| EPOLLET)) ∧
      (op = ChannelOp.remove →
        ch1.index_ = kNew ∧ p1.interest fd = none ∧ p1.channels_ fd = false) := by
  have hinv := reachable_pollInv fd p ch hr
  refine ⟨hinv.2.1, hinv.2.2.1, hinv.2.2.2.1, hinv.2.2.2.2, ?_⟩
  intro op
  obtain ⟨p1, ch1, e1, _, hoth, ha, hb, hc, hd⟩ := step_pollInv fd p ch hinv op
  exact ⟨p1, ch1, e1, hoth, ha, hb, hc, hd⟩

end PollerClaims

/-! ## Connection: the send path -/

section ConnBits

theorem isWriting_iff (c : ConnState) : c.isWriting = true ↔ c.events_.testBit 2 = true := by
  unfold ConnState.isWriting
  rw [decide_eq_true_eq]
  exact out_set c.events_

theorem isWriting_false_iff (c : ConnState) :
    c.isWriting = false ↔ c.events_.testBit 2 = false := by
  rw [← Bool.not_eq_true, ← Bool.not_eq_true, isWriting_iff]

theorem isWriting_enableWriting (c : ConnState) : c.enableWriting.isWriting = true := by
  rw [isWriting_iff]
  show (c.events_ ||| kWriteEvent).testBit 2 = true
  rw [Nat.testBit_or]
  have : kWriteEvent.testBit 2 = true := by decide
  rw [this, Bool.or_true]

theorem isWriting_disableWriting (c : ConnState) : c.disableWriting.isWriting = false := by
  rw [isWriting_false_iff]
  show (andNot c.events_ kWriteEvent).testBit 2 = false
  unfold andNot
  rw [Nat.testBit_and]
  have : ((2 ^ 32 - 1) ^^^ kWriteEvent).testBit 2 = false := by decide
  rw [this, Bool.and_false]

theorem isWriting_enableReading (c : ConnState) :
    c.enableReading.isWriting = c.isWriting := by
  have h : c.enableReading.events_.testBit 2 = c.events_.testBit 2 := by
    show (c.events_ ||| kReadEvent).testBit 2 = c.events_.testBit 2
    rw [Nat.testBit_or]
    have : kReadEvent.testBit 2 = false := by decide
    rw [this, Bool.or_false]
  cases hw : c.isWriting with
  | true => rw [isWriting_iff] at hw ⊢; rw [h]; exact hw
  | false => rw [isWriting_false_iff] at hw ⊢; rw [h]; exact hw

theorem isWriting_disableAll (c : ConnState) : c.disableAll.isWriting = false := by
  rw [isWriting_false_iff]
  show kNoneEvent.testBit 2 = false
  decide

theorem isWriting_congr {c c1 : ConnState} (h : c1.events_ = c.events_) :
    c1.isWriting = c.isWriting := by
  unfold ConnState.isWriting
  rw [h]

end ConnBits

section SendLemmas

theorem sentBytes_append (l1 l2 : List SocketCall) :
    sentBytes (l1 ++ l2) = sentBytes l1 ++ sentBytes l2 := by
  induction l1 with
  | nil => rfl
  | cons a l ih =>
    cases a with
    | write accepted => simp [sentBytes, ih]
    | shutdownWrite => simp [sentBytes, ih]

theorem allBytes_append (l1 l2 : List Str) :
    allBytes (l1 ++ l2) = allBytes l1 ++ allBytes l2 := by
  induction l1 with
  | nil => rfl
  | cons a l ih => simp [allBytes, ih]

theorem readable_nil_of_zero (b : Buffer) (h : b.readableBytes = 0) : b.readable = [] := by
  unfold Buffer.readable
  rw [h]
  rfl

/-- The second part of `sendInLoop` appends the rest of the data and leaves the
channel interested in writing. -/
theorem bufferRest_spec (c1 : ConnState) (data : Str) (nwrote remaining : Nat)
    (hinv : c1.outputBuffer_.Inv8) (hrem : nwrote + remaining = data.length)
    (hpos : 0 < remaining) :
    (c1.bufferRest data nwrote remaining).outputBuffer_.readable =
      c1.outputBuffer_.readable ++ data.drop nwrote ∧
    (c1.bufferRest data nwrote remaining).outputBuffer_.Inv8 ∧
    0 < (c1.bufferRest data nwrote remaining).outputBuffer_.readableBytes ∧
    (c1.bufferRest data nwrote remaining).isWriting = true ∧
    (c1.bufferRest data nwrote remaining).socketCalls = c1.socketCalls ∧
    (c1.bufferRest data nwrote remaining).state_ = c1.state_ ∧
    (c1.bufferRest data nwrote remaining).inputBuffer_ = c1.inputBuffer_ := by
  have hx : (data.drop nwrote).take remaining = data.drop nwrote := by
    apply List.take_of_length_le
    rw [List.length_drop]
    omega
  have hxl : (data.drop nwrote).length = remaining := by
    rw [List.length_drop]
    omega
  obtain ⟨_, hread, hbytes, h8⟩ := append_spec c1.outputBuffer_ (inv_of_inv8 hinv)
    (data.drop nwrote)
  have h8 := h8 hinv
  unfold ConnState.bufferRest
  simp only [hx]
  by_cases hw : c1.outputBuffer_.readableBytes + remaining ≥ c1.highWaterMark_ ∧
      c1.outputBuffer_.readableBytes < c1.highWaterMark_ ∧ c1.highWaterMarkCallback_ = true
  · rw [if_pos hw]
    by_cases hwr : c1.isWriting = true
    · have e : ConnState.isWriting { c1 with
          callbacks := c1.callbacks ++
            [ConnCallback.highWaterMark (c1.outputBuffer_.readableBytes + remaining)],
          outputBuffer_ := c1.outputBuffer_.append (data.drop nwrote) } = true := hwr
      simp only [e, Bool.not_true, Bool.false_eq_true, if_false]
      exact ⟨hread, h8, by omega, trivial, trivial, trivial, trivial⟩
    · have e : ConnState.isWriting { c1 with
          callbacks := c1.callbacks ++
            [ConnCallback.highWaterMark (c1.outputBuffer_.readableBytes + remaining)],
          outputBuffer_ := c1.outputBuffer_.append (data.drop nwrote) } = false := by
        simpa using hwr
      simp only [e, Bool.not_false, if_true]
      exact ⟨hread, h8, by show 0 < (c1.outputBuffer_.append _).readableBytes; omega,
        isWriting_enableWriting _, rfl, rfl, rfl⟩
  · rw [if_neg hw]
    by_cases hwr : c1.isWriting = true
    · have e : ConnState.isWriting { c1 with
          outputBuffer_ := c1.outputBuffer_.append (data.drop nwrote) } = true := hwr
      simp only [e, Bool.not_true, Bool.false_eq_true, if_false]
      exact ⟨hread, h8, by omega, trivial, trivial, trivial, trivial⟩
    · have e : ConnState.isWriting { c1 with
          outputBuffer_ := c1.outputBuffer_.append (data.drop nwrote) } = false := by
        simpa using hwr
      simp only [e, Bool.not_false, if_true]
      exact ⟨hread, h8, by show 0 < (c1.outputBuffer_.append _).readableBytes; omega,
        isWriting_enableWriting _, rfl, rfl, rfl⟩

theorem sendInLoop_eq (c : ConnState) (data : Str) (w : WriteResult)
    (hst : c.state_ ≠ StateE.kDisconnected) :
    c.sendInLoop data w =
      if !(c.directWrite data w).2.2.1 && decide ((c.directWrite data w).2.1 > 0) then
        (c.directWrite data w).2.2.2.bufferRest data (c.directWrite data w).1
          (c.directWrite data w).2.1
      else (c.directWrite data w).2.2.2 := by
  unfold ConnState.sendInLoop
  rw [if_neg hst]

theorem directWrite_skip (c : ConnState) (data : Str) (w : WriteResult)
    (h : ¬ (c.isWriting = false ∧ c.outputBuffer_.readableBytes = 0)) :
    c.directWrite data w = (0, data.length, false, c) := by
  unfold ConnState.directWrite
  have : (!c.isWriting && c.outputBuffer_.readableBytes == 0) = false := by
    cases hw : c.isWriting with
    | true => rfl
    | false =>
      have : c.outputBuffer_.readableBytes ≠ 0 := fun h0 => h ⟨hw, h0⟩
      simp [this]
  simp only [this, Bool.false_eq_true, if_false]

theorem directWrite_wrote (c : ConnState) (data : Str) (n : Nat)
    (h : c.isWriting = false ∧ c.outputBuffer_.readableBytes = 0) :
    (c.directWrite data (WriteResult.wrote n)).1 = n ∧
    (c.directWrite data (WriteResult.wrote n)).2.1 = data.length - n ∧
    (c.directWrite data (WriteResult.wrote n)).2.2.1 = false ∧
    (c.directWrite data (WriteResult.wrote n)).2.2.2.socketCalls =
      c.socketCalls ++ [SocketCall.write (data.take n)] ∧
    (c.directWrite data (WriteResult.wrote n)).2.2.2.state_ = c.state_ ∧
    (c.directWrite data (WriteResult.wrote n)).2.2.2.events_ = c.events_ ∧
    (c.directWrite data (WriteResult.wrote n)).2.2.2.outputBuffer_ = c.outputBuffer_ ∧
    (c.directWrite data (WriteResult.wrote n)).2.2.2.inputBuffer_ = c.inputBuffer_ := by
  unfold ConnState.directWrite
  have : (!c.isWriting && c.outputBuffer_.readableBytes == 0) = true := by
    simp [h.1, h.2]
  simp only [this, if_true]
  by_cases hc : data.length - n = 0 ∧ c.writeCompleteCallback_ = true
  · rw [if_pos hc]
    exact ⟨rfl, rfl, rfl, rfl, rfl, rfl, rfl, rfl⟩
  · rw [if_neg hc]
    exact ⟨rfl, rfl, rfl, rfl, rfl, rfl, rfl, rfl⟩

theorem directWrite_failed (c : ConnState) (data : Str) (errno : Nat)
    (h : c.isWriting = false ∧ c.outputBuffer_.readableBytes = 0) :
    c.directWrite data (WriteResult.failed errno) =
      (0, data.length, decide (errno = EPIPE ∨ errno = ECONNRESET), c) := by
  unfold ConnState.directWrite
  have : (!c.isWriting && c.outputBuffer_.readableBytes == 0) = true := by
    simp [h.1, h.2]
  simp only [this, if_true]
  by_cases h1 : errno = EWOULDBLOCK
  · have h2 : ¬ (errno = EPIPE ∨ errno = ECONNRESET) := by
      rw [h1]; decide
    have h3 : decide (errno = EPIPE ∨ errno = ECONNRESET) = false := by simp [h2]
    rw [h3]
    simp [h1]
  · by_cases h2 : errno = EPIPE ∨ errno = ECONNRESET
    · simp [h1, h2]
    · simp [h1, h2]

/-- What `sendInLoop` does on a connection that is not disconnected: the socket
accepts the first `nwrote` characters of the data, and the rest is appended to
the output buffer unless the write failed with `EPIPE` or `ECONNRESET`. -/
theorem sendInLoop_spec (c : ConnState) (data : Str) (w : WriteResult)
    (hst : c.state_ ≠ StateE.kDisconnected) (hinv : c.outputBuffer_.Inv8)
    (hadm : writeAdmits data w) :
    ∃ (nwrote : Nat) (fault : Bool) (log : List SocketCall),
      nwrote ≤ data.length ∧
      (c.sendInLoop data w).socketCalls = c.socketCalls ++ log ∧
      sentBytes log = data.take nwrote ∧ SocketCall.shutdownWrite ∉ log ∧
      (c.sendInLoop data w).state_ = c.state_ ∧
      (c.sendInLoop data w).inputBuffer_ = c.inputBuffer_ ∧
      (c.sendInLoop data w).outputBuffer_.Inv8 ∧
      (0 < nwrote → c.isWriting = false ∧ c.outputBuffer_.readableBytes = 0) ∧
      (log ≠ [] → c.isWriting = false ∧ c.outputBuffer_.readableBytes = 0) ∧
      (∀ e, w = WriteResult.failed e → nwrote = 0 ∧ log = []) ∧
      (fault = true ↔ (c.isWriting = false ∧ c.outputBuffer_.readableBytes = 0 ∧
        ∃ e, w = WriteResult.failed e ∧ (e = EPIPE ∨ e = ECONNRESET))) ∧
      (fault = true → (c.sendInLoop data w).outputBuffer_ = c.outputBuffer_ ∧
        (c.sendInLoop data w).events_ = c.events_) ∧
      (fault = false →
        (c.sendInLoop data w).outputBuffer_.readable =
          c.outputBuffer_.readable ++ data.drop nwrote ∧
        (data.drop nwrote ≠ [] → (c.sendInLoop data w).isWriting = true ∧
          0 < (c.sendInLoop data w).outputBuffer_.readableBytes) ∧
        (data.drop nwrote = [] → (c.sendInLoop data w).outputBuffer_ = c.outputBuffer_ ∧
          (c.sendInLoop data w).events_ = c.events_)) := by
  rw [sendInLoop_eq c data w hst]
  -- the rest of the data is buffered by the second part
  have tail : ∀ (c1 : ConnState) (nwrote : Nat), nwrote ≤ data.length →
      c1.outputBuffer_ = c.outputBuffer_ → c1.events_ = c.events_ →
      ((if !false && decide (data.length - nwrote > 0) then
          c1.bufferRest data nwrote (data.length - nwrote) else c1).outputBuffer_.readable =
        c.outputBuffer_.readable ++ data.drop nwrote) ∧
      ((if !false && decide (data.length - nwrote > 0) then
          c1.bufferRest data nwrote (data.length - nwrote) else c1).outputBuffer_.Inv8) ∧
      ((if !false && decide (data.length - nwrote > 0) then
          c1.bufferRest data nwrote (data.length - nwrote) else c1).socketCalls =
        c1.socketCalls) ∧
      ((if !false && decide (data.length - nwrote > 0) then
          c1.bufferRest data nwrote (data.length - nwrote) else c1).state_ = c1.state_) ∧
      ((if !false && decide (data.length - nwrote > 0) then
          c1.bufferRest data nwrote (data.length - nwrote) else c1).inputBuffer_ =
        c1.inputBuffer_) ∧
      (data.drop nwrote ≠ [] →
        (if !false && decide (data.length - nwrote > 0) then
          c1.bufferRest data nwrote (data.length - nwrote) else c1).isWriting = true ∧
        0 < (if !false && decide (data.length - nwrote > 0) then
          c1.bufferRest data nwrote (data.length - nwrote) else c1).outputBuffer_.readableBytes) ∧
      (data.drop nwrote = [] →
        (if !false && decide (data.length - nwrote > 0) then
          c1.bufferRest data nwrote (data.length - nwrote) else c1).outputBuffer_ =
            c.outputBuffer_ ∧
        (if !false && decide (data.length - nwrote > 0) then
          c1.bufferRest data nwrote (data.length - nwrote) else c1).events_ = c.events_) := by
    intro c1 nwrote hle hbuf hev
    have hinv1 : c1.outputBuffer_.Inv8 := by rw [hbuf]; exact hinv
    by_cases hpos : data.length - nwrote > 0
    · have hcond : (!false && decide (data.length - nwrote > 0)) = true := by simp [hpos]
      rw [if_pos hcond]
      obtain ⟨h1, h2, h3, h4, h5, h6, h7⟩ :=
        bufferRest_spec c1 data nwrote (data.length - nwrote) hinv1 (by omega) hpos
      have hne : data.drop nwrote ≠ [] := by
        intro h0
        have := congrArg List.length h0
        rw [List.length_drop] at this
        simp at this
        omega
      exact ⟨by rw [h1, hbuf], h2, h5, h6, h7, fun _ => ⟨h4, h3⟩, fun h0 => absurd h0 hne⟩
    · have hcond : ¬ ((!false && decide (data.length - nwrote > 0)) = true) := by simp [hpos]
      rw [if_neg hcond]
      have hnil : data.drop nwrote = [] := by
        apply List.drop_eq_nil_of_le
        omega
      exact ⟨by rw [hnil, List.append_nil, hbuf], hinv1, rfl, rfl, rfl,
        fun h0 => absurd hnil h0, fun _ => ⟨hbuf, hev⟩⟩
  by_cases hd : c.isWriting = false ∧ c.outputBuffer_.readableBytes = 0
  · cases w with
    | wrote n =>
      have hn : n ≤ data.length := hadm
      obtain ⟨d1, d2, d3, d4, d5, d6, d7, d8⟩ := directWrite_wrote c data n hd
      rw [d1, d2, d3]
      obtain ⟨t1, t2, t3, t4, t5, t6, t7⟩ :=
        tail (c.directWrite data (WriteResult.wrote n)).2.2.2 n hn d7 d6
      refine ⟨n, false, [SocketCall.write (data.take n)], hn, by rw [t3, d4], ?_, ?_,
        by rw [t4, d5], by rw [t5, d8], t2, fun _ => hd, fun _ => hd, ?_, ?_, ?_, ?_⟩
      · simp [sentBytes]
      · simp
      · intro e he; cases he
      · constructor
        · intro h0; cases h0
        · rintro ⟨_, _, e, he, _⟩; cases he
      · intro h0; cases h0
      · intro _
        exact ⟨t1, t6, t7⟩
    | failed e =>
      rw [directWrite_failed c data e hd]
      by_cases hf : e = EPIPE ∨ e = ECONNRESET
      · have hdec : decide (e = EPIPE ∨ e = ECONNRESET) = true := by simp [hf]
        simp only [hdec]
        refine ⟨0, true, [], Nat.zero_le _, by simp, by simp [sentBytes], by simp, rfl, rfl,
          hinv, fun h0 => absurd h0 (Nat.lt_irrefl 0), fun h0 => absurd rfl h0, fun _ _ => ⟨rfl, rfl⟩, ?_, ?_, ?_⟩
        · constructor
          · intro _; exact ⟨hd.1, hd.2, e, rfl, hf⟩
          · intro _; rfl
        · intro _; exact ⟨rfl, rfl⟩
        · intro h0; cases h0
      · have hdec : decide (e = EPIPE ∨ e = ECONNRESET) = false := by simp [hf]
        simp only [hdec]
        obtain ⟨t1, t2, t3, t4, t5, t6, t7⟩ := tail c 0 (Nat.zero_le _) rfl rfl
        refine ⟨0, false, [], Nat.zero_le _, by rw [List.append_nil]; exact t3,
          by simp [sentBytes], by simp, t4, t5, t2,
          fun h0 => absurd h0 (Nat.lt_irrefl 0), fun h0 => absurd rfl h0, fun _ _ => ⟨rfl, rfl⟩, ?_, ?_, ?_⟩
        · constructor
          · intro h0; cases h0
          · rintro ⟨_, _, e1, he, hf1⟩
            cases he
            exact absurd hf1 hf
        · intro h0; cases h0
        · intro _
          exact ⟨t1, t6, t7⟩
  · rw [directWrite_skip c data w hd]
    obtain ⟨t1, t2, t3, t4, t5, t6, t7⟩ := tail c 0 (Nat.zero_le _) rfl rfl
    refine ⟨0, false, [], Nat.zero_le _, by rw [List.append_nil]; exact t3,
      by simp [sentBytes], by simp, t4, t5, t2,
      fun h0 => absurd h0 (Nat.lt_irrefl 0), fun h0 => absurd rfl h0, fun _ _ => ⟨rfl, rfl⟩, ?_, ?_, ?_⟩
    · constructor
      · intro h0; cases h0
      · rintro ⟨h1, h2, _⟩
        exact absurd ⟨h1, h2⟩ hd
    · intro h0; cases h0
    · intro _
      exact ⟨t1, t6, t7⟩

end SendLemmas

section WriteLemmas

theorem handleWrite_idle (c : ConnState) (w : WriteResult) (h : c.isWriting = false) :
    c.handleWrite w = c := by
  unfold ConnState.handleWrite
  simp [h]

theorem handleWrite_failed (c : ConnState) (errno : Nat) :
    c.handleWrite (WriteResult.failed errno) = c := by
  unfold ConnState.handleWrite
  cases c.isWriting <;> simp

theorem handleWrite_zero (c : ConnState) (h : c.isWriting = true) :
    c.handleWrite (WriteResult.wrote 0) =
      { c with socketCalls :=
          c.socketCalls ++ [SocketCall.write (c.outputBuffer_.readable.take 0)] } := by
  unfold ConnState.handleWrite
  simp [h]

theorem handleWrite_part (c : ConnState) (n : Nat) (h : c.isWriting = true) (hn : 0 < n)
    (hrest : (c.outputBuffer_.retrieve n).readableBytes ≠ 0) :
    c.handleWrite (WriteResult.wrote n) =
      { c with
        socketCalls := c.socketCalls ++ [SocketCall.write (c.outputBuffer_.readable.take n)],
        outputBuffer_ := c.outputBuffer_.retrieve n } := by
  unfold ConnState.handleWrite
  simp [h, hn, hrest]

theorem andNot_write (e : Nat) : andNot e kWriteEvent &&& kWriteEvent = 0 := by
  have h := isWriting_disableWriting
    { state_ := StateE.kConnected, events_ := e, inputBuffer_ := Buffer.new 0,
      outputBuffer_ := Buffer.new 0, highWaterMark_ := 0, connectionCallback_ := false,
      messageCallback_ := false, writeCompleteCallback_ := false,
      highWaterMarkCallback_ := false, closeCallback_ := false, socketCalls := [],
      callbacks := [] }
  unfold ConnState.isWriting ConnState.disableWriting at h
  simpa using h

/-- The call of `handleWrite` that empties the output buffer: writing is
disabled, and in the state `kDisconnecting` the write side is shut down. -/
theorem handleWrite_all (c : ConnState) (n : Nat) (h : c.isWriting = true) (hn : 0 < n)
    (hrest : (c.outputBuffer_.retrieve n).readableBytes = 0) :
    c.handleWrite (WriteResult.wrote n) =
      { c with
        events_ := andNot c.events_ kWriteEvent,
        outputBuffer_ := c.outputBuffer_.retrieve n,
        socketCalls := c.socketCalls ++ SocketCall.write (c.outputBuffer_.readable.take n) ::
          (if c.state_ = StateE.kDisconnecting then [SocketCall.shutdownWrite] else []),
        callbacks := c.callbacks ++
          (if c.writeCompleteCallback_ = true then [ConnCallback.writeComplete] else []) } := by
  unfold ConnState.handleWrite
  simp only [h, if_true, hn, hrest]
  cases hcb : c.writeCompleteCallback_ <;> by_cases hs : c.state_ = StateE.kDisconnecting <;>
    simp [ConnState.disableWriting, ConnState.shutdownInLoop, ConnState.isWriting, hcb, hs,
      andNot_write]

end WriteLemmas

section ConnInvariant

/-- What `handleWrite` does: the socket accepts the first `n` characters of the
output buffer, which are taken out of it; the write side is shut down only
when the buffer has been emptied. -/
theorem handleWrite_spec (c : ConnState) (w : WriteResult) (hinv : c.outputBuffer_.Inv8)
    (hadm : writeAdmits c.outputBuffer_.readable w) :
    ∃ (n : Nat) (log : List SocketCall),
      n ≤ c.outputBuffer_.readableBytes ∧
      (c.handleWrite w).socketCalls = c.socketCalls ++ log ∧
      sentBytes log = c.outputBuffer_.readable.take n ∧
      (c.handleWrite w).outputBuffer_.readable = c.outputBuffer_.readable.drop n ∧
      (c.handleWrite w).outputBuffer_.Inv8 ∧
      (c.handleWrite w).state_ = c.state_ ∧
      (c.handleWrite w).inputBuffer_ = c.inputBuffer_ ∧
      ((c.isWriting = true ↔ 0 < c.outputBuffer_.readableBytes) →
        ((c.handleWrite w).isWriting = true ↔
          0 < (c.handleWrite w).outputBuffer_.readableBytes)) ∧
      (c.isWriting = false → (c.handleWrite w).isWriting = false) ∧
      (SocketCall.shutdownWrite ∈ log →
        (c.handleWrite w).outputBuffer_.readableBytes = 0 ∧
        c.state_ = StateE.kDisconnecting) := by
  have hl := readable_length c.outputBuffer_ (inv_of_inv8 hinv)
  have same : c.handleWrite w = c → ∃ (n : Nat) (log : List SocketCall),
      n ≤ c.outputBuffer_.readableBytes ∧
      (c.handleWrite w).socketCalls = c.socketCalls ++ log ∧
      sentBytes log = c.outputBuffer_.readable.take n ∧
      (c.handleWrite w).outputBuffer_.readable = c.outputBuffer_.readable.drop n ∧
      (c.handleWrite w).outputBuffer_.Inv8 ∧
      (c.handleWrite w).state_ = c.state_ ∧
      (c.handleWrite w).inputBuffer_ = c.inputBuffer_ ∧
      ((c.isWriting = true ↔ 0 < c.outputBuffer_.readableBytes) →
        ((c.handleWrite w).isWriting = true ↔
          0 < (c.handleWrite w).outputBuffer_.readableBytes)) ∧
      (c.isWriting = false → (c.handleWrite w).isWriting = false) ∧
      (SocketCall.shutdownWrite ∈ log →
        (c.handleWrite w).outputBuffer_.readableBytes = 0 ∧
        c.state_ = StateE.kDisconnecting) := by
    intro e
    rw [e]
    exact ⟨0, [], Nat.zero_le _, by simp, by simp [sentBytes], by simp, hinv, rfl, rfl,
      fun h => h, fun h => h, fun h => by cases h⟩
  by_cases hw : c.isWriting = true
  · cases w with
    | failed errno => exact same (handleWrite_failed c errno)
    | wrote k =>
      have hk : k ≤ c.outputBuffer_.readableBytes := by
        have : k ≤ c.outputBuffer_.readable.length := hadm
        omega
      have hbytes := retrieve_readableBytes c.outputBuffer_ k hk
      have hread := retrieve_readable c.outputBuffer_ (inv_of_inv8 hinv) k hk
      have hinv1 := retrieve_inv8 c.outputBuffer_ hinv k
      by_cases hk0 : k = 0
      · subst hk0
        rw [handleWrite_zero c hw]
        refine ⟨0, [SocketCall.write (c.outputBuffer_.readable.take 0)], Nat.zero_le _, rfl,
          by simp [sentBytes], by simp, hinv, rfl, rfl, fun h => ?_, fun h => ?_, fun h => ?_⟩
        · show c.isWriting = true ↔ 0 < c.outputBuffer_.readableBytes
          exact h
        · rw [hw] at h; cases h
        · simp at h
      · have hpos : 0 < k := Nat.pos_of_ne_zero hk0
        by_cases hrest : (c.outputBuffer_.retrieve k).readableBytes = 0
        · rw [handleWrite_all c k hw hpos hrest]
          have hnw : ConnState.isWriting { c with
              events_ := andNot c.events_ kWriteEvent,
              outputBuffer_ := c.outputBuffer_.retrieve k,
              socketCalls := c.socketCalls ++
                SocketCall.write (c.outputBuffer_.readable.take k) ::
                (if c.state_ = StateE.kDisconnecting then [SocketCall.shutdownWrite] else []),
              callbacks := c.callbacks ++
                (if c.writeCompleteCallback_ = true then [ConnCallback.writeComplete]
                  else []) } = false := isWriting_disableWriting c
          refine ⟨k, SocketCall.write (c.outputBuffer_.readable.take k) ::
            (if c.state_ = StateE.kDisconnecting then [SocketCall.shutdownWrite] else []),
            hk, rfl, ?_, hread, hinv1, rfl, rfl, fun _ => ?_, fun _ => hnw, fun h => ?_⟩
          · by_cases hs : c.state_ = StateE.kDisconnecting
            · simp [hs, sentBytes]
            · simp [hs, sentBytes]
          · rw [hnw]
            show false = true ↔ 0 < (c.outputBuffer_.retrieve k).readableBytes
            rw [hrest]
            simp
          · refine ⟨hrest, ?_⟩
            by_cases hs : c.state_ = StateE.kDisconnecting
            · exact hs
            · simp [hs] at h
        · rw [handleWrite_part c k hw hpos hrest]
          refine ⟨k, [SocketCall.write (c.outputBuffer_.readable.take k)], hk, rfl,
            by simp [sentBytes], hread, hinv1, rfl, rfl, fun _ => ?_, fun h => ?_, fun h => ?_⟩
          · show c.isWriting = true ↔ 0 < (c.outputBuffer_.retrieve k).readableBytes
            rw [hw]
            simp
            omega
          · rw [hw] at h; cases h
          · simp at h
  · have hwf : c.isWriting = false := by simpa using hw
    exact same (handleWrite_idle c w hwf)

theorem handleClose_fields (c : ConnState) :
    c.handleClose.state_ = StateE.kDisconnected ∧ c.handleClose.events_ = 0 ∧
    c.handleClose.outputBuffer_ = c.outputBuffer_ ∧
    c.handleClose.socketCalls = c.socketCalls ∧
    c.handleClose.callbacks = c.callbacks ++
      (if c.connectionCallback_ = true then [ConnCallback.connection] else []) ++
      (if c.closeCallback_ = true then [ConnCallback.close] else []) := by
  unfold ConnState.handleClose ConnState.disableAll
  cases h1 : c.connectionCallback_ <;> cases h2 : c.closeCallback_ <;>
    simp [h1, h2, kNoneEvent]

theorem handleRead_failed (c : ConnState) : c.handleRead none = c := by
  simp [ConnState.handleRead, Buffer.readFd, ConnState.handleError]

theorem isWriting_of_events_zero {c : ConnState} (h : c.events_ = 0) :
    c.isWriting = false := by
  unfold ConnState.isWriting
  rw [h]
  decide

theorem sendInv_of_closed {c : ConnState} (hinv : c.outputBuffer_.Inv8)
    (hs : c.state_ = StateE.kDisconnected) (he : c.events_ = 0) : c.SendInv :=
  ⟨hinv, fun h => absurd hs h, fun _ => isWriting_of_events_zero he⟩

theorem handleClose_sendInv (c : ConnState) (hinv : c.outputBuffer_.Inv8) :
    c.handleClose.SendInv := by
  obtain ⟨h1, h2, h3, _, _⟩ := handleClose_fields c
  exact sendInv_of_closed (by rw [h3]; exact hinv) h1 h2

theorem sendInLoop_sendInv (c : ConnState) (h : c.SendInv) (data : Str) (w : WriteResult)
    (hadm : writeAdmits data w) : (c.sendInLoop data w).SendInv := by
  by_cases hst : c.state_ = StateE.kDisconnected
  · have e : c.sendInLoop data w = c := by
      unfold ConnState.sendInLoop
      rw [if_pos hst]
    rw [e]; exact h
  · obtain ⟨hinv, hiff, _⟩ := h
    obtain ⟨nwrote, fault, log, _, _, _, _, hs, _, hinv1, _, _, _, _, hfault, hkeep⟩ :=
      sendInLoop_spec c data w hst hinv hadm
    refine ⟨hinv1, fun _ => ?_, fun h0 => absurd (hs ▸ h0) hst⟩
    cases hf : fault with
    | true =>
      obtain ⟨e1, e2⟩ := hfault hf
      rw [isWriting_congr e2, e1]
      exact hiff hst
    | false =>
      obtain ⟨_, k1, k2⟩ := hkeep hf
      by_cases hd : data.drop nwrote = []
      · obtain ⟨e1, e2⟩ := k2 hd
        rw [isWriting_congr e2, e1]
        exact hiff hst
      · obtain ⟨e1, e2⟩ := k1 hd
        exact ⟨fun _ => e2, fun _ => e1⟩

theorem handleWrite_sendInv (c : ConnState) (h : c.SendInv) (w : WriteResult)
    (hadm : writeAdmits c.outputBuffer_.readable w) : (c.handleWrite w).SendInv := by
  obtain ⟨hinv, hiff, hdis⟩ := h
  obtain ⟨n, log, _, _, _, _, hinv1, hs, _, hkeep, hidle, _⟩ :=
    handleWrite_spec c w hinv hadm
  refine ⟨hinv1, fun h0 => ?_, fun h0 => ?_⟩
  · rw [hs] at h0
    exact hkeep (hiff h0)
  · rw [hs] at h0
    exact hidle (hdis h0)

theorem shutdown_fields (c : ConnState) :
    c.shutdown.outputBuffer_ = c.outputBuffer_ ∧ c.shutdown.events_ = c.events_ ∧
    c.shutdown.inputBuffer_ = c.inputBuffer_ ∧ c.shutdown.callbacks = c.callbacks ∧
    (c.state_ ≠ StateE.kConnected → c.shutdown = c) ∧
    (c.state_ = StateE.kConnected → c.shutdown.state_ = StateE.kDisconnecting ∧
      c.shutdown.socketCalls =
        c.socketCalls ++ (if c.isWriting = true then [] else [SocketCall.shutdownWrite])) := by
  unfold ConnState.shutdown ConnState.shutdownInLoop
  by_cases hs : c.state_ = StateE.kConnected
  · have e : ConnState.isWriting { c with state_ := StateE.kDisconnecting } = c.isWriting := rfl
    cases hw : c.isWriting with
    | true => simp [hs, e, hw]
    | false => simp [hs, e, hw]
  · simp [hs]

theorem shutdown_sendInv (c : ConnState) (h : c.SendInv) : c.shutdown.SendInv := by
  obtain ⟨hinv, hiff, hdis⟩ := h
  obtain ⟨e1, e2, _, _, e3, e4⟩ := shutdown_fields c
  by_cases hs : c.state_ = StateE.kConnected
  · obtain ⟨e5, _⟩ := e4 hs
    refine ⟨by rw [e1]; exact hinv, fun _ => ?_, fun h0 => ?_⟩
    · rw [isWriting_congr e2, e1]
      exact hiff (by rw [hs]; decide)
    · rw [e5] at h0; cases h0
  · rw [e3 hs]
    exact ⟨hinv, hiff, hdis⟩

theorem handleRead_fields (c : ConnState) (outcome : Option Str) :
    (c.handleRead outcome).socketCalls = c.socketCalls ∧
    (c.handleRead outcome).outputBuffer_ = c.outputBuffer_ ∧
    (((c.handleRead outcome).state_ = c.state_ ∧ (c.handleRead outcome).events_ = c.events_) ∨
     ((c.handleRead outcome).state_ = StateE.kDisconnected ∧
      (c.handleRead outcome).events_ = 0)) := by
  unfold ConnState.handleRead
  generalize c.inputBuffer_.readFd outcome = r
  obtain ⟨n, ib⟩ := r
  simp only
  by_cases h1 : n > 0
  · rw [if_pos h1]
    cases hm : c.messageCallback_ <;> simp [hm]
  · rw [if_neg h1]
    by_cases h2 : n = 0
    · rw [if_pos h2]
      obtain ⟨f1, f2, f3, f4, _⟩ := handleClose_fields { c with inputBuffer_ := ib }
      exact ⟨f4, f3, Or.inr ⟨f1, f2⟩⟩
    · rw [if_neg h2]
      exact ⟨rfl, rfl, Or.inl ⟨rfl, rfl⟩⟩

theorem connectEstablished_fields (c : ConnState) :
    c.connectEstablished.state_ = StateE.kConnected ∧
    c.connectEstablished.events_ = c.events_ ||| kReadEvent ∧
    c.connectEstablished.outputBuffer_ = c.outputBuffer_ ∧
    c.connectEstablished.socketCalls = c.socketCalls := by
  unfold ConnState.connectEstablished ConnState.enableReading
  cases h1 : c.connectionCallback_ <;> simp [h1]

theorem connectDestroyed_fields (c : ConnState) :
    c.connectDestroyed.outputBuffer_ = c.outputBuffer_ ∧
    c.connectDestroyed.socketCalls = c.socketCalls ∧
    (c.state_ ≠ StateE.kConnected → c.connectDestroyed = c) ∧
    (c.state_ = StateE.kConnected → c.connectDestroyed.state_ = StateE.kDisconnected ∧
      c.connectDestroyed.events_ = 0) := by
  unfold ConnState.connectDestroyed ConnState.disableAll
  by_cases hs : c.state_ = StateE.kConnected
  · cases h1 : c.connectionCallback_ <;> simp [hs, h1, kNoneEvent]
  · simp [hs]

/-- Every event keeps the invariant of the send path. -/
theorem step_sendInv (c : ConnState) (h : c.SendInv) (op : ConnOp) (hadm : c.admits op) :
    (c.step op).SendInv := by
  cases op with
  | connectEstablished =>
    obtain ⟨hinv, hiff, _⟩ := h
    have hs : c.state_ = StateE.kConnecting := hadm
    obtain ⟨e1, e2, e3, _⟩ := connectEstablished_fields c
    refine ⟨by show c.connectEstablished.outputBuffer_.Inv8; rw [e3]; exact hinv,
      fun _ => ?_, fun h0 => ?_⟩
    · show c.connectEstablished.isWriting = true ↔
        0 < c.connectEstablished.outputBuffer_.readableBytes
      have hw : c.connectEstablished.isWriting = c.isWriting := by
        rw [← isWriting_enableReading c]
        exact isWriting_congr e2
      rw [hw, e3]
      exact hiff (by rw [hs]; decide)
    · have h1 : c.connectEstablished.state_ = StateE.kDisconnected := h0
      rw [e1] at h1
      cases h1
  | send message w =>
    show (c.send message w).SendInv
    unfold ConnState.send
    by_cases hs : c.state_ = StateE.kConnected
    · rw [if_pos hs]
      exact sendInLoop_sendInv c h message w hadm
    · rw [if_neg hs]
      exact h
  | sendInLoop data w => exact sendInLoop_sendInv c h data w hadm
  | handleWrite w => exact handleWrite_sendInv c h w hadm
  | shutdown => exact shutdown_sendInv c h
  | handleRead outcome =>
    obtain ⟨hinv, hiff, hdis⟩ := h
    obtain ⟨_, e2, e3⟩ := handleRead_fields c outcome
    rcases e3 with ⟨e4, e5⟩ | ⟨e4, e5⟩
    · refine ⟨by show (c.handleRead outcome).outputBuffer_.Inv8; rw [e2]; exact hinv,
        fun h0 => ?_, fun h0 => ?_⟩
      · show (c.handleRead outcome).isWriting = true ↔
          0 < (c.handleRead outcome).outputBuffer_.readableBytes
        rw [isWriting_congr e5, e2]
        exact hiff (by rw [← e4]; exact h0)
      · show (c.handleRead outcome).isWriting = false
        rw [isWriting_congr e5]
        exact hdis (by rw [← e4]; exact h0)
    · exact sendInv_of_closed (by show (c.handleRead outcome).outputBuffer_.Inv8
                                  rw [e2]; exact hinv) e4 e5
  | handleClose => exact handleClose_sendInv c h.1
  | handleError => exact h
  | forceCloseInLoop =>
    show c.forceCloseInLoop.SendInv
    unfold ConnState.forceCloseInLoop
    by_cases hs : c.state_ = StateE.kConnected ∨ c.state_ = StateE.kDisconnecting
    · rw [if_pos hs]
      exact handleClose_sendInv c h.1
    · rw [if_neg hs]
      exact h
  | connectDestroyed =>
    obtain ⟨e1, _, e3, e4⟩ := connectDestroyed_fields c
    by_cases hs : c.state_ = StateE.kConnected
    · obtain ⟨e5, e6⟩ := e4 hs
      exact sendInv_of_closed (by show c.connectDestroyed.outputBuffer_.Inv8
                                  rw [e1]; exact h.1) e5 e6
    · show c.connectDestroyed.SendInv
      rw [e3 hs]
      exact h

theorem new_sendInv (a b c d e : Bool) : (ConnState.new a b c d e).SendInv := by
  refine ⟨new_inv8 _, fun _ => ?_, fun h0 => by cases h0⟩
  have h1 : (ConnState.new a b c d e).isWriting = false := isWriting_of_events_zero rfl
  have h2 : (ConnState.new a b c d e).outputBuffer_.readableBytes = 0 := rfl
  rw [h1, h2]
  simp

theorem reachable_sendInv (c : ConnState) (hr : ConnState.Reachable c) : c.SendInv := by
  induction hr with
  | init a b c d e => exact new_sendInv a b c d e
  | step op _ hadm ih => exact step_sendInv _ ih op hadm

end ConnInvariant

section ConnClaims

/-- The calls an event makes on the socket: the write side is shut down only
when the output buffer is empty afterwards. -/
theorem step_log (c : ConnState) (h : c.SendInv) (op : ConnOp) (hadm : c.admits op) :
    ∃ log, (c.step op).socketCalls = c.socketCalls ++ log ∧
      (SocketCall.shutdownWrite ∈ log → (c.step op).outputBuffer_.readableBytes = 0) := by
  obtain ⟨hinv, hiff, hdis⟩ := h
  have none_ : ∀ c1 : ConnState, c1.socketCalls = c.socketCalls →
      ∃ log, c1.socketCalls = c.socketCalls ++ log ∧
        (SocketCall.shutdownWrite ∈ log → c1.outputBuffer_.readableBytes = 0) :=
    fun c1 e => ⟨[], by rw [e, List.append_nil], fun h0 => by cases h0⟩
  have send_ : ∀ (data : Str) (w : WriteResult), writeAdmits data w →
      ∃ log, (c.sendInLoop data w).socketCalls = c.socketCalls ++ log ∧
        (SocketCall.shutdownWrite ∈ log →
          (c.sendInLoop data w).outputBuffer_.readableBytes = 0) := by
    intro data w hw
    by_cases hst : c.state_ = StateE.kDisconnected
    · have e : c.sendInLoop data w = c := by
        unfold ConnState.sendInLoop
        rw [if_pos hst]
      rw [e]
      exact none_ c rfl
    · obtain ⟨_, _, log, _, hlog, _, hno, _⟩ := sendInLoop_spec c data w hst hinv hw
      exact ⟨log, hlog, fun h0 => absurd h0 hno⟩
  cases op with
  | connectEstablished => exact none_ _ (connectEstablished_fields c).2.2.2
  | send message w =>
    show ∃ log, (c.send message w).socketCalls = c.socketCalls ++ log ∧
      (SocketCall.shutdownWrite ∈ log → (c.send message w).outputBuffer_.readableBytes = 0)
    unfold ConnState.send
    by_cases hs : c.state_ = StateE.kConnected
    · rw [if_pos hs]
      exact send_ message w hadm
    · rw [if_neg hs]
      exact none_ c rfl
  | sendInLoop data w => exact send_ data w hadm
  | handleWrite w =>
    obtain ⟨_, log, _, hlog, _, _, _, _, _, _, _, hshut⟩ := handleWrite_spec c w hinv hadm
    exact ⟨log, hlog, fun h0 => (hshut h0).1⟩
  | shutdown =>
    obtain ⟨e1, _, _, _, e3, e4⟩ := shutdown_fields c
    by_cases hs : c.state_ = StateE.kConnected
    · obtain ⟨_, e5⟩ := e4 hs
      refine ⟨_, e5, fun h0 => ?_⟩
      show c.shutdown.outputBuffer_.readableBytes = 0
      rw [e1]
      by_cases hw : c.isWriting = true
      · simp [hw] at h0
      · have := (hiff (by rw [hs]; decide)).mpr
        by_contra hne
        exact hw (this (Nat.pos_of_ne_zero hne))
    · show ∃ log, c.shutdown.socketCalls = c.socketCalls ++ log ∧
        (SocketCall.shutdownWrite ∈ log → c.shutdown.outputBuffer_.readableBytes = 0)
      rw [e3 hs]
      exact none_ c rfl
  | handleRead outcome => exact none_ _ (handleRead_fields c outcome).1
  | handleClose => exact none_ _ (handleClose_fields c).2.2.2.1
  | handleError => exact none_ c rfl
  | forceCloseInLoop =>
    show ∃ log, c.forceCloseInLoop.socketCalls = c.socketCalls ++ log ∧
      (SocketCall.shutdownWrite ∈ log → c.forceCloseInLoop.outputBuffer_.readableBytes = 0)
    unfold ConnState.forceCloseInLoop
    by_cases hs : c.state_ = StateE.kConnected ∨ c.state_ = StateE.kDisconnecting
    · rw [if_pos hs]
      exact none_ _ (handleClose_fields c).2.2.2.1
    · rw [if_neg hs]
      exact none_ c rfl
  | connectDestroyed => exact none_ _ (connectDestroyed_fields c).2.1

/-- C22: on every connection reached from a freshly constructed one by events
on its loop thread, no event calls `shutdownWrite` unless the output buffer is
empty when the event is over.  `shutdown()` on a connected connection sets the
state `kDisconnecting`; it calls `shutdownWrite` at once when the output buffer
is empty, and does not call it when characters are pending.  In the state
`kDisconnecting` with characters pending, the `handleWrite` whose write takes
all of them calls `shutdownWrite` right after that write, and one whose write
takes only a part does not call it. -/
theorem C22_shutdown_after_flush (c : ConnState) (hr : ConnState.Reachable c) :
    (∀ op, c.admits op →
      ∃ log, (c.step op).socketCalls = c.socketCalls ++ log ∧
        (SocketCall.shutdownWrite ∈ log → (c.step op).outputBuffer_.readableBytes = 0)) ∧
    (c.state_ = StateE.kConnected →
      c.shutdown.state_ = StateE.kDisconnecting ∧
      c.shutdown.outputBuffer_ = c.outputBuffer_ ∧
      (c.outputBuffer_.readableBytes = 0 →
        c.shutdown.socketCalls = c.socketCalls ++ [SocketCall.shutdownWrite]) ∧
      (0 < c.outputBuffer_.readableBytes → c.shutdown.socketCalls = c.socketCalls)) ∧
    (c.state_ = StateE.kDisconnecting → ∀ n, 0 < n → n ≤ c.outputBuffer_.readableBytes →
      (c.handleWrite (WriteResult.wrote n)).socketCalls =
        c.socketCalls ++ SocketCall.write (c.outputBuffer_.readable.take n) ::
          (if n = c.outputBuffer_.readableBytes then [SocketCall.shutdownWrite] else []) ∧
      (c.handleWrite (WriteResult.wrote n)).outputBuffer_.readable =
        c.outputBuffer_.readable.drop n) := by
  have hJ := reachable_sendInv c hr
  obtain ⟨hinv, hiff, hdis⟩ := hJ
  refine ⟨fun op hadm => step_log c ⟨hinv, hiff, hdis⟩ op hadm, fun hs => ?_, fun hs n hn hle => ?_⟩
  · obtain ⟨e1, _, _, _, _, e4⟩ := shutdown_fields c
    obtain ⟨e5, e6⟩ := e4 hs
    have hw := hiff (by rw [hs]; decide)
    refine ⟨e5, e1, fun h0 => ?_, fun h0 => ?_⟩
    · have : ¬ (c.isWriting = true) := fun h1 => by
        have := hw.mp h1
        omega
      rw [e6, if_neg this]
    · rw [e6, if_pos (hw.mpr h0), List.append_nil]
  · have hw : c.isWriting = true := (hiff (by rw [hs]; decide)).mpr (by omega)
    have hbytes := retrieve_readableBytes c.outputBuffer_ n hle
    have hread := retrieve_readable c.outputBuffer_ (inv_of_inv8 hinv) n hle
    by_cases hall : n = c.outputBuffer_.readableBytes
    · have hrest : (c.outputBuffer_.retrieve n).readableBytes = 0 := by omega
      rw [handleWrite_all c n hw hn hrest, if_pos hall]
      refine ⟨?_, hread⟩
      simp [hs]
    · have hrest : (c.outputBuffer_.retrieve n).readableBytes ≠ 0 := by omega
      rw [handleWrite_part c n hw hn hrest, if_neg hall]
      exact ⟨rfl, hread⟩

/-- C23, counterexample: a direct write that fails with `EINTR` leaves the whole
payload in the output buffer and the channel interested in writing. -/
theorem C23_other_errno_counterexample :
    demoConn.state_ = StateE.kConnected ∧ demoConn.isWriting = false ∧
    demoConn.outputBuffer_.readableBytes = 0 ∧
    EINTR ≠ EWOULDBLOCK ∧
    (demoConn.sendInLoop "hi".toList (WriteResult.failed EINTR)).outputBuffer_.readable =
      "hi".toList ∧
    (demoConn.sendInLoop "hi".toList (WriteResult.failed EINTR)).isWriting = true := by
  decide

/-- C23, amended: let `sendInLoop` attempt the direct write (the connection is
not disconnected, the channel is not interested in writing and the output
buffer is empty) and let the write fail with `errno`.  When `errno` is `EPIPE`
or `ECONNRESET`, nothing is appended to the output buffer and the interest mask
is unchanged.  For every other `errno`, `EWOULDBLOCK` or not, the whole payload
is appended to the output buffer, and the channel is interested in writing
afterwards when the payload is not empty. -/
theorem C23_sendInLoop_write_error (c : ConnState) (hst : c.state_ ≠ StateE.kDisconnected)
    (hinv : c.outputBuffer_.Inv8)
    (hdirect : c.isWriting = false ∧ c.outputBuffer_.readableBytes = 0)
    (data : Str) (errno : Nat) :
    ((errno = EPIPE ∨ errno = ECONNRESET) →
      (c.sendInLoop data (WriteResult.failed errno)).outputBuffer_ = c.outputBuffer_ ∧
      (c.sendInLoop data (WriteResult.failed errno)).events_ = c.events_) ∧
    (¬ (errno = EPIPE ∨ errno = ECONNRESET) →
      (c.sendInLoop data (WriteResult.failed errno)).outputBuffer_.readable =
        c.outputBuffer_.readable ++ data ∧
      (data ≠ [] → (c.sendInLoop data (WriteResult.failed errno)).isWriting = true)) ∧
    (c.sendInLoop data (WriteResult.failed errno)).socketCalls = c.socketCalls := by
  obtain ⟨nwrote, fault, log, _, hlog, hsent, _, _, _, _, _, _, hzero, hfault, hdrop, hkeep⟩ :=
    sendInLoop_spec c data (WriteResult.failed errno) hst hinv trivial
  obtain ⟨hn, hlognil⟩ := hzero errno rfl
  subst hn
  refine ⟨fun he => ?_, fun he => ?_, ?_⟩
  · exact hdrop (hfault.mpr ⟨hdirect.1, hdirect.2, errno, rfl, he⟩)
  · have hf : fault = false := by
      cases hfv : fault with
      | false => rfl
      | true =>
        obtain ⟨_, _, e, h1, h2⟩ := hfault.mp hfv
        cases h1
        exact absurd h2 he
    obtain ⟨k1, k2, _⟩ := hkeep hf
    rw [List.drop_zero] at k1 k2
    exact ⟨k1, fun hd => (k2 hd).1⟩
  · rw [hlog, hlognil, List.append_nil]

/-- C24, counterexample: after a failed read the connection is still connected,
its channel is still interested in reading, and no callback has been called. -/
theorem C24_read_failure_counterexample :
    demoConn.state_ = StateE.kConnected ∧
    (demoConn.handleRead none).state_ = StateE.kConnected ∧
    (demoConn.handleRead none).events_ = 3 ∧
    (demoConn.handleRead none).callbacks = [] := by
  decide

/-- C24, amended: when the read of `handleRead` fails (`n < 0`), `handleRead`
only logs: the connection is left exactly as it was, with its state, its
interest mask and no callback called.  When the read returns 0 (peer close),
`handleClose` runs: the state is `kDisconnected`, the interest mask is empty,
and the connection callback and the close callback have been called, in this
order, when they are installed. -/
theorem C24_handleRead_failure (c : ConnState) :
    c.handleRead none = c ∧
    (c.handleRead (some [])).state_ = StateE.kDisconnected ∧
    (c.handleRead (some [])).events_ = 0 ∧
    (c.handleRead (some [])).callbacks = c.callbacks ++
      (if c.connectionCallback_ = true then [ConnCallback.connection] else []) ++
      (if c.closeCallback_ = true then [ConnCallback.close] else []) := by
  refine ⟨handleRead_failed c, ?_⟩
  have e : c.handleRead (some []) =
      ConnState.handleClose { c with inputBuffer_ := (c.inputBuffer_.readFd (some [])).2 } := by
    simp [ConnState.handleRead, Buffer.readFd]
  rw [e]
  obtain ⟨f1, f2, _, _, f5⟩ :=
    handleClose_fields { c with inputBuffer_ := (c.inputBuffer_.readFd (some [])).2 }
  exact ⟨f1, f2, f5⟩

/-- C30: with a socket that accepts a part of what each write offers, or fails
with `EWOULDBLOCK`: after every interleaving of calls `sendInLoop(m_1)`,
`sendInLoop(m_2)`, ... and calls of `handleWrite` on a connection that is not
disconnected, the characters the socket has accepted, followed by the content
of the output buffer, are what they were at the start followed by
`m_1 ++ m_2 ++ ...`; the connection is still not disconnected; and a further
`sendInLoop` calls the socket only when the output buffer is empty. -/
theorem C30_send_order (c0 : ConnState) (hst : c0.state_ ≠ StateE.kDisconnected)
    (hinv : c0.outputBuffer_.Inv8) (msgs : List Str) (c : ConnState)
    (ht : SendTrace c0 msgs c) :
    sentBytes c.socketCalls ++ c.outputBuffer_.readable =
      sentBytes c0.socketCalls ++ c0.outputBuffer_.readable ++ allBytes msgs ∧
    c.state_ = c0.state_ ∧ c.outputBuffer_.Inv8 ∧
    ∀ (data : Str) (w : WriteResult), writeAdmits data w →
      (c.sendInLoop data w).socketCalls ≠ c.socketCalls →
      c.outputBuffer_.readableBytes = 0 := by
  have main : sentBytes c.socketCalls ++ c.outputBuffer_.readable =
      sentBytes c0.socketCalls ++ c0.outputBuffer_.readable ++ allBytes msgs ∧
      c.state_ = c0.state_ ∧ c.outputBuffer_.Inv8 := by
    induction ht with
    | start => exact ⟨by simp [allBytes], rfl, hinv⟩
    | sendInLoop data w _ hadm herr ih =>
      rename_i msgs1 c1 htr
      obtain ⟨heq, hs, hi⟩ := ih
      have hst1 : c1.state_ ≠ StateE.kDisconnected := by rw [hs]; exact hst
      obtain ⟨nwrote, fault, log, hle, hlog, hsent, _, hs1, _, hi1, hdir, _, _, hfault, _,
        hkeep⟩ := sendInLoop_spec c1 data w hst1 hi hadm
      have hf : fault = false := by
        cases hfv : fault with
        | false => rfl
        | true =>
          obtain ⟨_, _, e, h1, h2⟩ := hfault.mp hfv
          have := herr e h1
          subst this
          revert h2
          decide
      obtain ⟨k1, _, _⟩ := hkeep hf
      refine ⟨?_, by rw [hs1, hs], hi1⟩
      rw [hlog, sentBytes_append, hsent, k1, allBytes_append]
      have hsplit : data.take nwrote ++ data.drop nwrote = data := List.take_append_drop _ _
      have hswap : List.take nwrote data ++ (c1.outputBuffer_.readable ++ List.drop nwrote data) =
          c1.outputBuffer_.readable ++ data := by
        by_cases h0 : 0 < nwrote
        · rw [readable_nil_of_zero _ (hdir h0).2]
          simp
        · have : nwrote = 0 := by omega
          subst this
          simp
      have e1 : allBytes [data] = data := by simp [allBytes]
      rw [e1, List.append_assoc, hswap, ← List.append_assoc, heq, List.append_assoc]
    | handleWrite w _ hadm herr ih =>
      rename_i msgs1 c1 htr
      obtain ⟨heq, hs, hi⟩ := ih
      obtain ⟨n, log, _, hlog, hsent, hread, hi1, hs1, _⟩ := handleWrite_spec c1 w hi hadm
      refine ⟨?_, by rw [hs1, hs], hi1⟩
      rw [hlog, sentBytes_append, hsent, hread, List.append_assoc, List.take_append_drop, heq]
  obtain ⟨h1, h2, h3⟩ := main
  refine ⟨h1, h2, h3, ?_⟩
  intro data w hadm hne
  have hst1 : c.state_ ≠ StateE.kDisconnected := by rw [h2]; exact hst
  obtain ⟨_, _, log, _, hlog, _, _, _, _, _, _, hl, _⟩ := sendInLoop_spec c data w hst1 h3 hadm
  have : log ≠ [] := by
    intro h0
    rw [h0, List.append_nil] at hlog
    exact hne hlog
  exact (hl this).2

end ConnClaims

/-! ## Skip list: concurrent inserts, structure and memory safety -/

section InterleavingLemmas

variable {α : Type}

theorem mergeAll_nil_of_all_nil (threads : List (List α)) (h : ∀ t ∈ threads, t = []) :
    mergeAll threads = [] := by
  induction threads with
  | nil => rfl
  | cons t rest ih =>
    rw [mergeAll, h t (List.mem_cons_self _ _), ih (fun u hu => h u (List.mem_cons_of_mem _ hu))]
    rfl

theorem mergeAll_take_one (threads : List (List α)) :
    ∀ (i : Nat) (x : α) (rest : List α), threads[i]? = some (x :: rest) →
      (mergeAll threads).Perm (x :: mergeAll (threads.set i rest)) := by
  induction threads with
  | nil => intro i x rest h; simp at h
  | cons t ts ih =>
    intro i x rest h
    cases i with
    | zero =>
      simp only [List.getElem?_cons_zero, Option.some.injEq] at h
      subst h
      exact List.Perm.refl _
    | succ j =>
      rw [List.getElem?_cons_succ] at h
      have hp := ih j x rest h
      show (t ++ mergeAll ts).Perm (x :: (t ++ mergeAll (ts.set j rest)))
      exact (List.Perm.append_left t hp).trans List.perm_middle

theorem interleaving_perm {threads : List (List α)} {ops : List α}
    (h : Interleaving threads ops) : ops.Perm (mergeAll threads) := by
  induction h with
  | done threads hall =>
    rw [mergeAll_nil_of_all_nil threads hall]
  | step threads i x rest ops hget _ ih =>
    exact (List.Perm.cons x ih).trans (mergeAll_take_one threads i x rest hget).symm

theorem mergeAll_length (threads : List (List α)) (n : Nat)
    (h : ∀ t ∈ threads, t.length = n) : (mergeAll threads).length = threads.length * n := by
  induction threads with
  | nil => simp [mergeAll]
  | cons t rest ih =>
    rw [mergeAll, List.length_append, h t (List.mem_cons_self _ _),
      ih (fun u hu => h u (List.mem_cons_of_mem _ hu)), List.length_cons]
    ring

theorem mem_mergeAll {threads : List (List α)} {t : List α} {x : α} (ht : t ∈ threads)
    (hx : x ∈ t) : x ∈ mergeAll threads := by
  induction threads with
  | nil => cases ht
  | cons u rest ih =>
    rw [mergeAll]
    rcases List.mem_cons.mp ht with h | h
    · subst h
      exact List.mem_append_left _ hx
    · exact List.mem_append_right _ (ih h)

end InterleavingLemmas

section InsertSeq

variable {K V : Type} [Inhabited K] [Inhabited V] [LinearOrder K] [DecidableEq K]

/-- A sequence of calls of `insert` with pairwise distinct new keys: every call
returns, the count grows by the number of calls, and every key then has its
value. -/
theorem insertSeq_spec (ops : List (K × V)) :
    ∀ (s : SkipList K V) (l : List Nat) (draws : Nat → Nat → Bool), Rep s l →
      (ops.map Prod.fst).Nodup →
      (∀ p ∈ ops, mLookup p.1 (pairsOf s.heap l) = none) →
      ∃ s1 l1, insertSeq s ops draws = some s1 ∧ Rep s1 l1 ∧
        s1.elementCount_ = s.elementCount_ + (ops.length : Int) ∧
        (∀ p ∈ ops, mLookup p.1 (pairsOf s1.heap l1) = some p.2) ∧
        (∀ k, (∀ p ∈ ops, p.1 ≠ k) →
          mLookup k (pairsOf s1.heap l1) = mLookup k (pairsOf s.heap l)) := by
  induction ops with
  | nil =>
    intro s l draws r _ _
    refine ⟨s, l, rfl, r, by simp, ?_, fun _ _ => rfl⟩
    intro p hp
    cases hp
  | cons kv rest ih =>
    intro s l draws r hnd hnew
    obtain ⟨s1, l1, e1, r1, hp1, _, hc1⟩ := insert_rep r kv.1 kv.2 (draws 0)
    have hkv : mLookup kv.1 (pairsOf s.heap l) = none := hnew kv (List.mem_cons_self _ _)
    rw [hkv] at hc1 e1
    simp only [Option.isNone_none, if_true] at hc1
    rw [List.map_cons, List.nodup_cons] at hnd
    have hrestne : ∀ p ∈ rest, p.1 ≠ kv.1 := by
      intro p hp e
      exact hnd.1 (e ▸ List.mem_map_of_mem Prod.fst hp)
    have hnew1 : ∀ p ∈ rest, mLookup p.1 (pairsOf s1.heap l1) = none := by
      intro p hp
      rw [hp1, mLookup_mInsert_other (hrestne p hp)]
      exact hnew p (List.mem_cons_of_mem _ hp)
    obtain ⟨s2, l2, e2, r2, hc2, hall2, hframe2⟩ :=
      ih s1 l1 (fun i => draws (i + 1)) r1 hnd.2 hnew1
    refine ⟨s2, l2, ?_, r2, ?_, ?_, ?_⟩
    · simp only [insertSeq, e1, e2]
    · rw [hc2, hc1, List.length_cons]
      push_cast
      ring
    · intro p hp
      rcases List.mem_cons.mp hp with h | h
      · subst h
        rw [hframe2 p.1 (fun q hq => hrestne q hq), hp1, mLookup_mInsert_self]
      · exact hall2 p h
    · intro k hk
      rw [hframe2 k (fun q hq => hk q (List.mem_cons_of_mem _ hq)), hp1,
        mLookup_mInsert_other (Ne.symm (hk kv (List.mem_cons_self _ _)))]

theorem insertSeq_reachable (maxLevel : Nat) (ops : List (K × V)) :
    ∀ (s s1 : SkipList K V) (draws : Nat → Nat → Bool), Reachable maxLevel s →
      insertSeq s ops draws = some s1 → Reachable maxLevel s1 := by
  induction ops with
  | nil =>
    intro s s1 draws hr he
    cases he
    exact hr
  | cons kv rest ih =>
    intro s s1 draws hr he
    simp only [insertSeq] at he
    cases h1 : s.insert kv.1 kv.2 (draws 0) with
    | none => rw [h1] at he; cases he
    | some r =>
      obtain ⟨b, s2⟩ := r
      rw [h1] at he
      exact ih s2 s1 _ (Reachable.insert kv.1 kv.2 (draws 0) b hr h1) he

/-- C26: let `M` threads insert `Kn` pairs each into one empty list, all keys
being distinct.  Every call of `insert` holds the mutex of the list throughout,
so the calls run one after another in an order that merges the threads.  For
every such order and all random samples, every call returns, `size()` is
`M * Kn` afterwards, and `search` finds every inserted key with the value
inserted for it. -/
theorem C26_concurrent_insert (maxLevel : Nat) (s : SkipList K V)
    (hr : Reachable maxLevel s) (hsz : s.size = 0) (threads : List (List (K × V)))
    (Kn : Nat) (hlen : ∀ t ∈ threads, t.length = Kn)
    (hkeys : ((mergeAll threads).map Prod.fst).Nodup) (ops : List (K × V))
    (hi : Interleaving threads ops) (draws : Nat → Nat → Bool) :
    ∃ s1, insertSeq s ops draws = some s1 ∧ Reachable maxLevel s1 ∧
      s1.size = ((threads.length * Kn : Nat) : Int) ∧
      ∀ t ∈ threads, ∀ p ∈ t, s1.search p.1 = some (some p.2) := by
  obtain ⟨l, r, _⟩ := reachable_rep hr
  have hl : l = [] := by
    have hc := r.count
    have : s.elementCount_ = 0 := hsz
    rw [this] at hc
    cases l with
    | nil => rfl
    | cons a l => simp at hc; omega
  subst hl
  have hperm := interleaving_perm hi
  have hnd : (ops.map Prod.fst).Nodup :=
    (List.Perm.nodup_iff (List.Perm.map Prod.fst hperm)).mpr hkeys
  obtain ⟨s1, l1, e1, r1, hc1, hall, _⟩ :=
    insertSeq_spec ops s [] draws r hnd (fun _ _ => rfl)
  refine ⟨s1, e1, insertSeq_reachable maxLevel ops s s1 draws hr e1, ?_, ?_⟩
  · have h0 : s.elementCount_ = 0 := hsz
    show s1.elementCount_ = _
    rw [hc1, h0, List.Perm.length_eq hperm, mergeAll_length threads Kn hlen]
    simp
  · intro t ht p hp
    have hmem : p ∈ ops := (List.Perm.mem_iff hperm).mpr (mem_mergeAll ht hp)
    rw [search_rep r1 p.1, hall p hmem]

/-- C28: in every state reachable from the empty list by `insert` (with any
random samples), `remove` and `clear`, the forward chain from the head on each
level up to `maxLevel` ends in `nullptr`, visits no node twice and has strictly
ascending keys; the chain of a level is a sublist of the chain of the level
below; the head slots above `currentLevel_` are `nullptr`; the head slot of
`currentLevel_` is not `nullptr` when the list is not empty; and
`currentLevel_` is 0 when the list is empty. -/
theorem C28_structure (maxLevel : Nat) (s : SkipList K V) (hr : Reachable maxLevel s) :
    ∃ chains : Nat → List Nat,
      (∀ i, i ≤ maxLevel →
        Chain s.heap i (some s.header_) (s.header_ :: chains i) ∧
        (s.header_ :: chains i).Nodup ∧
        (chains i).Pairwise (fun a b => keyOf s.heap a < keyOf s.heap b)) ∧
      (∀ i, (chains (i + 1)).Sublist (chains i)) ∧
      (∀ i, s.currentLevel_ < i → i ≤ maxLevel → fwd s.heap s.header_ i = some none) ∧
      (chains 0 ≠ [] → ∃ n, fwd s.heap s.header_ s.currentLevel_ = some (some n)) ∧
      (chains 0 = [] → s.currentLevel_ = 0) ∧
      s.currentLevel_ ≤ maxLevel ∧ s.size = ((chains 0).length : Int) := by
  obtain ⟨l, r, hm⟩ := reachable_rep hr
  have hsub : ∀ i, (onLevel s.heap i l).Sublist l := fun i => List.filter_sublist l
  refine ⟨fun i => onLevel s.heap i l, ?_, ?_, ?_, ?_, ?_, ?_, ?_⟩
  · intro i hi1
    rw [r.hdr]
    refine ⟨r.chain i (by rw [hm]; exact hi1), ?_, r.sorted.sublist (hsub i)⟩
    exact (rep_nodup r).sublist (List.Sublist.cons₂ 0 (hsub i))
  · intro i
    unfold onLevel
    have e : l.filter (fun n => decide (i + 1 ≤ lvlOf s.heap n)) =
        (l.filter (fun n => decide (i ≤ lvlOf s.heap n))).filter
          (fun n => decide (i + 1 ≤ lvlOf s.heap n)) := by
      rw [List.filter_filter]
      apply List.filter_congr
      intro n _
      by_cases h : i + 1 ≤ lvlOf s.heap n
      · have : i ≤ lvlOf s.heap n := by omega
        simp [h, this]
      · simp [h]
    show (l.filter (fun n => decide (i + 1 ≤ lvlOf s.heap n))).Sublist
      (l.filter (fun n => decide (i ≤ lvlOf s.heap n)))
    rw [e]
    exact List.filter_sublist _
  · intro i hlt hi1
    rw [r.hdr]
    exact (rep_head_fwd r (by rw [hm]; exact hi1)).2 hlt
  · intro hne
    have hne : onLevel s.heap 0 l ≠ [] := hne
    rw [onLevel_zero] at hne
    have hex : ∃ n, n ∈ onLevel s.heap s.currentLevel_ l := by
      rcases r.top with h0 | ⟨n, hn, hlv⟩
      · rw [h0, onLevel_zero]
        cases l with
        | nil => exact absurd rfl hne
        | cons a rest => exact ⟨a, List.mem_cons_self _ _⟩
      · exact ⟨n, List.mem_filter.mpr ⟨hn, by simp [hlv]⟩⟩
    obtain ⟨n, hmem⟩ := hex
    obtain ⟨_, q, hq, hrest⟩ := r.chain s.currentLevel_ r.curLe
    have hhead := chain_head hrest
    cases hol : onLevel s.heap s.currentLevel_ l with
    | nil => rw [hol] at hmem; cases hmem
    | cons a rest =>
      rw [hol] at hhead
      rw [r.hdr, hq, hhead]
      exact ⟨a, rfl⟩
  · intro hnil
    have hnil : onLevel s.heap 0 l = [] := hnil
    rw [onLevel_zero] at hnil
    rcases r.top with h0 | ⟨n, hn, _⟩
    · exact h0
    · rw [hnil] at hn; cases hn
  · rw [← hm]; exact r.curLe
  · show s.size = ((onLevel s.heap 0 l).length : Int)
    rw [onLevel_zero]
    exact r.count

/-- C29: in every reachable state and for all random samples, the generated
height is at most `maxLevel_ - 1`; `insert`, `search`, `remove` and `clear`
return, that is, they index no vector out of range and dereference no
`nullptr`; the descent of `insert` and `remove` sets `update[i]` to an allocated
node for every level up to `currentLevel_`; and every node on the chain of
level `i`, the head included, is allocated with a forward array longer than
`i`. -/
theorem C29_memory_safety (maxLevel : Nat) (s : SkipList K V) (hr : Reachable maxLevel s)
    (key : K) (value : V) (draw : Nat → Bool) :
    getRandomLevel s.maxLevel_ draw ≤ s.maxLevel_ - 1 ∧
    (∃ res, s.insert key value draw = some res) ∧
    (∃ res, s.search key = some res) ∧
    (∃ res, s.remove key = some res) ∧
    (∃ s1, s.clear = some s1) ∧
    (∃ pred update, descend s.heap key s.heap.length (s.currentLevel_ + 1) s.header_
        (List.replicate (s.maxLevel_ + 1) none) = some (pred, update) ∧
      update.length = s.maxLevel_ + 1 ∧
      ∀ i, i ≤ s.currentLevel_ → ∃ u, update[i]? = some (some u) ∧ u < s.heap.length) ∧
    (∃ chains : Nat → List Nat, ∀ i, i ≤ maxLevel →
      Chain s.heap i (some s.header_) (s.header_ :: chains i) ∧
      ∀ n ∈ s.header_ :: chains i, ∃ nd, s.heap[n]? = some nd ∧ i < nd.forward.length) := by
  obtain ⟨l, r, hm⟩ := reachable_rep hr
  obtain ⟨s1, l1, e1, _⟩ := insert_rep r key value draw
  obtain ⟨s2, l2, e2, _⟩ := remove_rep r key
  obtain ⟨s3, e3, _⟩ := clear_rep r
  refine ⟨getRandomLevel_le _ _, ⟨_, e1⟩, ⟨_, search_rep r key⟩, ⟨_, e2⟩, ⟨_, e3⟩, ?_, ?_⟩
  · obtain ⟨lo, hi, sp⟩ := rep_split r key
    have d := split_descent r sp
    have hcur := r.curLe
    obtain ⟨upd, he, hlen, hlow, _⟩ := descend_spec d (split_lo_length r sp)
      (s.currentLevel_ + 1) 0 (List.replicate (s.maxLevel_ + 1) none) (by omega)
      (by simp; omega) (by simp)
    refine ⟨_, upd, by rw [r.hdr]; exact he, by rw [hlen]; simp, ?_⟩
    intro i hi1
    refine ⟨predAt s.heap lo i, hlow i (by omega), ?_⟩
    have hmem := predAt_mem_below s.heap lo (Nat.le_refl i)
    rcases List.mem_cons.mp hmem with h0 | h0
    · rw [h0]
      have := r.room
      omega
    · have hl : predAt s.heap lo i ∈ l := by
        rw [sp.eq]
        exact List.mem_append_left _ (onLevel_subset s.heap i lo _ h0)
      exact (r.valid _ hl).2.1
  · refine ⟨fun i => onLevel s.heap i l, fun i hi1 => ?_⟩
    rw [r.hdr]
    have hc := r.chain i (by rw [hm]; exact hi1)
    refine ⟨hc, fun n hn => ?_⟩
    obtain ⟨q, hq⟩ := chain_valid hc n hn
    unfold fwd at hq
    cases hnd : s.heap[n]? with
    | none => rw [hnd] at hq; cases hq
    | some nd =>
      rw [hnd] at hq
      have hq : nd.forward[i]? = some q := hq
      refine ⟨nd, rfl, ?_⟩
      by_contra hge
      rw [List.getElem?_eq_none (Nat.le_of_not_lt hge)] at hq
      cases hq

end InsertSeq

/-! ## Acceptor, framing of a line, and instances of the theorems above -/

/-- C25: one call of `Acceptor::handleRead` with a connection pending takes
exactly the first connection from the accept queue and reports it (the callback
when installed, `close` otherwise); all further pending connections stay in the
queue.  With the two pending connections of `demoAcceptor` the call accepts the
first one only: the second one is still pending afterwards and the callback has
run once. -/
theorem C25_handleRead_accepts_one (cb : Bool) (connfd peerAddr : Nat)
    (rest : List (Nat × Nat)) (calls : List AcceptorCall) :
    (Acceptor.mk cb ((connfd, peerAddr) :: rest) calls).handleRead =
      Acceptor.mk cb rest
        (calls ++ [if cb then AcceptorCall.newConnection connfd peerAddr
          else AcceptorCall.close connfd]) ∧
    demoAcceptor.pending.length = 2 ∧
    demoAcceptor.handleRead.pending = [(8, 2)] ∧
    demoAcceptor.handleRead.calls = [AcceptorCall.newConnection 7 1] := by
  refine ⟨?_, by decide, by decide, by decide⟩
  cases cb <;> rfl

theorem stripCR_of_no_cr (l : Str) (h : l.getLast? ≠ some '\r') : stripCR l = l := by
  unfold stripCR
  have : (!l.isEmpty && decide (l.getLast? = some '\r')) = false := by simp [h]
  rw [if_neg (by rw [this]; decide)]

theorem stripCR_append_cr (body : Str) : stripCR (body ++ ['\r']) = body := by
  unfold stripCR
  have : (!(body ++ ['\r']).isEmpty && decide ((body ++ ['\r']).getLast? = some '\r')) = true := by
    simp
  rw [if_pos this, List.dropLast_concat]

/-- C27, counterexample: the readable region `PUT k v\r\r\n` is framed by
`Codec::parseRequest` as the request `PUT` with key `k` and value `v`, and the
whole region is consumed; the characters before the first LF with one trailing
CR removed are `PUT k v\r`, whose parse has the value `v\r`. -/
theorem C27_double_cr_counterexample :
    demoDoubleCR.readable = "PUT k v\r\r\n".toList ∧
    Codec.parseRequest demoDoubleCR Request.new =
      (true, demoDoubleCR.retrieve 10, ⟨CommandType.kPut, "k".toList, "v".toList⟩) ∧
    ("PUT k v\r\r\n".toList.take 9).dropLast = "PUT k v\r".toList ∧
    Codec.parseLine "PUT k v\r".toList Request.new =
      (true, ⟨CommandType.kPut, "k".toList, "v\r".toList⟩) := by
  refine ⟨by decide, rfl, by decide, by decide⟩

/-- C27, amended: let the readable region start with the characters `pre`
(without LF) followed by an LF.  `Codec::parseRequest` consumes `pre` and the
LF and returns the parse of `pre` with up to two trailing CRs removed: of `pre`
itself when it does not end in CR; of `body` when `pre` is `body` followed by
one CR and `body` does not end in CR; and of `body` when `pre` is `body`
followed by two CRs, whatever `body` ends in (the first CR goes with the CR LF
terminator, the second one is popped from the line). -/
theorem C27_parseRequest_strips_cr (buf : Buffer) (hinv : buf.Inv) (req : Request)
    (pre post : List Char) (hsplit : buf.readable = pre ++ '\n' :: post)
    (hpre : '\n' ∉ pre) :
    (pre.getLast? ≠ some '\r' →
      Codec.parseRequest buf req =
        (true, buf.retrieve (pre.length + 1), (Codec.parseLine pre req).2)) ∧
    (∀ body, pre = body ++ ['\r'] → body.getLast? ≠ some '\r' →
      Codec.parseRequest buf req =
        (true, buf.retrieve (pre.length + 1), (Codec.parseLine body req).2)) ∧
    (∀ body, pre = body ++ ['\r', '\r'] →
      Codec.parseRequest buf req =
        (true, buf.retrieve (pre.length + 1), (Codec.parseLine body req).2)) := by
  have h := parseRequest_line buf hinv req pre post hsplit hpre
  refine ⟨fun h0 => ?_, fun body hb h0 => ?_, fun body hb => ?_⟩
  · rw [h, stripCR_of_no_cr pre h0, stripCR_of_no_cr pre h0]
  · rw [h, hb, stripCR_append_cr, stripCR_of_no_cr body h0]
  · have e : body ++ ['\r', '\r'] = (body ++ ['\r']) ++ ['\r'] := by simp
    rw [h, hb, e, stripCR_append_cr, stripCR_append_cr]

theorem C27_parseRequest_strips_cr_witness :
    demoDoubleCR.readable = "PUT k v\r\r".toList ++ '\n' :: [] ∧
    Codec.parseRequest demoDoubleCR Request.new =
      (true, demoDoubleCR.retrieve ("PUT k v\r\r".toList.length + 1),
        (Codec.parseLine "PUT k v".toList Request.new).2) :=
  ⟨by decide,
    (C27_parseRequest_strips_cr demoDoubleCR ⟨by decide, by decide⟩ Request.new
      "PUT k v\r\r".toList [] (by decide) (by decide)).2.2 "PUT k v".toList rfl⟩

theorem C21_poller_registration_witness :
    ((PolledChannel.new 5).index_ = kAdded ↔ (demoPoller.interest 5).isSome = true) ∧
    (demoPoller.channels_ 5 = true ↔ (PolledChannel.new 5).index_ ≠ kNew) ∧
    ∃ p1 ch1, (PolledChannel.new 5).step demoPoller ChannelOp.enableReading = some (p1, ch1) ∧
      ch1.index_ = kAdded ∧ p1.interest 5 = some (ch1.events_ ||| EPOLLET) ∧
      p1.channels_ 5 = true := by
  have h := C21_poller_registration 5 demoPoller (PolledChannel.new 5)
    (PollReachable.init demoPoller rfl rfl)
  obtain ⟨p1, ch1, e1, _, ha, _⟩ := h.2.2.2.2 ChannelOp.enableReading
  exact ⟨h.2.1, h.2.2.2.1, p1, ch1, e1, ha (by decide) (Or.inl rfl)⟩

theorem C22_shutdown_after_flush_witness :
    demoEstablished.state_ = StateE.kConnected ∧
    demoEstablished.outputBuffer_.readableBytes = 0 ∧
    demoEstablished.shutdown.state_ = StateE.kDisconnecting ∧
    demoEstablished.shutdown.socketCalls =
      demoEstablished.socketCalls ++ [SocketCall.shutdownWrite] :=
  have h := (C22_shutdown_after_flush demoEstablished
    (ConnState.Reachable.step ConnOp.connectEstablished
      (ConnState.Reachable.init true true true true true) rfl)).2.1 rfl
  ⟨rfl, rfl, h.1, h.2.2.1 rfl⟩

theorem C23_sendInLoop_write_error_witness :
    demoConn.state_ ≠ StateE.kDisconnected ∧
    (demoConn.isWriting = false ∧ demoConn.outputBuffer_.readableBytes = 0) ∧
    (demoConn.sendInLoop "hi".toList (WriteResult.failed EPIPE)).outputBuffer_ =
      demoConn.outputBuffer_ ∧
    (demoConn.sendInLoop "hi".toList (WriteResult.failed EPIPE)).events_ = demoConn.events_ :=
  ⟨by decide, ⟨by decide, by decide⟩,
    (C23_sendInLoop_write_error demoConn (by decide) ⟨by decide, by decide, by decide⟩
      ⟨by decide, by decide⟩ "hi".toList EPIPE).1 (Or.inl rfl)⟩

theorem C26_concurrent_insert_witness :
    ∃ s1, insertSeq (SkipList.new 4 : SkipList Nat Nat) [(2, 20), (1, 10)]
        (fun _ _ => false) = some s1 ∧
      s1.size = 2 ∧ s1.search 1 = some (some 10) ∧ s1.search 2 = some (some 20) := by
  have hi : Interleaving [[((1 : Nat), (10 : Nat))], [(2, 20)]] [(2, 20), (1, 10)] :=
    Interleaving.step _ 1 (2, 20) [] _ rfl
      (Interleaving.step _ 0 (1, 10) [] _ rfl
        (Interleaving.done _ (by decide)))
  obtain ⟨s1, e1, _, hsz, hall⟩ :=
    C26_concurrent_insert (K := Nat) (V := Nat) 4 (SkipList.new 4) Reachable.init rfl
      [[(1, 10)], [(2, 20)]] 1 (by decide) (by decide) [(2, 20), (1, 10)] hi
      (fun _ _ => false)
  exact ⟨s1, e1, hsz, hall [(1, 10)] (by decide) (1, 10) (by decide),
    hall [(2, 20)] (by decide) (2, 20) (by decide)⟩

theorem C28_structure_witness :
    ∃ chains : Nat → List Nat,
      Chain demoList.heap 0 (some demoList.header_) (demoList.header_ :: chains 0) ∧
      (chains 1).Sublist (chains 0) ∧
      fwd demoList.heap demoList.header_ 2 = some none ∧
      demoList.size = ((chains 0).length : Int) := by
  obtain ⟨chains, h1, h2, h3, _, _, _, h7⟩ :=
    C28_structure (K := Nat) (V := Nat) 4 demoList demoList_reachable
  exact ⟨chains, (h1 0 (by decide)).1, h2 0, h3 2 (by decide) (by decide), h7⟩

theorem C29_memory_safety_witness :
    getRandomLevel demoList.maxLevel_ (fun _ => true) ≤ demoList.maxLevel_ - 1 ∧
    (∃ res, demoList.insert 7 70 (fun _ => true) = some res) ∧
    (∃ res, demoList.search 7 = some res) ∧
    (∃ res, demoList.remove 7 = some res) ∧
    (∃ s1, demoList.clear = some s1) :=
  have h := C29_memory_safety (K := Nat) (V := Nat) 4 demoList demoList_reachable 7 70
    (fun _ => true)
  ⟨h.1, h.2.1, h.2.2.1, h.2.2.2.1, h.2.2.2.2.1⟩

theorem C30_send_order_witness :
    demoConn.state_ ≠ StateE.kDisconnected ∧
    sentBytes (demoConn.sendInLoop "hello".toList (WriteResult.wrote 2)).socketCalls ++
        (demoConn.sendInLoop "hello".toList (WriteResult.wrote 2)).outputBuffer_.readable =
      sentBytes demoConn.socketCalls ++ demoConn.outputBuffer_.readable ++
        allBytes ([] ++ ["hello".toList]) :=
  ⟨by decide,
    (C30_send_order demoConn (by decide) ⟨by decide, by decide, by decide⟩
      ([] ++ ["hello".toList]) (demoConn.sendInLoop "hello".toList (WriteResult.wrote 2))
      (SendTrace.sendInLoop "hello".toList (WriteResult.wrote 2) SendTrace.start
        (by show 2 ≤ "hello".toList.length; decide) (fun e h => by cases h))).1⟩

end ReactorKV
